import Mathlib

/-!
# The `mm.c` allocator: a shallow embedding and its verification

The allocator of `src/mm.c` is a 32-bit program (`size_t`, `int` and pointers are
four bytes wide; free-list links are stored in single heap words).  The embedding
keeps that width explicit:

* memory is a byte-addressed map `Nat → Nat`; `GET`/`PUT` read and write a
  little-endian four-byte word;
* `size_t` arithmetic is arithmetic modulo `2^32` (`w32`, `sub32`), pointer
  arithmetic wraps the same way (`padd`, `psub`, `poff`);
* `int` values (`gminlist`, `gcount`, `minlist`, `size` in the free-list
  routines) are `Int`s, with `toInt32`/`ofInt32` for the conversions the C code
  performs implicitly;
* every loop whose trip count depends on the heap carries a fuel argument and
  yields `none` when the fuel runs out, so `some` results are genuine results.

The heap-extension primitive `mem_sbrk` belongs to the driver library and is
modelled from its interface description.
-/

set_option linter.unusedVariables false

namespace MM

/-! ## Machine words and memory -/

/-- Byte-addressed memory. -/
abbrev Mem := Nat → Nat

/-- Truncation to an unsigned 32-bit word. -/
def w32 (x : Nat) : Nat := x % 4294967296

/-- Unsigned 32-bit subtraction. -/
def sub32 (a b : Nat) : Nat := (a + (4294967296 - b % 4294967296)) % 4294967296

/-- Conversion `size_t → int`. -/
def toInt32 (x : Nat) : Int :=
  if x % 4294967296 < 2147483648 then ((x % 4294967296 : Nat) : Int)
  else ((x % 4294967296 : Nat) : Int) - 4294967296

/-- Conversion `int → size_t`. -/
def ofInt32 (z : Int) : Nat := (z % 4294967296).toNat

/-- Pointer plus unsigned byte offset. -/
def padd (p k : Nat) : Nat := (p + k) % 4294967296

/-- Pointer minus unsigned byte offset. -/
def psub (p k : Nat) : Nat := (p + (4294967296 - k % 4294967296)) % 4294967296

/-- Pointer plus signed byte offset. -/
def poff (p : Nat) (k : Int) : Nat := (((p : Int) + k) % 4294967296).toNat

/-- Macro `GET(p)`: the little-endian word stored at bytes `p .. p+3`. -/
def GET (m : Mem) (p : Nat) : Nat :=
  m p % 256 + 256 * (m (p + 1) % 256) + 65536 * (m (p + 2) % 256)
    + 16777216 * (m (p + 3) % 256)

/-- Macro `PUT(p, val)`: store the low 32 bits of `val` at bytes `p .. p+3`. -/
def PUT (m : Mem) (p v : Nat) : Mem := fun a =>
  if a = p then v % 256
  else if a = p + 1 then v / 256 % 256
  else if a = p + 2 then v / 65536 % 256
  else if a = p + 3 then v / 16777216 % 256
  else m a

/-- Library `memcpy(dst, src, n)` for non-overlapping regions. -/
def memcpy (m : Mem) (dst src n : Nat) : Mem := fun a =>
  if dst ≤ a ∧ a < dst + n then m (src + (a - dst)) else m a

/-- A single byte store by the client program. -/
def poke (m : Mem) (a v : Nat) : Mem := fun b => if b = a then v % 256 else m b

/-! ## Constants and block macros -/

def ALIGNMENT : Nat := 8
def WSIZE : Nat := 4
def DSIZE : Nat := 8
def CHUNKSIZE : Nat := 4096
def OVERHEAD : Nat := 8

/-- The constant `~0x7` converted to `size_t`. -/
def MASK7 : Nat := 4294967288

/-- Macro `ALIGN(size)`. -/
def ALIGN (size : Nat) : Nat := w32 (size + (ALIGNMENT - 1)) &&& MASK7

/-- Macro `MAX(x, y)`. -/
def MAX (x y : Nat) : Nat := if x > y then x else y

/-- Macro `PACK(size, alloc)`. -/
def PACK (size alloc : Nat) : Nat := size ||| alloc

/-- Macro `GET_SIZE(p)`. -/
def GET_SIZE (m : Mem) (p : Nat) : Nat := GET m p &&& MASK7

/-- Macro `GET_ALLOC(p)`. -/
def GET_ALLOC (m : Mem) (p : Nat) : Nat := GET m p &&& 1

/-- Macro `HDRP(bp)`. -/
def HDRP (bp : Nat) : Nat := psub bp WSIZE

/-- Macro `FTRP(bp)`. -/
def FTRP (m : Mem) (bp : Nat) : Nat := psub (padd bp (GET_SIZE m (HDRP bp))) DSIZE

/-- Macro `NEXT_BLKP(bp)`. -/
def NEXT_BLKP (m : Mem) (bp : Nat) : Nat := padd bp (GET_SIZE m (psub bp WSIZE))

/-- Macro `PREV_BLKP(bp)`. -/
def PREV_BLKP (m : Mem) (bp : Nat) : Nat := psub bp (GET_SIZE m (psub bp DSIZE))

/-! ## Program state -/

/-- The allocator's globals together with the memory and the state of the
heap-extension primitive (`mem_brk`, `mem_max_addr`). -/
structure Heap where
  mem : Mem
  mem_brk : Nat
  mem_max_addr : Nat
  heap_listp : Nat
  gminlist : Int
  gcount : Int

/-- Loop fuel: no loop of the allocator can take `2^32` iterations on a
well-formed heap. -/
def FUEL : Nat := 4294967296

/-- Modelled from the spec: the heap-extension primitive `mem_sbrk(int incr)` of the
driver library (not part of `mm.c`).  It grows the region by `incr` bytes and returns
the old break, contiguous with every earlier return, or the failure value
`(void *)-1` when the increment is negative or the region would exceed its capacity. -/
def mem_sbrk (s : Heap) (incr : Nat) : Nat × Heap :=
  if toInt32 incr < 0 ∨ s.mem_brk + incr > s.mem_max_addr then (4294967295, s)
  else (s.mem_brk, { s with mem_brk := s.mem_brk + incr })

/-! ## Free-list index -/

/-- The scan `for (i = minlist; GET(heap_listp+(i * WSIZE)) == 0; i++);` of
`remove_free_list`; the result is the final `i`. -/
def scan_minlist : Nat → Mem → Nat → Int → Option Int
  | 0, _, _, _ => none
  | fuel + 1, m, hl, i =>
    if GET m (poff hl (i * 4)) = 0 then scan_minlist fuel m hl (i + 1) else some i

/-- Function `remove_free_list`. -/
def remove_free_list (s : Heap) (bp : Nat) : Option Heap :=
  let gcount := s.gcount - 1
  let size : Int := toInt32 (GET_SIZE s.mem (HDRP bp))
  let minlist : Int := Int.tdiv size 50
  let minlist : Int := if minlist > 83 then 83 else minlist
  if GET s.mem bp = 0 ∧ GET s.mem (padd bp WSIZE) = 0 then
    let m := PUT s.mem (poff s.heap_listp (minlist * 4)) 0
    if s.gminlist = minlist then
      if gcount > 0 then
        (scan_minlist FUEL m s.heap_listp minlist).map fun i =>
          { s with mem := m, gcount := gcount, gminlist := i }
      else some { s with mem := m, gcount := gcount, gminlist := 100 }
    else some { s with mem := m, gcount := gcount }
  else if GET s.mem bp = 0 ∧ GET s.mem (padd bp WSIZE) ≠ 0 then
    let m := PUT s.mem (poff s.heap_listp (minlist * 4)) (GET s.mem (padd bp WSIZE))
    let m := PUT m (GET m (padd bp WSIZE)) 0
    some { s with mem := m, gcount := gcount }
  else if GET s.mem bp ≠ 0 ∧ GET s.mem (padd bp WSIZE) = 0 then
    let m := PUT s.mem (padd (GET s.mem bp) WSIZE) 0
    some { s with mem := m, gcount := gcount }
  else
    let m := PUT s.mem (padd (GET s.mem bp) WSIZE) (GET s.mem (padd bp WSIZE))
    let m := PUT m (GET m (padd bp WSIZE)) (GET m bp)
    some { s with mem := m, gcount := gcount }

/-- The list walk of `add_free_list`:
`for (; temp_cur != 0 && GET_SIZE(HDRP(temp_cur)) < size; temp_cur = GET(temp_cur+WSIZE))
   temp_prev = temp_cur;` the result is the final `temp_prev`. -/
def add_walk : Nat → Mem → Nat → Nat → Nat → Option Nat
  | 0, _, _, _, _ => none
  | fuel + 1, m, size, temp_cur, temp_prev =>
    if temp_cur ≠ 0 ∧ GET_SIZE m (HDRP temp_cur) < size then
      add_walk fuel m size (GET m (padd temp_cur WSIZE)) temp_cur
    else some temp_prev

/-- Function `add_free_list`. -/
def add_free_list (s : Heap) (bp : Nat) : Option Heap :=
  let gcount := s.gcount + 1
  let size : Int := toInt32 (GET_SIZE s.mem (HDRP bp))
  let minlist : Int := Int.tdiv size 50
  let minlist : Int := if minlist > 83 then 83 else minlist
  let gminlist : Int := if s.gminlist > minlist ∨ s.gminlist = 100 then minlist else s.gminlist
  let temp_cur := GET s.mem (poff s.heap_listp (minlist * 4))
  if temp_cur = 0 then
    let m := PUT s.mem (poff s.heap_listp (minlist * 4)) bp
    let m := PUT m bp 0
    let m := PUT m (padd bp WSIZE) 0
    some { s with mem := m, gcount := gcount, gminlist := gminlist }
  else
    let temp_prev := GET s.mem (poff s.heap_listp (minlist * 4))
    (add_walk FUEL s.mem (ofInt32 size) temp_cur temp_prev).map fun temp_prev =>
      let temp_cur := temp_prev
      let temp_next := GET s.mem (padd temp_cur WSIZE)
      let m := PUT s.mem (padd temp_cur WSIZE) bp
      let m := if temp_next ≠ 0 then PUT m temp_next bp else m
      let m := PUT m bp temp_cur
      let m := PUT m (padd bp WSIZE) temp_next
      { s with mem := m, gcount := gcount, gminlist := gminlist }

/-! ## Coalescing, placement, search -/

/-- Function `coalesce`. -/
def coalesce (s : Heap) (bp : Nat) : Option (Nat × Heap) :=
  let prev_alloc := GET_ALLOC s.mem (FTRP s.mem (PREV_BLKP s.mem bp))
  let next_alloc := GET_ALLOC s.mem (HDRP (NEXT_BLKP s.mem bp))
  let size := GET_SIZE s.mem (HDRP bp)
  if prev_alloc ≠ 0 ∧ next_alloc ≠ 0 then
    (add_free_list s bp).map fun s1 => (bp, s1)
  else if prev_alloc ≠ 0 ∧ ¬ (next_alloc ≠ 0) then
    (remove_free_list s (NEXT_BLKP s.mem bp)).bind fun s1 =>
      let size := w32 (size + GET_SIZE s1.mem (HDRP (NEXT_BLKP s1.mem bp)))
      let m := PUT s1.mem (HDRP bp) (PACK size 0)
      let m := PUT m (FTRP m bp) (PACK size 0)
      (add_free_list { s1 with mem := m } bp).map fun s2 => (bp, s2)
  else if ¬ (prev_alloc ≠ 0) ∧ next_alloc ≠ 0 then
    (remove_free_list s (PREV_BLKP s.mem bp)).bind fun s1 =>
      let size := w32 (size + GET_SIZE s1.mem (HDRP (PREV_BLKP s1.mem bp)))
      let m := PUT s1.mem (HDRP (PREV_BLKP s1.mem bp)) (PACK size 0)
      let m := PUT m (FTRP m (PREV_BLKP m bp)) (PACK size 0)
      let bp := PREV_BLKP m bp
      (add_free_list { s1 with mem := m } bp).map fun s2 => (bp, s2)
  else
    (remove_free_list s (PREV_BLKP s.mem bp)).bind fun s1 =>
      (remove_free_list s1 (NEXT_BLKP s1.mem bp)).bind fun s2 =>
        let size := w32 (size + w32 (GET_SIZE s2.mem (HDRP (PREV_BLKP s2.mem bp))
                      + GET_SIZE s2.mem (FTRP s2.mem (NEXT_BLKP s2.mem bp))))
        let m := PUT s2.mem (HDRP (PREV_BLKP s2.mem bp)) (PACK size 0)
        let m := PUT m (FTRP m (PREV_BLKP m bp)) (PACK size 0)
        let bp := PREV_BLKP m bp
        (add_free_list { s2 with mem := m } bp).map fun s3 => (bp, s3)

/-- Function `extend_heap`; the result pointer `0` is `NULL`. -/
def extend_heap (s : Heap) (words : Nat) : Option (Nat × Heap) :=
  let size := if words % 2 ≠ 0 then w32 ((words + 1) * WSIZE) else w32 (words * WSIZE)
  let r := mem_sbrk s size
  let bp := r.1
  let s1 := r.2
  if toInt32 bp = -1 then some (0, s1)
  else
    let m := PUT s1.mem (HDRP bp) (PACK size 0)
    let m := PUT m (FTRP m bp) (PACK size 0)
    let m := PUT m (HDRP (NEXT_BLKP m bp)) (PACK 0 1)
    coalesce { s1 with mem := m } bp

/-- Function `place`. -/
def place (s : Heap) (bp asize : Nat) : Option Heap :=
  let csize := GET_SIZE s.mem (HDRP bp)
  if sub32 csize asize ≥ 2 * DSIZE then
    (remove_free_list s bp).bind fun s1 =>
      let m := PUT s1.mem (HDRP bp) (PACK asize 1)
      let m := PUT m (FTRP m bp) (PACK asize 1)
      let nxt_bp := NEXT_BLKP m bp
      let m := PUT m (HDRP nxt_bp) (PACK (sub32 csize asize) 0)
      let m := PUT m (FTRP m nxt_bp) (PACK (sub32 csize asize) 0)
      add_free_list { s1 with mem := m } nxt_bp
  else
    let m := PUT s.mem (HDRP bp) (PACK csize 1)
    let m := PUT m (FTRP m bp) (PACK csize 1)
    remove_free_list { s with mem := m } bp

/-- The loop of `first_fit`; the result `0` is `NULL` (no fit found). -/
def first_fit_loop : Nat → Mem → Nat → Nat → Option Nat
  | 0, _, _, _ => none
  | fuel + 1, m, asize, bp =>
    if GET_SIZE m (HDRP bp) > 0 then
      if GET_ALLOC m (HDRP bp) = 0 ∧ asize ≤ GET_SIZE m (HDRP bp) then some bp
      else first_fit_loop fuel m asize (NEXT_BLKP m bp)
    else some 0

/-- Function `first_fit`. -/
def first_fit (s : Heap) (asize : Nat) : Option Nat :=
  first_fit_loop FUEL s.mem asize s.heap_listp

/-! ## Public operations -/

/-- The adjusted block size computed by `mm_malloc`. -/
def malloc_asize (size : Nat) : Nat :=
  if size ≤ DSIZE then 2 * DSIZE
  else w32 (DSIZE * (w32 (w32 (size + DSIZE) + (DSIZE - 1)) / DSIZE))

/-- Function `mm_malloc`; the result pointer `0` is `NULL`. -/
def mm_malloc (s : Heap) (size : Nat) : Option (Nat × Heap) :=
  if size = 0 then some (0, s)
  else
    let asize := malloc_asize size
    (first_fit s asize).bind fun bp =>
      if bp ≠ 0 then
        (place s bp asize).map fun s1 => (bp, s1)
      else
        let extendsize := MAX asize CHUNKSIZE
        (extend_heap s (extendsize / WSIZE)).bind fun r =>
          if r.1 = 0 then some (0, r.2)
          else (place r.2 r.1 asize).map fun s2 => (r.1, s2)

/-- Function `mm_free`. -/
def mm_free (s : Heap) (bp : Nat) : Option Heap :=
  let size := GET_SIZE s.mem (HDRP bp)
  let m := PUT s.mem (HDRP bp) (PACK size 0)
  let m := PUT m (FTRP m bp) (PACK size 0)
  (coalesce { s with mem := m } bp).map fun r => r.2

/-- The adjusted block size computed by `mm_realloc`. -/
def realloc_asize (size : Nat) : Nat := MAX (w32 (ALIGN size + DSIZE)) (2 * DSIZE)

/-- Function `mm_realloc`; the result pointer `0` is `NULL`. -/
def mm_realloc (s : Heap) (ptr size : Nat) : Option (Nat × Heap) :=
  let oldptr := ptr
  let asize := realloc_asize size
  let oldsize := GET_SIZE s.mem (HDRP oldptr)
  if size = 0 then
    (mm_free s ptr).map fun s1 => (0, s1)
  else if oldptr = 0 then
    mm_malloc s size
  else if asize = oldsize then some (ptr, s)
  else if asize ≤ oldsize then
    let size := asize
    if sub32 oldsize size ≤ 2 * DSIZE then some (ptr, s)
    else
      let m := PUT s.mem (HDRP ptr) (PACK size 1)
      let m := PUT m (FTRP m ptr) (PACK size 1)
      let m := PUT m (HDRP (NEXT_BLKP m ptr)) (PACK (sub32 oldsize size) 1)
      (mm_free { s with mem := m } (NEXT_BLKP m ptr)).map fun s1 => (ptr, s1)
  else
    (mm_malloc s size).bind fun r =>
      let newptr := r.1
      if newptr = 0 then some (0, r.2)
      else
        let oldsize := if size < oldsize then size else oldsize
        let m := memcpy r.2.mem newptr ptr oldsize
        (mm_free { r.2 with mem := m } ptr).map fun s2 => (newptr, s2)

/-- The address `mm_realloc` dereferences on entry, before any test of its
arguments (`oldsize = GET_SIZE(HDRP(oldptr));`). -/
def mm_realloc_entry_read (ptr : Nat) : Nat := HDRP ptr

/-- The stores `mm_init` performs on the span at `hl` before it extends the heap, in
program order, each as address and value: the pad word, the loop
`for(i = 2; i < 86; i++) PUT(heap_listp + (i*WSIZE), 0);`, the prologue header and
footer, and the epilogue header. -/
def mm_init_writes (hl : Nat) : List (Nat × Nat) :=
  (hl, 0) :: ((List.range' 2 84).map fun i => (padd hl (i * WSIZE), 0)) ++
    [(padd hl WSIZE, PACK (43 * DSIZE) 1),
     (padd hl (86 * WSIZE), PACK (43 * DSIZE) 1),
     (padd hl (87 * DSIZE), PACK 0 1)]

/-- Function `mm_init`; the result is the returned status together with the state. -/
def mm_init (s : Heap) : Option (Int × Heap) :=
  let r := mem_sbrk s (88 * WSIZE)
  let s1 : Heap := { r.2 with heap_listp := r.1 }
  if r.1 = 4294967295 then some (-1, s1)
  else
    let hl := r.1
    let m := (mm_init_writes hl).foldl (fun m w => PUT m w.1 w.2) s1.mem
    let s2 : Heap := { s1 with mem := m, heap_listp := padd hl DSIZE, gminlist := 100, gcount := 0 }
    (extend_heap s2 (CHUNKSIZE / WSIZE)).map fun r =>
      if r.1 = 0 then (-1, r.2) else (0, r.2)

/-! ## The block chain and the free-list index as logical structures -/

/-- The boundary-tag word of a block of size `sz` with allocation flag `al`. -/
def tag (sz : Nat) (al : Bool) : Nat := sz + (if al then 1 else 0)

/-- The words of memory between payload addresses `p` and `q` form the consecutive
blocks `L` (size and allocation flag of each), with agreeing header and footer. -/
def Chain (m : Mem) : Nat → List (Nat × Bool) → Nat → Prop
  | p, [], q => p = q
  | p, b :: L, q =>
    b.1 % 8 = 0 ∧ 16 ≤ b.1 ∧ GET m (p - 4) = tag b.1 b.2 ∧
      GET m (p + b.1 - 8) = tag b.1 b.2 ∧ Chain m (p + b.1) L q

/-- The blocks of a chain starting at `p`, as (payload address, size, allocated). -/
def blocks : Nat → List (Nat × Bool) → List (Nat × Nat × Bool)
  | _, [] => []
  | p, b :: L => (p, b.1, b.2) :: blocks (p + b.1) L

/-- Total size of the blocks of a chain. -/
def total (L : List (Nat × Bool)) : Nat := (L.map (fun b => b.1)).sum

/-- Total number of bytes in blocks marked free. -/
def freeBytes (L : List (Nat × Bool)) : Nat :=
  ((L.filter (fun b => !b.2)).map (fun b => b.1)).sum

/-- The free blocks of a chain, as a relation between payload address and size. -/
def freeSet (p : Nat) (L : List (Nat × Bool)) : Nat → Nat → Prop :=
  fun x sz => (x, sz, false) ∈ blocks p L

/-- A byte of a header or footer word of the chain. -/
def TagByte (p : Nat) (L : List (Nat × Bool)) (a : Nat) : Prop :=
  ∃ b ∈ blocks p L,
    (b.1 - 4 ≤ a ∧ a < b.1 - 4 + 4) ∨ (b.1 + b.2.1 - 8 ≤ a ∧ a < b.1 + b.2.1 - 8 + 4)

/-- A byte the free-list routines may write: a bucket head word or a link word of a
block of `F`. -/
def Touch (hl : Nat) (F : Nat → Nat → Prop) (a : Nat) : Prop :=
  (hl ≤ a ∧ a < hl + 336) ∨ ∃ x sz, F x sz ∧ x ≤ a ∧ a < x + 8

/-- A doubly linked list segment: starting from link value `h` with predecessor `p`,
following successor links visits exactly the nodes `l`, ending with link value `h2`
and last node `p2`.  A node `x` keeps its predecessor in word `x` and its successor
in word `x + 4`. -/
def dllseg (m : Mem) : Nat → Nat → List Nat → Nat → Nat → Prop
  | h, p, [], h2, p2 => h = h2 ∧ p = p2
  | h, p, x :: xs, h2, p2 =>
    h = x ∧ x ≠ 0 ∧ GET m x = p ∧ dllseg m (GET m (x + 4)) x xs h2 p2

/-- The bucket of a block size: `size / 50`, capped at 83. -/
def bucketIdx (sz : Nat) : Nat := min (sz / 50) 83

/-- The free-list index stored in memory `m` (bucket heads at `hl + 4 * i`)
represents exactly the blocks of `F`, bucket `i` holding the list `ls i`. -/
structure FLInv (m : Mem) (hl : Nat) (ls : Nat → List Nat) (F : Nat → Nat → Prop) : Prop where
  lists : ∀ i, i < 84 → ∃ t, dllseg m (GET m (hl + 4 * i)) 0 (ls i) 0 t
  mem_F : ∀ i, i < 84 → ∀ x, x ∈ ls i → ∃ sz, F x sz ∧ bucketIdx sz = i
  F_mem : ∀ x sz, F x sz → x ∈ ls (bucketIdx sz)
  nodup : ∀ i, i < 84 → (ls i).Nodup
  hdr : ∀ x sz, F x sz → GET m (x - 4) / 8 * 8 = sz
  bnd : ∀ x sz, F x sz → 16 ≤ sz ∧ sz < 2147483648 ∧ hl + 344 ≤ x ∧ x + sz < 4294967296
  disj : ∀ x sz y sz2, F x sz → F y sz2 → x = y ∨ x + sz ≤ y ∨ y + sz2 ≤ x

/-- Number of blocks held in the free-list index. -/
def idxCount (ls : Nat → List Nat) : Nat :=
  ((List.range 84).map (fun i => (ls i).length)).sum

/-- The value `g` is the index of the lowest nonempty bucket, or the sentinel 100 when
every bucket is empty. -/
def IsMin (ls : Nat → List Nat) (g : Int) : Prop :=
  (g = 100 ∧ ∀ i, i < 84 → ls i = []) ∨
  (∃ k : Nat, k < 84 ∧ g = (k : Int) ∧ ls k ≠ [] ∧ ∀ j, j < k → ls j = [])

/-- The effect of `remove_free_list s bp` on `gminlist`, for a block of size `sz` whose
resulting state is `s2`: the value is recomputed by a forward scan of the bucket heads
exactly when the block was the only one of the bucket `gminlist` pointed at. -/
def RemG (s s2 : Heap) (bp sz : Nat) : Prop :=
  (¬ (GET s.mem bp = 0 ∧ GET s.mem (bp + 4) = 0) → s2.gminlist = s.gminlist) ∧
  (GET s.mem bp = 0 ∧ GET s.mem (bp + 4) = 0 →
    (s.gminlist ≠ (bucketIdx sz : Int) → s2.gminlist = s.gminlist) ∧
    (s.gminlist = (bucketIdx sz : Int) → ¬ (s.gcount - 1 > 0) → s2.gminlist = 100) ∧
    (s.gminlist = (bucketIdx sz : Int) → s.gcount - 1 > 0 →
      ∃ r : Nat, s2.gminlist = (r : Int) ∧ bucketIdx sz ≤ r ∧ r ≤ 84 ∧
        GET s2.mem (s.heap_listp + 4 * r) ≠ 0 ∧
        ∀ j, bucketIdx sz ≤ j → j < r → GET s2.mem (s.heap_listp + 4 * j) = 0))

/-- Well-formedness of a heap state whose block chain is `L` and whose free-list
index holds the lists `ls` representing the blocks of `F`. -/
structure InvX (s : Heap) (L : List (Nat × Bool)) (ls : Nat → List Nat)
    (F : Nat → Nat → Prop) : Prop where
  hl8 : s.heap_listp % 8 = 0
  hl_ge : 8 ≤ s.heap_listp
  brk_le : s.mem_brk ≤ s.mem_max_addr
  max_lt : s.mem_max_addr < 4294967296
  span : s.mem_max_addr < s.heap_listp + 2147483640
  pro_hdr : GET s.mem (s.heap_listp - 4) = 345
  pro_ftr : GET s.mem (s.heap_listp + 336) = 345
  epi : GET s.mem (s.mem_brk - 4) = 1
  chain : Chain s.mem (s.heap_listp + 344) L s.mem_brk
  fl : FLInv s.mem s.heap_listp ls F
  gcount_eq : s.gcount = (idxCount ls : Int)
  gmin : IsMin ls s.gminlist

/-- The free blocks of a chain `La ++ gap ++ Lb` that lie outside the gap of `T` bytes. -/
def freeAround (p : Nat) (La : List (Nat × Bool)) (T : Nat) (Lb : List (Nat × Bool)) :
    Nat → Nat → Prop :=
  fun x sz => (x, sz, false) ∈ blocks p La ∨ (x, sz, false) ∈ blocks (p + total La + T) Lb

/-- A byte of a free block of the chain: its header, payload or footer. -/
def FreeRegion (p : Nat) (L : List (Nat × Bool)) (a : Nat) : Prop :=
  ∃ x sz, (x, sz, false) ∈ blocks p L ∧ x - 4 ≤ a ∧ a + 4 < x + sz

/-- Allocation bit of the block in front of a chain position: the last block of `L1`, or
the prologue. -/
def lastAlloc (L1 : List (Nat × Bool)) : Nat :=
  match L1.getLast? with
  | some c => if c.2 then 1 else 0
  | none => 1

/-- Size of the block in front of a chain position: the last block of `L1`, or the
prologue. -/
def lastSize (L1 : List (Nat × Bool)) : Nat :=
  match L1.getLast? with
  | some c => c.1
  | none => 344

/-- Allocation bit of the block behind a chain position: the first block of `L2`, or the
epilogue. -/
def headAlloc (L2 : List (Nat × Bool)) : Nat :=
  match L2.head? with
  | some c => if c.2 then 1 else 0
  | none => 1

/-- Size of the last block of `L1` when it is free. -/
def prevFree (L1 : List (Nat × Bool)) : Option Nat :=
  match L1.getLast? with
  | some (s1, false) => some s1
  | _ => none

/-- Size of the first block of `L2` when it is free. -/
def nextFree (L2 : List (Nat × Bool)) : Option Nat :=
  match L2.head? with
  | some (s2, false) => some s2
  | _ => none

/-- The chain obtained from `L1 ++ (sz, free) :: L2` by merging the middle block with
its free physical neighbours. -/
def coalesceL (L1 : List (Nat × Bool)) (sz : Nat) (L2 : List (Nat × Bool)) :
    List (Nat × Bool) :=
  (if (prevFree L1).isSome then L1.dropLast else L1) ++
    ((prevFree L1).getD 0 + sz + (nextFree L2).getD 0, false) ::
      (if (nextFree L2).isSome then L2.tail else L2)

/-- The blocks in front of the merged block of `coalesceL`. -/
def coalesceFront (L1 : List (Nat × Bool)) : List (Nat × Bool) :=
  if (prevFree L1).isSome then L1.dropLast else L1

/-- The allocator invariant: the chain is `L` and the free-list index holds exactly
the free blocks of `L`. -/
def Inv (s : Heap) (L : List (Nat × Bool)) (ls : Nat → List Nat) : Prop :=
  InvX s L ls (freeSet (s.heap_listp + 344) L)

/-- The heap states reachable from a successful `mm_init` through calls that respect
the contract of the public operations, together with the list of live payload
pointers.  Request sizes are those whose adjusted size does not wrap; the client may
store bytes inside the payload of a live block between calls. -/
inductive Reachable : Heap → List Nat → Prop
  | init (s0 s : Heap) :
      s0.mem_brk % 8 = 0 → s0.mem_max_addr < 4294967296 →
      s0.mem_max_addr < s0.mem_brk + 2147483648 →
      mm_init s0 = some (0, s) → Reachable s []
  | malloc (s s2 : Heap) (live : List Nat) (n p : Nat) :
      Reachable s live → n ≤ 4294967280 → mm_malloc s n = some (p, s2) →
      Reachable s2 (if p = 0 then live else p :: live)
  | free (s s2 : Heap) (live : List Nat) (p : Nat) :
      Reachable s live → p ∈ live → mm_free s p = some s2 →
      Reachable s2 (live.erase p)
  | realloc (s s2 : Heap) (live : List Nat) (p n q : Nat) :
      Reachable s live → p ∈ live → n ≤ 4294967280 → mm_realloc s p n = some (q, s2) →
      Reachable s2 (if n = 0 then live.erase p else if q = 0 then live else q :: live.erase p)
  | store (s : Heap) (live : List Nat) (p a v : Nat) :
      Reachable s live → p ∈ live → p ≤ a → a + 8 < p + GET_SIZE s.mem (HDRP p) →
      Reachable { s with mem := poke s.mem a v } live

/-! ## Chains produced by the public operations -/

/-- The chain after `place` has put an allocated block for a request of `a` bytes into
the free block of `c` bytes that follows `L1`. -/
def placeL (L1 : List (Nat × Bool)) (a c : Nat) (L2 : List (Nat × Bool)) :
    List (Nat × Bool) :=
  if 16 ≤ c - a then L1 ++ (a, true) :: (c - a, false) :: L2 else L1 ++ (c, true) :: L2

/-- Payload address of the first free block of at least `a` bytes in a chain that
starts at `p`, in address order; `0` when no free block is large enough. -/
def firstFit : Nat → List (Nat × Bool) → Nat → Nat
  | _, [], _ => 0
  | p, b :: L, a => if b.2 = false ∧ a ≤ b.1 then p else firstFit (p + b.1) L a

/-- Memory after the header and footer words of the block of `c` bytes at payload
address `p` have both been set to the word `v`. -/
def setTags (m : Mem) (p c v : Nat) : Mem := PUT (PUT m (p - 4) v) (p + c - 8) v

/-- No two physically adjacent blocks of the chain are both free. -/
def NoAdjFree (L : List (Nat × Bool)) : Prop :=
  List.Chain' (fun x y => ¬ (x.2 = false ∧ y.2 = false)) L

/-- The invariant of the reachable states: the heap is well formed with chain `L` and
index lists `ls`, no two adjacent blocks are free, and the live pointers are exactly the
payload addresses of the allocated blocks. -/
structure GInv (s : Heap) (live : List Nat) (L : List (Nat × Bool)) (ls : Nat → List Nat) :
    Prop where
  inv : Inv s L ls
  naf : NoAdjFree L
  live_iff : ∀ p, p ∈ live ↔ ∃ sz, (p, sz, true) ∈ blocks (s.heap_listp + 344) L
  nodup : live.Nodup

/-! ## Client runs used to state scenarios -/

/-- A fresh region for the heap-extension primitive: 20 MB starting at address 65536,
all bytes zero, nothing allocated. -/
def heap0 : Heap :=
  { mem := fun _ => 0, mem_brk := 65536, mem_max_addr := 65536 + 20971520,
    heap_listp := 0, gminlist := 0, gcount := 0 }

/-- `k` successful calls `mm_malloc(16)` in a row: the returned pointers, the most recent
first, and the final state; `none` when one of the calls returns `NULL`. -/
def mallocN : Nat → Heap → Option (List Nat × Heap)
  | 0, s => some ([], s)
  | k + 1, s =>
    (mallocN k s).bind fun r =>
      (mm_malloc r.2 16).bind fun q =>
        if q.1 = 0 then none else some (q.1 :: r.1, q.2)

/-- Calls `mm_free` on the pointers of a list, in list order. -/
def freeAll : List Nat → Heap → Option Heap
  | [], s => some s
  | p :: ps, s => (mm_free s p).bind (freeAll ps)

/-! ## Observing a state: the walk over the heap -/

/-- The payload addresses of the blocks met when the heap is walked from `bp` with
`NEXT_BLKP`, the way the loop of `first_fit` walks it, up to the first header of size 0
(the epilogue). -/
def heapWalk : Nat → Mem → Nat → Option (List Nat)
  | 0, _, _ => none
  | fuel + 1, m, bp =>
    if GET_SIZE m (HDRP bp) > 0 then
      (heapWalk fuel m (NEXT_BLKP m bp)).map fun r => bp :: r
    else some []

/-- The blocks of the heap of a state, from the prologue up to (not including) the
epilogue. -/
def heapBlocks (s : Heap) : Option (List Nat) := heapWalk FUEL s.mem s.heap_listp

/-- Header and footer of the block at `bp` encode the same size and the same allocation
bit, and the size is a multiple of 8 and at least 16. -/
def TagsAgree (m : Mem) (bp : Nat) : Prop :=
  GET_SIZE m (HDRP bp) = GET_SIZE m (FTRP m bp) ∧
    GET_ALLOC m (HDRP bp) = GET_ALLOC m (FTRP m bp) ∧
    GET_SIZE m (HDRP bp) % 8 = 0 ∧ 16 ≤ GET_SIZE m (HDRP bp)

/-- The block at `bp` is marked free in its header. -/
def IsFree (m : Mem) (bp : Nat) : Prop := GET_ALLOC m (HDRP bp) = 0

instance (m : Mem) (bp : Nat) : Decidable (IsFree m bp) := by
  unfold IsFree; infer_instance

/-- The state is well formed with block chain `L`; its index array is at `hl`, its break
at `brk`, and the region of the heap-extension primitive ends at `mx`. -/
def Shape (s : Heap) (hl brk mx : Nat) (L : List (Nat × Bool)) : Prop :=
  s.heap_listp = hl ∧ s.mem_brk = brk ∧ s.mem_max_addr = mx ∧ ∃ ls, Inv s L ls

/-- The lists `ls` are the 84 lists of the free-list index of the state: the list of
bucket `i` starts at the bucket head with predecessor 0, its successor and predecessor
links are mutually inverse, and its last successor link is 0. -/
def IndexLists (s : Heap) (ls : Nat → List Nat) : Prop :=
  ∀ i, i < 84 → ∃ e, dllseg s.mem (GET s.mem (s.heap_listp + 4 * i)) 0 (ls i) 0 e

/-- The state is well formed with block chain `L`, except that the free-list index does
not hold the block at `bp`: it holds exactly the other blocks marked free in the chain. -/
def InvExcept (s : Heap) (L : List (Nat × Bool)) (ls : Nat → List Nat) (bp : Nat) : Prop :=
  InvX s L ls (fun x z => (x, z, false) ∈ blocks (s.heap_listp + 344) L ∧ x ≠ bp)

/-- The local `prev_alloc` of `coalesce`: the allocation bit of the physical
predecessor. -/
def prev_alloc (m : Mem) (bp : Nat) : Nat := GET_ALLOC m (FTRP m (PREV_BLKP m bp))

/-- The local `next_alloc` of `coalesce`: the allocation bit of the physical successor. -/
def next_alloc (m : Mem) (bp : Nat) : Nat := GET_ALLOC m (HDRP (NEXT_BLKP m bp))

/-- The size of the block at `bp` plus the sizes of those of its two physical neighbours
that are marked free. -/
def mergedSize (m : Mem) (bp : Nat) : Nat :=
  GET_SIZE m (HDRP bp) +
    (if prev_alloc m bp = 0 then GET_SIZE m (HDRP (PREV_BLKP m bp)) else 0) +
    (if next_alloc m bp = 0 then GET_SIZE m (HDRP (NEXT_BLKP m bp)) else 0)

/-! ## States of the client runs used as examples -/

/-- State after `mm_init()` on the fresh region. -/
def st0 : Heap := ((mm_init heap0).getD (0, heap0)).2

/-- State after `a = mm_malloc(100)` in `st0`; the call returns `a = 65888`. -/
def st1 : Heap := ((mm_malloc st0 100).getD (0, st0)).2

/-- State after `b = mm_malloc(200)` in `st1`; the call returns `b = 66000`. -/
def st2 : Heap := ((mm_malloc st1 200).getD (0, st1)).2

/-- State after `mm_free(a)` in `st2`. -/
def st3 : Heap := (mm_free st2 65888).getD st2

/-- State in which `mm_free(a)`, called in `st2`, calls `coalesce(a)`: header and footer
of the block at 65888 are marked free, and the block is not in the index yet. -/
def fr2 : Heap := { st2 with mem := setTags st2.mem 65888 112 112 }

/-- State after `c = mm_malloc(50)` in `st3`; the call returns `c = 65888 = a`. -/
def st4 : Heap := ((mm_malloc st3 50).getD (0, st3)).2

/-- A region for the heap-extension primitive with room for the initial heap only: the
352 bytes of the index and one chunk of 4096 bytes. -/
def heapSmall : Heap := { heap0 with mem_max_addr := 65536 + 4448 }

/-- State after `mm_init()` on the small region. -/
def sm0 : Heap := ((mm_init heapSmall).getD (0, heapSmall)).2

/-- State after `mm_malloc(100)` in `sm0`; the call returns 65888. -/
def sm1 : Heap := ((mm_malloc sm0 100).getD (0, sm0)).2

/-- State after `a = mm_malloc(3000)` in `st0`; the call returns `a = 65888`. -/
def bf1 : Heap := ((mm_malloc st0 3000).getD (0, st0)).2

/-- State after `b = mm_malloc(8)` in `bf1`; the call returns `b = 68896`. -/
def bf2 : Heap := ((mm_malloc bf1 8).getD (0, bf1)).2

/-- State after `mm_free(a)` in `bf2`: the free blocks are the one of 3008 bytes at
65888 and the one of 1072 bytes at 68912. -/
def bf3 : Heap := (mm_free bf2 65888).getD bf2

/-- State after `p = mm_malloc(24)` in `st0`; the call returns `p = 65888`, a block of 32
bytes. -/
def sh1 : Heap := ((mm_malloc st0 24).getD (0, st0)).2

/-- State after `mm_malloc(4072)` in `st0`; the call returns 65888, a block of 4080
bytes, and leaves a free block of 16 bytes. -/
def sp1 : Heap := ((mm_malloc st0 4072).getD (0, st0)).2

/-- State after `p = mm_malloc(5000)` in `st0`; the heap is extended by 5008 bytes and
the call returns `p = 65888`. -/
def rt1 : Heap := ((mm_malloc st0 5000).getD (0, st0)).2

/-- State after `mm_free(p)` in `rt1`. -/
def rt2 : Heap := (mm_free rt1 65888).getD rt1

/-- State after `b = mm_malloc(8)` in `st1`; the call returns `b = 66000`. -/
def so1 : Heap := ((mm_malloc st1 8).getD (0, st1)).2

/-- State after `c = mm_malloc(96)` in `so1`; the call returns `c = 66016`, a block of 104
bytes. -/
def so2 : Heap := ((mm_malloc so1 96).getD (0, so1)).2

/-- State after `d = mm_malloc(8)` in `so2`; the call returns `d = 66120`. -/
def so3 : Heap := ((mm_malloc so2 8).getD (0, so2)).2

/-- State after `mm_free(a)` in `so3`, for the block `a = 65888` of 112 bytes. -/
def so4 : Heap := (mm_free so3 65888).getD so3

/-- State after `mm_free(c)` in `so4`. -/
def so5 : Heap := (mm_free so4 66016).getD so4

/-- State after the first `mm_malloc(16)` in `st0`; the call returns 65888. -/
def ca1 : Heap := ((mm_malloc st0 16).getD (0, st0)).2

/-- State after the second `mm_malloc(16)`, in `ca1`; the call returns 65912. -/
def ca2 : Heap := ((mm_malloc ca1 16).getD (0, ca1)).2

/-- The total number of bytes in blocks of the heap that are marked free. -/
def heapFreeBytes (s : Heap) : Option Nat :=
  (heapBlocks s).map fun bs =>
    ((bs.filter fun bp => decide (IsFree s.mem bp)).map fun bp => GET_SIZE s.mem (HDRP bp)).sum

/-! # Verification -/

/-! ## Words, masks and pointer arithmetic -/

theorem GET_lt (m : Mem) (p : Nat) : GET m p < 4294967296 := by
  unfold GET; omega

theorem GET_congr {m m2 : Mem} {p : Nat} (h : ∀ a, p ≤ a → a < p + 4 → m2 a = m a) :
    GET m2 p = GET m p := by
  unfold GET
  rw [h p (by omega) (by omega), h (p + 1) (by omega) (by omega),
    h (p + 2) (by omega) (by omega), h (p + 3) (by omega) (by omega)]

theorem PUT_out (m : Mem) (p v a : Nat) (h : a < p ∨ p + 4 ≤ a) : PUT m p v a = m a := by
  unfold PUT
  have h1 : ¬ (a = p) := by omega
  have h2 : ¬ (a = p + 1) := by omega
  have h3 : ¬ (a = p + 2) := by omega
  have h4 : ¬ (a = p + 3) := by omega
  simp [h1, h2, h3, h4]

theorem GET_PUT_same (m : Mem) (p v : Nat) : GET (PUT m p v) p = v % 4294967296 := by
  simp [GET, PUT]; omega

theorem GET_PUT_eq (m : Mem) (p v : Nat) (h : v < 4294967296) : GET (PUT m p v) p = v := by
  rw [GET_PUT_same]; omega

theorem GET_PUT_ne (m : Mem) (p q v : Nat) (h : q + 4 ≤ p ∨ p + 4 ≤ q) :
    GET (PUT m p v) q = GET m q :=
  GET_congr fun a h1 h2 => PUT_out m p v a (by omega)

theorem and_MASK7 (v : Nat) (h : v < 4294967296) : v &&& MASK7 = v / 8 * 8 := by
  apply Nat.eq_of_testBit_eq
  intro i
  have hm : MASK7 = (2 ^ 29 - 1) <<< 3 := by decide
  have hv : v / 8 * 8 = (v >>> 3) <<< 3 := by
    rw [Nat.shiftLeft_eq, Nat.shiftRight_eq_div_pow]
  rw [Nat.testBit_and, hm, hv, Nat.testBit_shiftLeft, Nat.testBit_shiftLeft,
    Nat.testBit_shiftRight, Nat.testBit_two_pow_sub_one]
  by_cases h3 : 3 ≤ i
  · have e : 3 + (i - 3) = i := by omega
    rw [e]
    by_cases h32 : i < 32
    · have : i - 3 < 29 := by omega
      simp [h3, this]
    · have hf : v.testBit i = false := by
        apply Nat.testBit_lt_two_pow
        calc v < 2 ^ 32 := by norm_num; omega
          _ ≤ 2 ^ i := Nat.pow_le_pow_right (by norm_num) (by omega)
      simp [hf]
  · simp [h3]

theorem GET_SIZE_eq (m : Mem) (p : Nat) : GET_SIZE m p = GET m p / 8 * 8 :=
  and_MASK7 _ (GET_lt m p)

theorem GET_ALLOC_eq (m : Mem) (p : Nat) : GET_ALLOC m p = GET m p % 2 := by
  unfold GET_ALLOC; exact Nat.and_one_is_mod _

theorem PACK_eq (sz a : Nat) (h : sz % 8 = 0) (ha : a < 2) : PACK sz a = sz + a := by
  unfold PACK
  have e : sz = 2 ^ 3 * (sz / 8) := by norm_num; omega
  have hlt : a < 2 ^ 3 := by norm_num; omega
  rw [e, ← Nat.mul_add_lt_is_or hlt]

theorem ALIGN_eq (n : Nat) : ALIGN n = (n + 7) % 4294967296 / 8 * 8 := by
  unfold ALIGN w32 ALIGNMENT
  rw [and_MASK7 _ (Nat.mod_lt _ (by norm_num))]

theorem HDRP_eq (bp : Nat) (h1 : 4 ≤ bp) (h2 : bp < 4294967296) : HDRP bp = bp - 4 := by
  unfold HDRP psub WSIZE; omega

theorem padd_eq (p k : Nat) (h : p + k < 4294967296) : padd p k = p + k := by
  unfold padd; omega

theorem psub_eq (p k : Nat) (h1 : k ≤ p) (h2 : p < 4294967296) : psub p k = p - k := by
  unfold psub; omega

theorem poff_eq (p k : Nat) (h : p + k < 4294967296) : poff p (k : Int) = p + k := by
  unfold poff; omega

theorem toInt32_eq (x : Nat) (h : x < 2147483648) : toInt32 x = (x : Int) := by
  unfold toInt32; split <;> omega

theorem ofInt32_eq (x : Nat) (h : x < 4294967296) : ofInt32 (x : Int) = x := by
  unfold ofInt32; omega

theorem tag_lt (sz : Nat) (al : Bool) (h : sz < 4294967295) : tag sz al < 4294967296 := by
  unfold tag; split <;> omega

theorem tag_size (sz : Nat) (al : Bool) (h : sz % 8 = 0) : tag sz al / 8 * 8 = sz := by
  unfold tag; split <;> omega

theorem tag_alloc (sz : Nat) (al : Bool) (h : sz % 8 = 0) :
    tag sz al % 2 = if al then 1 else 0 := by
  unfold tag; split <;> omega

theorem tag_false (sz : Nat) : tag sz false = sz := by simp [tag]

theorem tag_true (sz : Nat) : tag sz true = sz + 1 := by simp [tag]

/-- The bucket computed by the free-list routines from an `int` size. -/
theorem minlist_eq (sz : Nat) (h : sz < 2147483648) :
    (if Int.tdiv (toInt32 sz) 50 > 83 then (83 : Int) else Int.tdiv (toInt32 sz) 50)
      = ((bucketIdx sz : Nat) : Int) := by
  rw [toInt32_eq sz h]
  have e : Int.tdiv (sz : Int) 50 = ((sz / 50 : Nat) : Int) := by
    rw [Int.tdiv_eq_ediv (by omega) (by omega)]; norm_cast
  rw [e]
  unfold bucketIdx
  split <;> omega

/-! ## Block chains -/

theorem total_nil : total [] = 0 := rfl

theorem total_cons (b : Nat × Bool) (L : List (Nat × Bool)) : total (b :: L) = b.1 + total L := by
  simp [total]

theorem total_append (L1 L2 : List (Nat × Bool)) : total (L1 ++ L2) = total L1 + total L2 := by
  simp [total]

theorem freeBytes_nil : freeBytes [] = 0 := rfl

theorem freeBytes_cons (b : Nat × Bool) (L : List (Nat × Bool)) :
    freeBytes (b :: L) = (if b.2 then 0 else b.1) + freeBytes L := by
  unfold freeBytes
  cases h : b.2 <;> simp [List.filter_cons, h]

theorem freeBytes_append (L1 L2 : List (Nat × Bool)) :
    freeBytes (L1 ++ L2) = freeBytes L1 + freeBytes L2 := by
  simp [freeBytes]

theorem blocks_append (p : Nat) (L1 L2 : List (Nat × Bool)) :
    blocks p (L1 ++ L2) = blocks p L1 ++ blocks (p + total L1) L2 := by
  induction L1 generalizing p with
  | nil => simp [blocks, total]
  | cons b L1 ih => simp [blocks, ih, total_cons, Nat.add_assoc]

theorem Chain_end {m : Mem} {p q : Nat} {L : List (Nat × Bool)} (h : Chain m p L q) :
    q = p + total L := by
  induction L generalizing p with
  | nil => simpa [Chain, total] using h.symm
  | cons b L ih =>
    obtain ⟨_, _, _, _, h5⟩ := h
    rw [ih h5, total_cons]; omega

theorem Chain_append {m : Mem} {p q : Nat} {L1 L2 : List (Nat × Bool)} :
    Chain m p (L1 ++ L2) q ↔
      Chain m p L1 (p + total L1) ∧ Chain m (p + total L1) L2 q := by
  induction L1 generalizing p with
  | nil => simp [Chain, total]
  | cons b L1 ih =>
    rw [List.cons_append]
    constructor
    · rintro ⟨h1, h2, h3, h4, h5⟩
      rw [ih] at h5
      rw [total_cons, ← Nat.add_assoc]
      exact ⟨⟨h1, h2, h3, h4, h5.1⟩, h5.2⟩
    · rintro ⟨⟨h1, h2, h3, h4, h5⟩, h6⟩
      rw [total_cons, ← Nat.add_assoc] at h5 h6
      exact ⟨h1, h2, h3, h4, ih.2 ⟨h5, h6⟩⟩

theorem blocks_bounds {p : Nat} {L : List (Nat × Bool)} {b : Nat × Nat × Bool}
    (h : b ∈ blocks p L) : p ≤ b.1 ∧ b.1 + b.2.1 ≤ p + total L := by
  induction L generalizing p with
  | nil => simp [blocks] at h
  | cons c L ih =>
    simp only [blocks, List.mem_cons] at h
    rw [total_cons]
    rcases h with h | h
    · subst h; simp
    · have := ih h; omega

theorem blocks_split {p : Nat} {L : List (Nat × Bool)} {x sz : Nat} {al : Bool}
    (h : (x, sz, al) ∈ blocks p L) :
    ∃ L1 L2, L = L1 ++ (sz, al) :: L2 ∧ x = p + total L1 := by
  induction L generalizing p with
  | nil => simp [blocks] at h
  | cons c L ih =>
    simp only [blocks, List.mem_cons] at h
    rcases h with h | h
    · refine ⟨[], L, ?_, ?_⟩
      · simp only [Prod.mk.injEq] at h
        obtain ⟨_, h2, h3⟩ := h
        simp [h2, h3]
      · simp only [Prod.mk.injEq] at h
        simp [h.1, total]
    · obtain ⟨L1, L2, e1, e2⟩ := ih h
      refine ⟨c :: L1, L2, by simp [e1], ?_⟩
      rw [e2, total_cons]; omega

theorem blocks_mem_mid (p : Nat) (L1 L2 : List (Nat × Bool)) (sz : Nat) (al : Bool) :
    (p + total L1, sz, al) ∈ blocks p (L1 ++ (sz, al) :: L2) := by
  rw [blocks_append]; simp [blocks]

theorem Chain_size {m : Mem} {p q : Nat} {L : List (Nat × Bool)} (h : Chain m p L q)
    {b : Nat × Nat × Bool} (hb : b ∈ blocks p L) : b.2.1 % 8 = 0 ∧ 16 ≤ b.2.1 := by
  induction L generalizing p with
  | nil => simp [blocks] at hb
  | cons c L ih =>
    obtain ⟨h1, h2, _, _, h5⟩ := h
    simp only [blocks, List.mem_cons] at hb
    rcases hb with hb | hb
    · subst hb; exact ⟨h1, h2⟩
    · exact ih h5 hb

theorem Chain_tags {m : Mem} {p q : Nat} {L : List (Nat × Bool)} (h : Chain m p L q)
    {b : Nat × Nat × Bool} (hb : b ∈ blocks p L) :
    GET m (b.1 - 4) = tag b.2.1 b.2.2 ∧ GET m (b.1 + b.2.1 - 8) = tag b.2.1 b.2.2 := by
  induction L generalizing p with
  | nil => simp [blocks] at hb
  | cons c L ih =>
    obtain ⟨_, _, h3, h4, h5⟩ := h
    simp only [blocks, List.mem_cons] at hb
    rcases hb with hb | hb
    · subst hb; exact ⟨h3, h4⟩
    · exact ih h5 hb

/-- Distinct blocks of a chain occupy disjoint address ranges; a block is determined by
its address. -/
theorem blocks_disjoint {m : Mem} {p q : Nat} {L : List (Nat × Bool)} (h : Chain m p L q)
    {b c : Nat × Nat × Bool} (hb : b ∈ blocks p L) (hc : c ∈ blocks p L) :
    b = c ∨ b.1 + b.2.1 ≤ c.1 ∨ c.1 + c.2.1 ≤ b.1 := by
  induction L generalizing p with
  | nil => simp [blocks] at hb
  | cons d L ih =>
    obtain ⟨_, _, _, _, h5⟩ := h
    simp only [blocks, List.mem_cons] at hb hc
    rcases hb with hb | hb <;> rcases hc with hc | hc
    · left; rw [hb, hc]
    · right; left; subst hb; have := (blocks_bounds hc).1; simpa using this
    · right; right; subst hc; have := (blocks_bounds hb).1; simpa using this
    · exact ih h5 hb hc

theorem Chain_frame {m m2 : Mem} {p q : Nat} {L : List (Nat × Bool)} (h : Chain m p L q)
    (hf : ∀ a, TagByte p L a → m2 a = m a) : Chain m2 p L q := by
  induction L generalizing p with
  | nil => exact h
  | cons c L ih =>
    obtain ⟨h1, h2, h3, h4, h5⟩ := h
    refine ⟨h1, h2, ?_, ?_, ?_⟩
    · rw [← h3]; apply GET_congr
      intro a ha1 ha2
      exact hf a ⟨(p, c.1, c.2), by simp [blocks], Or.inl ⟨by simpa using ha1, by simpa using ha2⟩⟩
    · rw [← h4]; apply GET_congr
      intro a ha1 ha2
      exact hf a ⟨(p, c.1, c.2), by simp [blocks], Or.inr ⟨by simpa using ha1, by simpa using ha2⟩⟩
    · apply ih h5
      intro a ⟨b, hb, hab⟩
      exact hf a ⟨b, by simp [blocks, hb], hab⟩

/-- A chain only depends on the bytes from its first header up to its last footer. -/
theorem Chain_frame_range {m m2 : Mem} {p q : Nat} {L : List (Nat × Bool)}
    (h : Chain m p L q) (hf : ∀ a, p - 4 ≤ a → a + 4 < q → m2 a = m a) : Chain m2 p L q := by
  apply Chain_frame h
  intro a ⟨b, hb, hab⟩
  have h1 := blocks_bounds hb
  have h2 := Chain_size h hb
  have h3 := Chain_end h
  apply hf <;> omega

/-! ## Doubly linked list segments -/

theorem dllseg_congr {m m2 : Mem} {h p h2 p2 : Nat} {l : List Nat}
    (hd : dllseg m h p l h2 p2)
    (hf : ∀ x, x ∈ l → GET m2 x = GET m x ∧ GET m2 (x + 4) = GET m (x + 4)) :
    dllseg m2 h p l h2 p2 := by
  induction l generalizing h p with
  | nil => exact hd
  | cons x xs ih =>
    obtain ⟨h1, h2', h3, h4⟩ := hd
    have hx := hf x (by simp)
    refine ⟨h1, h2', by rw [hx.1, h3], ?_⟩
    rw [hx.2]
    exact ih h4 (fun y hy => hf y (by simp [hy]))

theorem dllseg_append {m : Mem} {h p h2 p2 : Nat} {l1 l2 : List Nat} :
    dllseg m h p (l1 ++ l2) h2 p2 ↔
      ∃ hm pm, dllseg m h p l1 hm pm ∧ dllseg m hm pm l2 h2 p2 := by
  induction l1 generalizing h p with
  | nil =>
    constructor
    · intro hd; exact ⟨h, p, ⟨rfl, rfl⟩, hd⟩
    · rintro ⟨hm, pm, ⟨e1, e2⟩, hd⟩; subst e1 e2; exact hd
  | cons x xs ih =>
    rw [List.cons_append]
    constructor
    · rintro ⟨h1, h2', h3, h4⟩
      obtain ⟨hm, pm, ha, hb⟩ := ih.1 h4
      exact ⟨hm, pm, ⟨h1, h2', h3, ha⟩, hb⟩
    · rintro ⟨hm, pm, ⟨h1, h2', h3, ha⟩, hb⟩
      exact ⟨h1, h2', h3, ih.2 ⟨hm, pm, ha, hb⟩⟩

theorem dllseg_nonzero {m : Mem} {h p h2 p2 : Nat} {l : List Nat}
    (hd : dllseg m h p l h2 p2) : ∀ x, x ∈ l → x ≠ 0 := by
  induction l generalizing h p with
  | nil => intro x hx; simp at hx
  | cons y ys ih =>
    obtain ⟨_, h2', _, h4⟩ := hd
    intro x hx
    simp only [List.mem_cons] at hx
    rcases hx with hx | hx
    · subst hx; exact h2'
    · exact ih h4 x hx

theorem dllseg_last_mem {m : Mem} {h p h2 p2 : Nat} {l : List Nat}
    (hd : dllseg m h p l h2 p2) (hne : l ≠ []) : p2 ∈ l := by
  induction l generalizing h p with
  | nil => exact absurd rfl hne
  | cons y ys ih =>
    obtain ⟨_, _, _, h4⟩ := hd
    cases ys with
    | nil => obtain ⟨_, e⟩ := h4; simp [e]
    | cons z zs => exact List.mem_cons_of_mem _ (ih h4 (by simp))

/-- The head link of a segment that ends in the null link is null exactly when the
segment is empty. -/
theorem dllseg_head_zero {m : Mem} {h p p2 : Nat} {l : List Nat}
    (hd : dllseg m h p l 0 p2) : h = 0 ↔ l = [] := by
  cases l with
  | nil => obtain ⟨e, _⟩ := hd; simp [e]
  | cons y ys => obtain ⟨e, hy, _⟩ := hd; simp [e, hy]

/-- Overwriting the successor link of the last node of a segment. -/
theorem dllseg_set_next {m m2 : Mem} {h p hm pm v : Nat} {l : List Nat}
    (hd : dllseg m h p l hm pm) (hnd : l.Nodup)
    (h1 : ∀ x, x ∈ l → GET m2 x = GET m x)
    (h2 : ∀ x, x ∈ l → x ≠ pm → GET m2 (x + 4) = GET m (x + 4))
    (h3 : l ≠ [] → GET m2 (pm + 4) = v) :
    dllseg m2 (if l = [] then v else h) p l v pm := by
  induction l generalizing h p with
  | nil => obtain ⟨_, e⟩ := hd; exact ⟨by simp, e⟩
  | cons x xs ih =>
    obtain ⟨e1, e2, e3, e4⟩ := hd
    simp only [reduceCtorEq, if_false]
    refine ⟨e1, e2, by rw [h1 x (by simp), e3], ?_⟩
    cases xs with
    | nil =>
      obtain ⟨_, e⟩ := e4
      subst e
      exact ⟨h3 (by simp), rfl⟩
    | cons y ys =>
      have hl := dllseg_last_mem e4 (by simp)
      have hne : x ≠ pm := by
        intro e; subst e
        exact (List.nodup_cons.1 hnd).1 hl
      rw [h2 x (by simp) hne]
      have := ih e4 (List.nodup_cons.1 hnd).2 (fun z hz => h1 z (by simp [hz]))
        (fun z hz => h2 z (by simp [hz])) (fun _ => h3 (by simp))
      simpa using this

/-- Overwriting the predecessor link of the first node of a segment. -/
theorem dllseg_set_prev {m m2 : Mem} {h p p2 q : Nat} {l : List Nat}
    (hd : dllseg m h p l 0 p2)
    (h1 : ∀ x, x ∈ l → GET m2 (x + 4) = GET m (x + 4))
    (h2 : ∀ x, x ∈ l → x ≠ h → GET m2 x = GET m x)
    (h3 : l ≠ [] → GET m2 h = q) (hnd : l.Nodup) :
    ∃ t, dllseg m2 h q l 0 t := by
  cases l with
  | nil => obtain ⟨e, _⟩ := hd; exact ⟨q, e, rfl⟩
  | cons x xs =>
    obtain ⟨e1, e2, e3, e4⟩ := hd
    refine ⟨p2, e1, e2, by rw [← e1]; exact h3 (by simp), ?_⟩
    rw [h1 x (by simp)]
    apply dllseg_congr e4
    intro y hy
    have hne : y ≠ h := by
      intro e; rw [e1] at e; subst e
      exact (List.nodup_cons.1 hnd).1 hy
    exact ⟨h2 y (by simp [hy]) hne, h1 y (by simp [hy])⟩

theorem nodup_length_lt {l : List Nat} (hnd : l.Nodup)
    (hb : ∀ x, x ∈ l → x ≠ 0 ∧ x < 4294967296) : l.length < 4294967296 := by
  have hsub : l ⊆ List.range' 1 4294967295 := by
    intro x hx
    have := hb x hx
    rw [List.mem_range']
    exact ⟨x - 1, by omega, by omega⟩
  have := (List.Nodup.subperm hnd hsub).length_le
  simp at this
  omega

/-! ## Memory effect of `remove_free_list` -/

theorem poff_bucket (hl i : Nat) (h : hl + 4 * i < 4294967296) :
    poff hl ((i : Int) * 4) = hl + 4 * i := by
  unfold poff; omega

theorem bucketIdx_lt (sz : Nat) : bucketIdx sz < 84 := by
  unfold bucketIdx; omega

theorem scan_spec (m : Mem) (hl : Nat) (hft : GET m (hl + 336) ≠ 0)
    (hb : hl + 336 < 4294967296) :
    ∀ (k fuel i : Nat), i + k = 84 → k < fuel →
      ∃ r : Nat, scan_minlist fuel m hl (i : Int) = some (r : Int) ∧ i ≤ r ∧ r ≤ 84 ∧
        GET m (hl + 4 * r) ≠ 0 ∧ ∀ j, i ≤ j → j < r → GET m (hl + 4 * j) = 0 := by
  intro k
  induction k with
  | zero =>
    intro fuel i hi hf
    obtain ⟨f, rfl⟩ : ∃ f, fuel = f + 1 := ⟨fuel - 1, by omega⟩
    have e : poff hl ((i : Int) * 4) = hl + 336 := by
      rw [poff_bucket hl i (by omega)]; omega
    have e2 : hl + 4 * i = hl + 336 := by omega
    refine ⟨i, ?_, Nat.le_refl _, by omega, by rw [e2]; exact hft, fun j h1 h2 => by omega⟩
    simp [scan_minlist, e, hft]
  | succ k ih =>
    intro fuel i hi hf
    obtain ⟨f, rfl⟩ : ∃ f, fuel = f + 1 := ⟨fuel - 1, by omega⟩
    have e : poff hl ((i : Int) * 4) = hl + 4 * i := poff_bucket hl i (by omega)
    by_cases h0 : GET m (hl + 4 * i) = 0
    · obtain ⟨r, hr, h1, h2, h3, h4⟩ := ih f (i + 1) (by omega) (by omega)
      refine ⟨r, ?_, by omega, h2, h3, ?_⟩
      · simp only [scan_minlist, e, h0, if_true]
        rw [← hr]; norm_cast
      · intro j hj1 hj2
        by_cases hji : j = i
        · rw [hji]; exact h0
        · exact h4 j (by omega) hj2
    · exact ⟨i, by simp [scan_minlist, e, h0], Nat.le_refl _, by omega, h0,
        fun j h1 h2 => by omega⟩

/-- The memory effect of `remove_free_list` on a block whose links are `pm`
(predecessor) and `v` (successor): the predecessor's successor link (or the bucket
head) becomes `v`, the successor's predecessor link becomes `pm`, nothing else
changes. -/
theorem remove_mem (s : Heap) (bp sz : Nat)
    (hb1 : s.heap_listp + 344 ≤ bp) (hb2 : bp + 8 < 4294967296)
    (hsz : GET s.mem (bp - 4) / 8 * 8 = sz) (hlt : sz < 2147483648)
    (hft : GET s.mem (s.heap_listp + 336) = 345)
    (hpm : GET s.mem bp ≠ 0 → (s.heap_listp + 344 ≤ GET s.mem bp ∧
      GET s.mem bp + 8 < 4294967296) ∧ (GET s.mem bp + 8 ≤ bp ∨ bp + 8 ≤ GET s.mem bp))
    (hv : GET s.mem (bp + 4) ≠ 0 → s.heap_listp + 344 ≤ GET s.mem (bp + 4) ∧
      (GET s.mem (bp + 4) + 8 ≤ bp ∨ bp + 8 ≤ GET s.mem (bp + 4)))
    (hpv : GET s.mem bp ≠ 0 → GET s.mem (bp + 4) ≠ 0 →
      (GET s.mem bp + 8 ≤ GET s.mem (bp + 4) ∨ GET s.mem (bp + 4) + 8 ≤ GET s.mem bp)) :
    ∃ s2, remove_free_list s bp = some s2 ∧
      s2.mem_brk = s.mem_brk ∧ s2.mem_max_addr = s.mem_max_addr ∧
      s2.heap_listp = s.heap_listp ∧ s2.gcount = s.gcount - 1 ∧
      (∀ a, ¬ (s.heap_listp + 4 * bucketIdx sz ≤ a ∧ a < s.heap_listp + 4 * bucketIdx sz + 4) →
        ¬ (GET s.mem bp ≠ 0 ∧ GET s.mem bp + 4 ≤ a ∧ a < GET s.mem bp + 8) →
        ¬ (GET s.mem (bp + 4) ≠ 0 ∧ GET s.mem (bp + 4) ≤ a ∧ a < GET s.mem (bp + 4) + 4) →
        s2.mem a = s.mem a) ∧
      GET s2.mem (s.heap_listp + 4 * bucketIdx sz) =
        (if GET s.mem bp = 0 then GET s.mem (bp + 4)
         else GET s.mem (s.heap_listp + 4 * bucketIdx sz)) ∧
      (GET s.mem bp ≠ 0 → GET s2.mem (GET s.mem bp + 4) = GET s.mem (bp + 4)) ∧
      (GET s.mem (bp + 4) ≠ 0 → GET s2.mem (GET s.mem (bp + 4)) = GET s.mem bp) ∧
      RemG s s2 bp sz := by
  have hi := bucketIdx_lt sz
  have hsize : GET_SIZE s.mem (HDRP bp) = sz := by
    rw [HDRP_eq bp (by omega) (by omega), GET_SIZE_eq, hsz]
  have hml := minlist_eq sz hlt
  have hpo : poff s.heap_listp ((bucketIdx sz : Int) * 4) = s.heap_listp + 4 * bucketIdx sz :=
    poff_bucket _ _ (by omega)
  have hpa : padd bp WSIZE = bp + 4 := padd_eq _ _ (by unfold WSIZE; omega)
  have hlp := GET_lt s.mem bp
  have hlv := GET_lt s.mem (bp + 4)
  by_cases hp0 : GET s.mem bp = 0 <;> by_cases hv0 : GET s.mem (bp + 4) = 0
  · -- only node of its bucket
    have hput : ∀ a, ¬ (s.heap_listp + 4 * bucketIdx sz ≤ a ∧
        a < s.heap_listp + 4 * bucketIdx sz + 4) →
        PUT s.mem (s.heap_listp + 4 * bucketIdx sz) 0 a = s.mem a :=
      fun a h => PUT_out _ _ _ _ (by omega)
    have hg : GET (PUT s.mem (s.heap_listp + 4 * bucketIdx sz) 0)
        (s.heap_listp + 4 * bucketIdx sz) = 0 := GET_PUT_eq _ _ _ (by omega)
    have hft2 : GET (PUT s.mem (s.heap_listp + 4 * bucketIdx sz) 0)
        (s.heap_listp + 336) ≠ 0 := by
      rw [GET_PUT_ne _ _ _ _ (by omega), hft]; omega
    obtain ⟨r, hr, hr1, hr2, hr3, hr4⟩ := scan_spec _ s.heap_listp hft2 (by omega)
      (84 - bucketIdx sz) FUEL (bucketIdx sz) (by omega) (by unfold FUEL; omega)
    by_cases hg1 : s.gminlist = (bucketIdx sz : Int)
    · by_cases hg2 : s.gcount - 1 > 0
      · have key : remove_free_list s bp = some { s with
            mem := PUT s.mem (s.heap_listp + 4 * bucketIdx sz) 0,
            gcount := s.gcount - 1, gminlist := (r : Int) } := by
          unfold remove_free_list
          simp only [hsize, hml, hpo, hpa, hp0, hv0, and_self, if_true, hg1, hg2, hr,
            Option.map_some']
        refine ⟨_, key, rfl, rfl, rfl, rfl, fun a h _ _ => hput a h, ?_, fun h => absurd hp0 h,
          fun h => absurd hv0 h, fun h => absurd ⟨hp0, hv0⟩ h, fun _ => ⟨fun h => absurd hg1 h,
          fun _ h => absurd hg2 h, fun _ _ => ⟨r, rfl, hr1, hr2, hr3, hr4⟩⟩⟩
        simp only [hp0, if_true, hv0]
        exact hg
      · have key : remove_free_list s bp = some { s with
            mem := PUT s.mem (s.heap_listp + 4 * bucketIdx sz) 0,
            gcount := s.gcount - 1, gminlist := 100 } := by
          unfold remove_free_list
          simp only [hsize, hml, hpo, hpa, hp0, hv0, and_self, if_true, hg1, hg2, if_false]
        refine ⟨_, key, rfl, rfl, rfl, rfl, fun a h _ _ => hput a h, ?_, fun h => absurd hp0 h,
          fun h => absurd hv0 h, fun h => absurd ⟨hp0, hv0⟩ h, fun _ => ⟨fun h => absurd hg1 h,
          fun _ _ => rfl, fun _ h => absurd h hg2⟩⟩
        simp only [hp0, if_true, hv0]
        exact hg
    · have key : remove_free_list s bp = some { s with
          mem := PUT s.mem (s.heap_listp + 4 * bucketIdx sz) 0,
          gcount := s.gcount - 1 } := by
        unfold remove_free_list
        simp only [hsize, hml, hpo, hpa, hp0, hv0, and_self, if_true, hg1, if_false]
      refine ⟨_, key, rfl, rfl, rfl, rfl, fun a h _ _ => hput a h, ?_, fun h => absurd hp0 h,
        fun h => absurd hv0 h, fun h => absurd ⟨hp0, hv0⟩ h, fun _ => ⟨fun _ => rfl,
        fun h => absurd h hg1, fun h => absurd h hg1⟩⟩
      simp only [hp0, if_true, hv0]
      exact hg
  · -- head of its bucket, with a successor
    obtain ⟨hv1, hv2⟩ := hv hv0
    have e1 : GET (PUT s.mem (s.heap_listp + 4 * bucketIdx sz) (GET s.mem (bp + 4))) (bp + 4)
        = GET s.mem (bp + 4) := GET_PUT_ne _ _ _ _ (by omega)
    have key : remove_free_list s bp = some { s with
        mem := PUT (PUT s.mem (s.heap_listp + 4 * bucketIdx sz) (GET s.mem (bp + 4)))
          (GET s.mem (bp + 4)) 0,
        gcount := s.gcount - 1 } := by
      unfold remove_free_list
      simp only [hsize, hml, hpo, hpa, hp0, hv0, e1, and_false, and_self, if_true, if_false,
        ne_eq, not_false_eq_true]
    refine ⟨_, key, rfl, rfl, rfl, rfl, ?_, ?_, fun h => absurd hp0 h, ?_,
      ⟨fun _ => rfl, fun h => absurd h.2 hv0⟩⟩
    · intro a h1 _ h3
      show PUT (PUT _ _ _) _ _ a = _
      rw [PUT_out _ _ _ _ (by omega), PUT_out _ _ _ _ (by omega)]
    · show GET (PUT (PUT _ _ _) _ _) _ = _
      rw [GET_PUT_ne _ _ _ _ (by omega), GET_PUT_eq _ _ _ hlv]; simp [hp0]
    · intro _
      show GET (PUT (PUT _ _ _) _ _) _ = _
      rw [GET_PUT_eq _ _ _ (by omega), hp0]
  · -- last of its bucket, with a predecessor
    obtain ⟨⟨hp1, hp3⟩, hp2⟩ := hpm hp0
    have e2 : padd (GET s.mem bp) WSIZE = GET s.mem bp + 4 := by
      unfold padd WSIZE; omega
    have key : remove_free_list s bp = some { s with
        mem := PUT s.mem (GET s.mem bp + 4) 0, gcount := s.gcount - 1 } := by
      unfold remove_free_list
      simp only [hsize, hml, hpo, hpa, hp0, hv0, e2, and_false, false_and, and_self, if_true,
        if_false, ne_eq, not_false_eq_true, not_true_eq_false]
    refine ⟨_, key, rfl, rfl, rfl, rfl, ?_, ?_, ?_, fun h => absurd hv0 h,
      ⟨fun _ => rfl, fun h => absurd h.1 hp0⟩⟩
    · intro a _ h2 _
      show PUT _ _ _ a = _
      rw [PUT_out _ _ _ _ (by omega)]
    · show GET (PUT _ _ _) _ = _
      rw [GET_PUT_ne _ _ _ _ (by omega)]; simp [hp0]
    · intro _
      show GET (PUT _ _ _) _ = _
      rw [GET_PUT_eq _ _ _ (by omega), hv0]
  · -- interior node
    obtain ⟨⟨hp1, hp3⟩, hp2⟩ := hpm hp0
    obtain ⟨hv1, hv2⟩ := hv hv0
    have hpv2 := hpv hp0 hv0
    have e2 : padd (GET s.mem bp) WSIZE = GET s.mem bp + 4 := by
      unfold padd WSIZE; omega
    have e3 : GET (PUT s.mem (GET s.mem bp + 4) (GET s.mem (bp + 4))) (bp + 4)
        = GET s.mem (bp + 4) := GET_PUT_ne _ _ _ _ (by omega)
    have e4 : GET (PUT s.mem (GET s.mem bp + 4) (GET s.mem (bp + 4))) bp
        = GET s.mem bp := GET_PUT_ne _ _ _ _ (by omega)
    have key : remove_free_list s bp = some { s with
        mem := PUT (PUT s.mem (GET s.mem bp + 4) (GET s.mem (bp + 4)))
          (GET s.mem (bp + 4)) (GET s.mem bp),
        gcount := s.gcount - 1 } := by
      unfold remove_free_list
      simp only [hsize, hml, hpo, hpa, hp0, hv0, e2, e3, e4, and_false, false_and, and_self,
        if_true, if_false, ne_eq, not_false_eq_true, not_true_eq_false]
    refine ⟨_, key, rfl, rfl, rfl, rfl, ?_, ?_, ?_, ?_,
      ⟨fun _ => rfl, fun h => absurd h.1 hp0⟩⟩
    · intro a _ h2 h3
      show PUT (PUT _ _ _) _ _ a = _
      rw [PUT_out _ _ _ _ (by omega), PUT_out _ _ _ _ (by omega)]
    · show GET (PUT (PUT _ _ _) _ _) _ = _
      rw [GET_PUT_ne _ _ _ _ (by omega), GET_PUT_ne _ _ _ _ (by omega)]; simp [hp0]
    · intro _
      show GET (PUT (PUT _ _ _) _ _) _ = _
      rw [GET_PUT_ne _ _ _ _ (by omega), GET_PUT_eq _ _ _ hlv]
    · intro _
      show GET (PUT (PUT _ _ _) _ _) _ = _
      rw [GET_PUT_eq _ _ _ hlp]

/-! ## Counting the index and its lowest nonempty bucket -/

theorem sum_range_update (f : Nat → Nat) (i v : Nat) :
    ∀ n, ((List.range n).map (Function.update f i v)).sum + (if i < n then f i else 0) =
      ((List.range n).map f).sum + (if i < n then v else 0) := by
  intro n
  induction n with
  | zero => simp
  | succ n ih =>
    rw [List.range_succ, List.map_append, List.map_append, List.sum_append, List.sum_append]
    simp only [List.map_cons, List.map_nil, List.sum_cons, List.sum_nil, Nat.add_zero]
    by_cases h1 : i < n
    · have h2 : i < n + 1 := by omega
      have h3 : n ≠ i := by omega
      simp only [h1, h2, if_true] at ih ⊢
      rw [Function.update_noteq h3]
      omega
    · by_cases h2 : i = n
      · subst h2
        simp only [Nat.lt_irrefl, if_false, Nat.add_zero, Nat.lt_succ_self, if_true,
          Function.update_same] at ih ⊢
        omega
      · have h3 : ¬ i < n + 1 := by omega
        have h4 : n ≠ i := by omega
        simp only [h1, h3, if_false, Nat.add_zero] at ih ⊢
        rw [Function.update_noteq h4]
        omega

theorem idxCount_update (ls : Nat → List Nat) (i : Nat) (l : List Nat) (hi : i < 84) :
    idxCount (Function.update ls i l) + (ls i).length = idxCount ls + l.length := by
  have h := sum_range_update (fun j => (ls j).length) i l.length 84
  simp only [hi, if_true] at h
  have e : (fun j => (Function.update ls i l j).length) =
      Function.update (fun j => (ls j).length) i l.length := by
    funext j
    by_cases hj : j = i
    · subst hj; simp
    · simp [Function.update_noteq hj]
  unfold idxCount
  rw [e]
  exact h

theorem sum_range_zero (f : Nat → Nat) :
    ∀ n, ((List.range n).map f).sum = 0 ↔ ∀ j, j < n → f j = 0 := by
  intro n
  induction n with
  | zero => simp
  | succ n ih =>
    rw [List.range_succ, List.map_append, List.sum_append]
    simp only [List.map_cons, List.map_nil, List.sum_cons, List.sum_nil, Nat.add_zero]
    constructor
    · intro h j hj
      have h1 : ((List.range n).map f).sum = 0 := by omega
      by_cases hjn : j = n
      · subst hjn; omega
      · exact ih.1 h1 j (by omega)
    · intro h
      have h1 := ih.2 (fun j hj => h j (by omega))
      have h2 := h n (by omega)
      omega

theorem idxCount_zero (ls : Nat → List Nat) :
    idxCount ls = 0 ↔ ∀ j, j < 84 → ls j = [] := by
  unfold idxCount
  rw [sum_range_zero]
  constructor
  · intro h j hj
    exact List.length_eq_zero.1 (h j hj)
  · intro h j hj
    rw [h j hj]; rfl

/-- The lowest nonempty bucket after a block has left bucket `i`. -/
theorem IsMin_erase {ls : Nat → List Nat} {i : Nat} {l : List Nat} {g g2 : Int} (hi : i < 84)
    (hmin : IsMin ls g) (hne : ls i ≠ [])
    (h1 : l ≠ [] → g2 = g)
    (h2 : l = [] → g ≠ (i : Int) → g2 = g)
    (h3 : l = [] → g = (i : Int) → (∀ j, j < 84 → Function.update ls i l j = []) → g2 = 100)
    (h4 : l = [] → g = (i : Int) → ¬ (∀ j, j < 84 → Function.update ls i l j = []) →
      ∃ r : Nat, g2 = (r : Int) ∧ r < 84 ∧ Function.update ls i l r ≠ [] ∧
        ∀ j, i ≤ j → j < r → Function.update ls i l j = []) :
    IsMin (Function.update ls i l) g2 := by
  rcases hmin with ⟨_, hall⟩ | ⟨k, hk, hg, hkne, hlow⟩
  · exact absurd (hall i hi) hne
  have hki : k ≤ i := by
    by_contra hc
    exact hne (hlow i (by omega))
  by_cases hl : l = []
  · by_cases hgi : g = (i : Int)
    · have hk2 : k = i := by omega
      subst hk2
      by_cases hall : ∀ j, j < 84 → Function.update ls k l j = []
      · exact Or.inl ⟨h3 hl hgi hall, hall⟩
      · obtain ⟨r, hr1, hr2, hr3, hr4⟩ := h4 hl hgi hall
        refine Or.inr ⟨r, hr2, hr1, hr3, ?_⟩
        intro j hj
        by_cases hjk : j < k
        · rw [Function.update_noteq (by omega)]; exact hlow j hjk
        · exact hr4 j (by omega) hj
    · have hk2 : k ≠ i := by
        intro e; apply hgi; rw [hg, e]
      refine Or.inr ⟨k, hk, by rw [h2 hl hgi, hg], ?_, ?_⟩
      · rw [Function.update_noteq hk2]; exact hkne
      · intro j hj
        rw [Function.update_noteq (by omega)]; exact hlow j hj
  · refine Or.inr ⟨k, hk, by rw [h1 hl, hg], ?_, ?_⟩
    · by_cases hk2 : k = i
      · subst hk2; rw [Function.update_same]; exact hl
      · rw [Function.update_noteq hk2]; exact hkne
    · intro j hj
      rw [Function.update_noteq (by omega)]; exact hlow j hj

/-- The lowest nonempty bucket after a block has entered bucket `i`. -/
theorem IsMin_insert {ls : Nat → List Nat} {i : Nat} {l : List Nat} {g : Int} (hi : i < 84)
    (hmin : IsMin ls g) (hl : l ≠ []) :
    IsMin (Function.update ls i l) (if g > (i : Int) ∨ g = 100 then (i : Int) else g) := by
  rcases hmin with ⟨hg, hall⟩ | ⟨k, hk, hg, hkne, hlow⟩
  · subst hg
    simp only [or_true, if_true]
    refine Or.inr ⟨i, hi, rfl, by rw [Function.update_same]; exact hl, ?_⟩
    intro j hj
    rw [Function.update_noteq (by omega)]; exact hall j (by omega)
  · subst hg
    by_cases hc : (k : Int) > (i : Int) ∨ (k : Int) = 100
    · simp only [hc, if_true]
      have hik : i < k := by omega
      refine Or.inr ⟨i, hi, rfl, by rw [Function.update_same]; exact hl, ?_⟩
      intro j hj
      rw [Function.update_noteq (by omega)]; exact hlow j (by omega)
    · simp only [hc, if_false]
      have hik : k ≤ i := by omega
      refine Or.inr ⟨k, hk, rfl, ?_, ?_⟩
      · by_cases hk2 : k = i
        · subst hk2; rw [Function.update_same]; exact hl
        · rw [Function.update_noteq hk2]; exact hkne
      · intro j hj
        rw [Function.update_noteq (by omega)]; exact hlow j hj

/-! ## `remove_free_list` on the free-list index -/

theorem FLInv.far {m : Mem} {hl : Nat} {ls : Nat → List Nat} {F : Nat → Nat → Prop}
    (h : FLInv m hl ls F) {x sx y sy : Nat} (hx : F x sx) (hy : F y sy) (hne : x ≠ y) :
    x + 16 ≤ y ∨ y + 16 ≤ x := by
  have := h.disj x sx y sy hx hy
  have := h.bnd x sx hx
  have := h.bnd y sy hy
  omega

theorem FLInv.func {m : Mem} {hl : Nat} {ls : Nat → List Nat} {F : Nat → Nat → Prop}
    (h : FLInv m hl ls F) {x sx sy : Nat} (hx : F x sx) (hy : F x sy) : sx = sy := by
  rw [← h.hdr x sx hx, ← h.hdr x sy hy]

theorem FLInv.bucket_unique {m : Mem} {hl : Nat} {ls : Nat → List Nat} {F : Nat → Nat → Prop}
    (h : FLInv m hl ls F) {i j x : Nat} (hi : i < 84) (hj : j < 84)
    (hxi : x ∈ ls i) (hxj : x ∈ ls j) : i = j := by
  obtain ⟨s1, h1, e1⟩ := h.mem_F i hi x hxi
  obtain ⟨s2, h2, e2⟩ := h.mem_F j hj x hxj
  rw [← e1, ← e2, h.func h1 h2]

/-- The free-list index only depends on the bucket head words and on the header and
link words of its blocks. -/
theorem FLInv.frame {m m2 : Mem} {hl : Nat} {ls : Nat → List Nat} {F : Nat → Nat → Prop}
    (h : FLInv m hl ls F)
    (hf : ∀ a, ((hl ≤ a ∧ a < hl + 336) ∨ ∃ x sz, F x sz ∧ x - 4 ≤ a ∧ a < x + 8) →
      m2 a = m a) : FLInv m2 hl ls F := by
  refine ⟨?_, h.mem_F, h.F_mem, h.nodup, ?_, h.bnd, h.disj⟩
  · intro i hi
    obtain ⟨t, ht⟩ := h.lists i hi
    have e : GET m2 (hl + 4 * i) = GET m (hl + 4 * i) :=
      GET_congr fun a h1 h2 => hf a (Or.inl (by omega))
    rw [e]
    refine ⟨t, dllseg_congr ht ?_⟩
    intro x hx
    obtain ⟨sx, hFx, _⟩ := h.mem_F i hi x hx
    exact ⟨GET_congr fun a h1 h2 => hf a (Or.inr ⟨x, sx, hFx, by omega, by omega⟩),
      GET_congr fun a h1 h2 => hf a (Or.inr ⟨x, sx, hFx, by omega, by omega⟩)⟩
  · intro x sz hx
    have hb := h.bnd x sz hx
    have e : GET m2 (x - 4) = GET m (x - 4) :=
      GET_congr fun a h1 h2 => hf a (Or.inr ⟨x, sz, hx, by omega, by omega⟩)
    rw [e]; exact h.hdr x sz hx

/-- Replacing the set of represented blocks by an equivalent one. -/
theorem FLInv.congr {m : Mem} {hl : Nat} {ls : Nat → List Nat} {F G : Nat → Nat → Prop}
    (h : FLInv m hl ls F) (hFG : ∀ x sz, F x sz ↔ G x sz) : FLInv m hl ls G := by
  have e : F = G := by
    funext x sz; exact propext (hFG x sz)
  rw [← e]; exact h

set_option maxHeartbeats 1600000 in
theorem remove_spec (s : Heap) (bp sz : Nat) (ls : Nat → List Nat) (F : Nat → Nat → Prop)
    (hfl : FLInv s.mem s.heap_listp ls F) (hF : F bp sz)
    (hft : GET s.mem (s.heap_listp + 336) = 345) :
    ∃ s2, remove_free_list s bp = some s2 ∧
      s2.mem_brk = s.mem_brk ∧ s2.mem_max_addr = s.mem_max_addr ∧
      s2.heap_listp = s.heap_listp ∧ s2.gcount = s.gcount - 1 ∧
      (∀ a, ¬ Touch s.heap_listp (fun x z => F x z ∧ x ≠ bp) a → s2.mem a = s.mem a) ∧
      FLInv s2.mem s.heap_listp
        (Function.update ls (bucketIdx sz) ((ls (bucketIdx sz)).erase bp))
        (fun x z => F x z ∧ x ≠ bp) ∧
      (s.gcount = (idxCount ls : Int) → IsMin ls s.gminlist →
        s2.gcount = (idxCount (Function.update ls (bucketIdx sz)
          ((ls (bucketIdx sz)).erase bp)) : Int) ∧
        IsMin (Function.update ls (bucketIdx sz) ((ls (bucketIdx sz)).erase bp))
          s2.gminlist) := by
  have hi := bucketIdx_lt sz
  have hbp := hfl.bnd bp sz hF
  have hmem := hfl.F_mem bp sz hF
  obtain ⟨l1, l2, hsplit⟩ := List.append_of_mem hmem
  have hnd := hfl.nodup _ hi
  rw [hsplit] at hnd
  have hnd1 : l1.Nodup := (List.nodup_append.1 hnd).1
  have hnd2 : l2.Nodup := (List.nodup_cons.1 (List.nodup_append.1 hnd).2.1).2
  have hbp1 : bp ∉ l1 := fun h => (List.nodup_append.1 hnd).2.2 h (by simp)
  have hbp2 : bp ∉ l2 := (List.nodup_cons.1 (List.nodup_append.1 hnd).2.1).1
  have h12 : ∀ x, x ∈ l1 → x ∉ l2 := fun x h1 h2 =>
    (List.nodup_append.1 hnd).2.2 h1 (by simp [h2])
  have herase : (ls (bucketIdx sz)).erase bp = l1 ++ l2 := by
    rw [hsplit, List.erase_append_right _ hbp1]; simp
  -- the nodes of the bucket
  have hnode : ∀ x, x ∈ l1 ∨ x ∈ l2 → ∃ sx, F x sx ∧ x ≠ bp ∧ bucketIdx sx = bucketIdx sz := by
    intro x hx
    obtain ⟨sx, h1, h2⟩ := hfl.mem_F _ hi x (by
      rw [hsplit, List.mem_append, List.mem_cons]
      rcases hx with h | h
      · exact Or.inl h
      · exact Or.inr (Or.inr h))
    refine ⟨sx, h1, ?_, h2⟩
    rintro rfl; rcases hx with hx | hx
    · exact hbp1 hx
    · exact hbp2 hx
  obtain ⟨t, hd⟩ := hfl.lists _ hi
  rw [hsplit, dllseg_append] at hd
  obtain ⟨hm, pm, ha, hb⟩ := hd
  obtain ⟨e1, hbp0, e3, hc⟩ := hb
  rw [e1] at ha
  clear e1
  -- predecessor and successor links
  have hpm_zero : GET s.mem bp = 0 ↔ l1 = [] := by
    rw [e3]
    cases l1 with
    | nil => obtain ⟨_, e⟩ := ha; simp [← e]
    | cons y ys =>
      have := dllseg_nonzero ha _ (dllseg_last_mem ha (by simp))
      simp [this]
  have hpm_mem : GET s.mem bp ≠ 0 → GET s.mem bp ∈ l1 := by
    intro h
    rw [e3]
    exact dllseg_last_mem ha (fun e => h (hpm_zero.2 e))
  have hv_zero : GET s.mem (bp + 4) = 0 ↔ l2 = [] := dllseg_head_zero hc
  have hv_mem : GET s.mem (bp + 4) ≠ 0 → GET s.mem (bp + 4) ∈ l2 := by
    intro h
    cases l2 with
    | nil => exact absurd (hv_zero.2 rfl) h
    | cons z zs => obtain ⟨e, _⟩ := hc; simp [e]
  -- run the code
  obtain ⟨s2, hrun, hbrk, hmax, hhl, hgc, P1, P2, P3, P4, P5⟩ := remove_mem s bp sz
    (by omega) (by omega) (hfl.hdr bp sz hF) (by omega) hft
    (fun h => by
      obtain ⟨sx, h1, h2, _⟩ := hnode _ (Or.inl (hpm_mem h))
      have := hfl.bnd _ _ h1
      have := hfl.far h1 hF h2
      omega)
    (fun h => by
      obtain ⟨sx, h1, h2, _⟩ := hnode _ (Or.inr (hv_mem h))
      have := hfl.bnd _ _ h1
      have := hfl.far h1 hF h2
      omega)
    (fun h1 h2 => by
      obtain ⟨sx, hx1, _, _⟩ := hnode _ (Or.inl (hpm_mem h1))
      obtain ⟨sy, hy1, _, _⟩ := hnode _ (Or.inr (hv_mem h2))
      have hne : GET s.mem bp ≠ GET s.mem (bp + 4) := fun e =>
        h12 _ (hpm_mem h1) (e ▸ hv_mem h2)
      have := hfl.far hx1 hy1 hne
      omega)
  -- word-level frame
  have hword : ∀ w, (w + 4 ≤ s.heap_listp + 4 * bucketIdx sz ∨
        s.heap_listp + 4 * bucketIdx sz + 4 ≤ w) →
      (GET s.mem bp ≠ 0 → w + 4 ≤ GET s.mem bp + 4 ∨ GET s.mem bp + 8 ≤ w) →
      (GET s.mem (bp + 4) ≠ 0 → w + 4 ≤ GET s.mem (bp + 4) ∨ GET s.mem (bp + 4) + 4 ≤ w) →
      GET s2.mem w = GET s.mem w := by
    intro w h1 h2 h3
    apply GET_congr
    intro a ha1 ha2
    apply P1 a
    · omega
    · intro ⟨h, _, _⟩; have := h2 h; omega
    · intro ⟨h, _, _⟩; have := h3 h; omega
  -- a node other than the neighbours keeps its words
  have hfar : ∀ x sx, F x sx → x ≠ bp →
      (GET s.mem bp ≠ 0 → x ≠ GET s.mem bp → x + 16 ≤ GET s.mem bp ∨ GET s.mem bp + 16 ≤ x) ∧
      (GET s.mem (bp + 4) ≠ 0 → x ≠ GET s.mem (bp + 4) →
        x + 16 ≤ GET s.mem (bp + 4) ∨ GET s.mem (bp + 4) + 16 ≤ x) := by
    intro x sx hx _
    constructor
    · intro h hne
      obtain ⟨sy, hy, _, _⟩ := hnode _ (Or.inl (hpm_mem h))
      exact hfl.far hx hy hne
    · intro h hne
      obtain ⟨sy, hy, _, _⟩ := hnode _ (Or.inr (hv_mem h))
      exact hfl.far hx hy hne
  refine ⟨s2, hrun, hbrk, hmax, hhl, hgc, ?_, ?_⟩
  · -- frame
    intro a hT
    apply P1 a
    · intro h; exact hT (Or.inl (by omega))
    · intro ⟨h, h1, h2⟩
      obtain ⟨sx, hx1, hx2, _⟩ := hnode _ (Or.inl (hpm_mem h))
      exact hT (Or.inr ⟨_, sx, ⟨hx1, hx2⟩, by omega, by omega⟩)
    · intro ⟨h, h1, h2⟩
      obtain ⟨sx, hx1, hx2, _⟩ := hnode _ (Or.inr (hv_mem h))
      exact hT (Or.inr ⟨_, sx, ⟨hx1, hx2⟩, by omega, by omega⟩)
  · -- the index after removal
    suffices hflnew : FLInv s2.mem s.heap_listp
        (Function.update ls (bucketIdx sz) ((ls (bucketIdx sz)).erase bp))
        (fun x z => F x z ∧ x ≠ bp) by
      refine ⟨hflnew, ?_⟩
      intro hgc0 hmin0
      have hlen : ((ls (bucketIdx sz)).erase bp).length + 1 = (ls (bucketIdx sz)).length := by
        rw [List.length_erase_of_mem hmem]
        have := List.length_pos_of_mem hmem
        omega
      have hcnt := idxCount_update ls (bucketIdx sz) ((ls (bucketIdx sz)).erase bp) hi
      have hgc2 : s2.gcount = (idxCount (Function.update ls (bucketIdx sz)
          ((ls (bucketIdx sz)).erase bp)) : Int) := by
        clear * - hgc hgc0 hlen hcnt
        omega
      refine ⟨hgc2, ?_⟩
      have hnil : (ls (bucketIdx sz)).erase bp = [] ↔
          (GET s.mem bp = 0 ∧ GET s.mem (bp + 4) = 0) := by
        rw [herase, hpm_zero, hv_zero]
        simp
      have hhead : ∀ j, j < 84 → (GET s2.mem (s.heap_listp + 4 * j) = 0 ↔
          Function.update ls (bucketIdx sz) ((ls (bucketIdx sz)).erase bp) j = []) := by
        intro j hj
        obtain ⟨t, ht⟩ := hflnew.lists j hj
        exact dllseg_head_zero ht
      apply IsMin_erase hi hmin0 (List.ne_nil_of_mem hmem)
      · intro hl
        exact P5.1 (fun h => hl (hnil.2 h))
      · intro hl hg
        exact (P5.2 (hnil.1 hl)).1 hg
      · intro hl hg hall
        apply (P5.2 (hnil.1 hl)).2.1 hg
        have h0 := (idxCount_zero _).2 hall
        clear * - hgc hgc2 h0
        omega
      · intro hl hg hall
        have hpos : s.gcount - 1 > 0 := by
          have h0 : idxCount (Function.update ls (bucketIdx sz)
              ((ls (bucketIdx sz)).erase bp)) ≠ 0 := fun h => hall ((idxCount_zero _).1 h)
          clear * - hgc hgc2 h0
          omega
        obtain ⟨r, hr1, hr2, hr3, hr4, hr5⟩ := (P5.2 (hnil.1 hl)).2.2 hg hpos
        have hlow : ∀ j, j < bucketIdx sz → ls j = [] := by
          rcases hmin0 with ⟨h100, _⟩ | ⟨k, hk, hgk, _, hlow⟩
          · exfalso; clear * - h100 hg hi; omega
          · have : k = bucketIdx sz := by clear * - hg hgk; omega
            subst this; exact hlow
        have hr84 : r < 84 := by
          by_contra hc
          apply hall
          intro j hj
          by_cases hji : j < bucketIdx sz
          · rw [Function.update_noteq (by clear * - hji; omega)]; exact hlow j hji
          · exact (hhead j hj).1 (hr5 j (by clear * - hji; omega) (by clear * - hc hj; omega))
        refine ⟨r, hr1, hr84, fun h => hr4 ((hhead r hr84).2 h), ?_⟩
        intro j hj1 hj2
        exact (hhead j (by clear * - hj2 hr84; omega)).1 (hr5 j hj1 hj2)
    have hFbnd : ∀ x sx, F x sx → s.heap_listp + 344 ≤ x := fun x sx h => (hfl.bnd x sx h).2.2.1
    have hpmne : ∀ x, x ∈ l2 → x ≠ GET s.mem bp := by
      intro x hx e
      by_cases h0 : GET s.mem bp = 0
      · exact dllseg_nonzero hc x hx (e.trans h0)
      · exact h12 _ (hpm_mem h0) (e ▸ hx)
    have hvne : ∀ x, x ∈ l1 → x ≠ GET s.mem (bp + 4) := by
      intro x hx e
      by_cases h0 : GET s.mem (bp + 4) = 0
      · exact dllseg_nonzero ha x hx (e.trans h0)
      · exact h12 _ hx (e ▸ hv_mem h0)
    refine ⟨?_, ?_, ?_, ?_, ?_, ?_, ?_⟩
    · intro j hj
      by_cases hji : j = bucketIdx sz
      · subst hji
        rw [Function.update_same, herase, P2]
        have A := @dllseg_set_next _ s2.mem _ _ _ _ (GET s.mem (bp + 4)) _ ha hnd1
          (by
            intro x hx
            obtain ⟨sx, hx1, hx2, _⟩ := hnode x (Or.inl hx)
            have := hFbnd x sx hx1
            have := hfar x sx hx1 hx2
            have := hvne x hx
            apply hword <;> omega)
          (by
            intro x hx hne
            rw [e3] at *
            obtain ⟨sx, hx1, hx2, _⟩ := hnode x (Or.inl hx)
            have := hFbnd x sx hx1
            have := hfar x sx hx1 hx2
            have := hvne x hx
            apply hword <;> omega)
          (by
            intro hne
            rw [← e3]
            exact P3 (fun h => hne (hpm_zero.1 h)))
        obtain ⟨t2, B⟩ := @dllseg_set_prev _ s2.mem _ _ _ pm _ hc
          (by
            intro x hx
            obtain ⟨sx, hx1, hx2, _⟩ := hnode x (Or.inr hx)
            have := hFbnd x sx hx1
            have := hfar x sx hx1 hx2
            have := hpmne x hx
            apply hword <;> omega)
          (by
            intro x hx hne
            obtain ⟨sx, hx1, hx2, _⟩ := hnode x (Or.inr hx)
            have := hFbnd x sx hx1
            have := hfar x sx hx1 hx2
            have := hpmne x hx
            apply hword <;> omega)
          (by
            intro hne
            rw [← e3]
            exact P4 (fun h => hne (hv_zero.1 h)))
          hnd2
        refine ⟨t2, dllseg_append.2 ⟨_, _, ?_, B⟩⟩
        by_cases h0 : l1 = []
        · simpa [h0, hpm_zero.2 h0] using A
        · have h1 : GET s.mem bp ≠ 0 := fun h => h0 (hpm_zero.1 h)
          simpa [h0, h1] using A
      · rw [Function.update_noteq hji]
        obtain ⟨t, ht⟩ := hfl.lists j hj
        have hother : ∀ x, x ∈ ls j → ∃ sx, F x sx ∧ x ≠ bp ∧ x ≠ GET s.mem bp ∧
            x ≠ GET s.mem (bp + 4) := by
          intro x hx
          obtain ⟨sx, h1, h2⟩ := hfl.mem_F j hj x hx
          refine ⟨sx, h1, ?_, ?_, ?_⟩
          · rintro rfl; exact hji (by rw [← h2, hfl.func h1 hF])
          · intro e
            by_cases h0 : GET s.mem bp = 0
            · exact dllseg_nonzero ht x hx (e.trans h0)
            · have := hpm_mem h0
              exact hji (hfl.bucket_unique hj hi hx (by rw [hsplit, e]; simp [this]))
          · intro e
            by_cases h0 : GET s.mem (bp + 4) = 0
            · exact dllseg_nonzero ht x hx (e.trans h0)
            · have := hv_mem h0
              exact hji (hfl.bucket_unique hj hi hx (by rw [hsplit, e]; simp [this]))
        have e : GET s2.mem (s.heap_listp + 4 * j) = GET s.mem (s.heap_listp + 4 * j) := by
          apply hword
          · omega
          · intro h
            obtain ⟨sx, hx1, _, _⟩ := hnode _ (Or.inl (hpm_mem h))
            have := hFbnd _ _ hx1; omega
          · intro h
            obtain ⟨sx, hx1, _, _⟩ := hnode _ (Or.inr (hv_mem h))
            have := hFbnd _ _ hx1; omega
        rw [e]
        refine ⟨t, dllseg_congr ht ?_⟩
        intro x hx
        obtain ⟨sx, hx1, hx2, hx3, hx4⟩ := hother x hx
        have := hFbnd x sx hx1
        have := hfar x sx hx1 hx2
        constructor <;> (apply hword <;> omega)
    · intro j hj x hx
      by_cases hji : j = bucketIdx sz
      · subst hji
        rw [Function.update_same, herase] at hx
        obtain ⟨sx, h1, h2, h3⟩ := hnode x (by simpa using hx)
        exact ⟨sx, ⟨h1, h2⟩, h3⟩
      · rw [Function.update_noteq hji] at hx
        obtain ⟨sx, h1, h2⟩ := hfl.mem_F j hj x hx
        refine ⟨sx, ⟨h1, ?_⟩, h2⟩
        rintro rfl; exact hji (by rw [← h2, hfl.func h1 hF])
    · intro x sx ⟨hx1, hx2⟩
      have hm := hfl.F_mem x sx hx1
      by_cases hji : bucketIdx sx = bucketIdx sz
      · rw [hji, Function.update_same, herase]
        rw [hji, hsplit] at hm
        simp only [List.mem_append, List.mem_cons] at hm ⊢
        rcases hm with h | h | h
        · exact Or.inl h
        · exact absurd h hx2
        · exact Or.inr h
      · rw [Function.update_noteq hji]; exact hm
    · intro j hj
      by_cases hji : j = bucketIdx sz
      · subst hji
        rw [Function.update_same, herase]
        exact List.Nodup.sublist (by simp) hnd
      · rw [Function.update_noteq hji]; exact hfl.nodup j hj
    · intro x sx ⟨hx1, hx2⟩
      have := hFbnd x sx hx1
      have := hfl.bnd x sx hx1
      have hd1 : GET s.mem bp ≠ 0 → x = GET s.mem bp ∨ x + sx ≤ GET s.mem bp ∨
          GET s.mem bp + 16 ≤ x := by
        intro h
        obtain ⟨sy, hy, _, _⟩ := hnode _ (Or.inl (hpm_mem h))
        have := hfl.disj x sx _ sy hx1 hy
        have := hfl.bnd _ sy hy
        omega
      have hd2 : GET s.mem (bp + 4) ≠ 0 → x = GET s.mem (bp + 4) ∨
          x + sx ≤ GET s.mem (bp + 4) ∨ GET s.mem (bp + 4) + 16 ≤ x := by
        intro h
        obtain ⟨sy, hy, _, _⟩ := hnode _ (Or.inr (hv_mem h))
        have := hfl.disj x sx _ sy hx1 hy
        have := hfl.bnd _ sy hy
        omega
      have e : GET s2.mem (x - 4) = GET s.mem (x - 4) := by
        apply hword <;> omega
      rw [e]; exact hfl.hdr x sx hx1
    · intro x sx ⟨hx1, _⟩; exact hfl.bnd x sx hx1
    · intro x sx y sy ⟨hx1, _⟩ ⟨hy1, _⟩; exact hfl.disj x sx y sy hx1 hy1

/-! ## `add_free_list` -/

theorem add_walk_spec (m : Mem) (size : Nat) :
    ∀ (l : List Nat) (fuel c p p0 t : Nat), dllseg m c p l 0 t →
      (∀ x, x ∈ l → x + 4 < 4294967296) → l.length < fuel →
      ∃ r, add_walk fuel m size c p0 = some r ∧ (r = p0 ∨ r ∈ l) := by
  intro l
  induction l with
  | nil =>
    intro fuel c p p0 t hd _ hf
    obtain ⟨f, rfl⟩ : ∃ f, fuel = f + 1 := ⟨fuel - 1, by simp at hf; omega⟩
    obtain ⟨e, _⟩ := hd
    exact ⟨p0, by simp [add_walk, e], Or.inl rfl⟩
  | cons x xs ih =>
    intro fuel c p p0 t hd hb hf
    obtain ⟨f, rfl⟩ : ∃ f, fuel = f + 1 := ⟨fuel - 1, by simp at hf; omega⟩
    obtain ⟨e1, e2, e3, e4⟩ := hd
    subst e1
    by_cases hc : GET_SIZE m (HDRP c) < size
    · have hp : padd c WSIZE = c + 4 := padd_eq _ _ (by have := hb c (by simp); unfold WSIZE; omega)
      obtain ⟨r, hr, hr2⟩ := ih f (GET m (c + 4)) c c t e4
        (fun y hy => hb y (by simp [hy])) (by simp at hf; omega)
      refine ⟨r, ?_, ?_⟩
      · simp only [add_walk, ne_eq, e2, not_false_eq_true, hc, and_self, if_true, hp]
        exact hr
      · rcases hr2 with h | h
        · right; simp [h]
        · right; simp [h]
    · exact ⟨p0, by simp [add_walk, hc], Or.inl rfl⟩

theorem ofInt32_toInt32 (x : Nat) (h : x < 2147483648) : ofInt32 (toInt32 x) = x := by
  rw [toInt32_eq x h, ofInt32_eq x (by omega)]

/-- The memory effect of `add_free_list`: the block becomes the only node of an empty
bucket, or is spliced in right after the node `t` found by the list walk. -/
theorem add_mem (s : Heap) (bp sz t : Nat)
    (hb1 : s.heap_listp + 344 ≤ bp) (hb2 : bp + 8 < 4294967296)
    (hsz : GET s.mem (bp - 4) / 8 * 8 = sz) (hlt : sz < 2147483648)
    (hwalk : GET s.mem (s.heap_listp + 4 * bucketIdx sz) ≠ 0 →
      add_walk FUEL s.mem sz (GET s.mem (s.heap_listp + 4 * bucketIdx sz))
        (GET s.mem (s.heap_listp + 4 * bucketIdx sz)) = some t)
    (ht : GET s.mem (s.heap_listp + 4 * bucketIdx sz) ≠ 0 →
      s.heap_listp + 344 ≤ t ∧ t + 8 < 4294967296 ∧ (t + 16 ≤ bp ∨ bp + 16 ≤ t))
    (hn : GET s.mem (s.heap_listp + 4 * bucketIdx sz) ≠ 0 → GET s.mem (t + 4) ≠ 0 →
      s.heap_listp + 344 ≤ GET s.mem (t + 4) ∧
      (GET s.mem (t + 4) + 16 ≤ bp ∨ bp + 16 ≤ GET s.mem (t + 4)) ∧
      (GET s.mem (t + 4) + 16 ≤ t ∨ t + 16 ≤ GET s.mem (t + 4))) :
    ∃ s2, add_free_list s bp = some s2 ∧
      s2.mem_brk = s.mem_brk ∧ s2.mem_max_addr = s.mem_max_addr ∧
      s2.heap_listp = s.heap_listp ∧ s2.gcount = s.gcount + 1 ∧
      s2.gminlist = (if s.gminlist > (bucketIdx sz : Int) ∨ s.gminlist = 100
        then (bucketIdx sz : Int) else s.gminlist) ∧
      (∀ a, ¬ (s.heap_listp + 4 * bucketIdx sz ≤ a ∧ a < s.heap_listp + 4 * bucketIdx sz + 4) →
        ¬ (bp ≤ a ∧ a < bp + 8) →
        ¬ (GET s.mem (s.heap_listp + 4 * bucketIdx sz) ≠ 0 ∧ t + 4 ≤ a ∧ a < t + 8) →
        ¬ (GET s.mem (s.heap_listp + 4 * bucketIdx sz) ≠ 0 ∧ GET s.mem (t + 4) ≠ 0 ∧
            GET s.mem (t + 4) ≤ a ∧ a < GET s.mem (t + 4) + 4) →
        s2.mem a = s.mem a) ∧
      GET s2.mem (s.heap_listp + 4 * bucketIdx sz) =
        (if GET s.mem (s.heap_listp + 4 * bucketIdx sz) = 0 then bp
         else GET s.mem (s.heap_listp + 4 * bucketIdx sz)) ∧
      GET s2.mem bp = (if GET s.mem (s.heap_listp + 4 * bucketIdx sz) = 0 then 0 else t) ∧
      GET s2.mem (bp + 4) =
        (if GET s.mem (s.heap_listp + 4 * bucketIdx sz) = 0 then 0 else GET s.mem (t + 4)) ∧
      (GET s.mem (s.heap_listp + 4 * bucketIdx sz) ≠ 0 → GET s2.mem (t + 4) = bp) ∧
      (GET s.mem (s.heap_listp + 4 * bucketIdx sz) ≠ 0 → GET s.mem (t + 4) ≠ 0 →
        GET s2.mem (GET s.mem (t + 4)) = bp) := by
  have hi := bucketIdx_lt sz
  have hsize : GET_SIZE s.mem (HDRP bp) = sz := by
    rw [HDRP_eq bp (by omega) (by omega), GET_SIZE_eq, hsz]
  have hml := minlist_eq sz hlt
  have hpo : poff s.heap_listp ((bucketIdx sz : Int) * 4) = s.heap_listp + 4 * bucketIdx sz :=
    poff_bucket _ _ (by omega)
  have hpa : padd bp WSIZE = bp + 4 := padd_eq _ _ (by unfold WSIZE; omega)
  have hof := ofInt32_toInt32 sz hlt
  by_cases h0 : GET s.mem (s.heap_listp + 4 * bucketIdx sz) = 0
  · have key : add_free_list s bp = some { s with
        mem := PUT (PUT (PUT s.mem (s.heap_listp + 4 * bucketIdx sz) bp) bp 0) (bp + 4) 0,
        gcount := s.gcount + 1,
        gminlist := if s.gminlist > (bucketIdx sz : Int) ∨ s.gminlist = 100
          then (bucketIdx sz : Int) else s.gminlist } := by
      unfold add_free_list
      simp only [hsize, hml, hpo, hpa, h0, if_true]
    refine ⟨_, key, rfl, rfl, rfl, rfl, rfl, ?_, ?_, ?_, ?_, fun h => absurd h0 h,
      fun h => absurd h0 h⟩
    · intro a h1 h2 _ _
      show PUT (PUT (PUT _ _ _) _ _) _ _ a = _
      rw [PUT_out _ _ _ _ (by omega), PUT_out _ _ _ _ (by omega), PUT_out _ _ _ _ (by omega)]
    · show GET (PUT (PUT (PUT _ _ _) _ _) _ _) _ = _
      rw [GET_PUT_ne _ _ _ _ (by omega), GET_PUT_ne _ _ _ _ (by omega),
        GET_PUT_eq _ _ _ (by omega)]; simp [h0]
    · show GET (PUT (PUT (PUT _ _ _) _ _) _ _) _ = _
      rw [GET_PUT_ne _ _ _ _ (by omega), GET_PUT_eq _ _ _ (by omega)]; simp [h0]
    · show GET (PUT (PUT (PUT _ _ _) _ _) _ _) _ = _
      rw [GET_PUT_eq _ _ _ (by omega)]; simp [h0]
  · obtain ⟨ht1, ht2, ht3⟩ := ht h0
    have hw := hwalk h0
    have hpt : padd t WSIZE = t + 4 := padd_eq _ _ (by unfold WSIZE; omega)
    have hlv := GET_lt s.mem (t + 4)
    by_cases hn0 : GET s.mem (t + 4) = 0
    · have key : add_free_list s bp = some { s with
          mem := PUT (PUT (PUT s.mem (t + 4) bp) bp t) (bp + 4) (GET s.mem (t + 4)),
          gcount := s.gcount + 1,
          gminlist := if s.gminlist > (bucketIdx sz : Int) ∨ s.gminlist = 100
            then (bucketIdx sz : Int) else s.gminlist } := by
        unfold add_free_list
        simp only [hsize, hml, hpo, hpa, h0, if_false, hof, hw, Option.map_some', hpt, hn0,
          ne_eq, not_true_eq_false]
      refine ⟨_, key, rfl, rfl, rfl, rfl, rfl, ?_, ?_, ?_, ?_, ?_, fun _ h => absurd hn0 h⟩
      · intro a _ h2 h3 _
        show PUT (PUT (PUT _ _ _) _ _) _ _ a = _
        rw [PUT_out _ _ _ _ (by omega), PUT_out _ _ _ _ (by omega), PUT_out _ _ _ _ (by omega)]
      · show GET (PUT (PUT (PUT _ _ _) _ _) _ _) _ = _
        rw [GET_PUT_ne _ _ _ _ (by omega), GET_PUT_ne _ _ _ _ (by omega),
          GET_PUT_ne _ _ _ _ (by omega)]; simp [h0]
      · show GET (PUT (PUT (PUT _ _ _) _ _) _ _) _ = _
        rw [GET_PUT_ne _ _ _ _ (by omega), GET_PUT_eq _ _ _ (by omega)]; simp [h0]
      · show GET (PUT (PUT (PUT _ _ _) _ _) _ _) _ = _
        rw [GET_PUT_eq _ _ _ (by omega)]; simp [h0]
      · intro _
        show GET (PUT (PUT (PUT _ _ _) _ _) _ _) _ = _
        rw [GET_PUT_ne _ _ _ _ (by omega), GET_PUT_ne _ _ _ _ (by omega),
          GET_PUT_eq _ _ _ (by omega)]
    · obtain ⟨hn1, hn2, hn3⟩ := hn h0 hn0
      have key : add_free_list s bp = some { s with
          mem := PUT (PUT (PUT (PUT s.mem (t + 4) bp) (GET s.mem (t + 4)) bp) bp t) (bp + 4)
            (GET s.mem (t + 4)),
          gcount := s.gcount + 1,
          gminlist := if s.gminlist > (bucketIdx sz : Int) ∨ s.gminlist = 100
            then (bucketIdx sz : Int) else s.gminlist } := by
        unfold add_free_list
        simp only [hsize, hml, hpo, hpa, h0, if_false, hof, hw, Option.map_some', hpt, hn0,
          ne_eq, not_false_eq_true, if_true]
      refine ⟨_, key, rfl, rfl, rfl, rfl, rfl, ?_, ?_, ?_, ?_, ?_, ?_⟩
      · intro a _ h2 h3 h4
        show PUT (PUT (PUT (PUT _ _ _) _ _) _ _) _ _ a = _
        rw [PUT_out _ _ _ _ (by omega), PUT_out _ _ _ _ (by omega), PUT_out _ _ _ _ (by omega),
          PUT_out _ _ _ _ (by omega)]
      · show GET (PUT (PUT (PUT (PUT _ _ _) _ _) _ _) _ _) _ = _
        rw [GET_PUT_ne _ _ _ _ (by omega), GET_PUT_ne _ _ _ _ (by omega),
          GET_PUT_ne _ _ _ _ (by omega), GET_PUT_ne _ _ _ _ (by omega)]; simp [h0]
      · show GET (PUT (PUT (PUT (PUT _ _ _) _ _) _ _) _ _) _ = _
        rw [GET_PUT_ne _ _ _ _ (by omega), GET_PUT_eq _ _ _ (by omega)]; simp [h0]
      · show GET (PUT (PUT (PUT (PUT _ _ _) _ _) _ _) _ _) _ = _
        rw [GET_PUT_eq _ _ _ (by omega)]; simp [h0]
      · intro _
        show GET (PUT (PUT (PUT (PUT _ _ _) _ _) _ _) _ _) _ = _
        rw [GET_PUT_ne _ _ _ _ (by omega), GET_PUT_ne _ _ _ _ (by omega),
          GET_PUT_ne _ _ _ _ (by omega), GET_PUT_eq _ _ _ (by omega)]
      · intro _ _
        show GET (PUT (PUT (PUT (PUT _ _ _) _ _) _ _) _ _) _ = _
        rw [GET_PUT_ne _ _ _ _ (by omega), GET_PUT_ne _ _ _ _ (by omega),
          GET_PUT_eq _ _ _ (by omega)]

/-- Word-level consequences of a frame condition that confines the written bytes to one
bucket head word, the link words of a block `u`, the successor word of a node `t` and the
predecessor word of a node `n`. -/
theorem frame_words (m m2 : Mem) (hl i u t n : Nat) (c0 c1 c2 : Prop)
    (P1 : ∀ a, ¬ (hl + 4 * i ≤ a ∧ a < hl + 4 * i + 4) → ¬ (c0 ∧ u ≤ a ∧ a < u + 8) →
      ¬ (c1 ∧ t + 4 ≤ a ∧ a < t + 8) → ¬ (c2 ∧ n ≤ a ∧ a < n + 4) → m2 a = m a)
    (hi : i < 84) :
    (∀ x, hl + 344 ≤ x → (c0 → x + 16 ≤ u ∨ u + 16 ≤ x) →
      (c1 → x = t ∨ x + 16 ≤ t ∨ t + 16 ≤ x) → (c2 → x = n ∨ x + 16 ≤ n ∨ n + 16 ≤ x) →
      ((c2 → x ≠ n) → GET m2 x = GET m x) ∧
      ((c1 → x ≠ t) → GET m2 (x + 4) = GET m (x + 4)) ∧
      GET m2 (x - 4) = GET m (x - 4)) ∧
    (∀ j, j < 84 → j ≠ i → (c0 → hl + 344 ≤ u) → (c1 → hl + 344 ≤ t) → (c2 → hl + 344 ≤ n) →
      GET m2 (hl + 4 * j) = GET m (hl + 4 * j)) ∧
    (hl + 344 ≤ u → (c1 → t + 16 ≤ u ∨ u + 16 ≤ t) → (c2 → n + 16 ≤ u ∨ u + 16 ≤ n) →
      GET m2 (u - 4) = GET m (u - 4)) := by
  refine ⟨?_, ?_, ?_⟩
  · intro x hx h0 h1 h2
    refine ⟨?_, ?_, ?_⟩
    · intro hne
      apply GET_congr
      intro a ha1 ha2
      apply P1 a
      · omega
      · intro ⟨c, _, _⟩; have := h0 c; omega
      · intro ⟨c, _, _⟩; have := h1 c; omega
      · intro ⟨c, _, _⟩; have := h2 c; have := hne c; omega
    · intro hne
      apply GET_congr
      intro a ha1 ha2
      apply P1 a
      · omega
      · intro ⟨c, _, _⟩; have := h0 c; omega
      · intro ⟨c, _, _⟩; have := h1 c; have := hne c; omega
      · intro ⟨c, _, _⟩; have := h2 c; omega
    · apply GET_congr
      intro a ha1 ha2
      apply P1 a
      · omega
      · intro ⟨c, _, _⟩; have := h0 c; omega
      · intro ⟨c, _, _⟩; have := h1 c; omega
      · intro ⟨c, _, _⟩; have := h2 c; omega
  · intro j hj hji h0 h1 h2
    apply GET_congr
    intro a ha1 ha2
    apply P1 a
    · omega
    · intro ⟨c, _, _⟩; have := h0 c; omega
    · intro ⟨c, _, _⟩; have := h1 c; omega
    · intro ⟨c, _, _⟩; have := h2 c; omega
  · intro hu h1 h2
    apply GET_congr
    intro a ha1 ha2
    apply P1 a
    · omega
    · intro ⟨c, _, _⟩; omega
    · intro ⟨c, _, _⟩; have := h1 c; omega
    · intro ⟨c, _, _⟩; have := h2 c; omega

set_option maxHeartbeats 1600000 in
theorem add_spec (s : Heap) (bp sz : Nat) (ls : Nat → List Nat) (F : Nat → Nat → Prop)
    (hfl : FLInv s.mem s.heap_listp ls F)
    (hsz : GET s.mem (bp - 4) / 8 * 8 = sz)
    (hb : 16 ≤ sz ∧ sz < 2147483648 ∧ s.heap_listp + 344 ≤ bp ∧ bp + sz < 4294967296)
    (hnew : ∀ x sx, F x sx → x + sx ≤ bp ∨ bp + sz ≤ x) :
    ∃ s2 l, add_free_list s bp = some s2 ∧
      s2.mem_brk = s.mem_brk ∧ s2.mem_max_addr = s.mem_max_addr ∧
      s2.heap_listp = s.heap_listp ∧ s2.gcount = s.gcount + 1 ∧
      (∀ a, ¬ Touch s.heap_listp (fun x z => F x z ∨ (x = bp ∧ z = sz)) a →
        s2.mem a = s.mem a) ∧
      l.Perm (bp :: ls (bucketIdx sz)) ∧
      FLInv s2.mem s.heap_listp (Function.update ls (bucketIdx sz) l)
        (fun x z => F x z ∨ (x = bp ∧ z = sz)) ∧
      (s.gcount = (idxCount ls : Int) → IsMin ls s.gminlist →
        s2.gcount = (idxCount (Function.update ls (bucketIdx sz) l) : Int) ∧
        IsMin (Function.update ls (bucketIdx sz) l) s2.gminlist) := by
  have hi := bucketIdx_lt sz
  obtain ⟨t0, hd⟩ := hfl.lists _ hi
  have hnd := hfl.nodup _ hi
  have hFb : ∀ x sx, F x sx → s.heap_listp + 344 ≤ x ∧ x + 8 < 4294967296 ∧
      (x + 16 ≤ bp ∨ bp + 16 ≤ x) := by
    intro x sx h1
    have h2 := hfl.bnd x sx h1
    have h3 := hnew x sx h1
    clear * - h2 h3 hb
    omega
  have hbpF : ∀ sx, ¬ F bp sx := by
    intro sx h
    have := (hFb bp sx h).2.2
    omega
  have hbp_notin : bp ∉ ls (bucketIdx sz) := by
    intro h
    obtain ⟨sx, h1, _⟩ := hfl.mem_F _ hi bp h
    exact hbpF sx h1
  have hb1 : s.heap_listp + 344 ≤ bp := hb.2.2.1
  have hb2 : bp + 8 < 4294967296 := by clear * - hb; omega
  have hb3 : bp ≠ 0 := by clear * - hb; omega
  have hb4 : sz < 2147483648 := hb.2.1
  -- run the code and rebuild the list of the bucket
  obtain ⟨s2, l, hrun, hbrk, hmax, hhl, hgc, hgm, P1, hperm, hlist, hNode, hBucket, hHdr⟩ :
      ∃ s2 l, add_free_list s bp = some s2 ∧
        s2.mem_brk = s.mem_brk ∧ s2.mem_max_addr = s.mem_max_addr ∧
        s2.heap_listp = s.heap_listp ∧ s2.gcount = s.gcount + 1 ∧
        s2.gminlist = (if s.gminlist > (bucketIdx sz : Int) ∨ s.gminlist = 100
          then (bucketIdx sz : Int) else s.gminlist) ∧
        (∀ a, ¬ (s.heap_listp + 4 * bucketIdx sz ≤ a ∧ a < s.heap_listp + 4 * bucketIdx sz + 4) →
          ¬ (bp ≤ a ∧ a < bp + 8) →
          (∀ x, x ∈ ls (bucketIdx sz) → ¬ (x ≤ a ∧ a < x + 8)) → s2.mem a = s.mem a) ∧
        l.Perm (bp :: ls (bucketIdx sz)) ∧
        (∃ t2, dllseg s2.mem (GET s2.mem (s.heap_listp + 4 * bucketIdx sz)) 0 l 0 t2) ∧
        (∀ x sx, F x sx →
          (x ∉ ls (bucketIdx sz) →
            GET s2.mem x = GET s.mem x ∧ GET s2.mem (x + 4) = GET s.mem (x + 4)) ∧
          GET s2.mem (x - 4) = GET s.mem (x - 4)) ∧
        (∀ j, j < 84 → j ≠ bucketIdx sz →
          GET s2.mem (s.heap_listp + 4 * j) = GET s.mem (s.heap_listp + 4 * j)) ∧
        GET s2.mem (bp - 4) = GET s.mem (bp - 4) := by
    by_cases h0 : GET s.mem (s.heap_listp + 4 * bucketIdx sz) = 0
    · have hnil : ls (bucketIdx sz) = [] := (dllseg_head_zero hd).1 h0
      obtain ⟨s2, hrun, hbrk, hmax, hhl, hgc, hgm, P1, P2, P3, P4, _, _⟩ := add_mem s bp sz 0
        hb1 hb2 hsz hb4 (fun h => absurd h0 h) (fun h => absurd h0 h)
        (fun h => absurd h0 h)
      obtain ⟨W1, W2, W3⟩ := frame_words s.mem s2.mem s.heap_listp (bucketIdx sz) bp 0
        (GET s.mem (0 + 4)) True (GET s.mem (s.heap_listp + 4 * bucketIdx sz) ≠ 0)
        (GET s.mem (s.heap_listp + 4 * bucketIdx sz) ≠ 0 ∧ GET s.mem (0 + 4) ≠ 0)
        (fun a h0 h1 h2 h3 => P1 a h0 (fun h => h1 ⟨trivial, h⟩) h2
          (fun h => h3 ⟨⟨h.1, h.2.1⟩, h.2.2⟩)) hi
      refine ⟨s2, [bp], hrun, hbrk, hmax, hhl, hgc, hgm, ?_, by rw [hnil], ?_, ?_, ?_, ?_⟩
      · intro a h1 h2 _
        exact P1 a h1 h2 (fun h => h.1 h0) (fun h => h.1 h0)
      · rw [P2]
        simp only [h0, if_true]
        refine ⟨bp, rfl, hb3, P3.trans (by simp [h0]), ?_⟩
        rw [P4]
        simp only [h0, if_true]
        exact ⟨rfl, rfl⟩
      · intro x sx hx
        obtain ⟨hx1, _, hx3⟩ := hFb x sx hx
        have := W1 x hx1 (fun _ => hx3) (fun h => absurd h0 h) (fun h => absurd h0 h.1)
        exact ⟨fun _ => ⟨this.1 (fun h => absurd h0 h.1), this.2.1 (fun h => absurd h0 h)⟩,
          this.2.2⟩
      · intro j hj hji
        exact W2 j hj hji (fun _ => hb1) (fun h => absurd h0 h) (fun h => absurd h0 h.1)
      · exact W3 hb1 (fun h => absurd h0 h) (fun h => absurd h0 h.1)
    · have hne : ls (bucketIdx sz) ≠ [] := fun e => h0 ((dllseg_head_zero hd).2 e)
      have hhead : GET s.mem (s.heap_listp + 4 * bucketIdx sz) ∈ ls (bucketIdx sz) := by
        cases hl : ls (bucketIdx sz) with
        | nil => exact absurd hl hne
        | cons y ys => rw [hl] at hd; obtain ⟨e, _⟩ := hd; simp [e]
      have hlen : (ls (bucketIdx sz)).length < FUEL := by
        unfold FUEL
        apply nodup_length_lt hnd
        intro x hx
        obtain ⟨sx, h1, _⟩ := hfl.mem_F _ hi x hx
        have := hFb x sx h1
        exact ⟨dllseg_nonzero hd x hx, by omega⟩
      obtain ⟨t, hw, ht⟩ := add_walk_spec s.mem sz _ FUEL _ 0
        (GET s.mem (s.heap_listp + 4 * bucketIdx sz)) t0 hd
        (fun x hx => by
          obtain ⟨sx, h1, _⟩ := hfl.mem_F _ hi x hx
          have := hFb x sx h1
          omega) hlen
      have htm : t ∈ ls (bucketIdx sz) := by
        rcases ht with h | h
        · rw [h]; exact hhead
        · exact h
      clear ht hhead hlen
      obtain ⟨l1, l2, hsplit⟩ := List.append_of_mem htm
      rw [hsplit] at hnd hd
      have hnd1 : l1.Nodup := (List.nodup_append.1 hnd).1
      have hnd2 : l2.Nodup := (List.nodup_cons.1 (List.nodup_append.1 hnd).2.1).2
      have ht1 : t ∉ l1 := fun h => (List.nodup_append.1 hnd).2.2 h (by simp)
      have ht2 : t ∉ l2 := (List.nodup_cons.1 (List.nodup_append.1 hnd).2.1).1
      have h12 : ∀ x, x ∈ l1 → x ∉ l2 := fun x h1 h2 =>
        (List.nodup_append.1 hnd).2.2 h1 (by simp [h2])
      rw [dllseg_append] at hd
      obtain ⟨hm, pm, ha, hb5⟩ := hd
      obtain ⟨e1, ht0, e3, hc⟩ := hb5
      rw [e1] at ha
      clear e1
      have hv_zero : GET s.mem (t + 4) = 0 ↔ l2 = [] := dllseg_head_zero hc
      have hv_mem : GET s.mem (t + 4) ≠ 0 → GET s.mem (t + 4) ∈ l2 := by
        intro h
        cases l2 with
        | nil => exact absurd (hv_zero.2 rfl) h
        | cons z zs => obtain ⟨e, _⟩ := hc; simp [e]
      have hin : ∀ x, x ∈ l1 ∨ x = t ∨ x ∈ l2 → x ∈ ls (bucketIdx sz) := by
        intro x hx
        rw [hsplit, List.mem_append, List.mem_cons]
        rcases hx with h | h | h
        · exact Or.inl h
        · exact Or.inr (Or.inl h)
        · exact Or.inr (Or.inr h)
      have hF2 : ∀ x, x ∈ ls (bucketIdx sz) → ∃ sx, F x sx := by
        intro x hx
        obtain ⟨sx, h1, _⟩ := hfl.mem_F _ hi x hx
        exact ⟨sx, h1⟩
      obtain ⟨st, hFt⟩ := hF2 t htm
      have htb := hFb t st hFt
      have hnm : GET s.mem (t + 4) ≠ 0 → GET s.mem (t + 4) ∈ ls (bucketIdx sz) :=
        fun h => hin _ (Or.inr (Or.inr (hv_mem h)))
      have hnt : GET s.mem (t + 4) ≠ 0 → GET s.mem (t + 4) ≠ t := fun h e => ht2 (e ▸ hv_mem h)
      obtain ⟨s2, hrun, hbrk, hmax, hhl, hgc, hgm, P1, P2, P3, P4, P5, P6⟩ := add_mem s bp sz t
        hb1 hb2 hsz hb4 (fun _ => hw) (fun _ => htb)
        (fun _ h => by
          obtain ⟨sx, hx⟩ := hF2 _ (hnm h)
          have h1 := hFb _ sx hx
          have h2 := hfl.far hx hFt (hnt h)
          exact ⟨h1.1, h1.2.2, h2⟩)
      obtain ⟨W1, W2, W3⟩ := frame_words s.mem s2.mem s.heap_listp (bucketIdx sz) bp t
        (GET s.mem (t + 4)) True (GET s.mem (s.heap_listp + 4 * bucketIdx sz) ≠ 0)
        (GET s.mem (s.heap_listp + 4 * bucketIdx sz) ≠ 0 ∧ GET s.mem (t + 4) ≠ 0)
        (fun a h0 h1 h2 h3 => P1 a h0 (fun h => h1 ⟨trivial, h⟩) h2
          (fun h => h3 ⟨⟨h.1, h.2.1⟩, h.2.2⟩)) hi
      -- word-level facts for every block of the index
      have hW : ∀ x sx, F x sx →
          ((GET s.mem (t + 4) ≠ 0 → x ≠ GET s.mem (t + 4)) → GET s2.mem x = GET s.mem x) ∧
          (x ≠ t → GET s2.mem (x + 4) = GET s.mem (x + 4)) ∧
          GET s2.mem (x - 4) = GET s.mem (x - 4) := by
        intro x sx hx
        obtain ⟨hx1, _, hx3⟩ := hFb x sx hx
        have := W1 x hx1 (fun _ => hx3)
          (fun _ => by
            by_cases e : x = t
            · exact Or.inl e
            · exact Or.inr (hfl.far hx hFt e))
          (fun h => by
            by_cases e : x = GET s.mem (t + 4)
            · exact Or.inl e
            · obtain ⟨sy, hy⟩ := hF2 _ (hnm h.2)
              exact Or.inr (hfl.far hx hy e))
        exact ⟨fun h => this.1 (fun c => h c.2), fun h => this.2.1 (fun _ => h), this.2.2⟩
      have hvne : ∀ x, x ∈ l1 ∨ x = t → GET s.mem (t + 4) ≠ 0 → x ≠ GET s.mem (t + 4) := by
        intro x hx hz e
        rcases hx with hx | hx
        · exact h12 _ hx (e ▸ hv_mem hz)
        · exact ht2 (hx ▸ e ▸ hv_mem hz)
      refine ⟨s2, (l1 ++ [t]) ++ bp :: l2, hrun, hbrk, hmax, hhl, hgc, hgm, ?_, ?_, ?_, ?_, ?_, ?_⟩
      · intro a h1 h2 h3
        apply P1 a h1 h2
        · intro ⟨_, h4, h5⟩
          exact h3 t htm ⟨by omega, h5⟩
        · intro ⟨_, h4, h5, h6⟩
          exact h3 _ (hnm h4) ⟨h5, by omega⟩
      · rw [hsplit]
        have := @List.perm_middle _ bp (l1 ++ [t]) l2
        simpa using this
      · -- the new list
        have hseg : dllseg s.mem (GET s.mem (s.heap_listp + 4 * bucketIdx sz)) 0 (l1 ++ [t])
            (GET s.mem (t + 4)) t :=
          dllseg_append.2 ⟨_, _, ha, rfl, ht0, e3, rfl, rfl⟩
        have hndt : (l1 ++ [t]).Nodup := by
          rw [List.nodup_append]
          refine ⟨hnd1, by simp, ?_⟩
          intro x hx hx2
          simp only [List.mem_singleton] at hx2
          exact ht1 (hx2 ▸ hx)
        have A := @dllseg_set_next _ s2.mem _ _ _ _ bp _ hseg hndt
          (by
            intro x hx
            have hx2 : x ∈ l1 ∨ x = t := by simpa using hx
            obtain ⟨sx, hx3⟩ := hF2 x (hin x (hx2.elim Or.inl (fun h => Or.inr (Or.inl h))))
            exact (hW x sx hx3).1 (hvne x hx2))
          (by
            intro x hx hne
            have hx2 : x ∈ l1 ∨ x = t := by simpa using hx
            obtain ⟨sx, hx3⟩ := hF2 x (hin x (hx2.elim Or.inl (fun h => Or.inr (Or.inl h))))
            exact (hW x sx hx3).2.1 hne)
          (fun _ => P5 h0)
        have A2 : dllseg s2.mem (GET s.mem (s.heap_listp + 4 * bucketIdx sz)) 0 (l1 ++ [t]) bp t := by
          simpa using A
        obtain ⟨t2, B⟩ := @dllseg_set_prev _ s2.mem _ _ _ bp _ hc
          (by
            intro x hx
            obtain ⟨sx, hx3⟩ := hF2 x (hin x (Or.inr (Or.inr hx)))
            exact (hW x sx hx3).2.1 (fun e => ht2 (e ▸ hx)))
          (by
            intro x hx hne
            obtain ⟨sx, hx3⟩ := hF2 x (hin x (Or.inr (Or.inr hx)))
            exact (hW x sx hx3).1 (fun _ => hne))
          (fun h => P6 h0 (fun e => h (hv_zero.1 e)))
          hnd2
        rw [P2]
        simp only [h0, if_false]
        refine ⟨t2, dllseg_append.2 ⟨_, _, A2, rfl, hb3, ?_, ?_⟩⟩
        · rw [P3]; simp [h0]
        · rw [P4]; simpa [h0] using B
      · intro x sx hx
        have := hW x sx hx
        refine ⟨fun hnot => ⟨this.1 ?_, this.2.1 ?_⟩, this.2.2⟩
        · intro h e; exact hnot (e ▸ hnm h)
        · intro e; exact hnot (e ▸ htm)
      · intro j hj hji
        refine W2 j hj hji (fun _ => hb1) (fun _ => htb.1) (fun h => ?_)
        obtain ⟨sx, hx⟩ := hF2 _ (hnm h.2)
        exact (hFb _ sx hx).1
      · refine W3 hb1 (fun _ => htb.2.2) (fun h => ?_)
        obtain ⟨sx, hx⟩ := hF2 _ (hnm h.2)
        exact (hFb _ sx hx).2.2
  refine ⟨s2, l, hrun, hbrk, hmax, hhl, hgc, ?_, hperm, ?_, ?_⟩
  · intro a hT
    apply P1 a
    · intro h; exact hT (Or.inl ⟨by omega, by omega⟩)
    · intro h; exact hT (Or.inr ⟨bp, sz, Or.inr ⟨rfl, rfl⟩, h.1, h.2⟩)
    · intro x hx h
      obtain ⟨sx, h1, _⟩ := hfl.mem_F _ hi x hx
      exact hT (Or.inr ⟨x, sx, Or.inl h1, h.1, h.2⟩)
  · refine ⟨?_, ?_, ?_, ?_, ?_, ?_, ?_⟩
    · intro j hj
      by_cases hji : j = bucketIdx sz
      · subst hji
        rw [Function.update_same]; exact hlist
      · rw [Function.update_noteq hji, hBucket j hj hji]
        obtain ⟨t, ht⟩ := hfl.lists j hj
        refine ⟨t, dllseg_congr ht ?_⟩
        intro x hx
        obtain ⟨sx, h1, _⟩ := hfl.mem_F j hj x hx
        exact (hNode x sx h1).1 (fun h => hji (hfl.bucket_unique hj hi hx h))
    · intro j hj x hx
      by_cases hji : j = bucketIdx sz
      · subst hji
        rw [Function.update_same] at hx
        have hx2 := (hperm.mem_iff).1 hx
        rw [List.mem_cons] at hx2
        rcases hx2 with h | h
        · exact ⟨sz, Or.inr ⟨h, rfl⟩, rfl⟩
        · obtain ⟨sx, h1, h2⟩ := hfl.mem_F _ hi x h
          exact ⟨sx, Or.inl h1, h2⟩
      · rw [Function.update_noteq hji] at hx
        obtain ⟨sx, h1, h2⟩ := hfl.mem_F j hj x hx
        exact ⟨sx, Or.inl h1, h2⟩
    · intro x sx h
      rcases h with h | ⟨h1, h2⟩
      · have hm := hfl.F_mem x sx h
        by_cases hji : bucketIdx sx = bucketIdx sz
        · rw [hji, Function.update_same]
          rw [hji] at hm
          exact (hperm.mem_iff).2 (List.mem_cons_of_mem _ hm)
        · rw [Function.update_noteq hji]; exact hm
      · subst h1 h2
        rw [Function.update_same]
        exact (hperm.mem_iff).2 (List.mem_cons_self _ _)
    · intro j hj
      by_cases hji : j = bucketIdx sz
      · subst hji
        rw [Function.update_same]
        exact (hperm.nodup_iff).2 (List.nodup_cons.2 ⟨hbp_notin, hnd⟩)
      · rw [Function.update_noteq hji]; exact hfl.nodup j hj
    · intro x sx h
      rcases h with h | ⟨h1, h2⟩
      · rw [(hNode x sx h).2]; exact hfl.hdr x sx h
      · subst h1 h2
        rw [hHdr]; exact hsz
    · intro x sx h
      rcases h with h | ⟨h1, h2⟩
      · exact hfl.bnd x sx h
      · subst h1 h2; exact hb
    · intro x sx y sy hx hy
      rcases hx with hx | ⟨h1, h2⟩ <;> rcases hy with hy | ⟨h3, h4⟩
      · exact hfl.disj x sx y sy hx hy
      · subst h3 h4; exact Or.inr (hnew x sx hx)
      · subst h1 h2; exact Or.inr ((hnew y sy hy).symm)
      · left; rw [h1, h3]
  · intro hgc0 hmin0
    have hlen : l.length = (ls (bucketIdx sz)).length + 1 := by
      rw [hperm.length_eq]; rfl
    have hcnt := idxCount_update ls (bucketIdx sz) l hi
    refine ⟨?_, ?_⟩
    · clear * - hgc hgc0 hlen hcnt
      omega
    · rw [hgm]
      apply IsMin_insert hi hmin0
      intro e
      rw [e] at hlen
      simp at hlen

/-! ## Structure of a well-formed heap -/

theorem total_mod8 {m : Mem} {p q : Nat} {L : List (Nat × Bool)} (h : Chain m p L q) :
    total L % 8 = 0 := by
  induction L generalizing p with
  | nil => simp [total]
  | cons b L ih =>
    obtain ⟨h1, _, _, _, h5⟩ := h
    have := ih h5
    rw [total_cons]; omega

theorem total_ge16 {m : Mem} {p q : Nat} {L : List (Nat × Bool)} (h : Chain m p L q)
    (hne : L ≠ []) : 16 ≤ total L := by
  cases L with
  | nil => exact absurd rfl hne
  | cons b L =>
    obtain ⟨_, h2, _⟩ := h
    rw [total_cons]; omega

theorem chain_length_le {m : Mem} {p q : Nat} {L : List (Nat × Bool)} (h : Chain m p L q) :
    16 * L.length ≤ total L := by
  induction L generalizing p with
  | nil => simp [total]
  | cons b L ih =>
    obtain ⟨_, h2, _, _, h5⟩ := h
    have := ih h5
    rw [total_cons, List.length_cons]; omega

/-- The word in front of a chain position: the footer of the preceding block. -/
theorem Chain_last_footer {m : Mem} {p q : Nat} {L : List (Nat × Bool)} {b : Nat × Bool}
    (h : Chain m p (L ++ [b]) q) :
    GET m (q - 8) = tag b.1 b.2 ∧ GET m (q - b.1 - 4) = tag b.1 b.2 ∧ b.1 % 8 = 0 ∧
      16 ≤ b.1 ∧ q = p + total L + b.1 := by
  rw [Chain_append] at h
  obtain ⟨_, h1, h2, h3, h4, h5⟩ := h
  have e : p + total L + b.1 = q := h5
  subst e
  refine ⟨?_, ?_, h1, h2, rfl⟩
  · rw [← h4]
  · rw [← h3, show p + total L + b.1 - b.1 - 4 = p + total L - 4 by omega]

/-- Numeric facts about the block in the middle of a well-formed heap. -/
theorem InvX.mid {s : Heap} {L1 L2 : List (Nat × Bool)} {sz : Nat} {al : Bool}
    {ls : Nat → List Nat} {F : Nat → Nat → Prop}
    (h : InvX s (L1 ++ (sz, al) :: L2) ls F) :
    sz % 8 = 0 ∧ 16 ≤ sz ∧ total L1 % 8 = 0 ∧ total L2 % 8 = 0 ∧
    GET s.mem (s.heap_listp + 344 + total L1 - 4) = tag sz al ∧
    GET s.mem (s.heap_listp + 344 + total L1 + sz - 8) = tag sz al ∧
    s.heap_listp + 344 + total L1 + sz + total L2 = s.mem_brk ∧
    s.mem_brk < 4294967296 ∧ s.mem_brk < s.heap_listp + 2147483640 ∧
    Chain s.mem (s.heap_listp + 344) L1 (s.heap_listp + 344 + total L1) ∧
    Chain s.mem (s.heap_listp + 344 + total L1 + sz) L2 s.mem_brk := by
  have hc := h.chain
  rw [Chain_append] at hc
  obtain ⟨hc1, h1, h2, h3, h4, h5⟩ := hc
  have he := Chain_end h5
  have := total_mod8 hc1
  have := total_mod8 h5
  have := h.brk_le
  have := h.max_lt
  have := h.span
  simp only at h1 h2 h3 h4 h5 he
  exact ⟨h1, h2, by assumption, by assumption, h3, h4, by omega, by omega, by omega, hc1, h5⟩

/-- The footer word in front of the middle block. -/
theorem InvX.prev_footer {s : Heap} {L1 L2 : List (Nat × Bool)} {b : Nat × Bool}
    {ls : Nat → List Nat} {F : Nat → Nat → Prop}
    (h : InvX s (L1 ++ b :: L2) ls F) :
    GET s.mem (s.heap_listp + 344 + total L1 - 8) =
      (match L1.getLast? with
       | some c => tag c.1 c.2
       | none => 345) := by
  rcases List.eq_nil_or_concat L1 with e | ⟨L, c, e⟩
  · subst e
    simp only [total_nil, List.getLast?_nil]
    rw [← h.pro_ftr, show s.heap_listp + 344 + 0 - 8 = s.heap_listp + 336 by omega]
  · rw [List.concat_eq_append] at e
    subst e
    have hc := h.chain
    rw [Chain_append] at hc
    have := (Chain_last_footer hc.1).1
    simpa using this

/-- The header word behind the middle block. -/
theorem InvX.next_header {s : Heap} {L1 L2 : List (Nat × Bool)} {b : Nat × Bool}
    {ls : Nat → List Nat} {F : Nat → Nat → Prop}
    (h : InvX s (L1 ++ b :: L2) ls F) :
    GET s.mem (s.heap_listp + 344 + total L1 + b.1 - 4) =
      (match L2.head? with
       | some c => tag c.1 c.2
       | none => 1) := by
  have hc := h.chain
  rw [Chain_append] at hc
  obtain ⟨_, _, _, _, _, h5⟩ := hc
  cases L2 with
  | nil =>
    have e : s.heap_listp + 344 + total L1 + b.1 = s.mem_brk := h5
    simp only [List.head?_nil]
    rw [e]; exact h.epi
  | cons c L2 =>
    obtain ⟨_, _, h3, _⟩ := h5
    simpa using h3

/-! ## Frame lemmas for the whole invariant -/

/-- The free-list index survives any change of memory that keeps the bucket head
words, the link words of its blocks and the sizes in their headers. -/
theorem FLInv.frame2 {m m2 : Mem} {hl : Nat} {ls : Nat → List Nat} {F : Nat → Nat → Prop}
    (h : FLInv m hl ls F)
    (hb : ∀ a, hl ≤ a → a < hl + 336 → m2 a = m a)
    (hl2 : ∀ x sz a, F x sz → x ≤ a → a < x + 8 → m2 a = m a)
    (hh : ∀ x sz, F x sz → GET m2 (x - 4) / 8 * 8 = sz) : FLInv m2 hl ls F := by
  refine ⟨?_, h.mem_F, h.F_mem, h.nodup, hh, h.bnd, h.disj⟩
  intro i hi
  obtain ⟨t, ht⟩ := h.lists i hi
  have e : GET m2 (hl + 4 * i) = GET m (hl + 4 * i) :=
    GET_congr fun a h1 h2 => hb a (by omega) (by omega)
  rw [e]
  refine ⟨t, dllseg_congr ht ?_⟩
  intro x hx
  obtain ⟨sx, hFx, _⟩ := h.mem_F i hi x hx
  exact ⟨GET_congr fun a h1 h2 => hl2 x sx a hFx (by omega) (by omega),
    GET_congr fun a h1 h2 => hl2 x sx a hFx (by omega) (by omega)⟩

theorem tag_not_touch {m : Mem} {p q hl : Nat} {L : List (Nat × Bool)}
    {F : Nat → Nat → Prop} (hc : Chain m p L q) (hp : hl + 344 ≤ p)
    (hsub : ∀ x sz, F x sz → ∃ al, (x, sz, al) ∈ blocks p L)
    (a : Nat) (hT : TagByte p L a) : ¬ Touch hl F a := by
  obtain ⟨b, hb, hab⟩ := hT
  have hb1 := blocks_bounds hb
  have hb2 := Chain_size hc hb
  rintro (⟨h1, h2⟩ | ⟨x, sz, hF, h1, h2⟩)
  · omega
  · obtain ⟨al, hy⟩ := hsub x sz hF
    have hy2 := Chain_size hc hy
    have hd := blocks_disjoint hc hb hy
    rcases hd with hd | hd | hd
    · subst hd
      simp only at hab hb2
      omega
    · simp only at hd hy2; omega
    · simp only at hd hy2; omega

theorem outside_not_touch {m : Mem} {p q hl : Nat} {L : List (Nat × Bool)}
    {F : Nat → Nat → Prop} (hc : Chain m p L q) (hp : hl + 344 ≤ p)
    (hsub : ∀ x sz, F x sz → ∃ al, (x, sz, al) ∈ blocks p L)
    (a : Nat) (ha : a < hl ∨ (hl + 336 ≤ a ∧ a < p) ∨ q ≤ a + 8) : ¬ Touch hl F a := by
  rintro (⟨h1, h2⟩ | ⟨x, sz, hF, h1, h2⟩)
  · have := Chain_end hc; omega
  · obtain ⟨al, hy⟩ := hsub x sz hF
    have hy2 := Chain_size hc hy
    have hy3 := blocks_bounds hy
    have := Chain_end hc
    simp only at hy2 hy3
    omega

/-- The chain and the sentinels survive the writes of the free-list routines. -/
theorem InvX_touch {s s2 : Heap} {L : List (Nat × Bool)} {ls ls2 : Nat → List Nat}
    {F F2 : Nat → Nat → Prop} (h : InvX s L ls F)
    (hbrk : s2.mem_brk = s.mem_brk) (hmax : s2.mem_max_addr = s.mem_max_addr)
    (hhl : s2.heap_listp = s.heap_listp)
    (hframe : ∀ a, ¬ Touch s.heap_listp F2 a → s2.mem a = s.mem a)
    (hsub : ∀ x sz, F2 x sz → ∃ al, (x, sz, al) ∈ blocks (s.heap_listp + 344) L)
    (hfl : FLInv s2.mem s.heap_listp ls2 F2)
    (hgc : s2.gcount = (idxCount ls2 : Int)) (hgm : IsMin ls2 s2.gminlist) :
    InvX s2 L ls2 F2 := by
  have hc := h.chain
  have h1 := h.hl_ge
  have hend := Chain_end hc
  refine ⟨by rw [hhl]; exact h.hl8, by rw [hhl]; exact h.hl_ge, by rw [hbrk, hmax]; exact h.brk_le,
    by rw [hmax]; exact h.max_lt, by rw [hmax, hhl]; exact h.span, ?_, ?_, ?_, ?_,
    by rw [hhl]; exact hfl, hgc, hgm⟩
  · rw [hhl, ← h.pro_hdr]
    exact GET_congr fun a ha1 ha2 =>
      hframe a (outside_not_touch hc (Nat.le_refl _) hsub a (by omega))
  · rw [hhl, ← h.pro_ftr]
    exact GET_congr fun a ha1 ha2 =>
      hframe a (outside_not_touch hc (Nat.le_refl _) hsub a (by omega))
  · rw [hbrk, ← h.epi]
    exact GET_congr fun a ha1 ha2 =>
      hframe a (outside_not_touch hc (Nat.le_refl _) hsub a (by omega))
  · rw [hhl, hbrk]
    exact Chain_frame hc fun a ha => hframe a (tag_not_touch hc (Nat.le_refl _) hsub a ha)

/-- Rewriting the boundary tags inside a run of blocks: the rest of the heap is kept. -/
theorem InvX_retag {s : Heap} {La run run2 Lb : List (Nat × Bool)} {ls : Nat → List Nat}
    {F : Nat → Nat → Prop} {m2 : Mem}
    (h : InvX s (La ++ run ++ Lb) ls F)
    (htot : total run2 = total run)
    (hrun2 : Chain m2 (s.heap_listp + 344 + total La) run2
      (s.heap_listp + 344 + total La + total run))
    (hagree : ∀ a, (a + 4 < s.heap_listp + 344 + total La ∨
      s.heap_listp + 344 + total La + total run ≤ a + 4) → m2 a = s.mem a)
    (hfl : FLInv m2 s.heap_listp ls F) :
    InvX { s with mem := m2 } (La ++ run2 ++ Lb) ls F := by
  have hc := h.chain
  rw [Chain_append, Chain_append] at hc
  obtain ⟨⟨hc1, hc2⟩, hc3⟩ := hc
  rw [total_append] at hc3
  have hend := Chain_end hc3
  have h1 := h.hl_ge
  refine ⟨h.hl8, h.hl_ge, h.brk_le, h.max_lt, h.span, ?_, ?_, ?_, ?_, hfl, h.gcount_eq, h.gmin⟩
  · show GET m2 (s.heap_listp - 4) = 345
    rw [← h.pro_hdr]
    exact GET_congr fun a ha1 ha2 => hagree a (by omega)
  · show GET m2 (s.heap_listp + 336) = 345
    rw [← h.pro_ftr]
    exact GET_congr fun a ha1 ha2 => hagree a (by omega)
  · show GET m2 (s.mem_brk - 4) = 1
    rw [← h.epi]
    exact GET_congr fun a ha1 ha2 => hagree a (by omega)
  · show Chain m2 (s.heap_listp + 344) _ s.mem_brk
    rw [Chain_append, Chain_append]
    refine ⟨⟨?_, ?_⟩, ?_⟩
    · exact Chain_frame_range hc1 fun a ha1 ha2 => hagree a (by omega)
    · rw [total_append, htot, ← Nat.add_assoc]; exact hrun2
    · rw [total_append, htot]
      exact Chain_frame_range hc3 fun a ha1 ha2 => hagree a (by omega)

theorem freeSet_mid (p : Nat) (La Lb : List (Nat × Bool)) (T x z : Nat) :
    freeSet p (La ++ (T, false) :: Lb) x z ↔
      (freeAround p La T Lb x z ∨ (x = p + total La ∧ z = T)) := by
  unfold freeSet freeAround
  rw [blocks_append]
  simp only [blocks, List.mem_append, List.mem_cons, Prod.mk.injEq, and_true]
  constructor
  · rintro (h | h | h)
    · exact Or.inl (Or.inl h)
    · exact Or.inr h
    · exact Or.inl (Or.inr h)
  · rintro ((h | h) | h)
    · exact Or.inl h
    · exact Or.inr (Or.inr h)
    · exact Or.inr (Or.inl h)

theorem freeAround_bounds {p : Nat} {La Lb : List (Nat × Bool)} {T x z : Nat}
    (h : freeAround p La T Lb x z) :
    (p ≤ x ∧ x + z ≤ p + total La) ∨ (p + total La + T ≤ x ∧ x + z ≤ p + total La + T + total Lb) := by
  rcases h with h | h
  · have := blocks_bounds h; simp only at this; exact Or.inl this
  · have := blocks_bounds h; simp only at this; exact Or.inr this

theorem touch_free_region {hl p : Nat} {m : Mem} {q : Nat} {L : List (Nat × Bool)}
    (hc : Chain m p L q) (a : Nat) (h : Touch hl (freeSet p L) a) :
    (hl ≤ a ∧ a < hl + 336) ∨ FreeRegion p L a := by
  rcases h with h | ⟨x, sz, hF, h1, h2⟩
  · exact Or.inl h
  · have := Chain_size hc hF
    simp only at this
    exact Or.inr ⟨x, sz, hF, by omega, by omega⟩

/-- Entering a free block, whose tags are already in place, into the free-list index
re-establishes the invariant. -/
theorem add_block {s : Heap} {La Lb : List (Nat × Bool)} {T : Nat} {ls : Nat → List Nat}
    (h : InvX s (La ++ (T, false) :: Lb) ls (freeAround (s.heap_listp + 344) La T Lb)) :
    ∃ s2 ls2, add_free_list s (s.heap_listp + 344 + total La) = some s2 ∧
      Inv s2 (La ++ (T, false) :: Lb) ls2 ∧
      s2.mem_brk = s.mem_brk ∧ s2.mem_max_addr = s.mem_max_addr ∧
      s2.heap_listp = s.heap_listp ∧ s2.gcount = s.gcount + 1 ∧
      (∀ a, ¬ (s.heap_listp ≤ a ∧ a < s.heap_listp + 336) →
        ¬ FreeRegion (s.heap_listp + 344) (La ++ (T, false) :: Lb) a → s2.mem a = s.mem a) := by
  obtain ⟨m1, m2, m3, m4, m5, m6, m7, m8, m9, m10, m11⟩ := h.mid
  have hsz : GET s.mem (s.heap_listp + 344 + total La - 4) / 8 * 8 = T := by
    rw [m5, tag_false]; omega
  obtain ⟨s2, l, hrun, hbrk, hmax, hhl, hgc, hfr, hperm, hfl, hidx⟩ := add_spec s
    (s.heap_listp + 344 + total La) T ls _ h.fl hsz (by omega)
    (by
      intro x sx hx
      have := freeAround_bounds hx
      omega)
  have hEq : (fun x z => freeAround (s.heap_listp + 344) La T Lb x z ∨
      (x = s.heap_listp + 344 + total La ∧ z = T)) =
      freeSet (s.heap_listp + 344) (La ++ (T, false) :: Lb) := by
    funext x z
    exact propext (freeSet_mid _ _ _ _ _ _).symm
  rw [hEq] at hfr hfl
  obtain ⟨hi1, hi2⟩ := hidx h.gcount_eq h.gmin
  have hX := InvX_touch h hbrk hmax hhl hfr (fun x sz hx => ⟨false, hx⟩) hfl hi1 hi2
  refine ⟨s2, Function.update ls (bucketIdx T) l, hrun, ?_, hbrk, hmax, hhl, hgc, ?_⟩
  · unfold Inv; rw [hhl]; exact hX
  · intro a ha1 ha2
    apply hfr a
    intro hT
    rcases touch_free_region h.chain a hT with h1 | h1
    · exact ha1 h1
    · exact ha2 h1

/-! ## Evaluating the block macros on tagged memory -/

theorem GET_SIZE_tag {m : Mem} {p sz : Nat} {al : Bool} (h : GET m p = tag sz al)
    (h8 : sz % 8 = 0) : GET_SIZE m p = sz := by
  rw [GET_SIZE_eq, h, tag_size sz al h8]

theorem GET_ALLOC_tag {m : Mem} {p sz : Nat} {al : Bool} (h : GET m p = tag sz al)
    (h8 : sz % 8 = 0) : GET_ALLOC m p = if al then 1 else 0 := by
  rw [GET_ALLOC_eq, h, tag_alloc sz al h8]

theorem NEXT_BLKP_eval {m : Mem} {bp sz : Nat} {al : Bool} (h : GET m (bp - 4) = tag sz al)
    (h8 : sz % 8 = 0) (h4 : 4 ≤ bp) (hlt : bp + sz < 4294967296) :
    NEXT_BLKP m bp = bp + sz := by
  unfold NEXT_BLKP
  rw [psub_eq bp WSIZE (by unfold WSIZE; omega) (by omega)]
  unfold WSIZE
  rw [GET_SIZE_tag h h8, padd_eq _ _ hlt]

theorem FTRP_eval {m : Mem} {bp sz : Nat} {al : Bool} (h : GET m (bp - 4) = tag sz al)
    (h8 : sz % 8 = 0) (h4 : 8 ≤ bp) (hlt : bp + sz < 4294967296) :
    FTRP m bp = bp + sz - 8 := by
  unfold FTRP
  rw [HDRP_eq bp (by omega) (by omega), GET_SIZE_tag h h8, padd_eq _ _ hlt,
    psub_eq _ DSIZE (by unfold DSIZE; omega) hlt]
  rfl

theorem PREV_BLKP_eval {m : Mem} {bp s1 : Nat} {a1 : Bool} (h : GET m (bp - 8) = tag s1 a1)
    (h8 : s1 % 8 = 0) (h4 : 8 ≤ bp) (hle : s1 ≤ bp) (hlt : bp < 4294967296) :
    PREV_BLKP m bp = bp - s1 := by
  unfold PREV_BLKP
  rw [psub_eq bp DSIZE (by unfold DSIZE; omega) hlt]
  unfold DSIZE
  rw [GET_SIZE_tag h h8, psub_eq _ _ hle hlt]

theorem PACK_free (sz : Nat) (h : sz % 8 = 0) : PACK sz 0 = sz := by
  rw [PACK_eq sz 0 h (by omega)]; rfl

theorem PACK_alloc (sz : Nat) (h : sz % 8 = 0) : PACK sz 1 = sz + 1 :=
  PACK_eq sz 1 h (by omega)

/-! ## Removing and merging blocks -/

/-- Taking a block out of the free-list index keeps the rest of the heap. -/
theorem remove_block {s : Heap} {L : List (Nat × Bool)} {ls : Nat → List Nat}
    {F : Nat → Nat → Prop} {bp sz : Nat} (h : InvX s L ls F) (hF : F bp sz)
    (hsub : ∀ x z, F x z → ∃ al, (x, z, al) ∈ blocks (s.heap_listp + 344) L) :
    ∃ s2 ls2, remove_free_list s bp = some s2 ∧
      InvX s2 L ls2 (fun x z => F x z ∧ x ≠ bp) ∧
      s2.mem_brk = s.mem_brk ∧ s2.mem_max_addr = s.mem_max_addr ∧
      s2.heap_listp = s.heap_listp ∧ s2.gcount = s.gcount - 1 ∧
      (∀ a, ¬ Touch s.heap_listp (fun x z => F x z ∧ x ≠ bp) a → s2.mem a = s.mem a) := by
  obtain ⟨s2, hrun, hbrk, hmax, hhl, hgc, hfr, hfl, hidx⟩ :=
    remove_spec s bp sz ls F h.fl hF h.pro_ftr
  obtain ⟨hi1, hi2⟩ := hidx h.gcount_eq h.gmin
  exact ⟨s2, _, hrun, InvX_touch h hbrk hmax hhl hfr (fun x z hx => hsub x z hx.1) hfl hi1 hi2,
    hbrk, hmax, hhl, hgc, hfr⟩

/-- Every byte of a run of free blocks lies in the region of one of them. -/
theorem region_run (run : List (Nat × Bool)) (hfree : ∀ b, b ∈ run → b.2 = false) :
    ∀ (q a : Nat), q - 4 ≤ a → a + 4 < q + total run →
      ∃ x z, (x, z, false) ∈ blocks q run ∧ x - 4 ≤ a ∧ a + 4 < x + z := by
  induction run with
  | nil => intro q a h1 h2; simp [total] at h2; omega
  | cons b run ih =>
    intro q a h1 h2
    rw [total_cons] at h2
    have hb : b.2 = false := hfree b (by simp)
    by_cases hlt : a + 4 < q + b.1
    · exact ⟨q, b.1, by simp [blocks, ← hb], h1, hlt⟩
    · obtain ⟨x, z, hx, hx1, hx2⟩ := ih (fun c hc => hfree c (by simp [hc])) (q + b.1) a
        (by omega) (by omega)
      exact ⟨x, z, by simp [blocks, hx], hx1, hx2⟩

theorem FreeRegion_merge {p : Nat} {La run Lb : List (Nat × Bool)}
    (hfree : ∀ b, b ∈ run → b.2 = false) (a : Nat)
    (h : FreeRegion p (La ++ (total run, false) :: Lb) a) :
    FreeRegion p (La ++ run ++ Lb) a := by
  obtain ⟨x, z, hx, h1, h2⟩ := h
  rw [blocks_append] at hx
  simp only [blocks, List.mem_append, List.mem_cons, Prod.mk.injEq, and_true] at hx
  unfold FreeRegion
  rw [blocks_append, blocks_append, total_append]
  rcases hx with hx | ⟨e1, e2⟩ | hx
  · exact ⟨x, z, by simp [hx], h1, h2⟩
  · subst e1 e2
    obtain ⟨y, w, hy, hy1, hy2⟩ := region_run run hfree _ a h1 h2
    exact ⟨y, w, by simp [hy], hy1, hy2⟩
  · exact ⟨x, z, by simp [← Nat.add_assoc, hx], h1, h2⟩

theorem freeAround_run {p : Nat} {La run Lb : List (Nat × Bool)} {x z : Nat}
    (h : freeAround p La (total run) Lb x z) :
    (x, z, false) ∈ blocks p (La ++ run ++ Lb) := by
  rw [blocks_append, blocks_append, total_append]
  rcases h with h | h
  · simp [h]
  · simp [← Nat.add_assoc, h]

/-- Writing one free header and footer around a run of free blocks and entering the
merged block into the index re-establishes the invariant. -/
theorem merge_tail {s : Heap} {La run Lb : List (Nat × Bool)} {ls : Nat → List Nat}
    (h : InvX s (La ++ run ++ Lb) ls (freeAround (s.heap_listp + 344) La (total run) Lb))
    (hfree : ∀ b, b ∈ run → b.2 = false) (hne : run ≠ []) :
    ∃ s2 ls2,
      add_free_list { s with mem := (PUT (PUT s.mem (s.heap_listp + 344 + total La - 4)
            (total run)) (s.heap_listp + 344 + total La + total run - 8) (total run)) }
        (s.heap_listp + 344 + total La) = some s2 ∧
      Inv s2 (La ++ (total run, false) :: Lb) ls2 ∧
      s2.mem_brk = s.mem_brk ∧ s2.mem_max_addr = s.mem_max_addr ∧
      s2.heap_listp = s.heap_listp ∧ s2.gcount = s.gcount + 1 ∧
      (∀ a, ¬ (s.heap_listp ≤ a ∧ a < s.heap_listp + 336) →
        ¬ FreeRegion (s.heap_listp + 344) (La ++ run ++ Lb) a → s2.mem a = s.mem a) := by
  have hc := h.chain
  rw [Chain_append, Chain_append] at hc
  obtain ⟨⟨hc1, hc2⟩, hc3⟩ := hc
  rw [total_append] at hc2 hc3
  have hT8 := total_mod8 hc2
  have hT16 := total_ge16 hc2 hne
  have hend := Chain_end hc3
  have hbrk := h.brk_le
  have hmax := h.max_lt
  have hhl := h.hl_ge
  generalize hP : s.heap_listp + 344 + total La = P at *
  generalize hT : total run = T at *
  have hPge : s.heap_listp + 344 ≤ P := by omega
  have hPT : P + T < 4294967296 := by omega
  -- the retagged memory
  have hput : ∀ a, (a + 4 < P ∨ P + T ≤ a + 4) →
      PUT (PUT s.mem (P - 4) T) (P + T - 8) T a = s.mem a := by
    intro a ha
    rw [PUT_out _ _ _ _ (by omega), PUT_out _ _ _ _ (by omega)]
  have hrun2 : Chain (PUT (PUT s.mem (P - 4) T) (P + T - 8) T) P [(T, false)] (P + T) := by
    refine ⟨hT8, hT16, ?_, ?_, rfl⟩
    · show GET _ (P - 4) = tag T false
      rw [GET_PUT_ne _ _ _ _ (by omega), GET_PUT_eq _ _ _ (by omega), tag_false]
    · show GET _ (P + T - 8) = tag T false
      rw [GET_PUT_eq _ _ _ (by omega), tag_false]
  have hFb : ∀ x z, freeAround (s.heap_listp + 344) La T Lb x z →
      x + 16 ≤ P ∨ P + T ≤ x := by
    intro x z hx
    have h1 := freeAround_bounds hx
    have h2 := h.fl.bnd x z hx
    rw [hP] at h1
    omega
  have hfl : FLInv (PUT (PUT s.mem (P - 4) T) (P + T - 8) T) s.heap_listp ls
      (freeAround (s.heap_listp + 344) La T Lb) := by
    apply h.fl.frame2
    · intro a h1 h2; exact hput a (by omega)
    · intro x z a hx h1 h2
      have := hFb x z hx
      exact hput a (by omega)
    · intro x z hx
      have := hFb x z hx
      have e : GET (PUT (PUT s.mem (P - 4) T) (P + T - 8) T) (x - 4) = GET s.mem (x - 4) :=
        GET_congr fun a h1 h2 => hput a (by omega)
      rw [e]; exact h.fl.hdr x z hx
  have hX := @InvX_retag _ _ _ [(T, false)] _ _ _ (PUT (PUT s.mem (P - 4) T) (P + T - 8) T)
    h (by rw [hT]; simp [total]) (by rw [hP, hT]; exact hrun2)
    (by rw [hP, hT]; exact hput) hfl
  have hX2 : InvX { s with mem := PUT (PUT s.mem (P - 4) T) (P + T - 8) T }
      (La ++ (T, false) :: Lb) ls (freeAround (s.heap_listp + 344) La T Lb) := by
    simpa using hX
  obtain ⟨s2, ls2, hrun, hinv, e1, e2, e3, e4, hfr⟩ := add_block hX2
  simp only at hrun e1 e2 e3 e4 hfr
  rw [hP] at hrun
  refine ⟨s2, ls2, hrun, ?_, e1, e2, e3, e4, ?_⟩
  · exact hinv
  · intro a ha1 ha2
    have ha3 : ¬ FreeRegion (s.heap_listp + 344) (La ++ (T, false) :: Lb) a := by
      intro hr
      rw [← hT] at hr
      exact ha2 (FreeRegion_merge hfree a hr)
    rw [hfr a ha1 ha3]
    apply hput
    by_contra hcon
    apply ha3
    refine ⟨P, T, ?_, by omega, by omega⟩
    rw [← hP]
    exact blocks_mem_mid _ _ _ _ _

/-! ## `coalesce` -/

/-- The reads `coalesce` makes of the physical predecessor. -/
theorem prev_eval {s : Heap} {L1 L2 : List (Nat × Bool)} {b : Nat × Bool}
    {ls : Nat → List Nat} {F : Nat → Nat → Prop} (h : InvX s (L1 ++ b :: L2) ls F) :
    PREV_BLKP s.mem (s.heap_listp + 344 + total L1) =
      s.heap_listp + 344 + total L1 - lastSize L1 ∧
    GET_ALLOC s.mem (FTRP s.mem (PREV_BLKP s.mem (s.heap_listp + 344 + total L1))) =
      lastAlloc L1 := by
  unfold lastSize lastAlloc
  have hc := h.chain
  have hend := Chain_end hc
  have := h.brk_le
  have := h.max_lt
  have := h.hl_ge
  rw [total_append, total_cons] at hend
  rcases List.eq_nil_or_concat L1 with e | ⟨L, c, e⟩
  · subst e
    simp only [total_nil, List.getLast?_nil, Nat.add_zero] at hend ⊢
    have t345 : tag 344 true = 345 := rfl
    have hf : GET s.mem (s.heap_listp + 344 - 8) = tag 344 true := by
      rw [t345, ← h.pro_ftr, show s.heap_listp + 344 - 8 = s.heap_listp + 336 by omega]
    have hh : GET s.mem (s.heap_listp + 344 - 344 - 4) = tag 344 true := by
      rw [t345, ← h.pro_hdr, show s.heap_listp + 344 - 344 - 4 = s.heap_listp - 4 by omega]
    have e1 := PREV_BLKP_eval hf (by omega) (by omega) (by omega) (by omega)
    rw [e1]
    refine ⟨rfl, ?_⟩
    have e2 := FTRP_eval hh (by omega) (by omega) (by omega)
    rw [e2]
    have hf2 : GET s.mem (s.heap_listp + 344 - 344 + 344 - 8) = tag 344 true := by
      rw [← hf, show s.heap_listp + 344 - 344 + 344 - 8 = s.heap_listp + 344 - 8 by omega]
    rw [GET_ALLOC_tag hf2 (by omega)]
    simp
  · rw [List.concat_eq_append] at e
    subst e
    rw [Chain_append] at hc
    obtain ⟨f1, f2, f3, f4, f5⟩ := Chain_last_footer hc.1
    have hg : (L ++ [c]).getLast? = some c := by simp
    rw [hg]
    rw [total_append, total_cons, total_nil] at hend f1 f2 f5 ⊢
    simp only [Nat.add_zero] at hend f1 f2 f5 ⊢
    have hf : GET s.mem (s.heap_listp + 344 + (total L + c.1) - 8) = tag c.1 c.2 := f1
    have e1 := PREV_BLKP_eval hf f3 (by omega) (by omega) (by omega)
    rw [e1]
    refine ⟨rfl, ?_⟩
    have hh : GET s.mem (s.heap_listp + 344 + (total L + c.1) - c.1 - 4) = tag c.1 c.2 := f2
    have e2 := FTRP_eval hh f3 (by omega) (by omega)
    rw [e2]
    have hf2 : GET s.mem (s.heap_listp + 344 + (total L + c.1) - c.1 + c.1 - 8) = tag c.1 c.2 := by
      rw [← hf, show s.heap_listp + 344 + (total L + c.1) - c.1 + c.1 - 8 =
        s.heap_listp + 344 + (total L + c.1) - 8 by omega]
    rw [GET_ALLOC_tag hf2 f3]

/-- The reads `coalesce` makes of the block itself and of its physical successor. -/
theorem next_eval {s : Heap} {L1 L2 : List (Nat × Bool)} {sz : Nat} {al : Bool}
    {ls : Nat → List Nat} {F : Nat → Nat → Prop} (h : InvX s (L1 ++ (sz, al) :: L2) ls F) :
    GET_SIZE s.mem (HDRP (s.heap_listp + 344 + total L1)) = sz ∧
    NEXT_BLKP s.mem (s.heap_listp + 344 + total L1) = s.heap_listp + 344 + total L1 + sz ∧
    GET_ALLOC s.mem (HDRP (NEXT_BLKP s.mem (s.heap_listp + 344 + total L1))) =
      headAlloc L2 := by
  unfold headAlloc
  obtain ⟨m1, m2, m3, m4, m5, m6, m7, m8, m9, m10, m11⟩ := h.mid
  have := h.hl_ge
  have e1 := NEXT_BLKP_eval m5 m1 (by omega) (by omega)
  rw [e1, HDRP_eq _ (by omega) (by omega), HDRP_eq _ (by omega) (by omega)]
  refine ⟨GET_SIZE_tag m5 m1, rfl, ?_⟩
  have hn := h.next_header
  simp only at hn
  cases L2 with
  | nil =>
    simp only [List.head?_nil] at hn ⊢
    rw [GET_ALLOC_eq, hn]
  | cons c L2 =>
    simp only [List.head?_cons] at hn ⊢
    obtain ⟨c1, _⟩ := m11
    rw [GET_ALLOC_tag hn c1]

theorem prevFree_none_alloc {L1 : List (Nat × Bool)} (hp : prevFree L1 = none) :
    lastAlloc L1 = 1 := by
  unfold prevFree at hp
  unfold lastAlloc
  rcases hl : L1.getLast? with _ | ⟨c1, c2⟩
  · rfl
  · rw [hl] at hp
    cases c2
    · simp at hp
    · rfl

theorem nextFree_none_alloc {L2 : List (Nat × Bool)} (hn : nextFree L2 = none) :
    headAlloc L2 = 1 := by
  unfold nextFree at hn
  unfold headAlloc
  rcases hl : L2.head? with _ | ⟨c1, c2⟩
  · rfl
  · rw [hl] at hn
    cases c2
    · simp at hn
    · rfl

theorem lastAlloc_free (L : List (Nat × Bool)) (s1 : Nat) : lastAlloc (L ++ [(s1, false)]) = 0 := by
  simp [lastAlloc]

theorem lastSize_concat (L : List (Nat × Bool)) (c : Nat × Bool) : lastSize (L ++ [c]) = c.1 := by
  simp [lastSize]

theorem headAlloc_free (L : List (Nat × Bool)) (s2 : Nat) : headAlloc ((s2, false) :: L) = 0 := by
  simp [headAlloc]

/-- Case 1 of `coalesce`: both neighbours allocated. -/
theorem coalesce_A {s : Heap} {L1 L2 : List (Nat × Bool)} {sz : Nat} {ls : Nat → List Nat}
    (h : InvX s (L1 ++ (sz, false) :: L2) ls (freeAround (s.heap_listp + 344) L1 sz L2))
    (hp : prevFree L1 = none) (hn : nextFree L2 = none) :
    ∃ s2 ls2, coalesce s (s.heap_listp + 344 + total L1) =
        some (s.heap_listp + 344 + total L1, s2) ∧
      Inv s2 (L1 ++ (sz, false) :: L2) ls2 ∧
      s2.mem_brk = s.mem_brk ∧ s2.mem_max_addr = s.mem_max_addr ∧
      s2.heap_listp = s.heap_listp ∧
      (∀ a, ¬ (s.heap_listp ≤ a ∧ a < s.heap_listp + 336) →
        ¬ FreeRegion (s.heap_listp + 344) (L1 ++ (sz, false) :: L2) a → s2.mem a = s.mem a) := by
  obtain ⟨_, hpa⟩ := prev_eval h
  obtain ⟨_, _, hna⟩ := next_eval h
  rw [prevFree_none_alloc hp] at hpa
  rw [nextFree_none_alloc hn] at hna
  obtain ⟨s2, ls2, hrun, hinv, e1, e2, e3, _, hfr⟩ := add_block h
  refine ⟨s2, ls2, ?_, hinv, e1, e2, e3, hfr⟩
  unfold coalesce
  simp only [hpa, hna, ne_eq, one_ne_zero, not_false_eq_true, and_self, if_true, hrun,
    Option.map_some']

theorem freeAround_sub {p : Nat} {La Lb : List (Nat × Bool)} {T x z : Nat}
    (h : freeAround p La T Lb x z) : ∃ al, (x, z, al) ∈ blocks p (La ++ (T, false) :: Lb) :=
  ⟨false, (freeSet_mid p La Lb T x z).2 (Or.inl h)⟩

theorem freeAround_drop_next (p : Nat) (L1 L2 : List (Nat × Bool)) (sz s2 : Nat)
    (hsz : 0 < sz) (hs2 : 0 < s2) :
    (fun x z => freeAround p L1 sz ((s2, false) :: L2) x z ∧ x ≠ p + total L1 + sz) =
      freeAround p L1 (sz + s2) L2 := by
  funext x z
  apply propext
  unfold freeAround
  simp only [blocks, List.mem_cons, Prod.mk.injEq, and_true]
  rw [show p + total L1 + (sz + s2) = p + total L1 + sz + s2 by omega]
  constructor
  · rintro ⟨h | ⟨h, _⟩ | h, hne⟩
    · exact Or.inl h
    · exact absurd h hne
    · exact Or.inr h
  · rintro (h | h)
    · have := blocks_bounds h
      simp only at this
      exact ⟨Or.inl h, by omega⟩
    · have := blocks_bounds h
      simp only at this
      exact ⟨Or.inr (Or.inr h), by omega⟩

theorem freeAround_drop_prev (p : Nat) (L1 L2 : List (Nat × Bool)) (s1 sz : Nat)
    (hs1 : 0 < s1) (hpos : ∀ x z, (x, z, false) ∈ blocks p L1 → 0 < z) :
    (fun x z => freeAround p (L1 ++ [(s1, false)]) sz L2 x z ∧ x ≠ p + total L1) =
      freeAround p L1 (s1 + sz) L2 := by
  funext x z
  apply propext
  unfold freeAround
  rw [blocks_append, total_append, total_cons, total_nil]
  simp only [blocks, List.mem_append, List.mem_cons, Prod.mk.injEq, and_true,
    List.mem_singleton, Nat.add_zero, List.not_mem_nil, or_false]
  rw [show p + (total L1 + s1) + sz = p + total L1 + (s1 + sz) by omega]
  constructor
  · rintro ⟨(h | ⟨h, _⟩) | h, hne⟩
    · exact Or.inl h
    · exact absurd h hne
    · exact Or.inr h
  · rintro (h | h)
    · have := blocks_bounds h
      have := hpos x z h
      simp only at *
      exact ⟨Or.inl (Or.inl h), by omega⟩
    · have := blocks_bounds h
      simp only at this
      exact ⟨Or.inr h, by omega⟩

/-- Case 2 of `coalesce`: only the successor is free. -/
theorem coalesce_B {s : Heap} {L1 L2 : List (Nat × Bool)} {sz s2 : Nat} {ls : Nat → List Nat}
    (h : InvX s (L1 ++ (sz, false) :: (s2, false) :: L2) ls
      (freeAround (s.heap_listp + 344) L1 sz ((s2, false) :: L2)))
    (hp : prevFree L1 = none) :
    ∃ t ls2, coalesce s (s.heap_listp + 344 + total L1) =
        some (s.heap_listp + 344 + total L1, t) ∧
      Inv t (L1 ++ (sz + s2, false) :: L2) ls2 ∧
      t.mem_brk = s.mem_brk ∧ t.mem_max_addr = s.mem_max_addr ∧
      t.heap_listp = s.heap_listp ∧
      (∀ a, ¬ (s.heap_listp ≤ a ∧ a < s.heap_listp + 336) →
        ¬ FreeRegion (s.heap_listp + 344) (L1 ++ (sz, false) :: (s2, false) :: L2) a →
        t.mem a = s.mem a) := by
  obtain ⟨_, hpa⟩ := prev_eval h
  rw [prevFree_none_alloc hp] at hpa
  obtain ⟨hsize, hnb, hna⟩ := next_eval h
  rw [headAlloc_free, hnb] at hna
  obtain ⟨m1, m2, m3, m4, m5, m6, m7, m8, m9, m10, m11⟩ := h.mid
  obtain ⟨n1, n2, n3, n4, n5⟩ := m11
  simp only at n1 n2 n3 n4 n5
  rw [total_cons] at m4 m7
  simp only at m4 m7
  have hge := h.hl_ge
  -- remove the successor from the index
  obtain ⟨s1, ls1, hrun1, hX1, b1, b2, b3, _, hfr1⟩ :=
    @remove_block _ _ _ _ (s.heap_listp + 344 + total L1 + sz) s2 h
      (Or.inr (by simp [blocks])) (fun x z hx => freeAround_sub hx)
  rw [freeAround_drop_next _ _ _ _ _ (by omega) (by omega)] at hX1
  obtain ⟨mem1, brk1, max1, hl1, gm1, gc1⟩ := s1
  simp only at b1 b2 b3 hfr1
  subst b1 b2 b3
  have hT : total [(sz, false), (s2, false)] = sz + s2 := by simp [total]
  have hX1b : InvX ⟨mem1, s.mem_brk, s.mem_max_addr, s.heap_listp, gm1, gc1⟩
      (L1 ++ [(sz, false), (s2, false)] ++ L2) ls1
      (freeAround (s.heap_listp + 344) L1 (total [(sz, false), (s2, false)]) L2) := by
    rw [hT]
    simpa using hX1
  obtain ⟨t, ls2, hrun2, hinv, c1, c2, c3, _, hfr2⟩ := merge_tail hX1b
    (by intro b hb; simp at hb; rcases hb with rfl | rfl <;> rfl) (by simp)
  simp only [hT] at hrun2 hfr2 c1 c2 c3
  -- the reads in the intermediate state
  obtain ⟨_, hnb1, _⟩ := next_eval hX1
  simp only at hnb1
  have hh1 := hX1.next_header
  simp only [List.head?_cons] at hh1
  have hs2 : GET_SIZE mem1 (HDRP (s.heap_listp + 344 + total L1 + sz)) = s2 := by
    rw [HDRP_eq _ (by omega) (by omega)]
    exact GET_SIZE_tag hh1 n1
  have hftr : FTRP (PUT mem1 (s.heap_listp + 344 + total L1 - 4) (sz + s2))
      (s.heap_listp + 344 + total L1) = s.heap_listp + 344 + total L1 + (sz + s2) - 8 := by
    apply @FTRP_eval _ _ _ false
    · rw [GET_PUT_eq _ _ _ (by omega), tag_false]
    · omega
    · omega
    · omega
  have hw : w32 (sz + s2) = sz + s2 := by unfold w32; omega
  have hpk : PACK (sz + s2) 0 = sz + s2 := PACK_free _ (by omega)
  have hhd : HDRP (s.heap_listp + 344 + total L1) = s.heap_listp + 344 + total L1 - 4 :=
    HDRP_eq _ (by omega) (by omega)
  rw [hhd] at hsize
  refine ⟨t, ls2, ?_, hinv, c1, c2, c3, ?_⟩
  · unfold coalesce
    simp only [hpa, hnb, hna, ne_eq, one_ne_zero, not_false_eq_true, not_true_eq_false,
      and_false, and_self, and_true, if_true, if_false]
    rw [hrun1, Option.some_bind]
    simp only []
    rw [hnb1, hs2, hhd, hsize, hw, hpk, hftr, hrun2]
    rfl
  · intro a ha1 ha2
    have e1 : t.mem a = mem1 a := by
      apply hfr2 a ha1
      intro hr
      apply ha2
      simpa using hr
    rw [e1]
    apply hfr1
    intro hT
    rcases hT with hb | ⟨x, z, ⟨hx, _⟩, hx1, hx2⟩
    · exact ha1 hb
    · have hb := h.fl.bnd x z hx
      exact ha2 ⟨x, z, (freeSet_mid _ _ _ _ _ _).2 (Or.inl hx), by omega, by omega⟩

/-- The pointer arithmetic of cases 3 and 4 of `coalesce`: the merged tags are written at
the header of the predecessor and at the footer position derived from the new header. -/
theorem prev_writes (m : Mem) (bp s1 T : Nat) (hf : GET m (bp - 8) = tag s1 false)
    (h8 : s1 % 8 = 0) (h16 : 16 ≤ s1) (hT8 : T % 8 = 0) (hT : s1 + 16 ≤ T)
    (hb : s1 + 8 ≤ bp) (hlt : bp - s1 + T < 4294967296) :
    PREV_BLKP m bp = bp - s1 ∧ HDRP (bp - s1) = bp - s1 - 4 ∧ PACK T 0 = T ∧
    FTRP (PUT m (bp - s1 - 4) T) (PREV_BLKP (PUT m (bp - s1 - 4) T) bp) = bp - s1 + T - 8 ∧
    PREV_BLKP (PUT (PUT m (bp - s1 - 4) T) (bp - s1 + T - 8) T) bp = bp - s1 := by
  have e1 : PREV_BLKP m bp = bp - s1 :=
    PREV_BLKP_eval hf h8 (by omega) (by omega) (by omega)
  have hf2 : GET (PUT m (bp - s1 - 4) T) (bp - 8) = tag s1 false := by
    rw [GET_PUT_ne _ _ _ _ (by omega), hf]
  have e2 : PREV_BLKP (PUT m (bp - s1 - 4) T) bp = bp - s1 :=
    PREV_BLKP_eval hf2 h8 (by omega) (by omega) (by omega)
  have hh : GET (PUT m (bp - s1 - 4) T) (bp - s1 - 4) = tag T false := by
    rw [GET_PUT_eq _ _ _ (by omega), tag_false]
  have e3 : FTRP (PUT m (bp - s1 - 4) T) (bp - s1) = bp - s1 + T - 8 :=
    FTRP_eval hh hT8 (by omega) (by omega)
  have hf3 : GET (PUT (PUT m (bp - s1 - 4) T) (bp - s1 + T - 8) T) (bp - 8) = tag s1 false := by
    rw [GET_PUT_ne _ _ _ _ (by omega), hf2]
  have e4 : PREV_BLKP (PUT (PUT m (bp - s1 - 4) T) (bp - s1 + T - 8) T) bp = bp - s1 :=
    PREV_BLKP_eval hf3 h8 (by omega) (by omega) (by omega)
  refine ⟨e1, HDRP_eq _ (by omega) (by omega), PACK_free T hT8, ?_, e4⟩
  rw [e2, e3]

/-- Case 3 of `coalesce`: only the predecessor is free. -/
theorem coalesce_C {s : Heap} {L1 L2 : List (Nat × Bool)} {s1 sz : Nat} {ls : Nat → List Nat}
    (h : InvX s (L1 ++ (s1, false) :: (sz, false) :: L2) ls
      (freeAround (s.heap_listp + 344) (L1 ++ [(s1, false)]) sz L2))
    (hn : nextFree L2 = none) :
    ∃ t ls2, coalesce s (s.heap_listp + 344 + total L1 + s1) =
        some (s.heap_listp + 344 + total L1, t) ∧
      Inv t (L1 ++ (s1 + sz, false) :: L2) ls2 ∧
      t.mem_brk = s.mem_brk ∧ t.mem_max_addr = s.mem_max_addr ∧
      t.heap_listp = s.heap_listp ∧
      (∀ a, ¬ (s.heap_listp ≤ a ∧ a < s.heap_listp + 336) →
        ¬ FreeRegion (s.heap_listp + 344) (L1 ++ (s1, false) :: (sz, false) :: L2) a →
        t.mem a = s.mem a) := by
  have hL : L1 ++ (s1, false) :: (sz, false) :: L2 = (L1 ++ [(s1, false)]) ++ (sz, false) :: L2 := by
    simp
  have htot : total (L1 ++ [(s1, false)]) = total L1 + s1 := by
    simp [total]
  have h2 : InvX s ((L1 ++ [(s1, false)]) ++ (sz, false) :: L2) ls
      (freeAround (s.heap_listp + 344) (L1 ++ [(s1, false)]) sz L2) := by
    rw [← hL]; exact h
  obtain ⟨hpb, hpa⟩ := prev_eval h2
  rw [lastAlloc_free] at hpa
  rw [lastSize_concat, htot, ← Nat.add_assoc] at hpb
  rw [htot, ← Nat.add_assoc] at hpa
  obtain ⟨hsize, hnb, hna⟩ := next_eval h2
  rw [htot, ← Nat.add_assoc] at hsize hnb hna
  rw [nextFree_none_alloc hn, hnb] at hna
  obtain ⟨m1, m2, m3, m4, m5, m6, m7, m8, m9, m10, m11⟩ := h.mid
  obtain ⟨n1, n2, n3, n4, n5⟩ := m11
  simp only at n1 n2 n3 n4 n5 hpb
  rw [total_cons] at m4 m7
  simp only at m4 m7
  have hge := h.hl_ge
  have hprev : s.heap_listp + 344 + total L1 + s1 - s1 = s.heap_listp + 344 + total L1 := by omega
  rw [hprev] at hpb
  -- remove the predecessor from the index
  obtain ⟨t1, ls1, hrun1, hX1, b1, b2, b3, _, hfr1⟩ :=
    @remove_block _ _ _ _ (s.heap_listp + 344 + total L1) s1 h2
      (Or.inl (blocks_mem_mid _ _ _ _ _)) (fun x z hx => freeAround_sub hx)
  rw [freeAround_drop_prev _ _ _ _ _ (by omega)
    (fun x z hx => by have := Chain_size m10 hx; simp only at this; omega)] at hX1
  obtain ⟨mem1, brk1, max1, hl1, gm1, gc1⟩ := t1
  simp only at b1 b2 b3 hfr1
  subst b1 b2 b3
  have hT : total [(s1, false), (sz, false)] = s1 + sz := by simp [total]
  have hX1b : InvX ⟨mem1, s.mem_brk, s.mem_max_addr, s.heap_listp, gm1, gc1⟩
      (L1 ++ [(s1, false), (sz, false)] ++ L2) ls1
      (freeAround (s.heap_listp + 344) L1 (total [(s1, false), (sz, false)]) L2) := by
    rw [hT]
    simpa using hX1
  obtain ⟨t, ls2, hrun2, hinv, c1, c2, c3, _, hfr2⟩ := merge_tail hX1b
    (by intro b hb; simp at hb; rcases hb with rfl | rfl <;> rfl) (by simp)
  simp only [hT] at hrun2 hfr2 c1 c2 c3
  -- the reads in the intermediate state
  have hX1c : InvX ⟨mem1, s.mem_brk, s.mem_max_addr, s.heap_listp, gm1, gc1⟩
      (L1 ++ (s1, false) :: (sz, false) :: L2) ls1
      (freeAround (s.heap_listp + 344) L1 (s1 + sz) L2) := by
    rw [hL]; exact hX1
  obtain ⟨k1, k2, k3, k4, k5, k6, k7, k8, k9, k10, k11⟩ := hX1c.mid
  simp only at k5 k6
  have hf1 : GET mem1 (s.heap_listp + 344 + total L1 + s1 - 8) = tag s1 false := k6
  obtain ⟨w1, w2, w3, w4, w5⟩ := prev_writes mem1 (s.heap_listp + 344 + total L1 + s1) s1
    (s1 + sz) hf1 (by omega) (by omega) (by omega) (by omega) (by omega) (by omega)
  rw [hprev] at w1 w2 w4 w5
  have hs1 : GET_SIZE mem1 (s.heap_listp + 344 + total L1 - 4) = s1 := GET_SIZE_tag k5 k1
  have hw : w32 (sz + s1) = s1 + sz := by unfold w32; omega
  refine ⟨t, ls2, ?_, hinv, c1, c2, c3, ?_⟩
  · unfold coalesce
    simp only [hpa, hnb, hna, ne_eq, one_ne_zero, not_false_eq_true, not_true_eq_false,
      and_false, and_self, and_true, false_and, if_true, if_false]
    rw [hpb, hrun1, Option.some_bind]
    simp only []
    rw [w1, w2, hs1, hsize, hw, w3, w4, w5, hrun2]
    rfl
  · intro a ha1 ha2
    have e1 : t.mem a = mem1 a := by
      apply hfr2 a ha1
      intro hr
      apply ha2
      simpa using hr
    rw [e1]
    apply hfr1
    intro hT
    rcases hT with hb | ⟨x, z, ⟨hx, _⟩, hx1, hx2⟩
    · exact ha1 hb
    · have hb := h.fl.bnd x z hx
      refine ha2 ⟨x, z, ?_, by omega, by omega⟩
      rw [hL]
      exact (freeSet_mid _ _ _ _ _ _).2 (Or.inl hx)

set_option maxHeartbeats 1600000 in
/-- Case 4 of `coalesce`: both neighbours are free. -/
theorem coalesce_D {s : Heap} {L1 L2 : List (Nat × Bool)} {s1 sz s2 : Nat}
    {ls : Nat → List Nat}
    (h : InvX s (L1 ++ (s1, false) :: (sz, false) :: (s2, false) :: L2) ls
      (freeAround (s.heap_listp + 344) (L1 ++ [(s1, false)]) sz ((s2, false) :: L2))) :
    ∃ t ls2, coalesce s (s.heap_listp + 344 + total L1 + s1) =
        some (s.heap_listp + 344 + total L1, t) ∧
      Inv t (L1 ++ (s1 + sz + s2, false) :: L2) ls2 ∧
      t.mem_brk = s.mem_brk ∧ t.mem_max_addr = s.mem_max_addr ∧
      t.heap_listp = s.heap_listp ∧
      (∀ a, ¬ (s.heap_listp ≤ a ∧ a < s.heap_listp + 336) →
        ¬ FreeRegion (s.heap_listp + 344)
          (L1 ++ (s1, false) :: (sz, false) :: (s2, false) :: L2) a →
        t.mem a = s.mem a) := by
  have hL : L1 ++ (s1, false) :: (sz, false) :: (s2, false) :: L2 =
      (L1 ++ [(s1, false)]) ++ (sz, false) :: (s2, false) :: L2 := by simp
  have htot : total (L1 ++ [(s1, false)]) = total L1 + s1 := by simp [total]
  have h2 : InvX s ((L1 ++ [(s1, false)]) ++ (sz, false) :: (s2, false) :: L2) ls
      (freeAround (s.heap_listp + 344) (L1 ++ [(s1, false)]) sz ((s2, false) :: L2)) := by
    rw [← hL]; exact h
  obtain ⟨hpb, hpa⟩ := prev_eval h2
  rw [lastAlloc_free] at hpa
  rw [lastSize_concat, htot, ← Nat.add_assoc] at hpb
  rw [htot, ← Nat.add_assoc] at hpa
  obtain ⟨hsize, hnb, hna⟩ := next_eval h2
  rw [htot, ← Nat.add_assoc] at hsize hnb hna
  rw [headAlloc_free, hnb] at hna
  obtain ⟨m1, m2, m3, m4, m5, m6, m7, m8, m9, m10, m11⟩ := h.mid
  obtain ⟨n1, n2, n3, n4, n5⟩ := m11
  obtain ⟨p1, p2, p3, p4, p5⟩ := n5
  simp only at n1 n2 n3 n4 p1 p2 p3 p4 p5 hpb
  rw [total_cons, total_cons] at m4 m7
  simp only at m4 m7
  have hge := h.hl_ge
  have hprev : s.heap_listp + 344 + total L1 + s1 - s1 = s.heap_listp + 344 + total L1 := by omega
  rw [hprev] at hpb
  -- remove the predecessor from the index
  obtain ⟨t1, ls1, hrun1, hX1, b1, b2, b3, _, hfr1⟩ :=
    @remove_block _ _ _ _ (s.heap_listp + 344 + total L1) s1 h2
      (Or.inl (blocks_mem_mid _ _ _ _ _)) (fun x z hx => freeAround_sub hx)
  rw [freeAround_drop_prev _ _ _ _ _ (by omega)
    (fun x z hx => by have := Chain_size m10 hx; simp only at this; omega)] at hX1
  obtain ⟨mem1, brk1, max1, hl1, gm1, gc1⟩ := t1
  simp only at b1 b2 b3 hfr1
  subst b1 b2 b3
  obtain ⟨_, hnb1, _⟩ := next_eval hX1
  rw [htot, ← Nat.add_assoc] at hnb1
  simp only at hnb1
  -- remove the successor from the index
  have hT2 : total [(s1, false), (sz, false)] = s1 + sz := by simp [total]
  have hadd : s.heap_listp + 344 + total L1 + (s1 + sz) = s.heap_listp + 344 + total L1 + s1 + sz := by
    omega
  obtain ⟨t2, ls2, hrun2, hX2, d1, d2, d3, _, hfr2⟩ :=
    @remove_block _ _ _ _ (s.heap_listp + 344 + total L1 + s1 + sz) s2 hX1
      (Or.inr (by rw [hadd]; simp [blocks]))
      (fun x z hx => ⟨false, by
        rw [← hT2] at hx
        have := @freeAround_run _ _ [(s1, false), (sz, false)] _ _ _ hx
        simpa using this⟩)
  simp only at hX2 hfr2
  rw [← hadd, freeAround_drop_next _ _ _ _ _ (by omega) (by omega)] at hX2
  obtain ⟨mem2, brk2, max2, hl2, gm2, gc2⟩ := t2
  simp only at d1 d2 d3 hfr2
  subst d1 d2 d3
  have hT : total [(s1, false), (sz, false), (s2, false)] = s1 + sz + s2 := by
    simp [total]; omega
  have hX2b : InvX ⟨mem2, s.mem_brk, s.mem_max_addr, s.heap_listp, gm2, gc2⟩
      (L1 ++ [(s1, false), (sz, false), (s2, false)] ++ L2) ls2
      (freeAround (s.heap_listp + 344) L1 (total [(s1, false), (sz, false), (s2, false)]) L2) := by
    rw [hT]
    simpa using hX2
  obtain ⟨t, ls3, hrun3, hinv, c1, c2, c3, _, hfr3⟩ := merge_tail hX2b
    (by intro b hb; simp at hb; rcases hb with rfl | rfl | rfl <;> rfl) (by simp)
  simp only [hT] at hrun3 hfr3 c1 c2 c3 hinv
  -- the reads in the final intermediate state
  have hX2c : InvX ⟨mem2, s.mem_brk, s.mem_max_addr, s.heap_listp, gm2, gc2⟩
      (L1 ++ (s1, false) :: (sz, false) :: (s2, false) :: L2) ls2
      (freeAround (s.heap_listp + 344) L1 (s1 + sz + s2) L2) := by
    rw [hL]; exact hX2
  obtain ⟨_, _, _, _, k5, k6, _, _, _, _, k11⟩ := hX2c.mid
  obtain ⟨_, _, q3, _, q5⟩ := k11
  obtain ⟨_, _, r3, r4, _⟩ := q5
  simp only at k5 k6 q3 r3 r4
  have hf1 : GET mem2 (s.heap_listp + 344 + total L1 + s1 - 8) = tag s1 false := k6
  have num : s1 % 8 = 0 ∧ 16 ≤ s1 ∧ sz % 8 = 0 ∧ 16 ≤ sz ∧ s2 % 8 = 0 ∧ 16 ≤ s2 ∧
      s.heap_listp + 344 + total L1 + s1 + sz + s2 < 4294967296 ∧ 8 ≤ s.heap_listp := by
    refine ⟨m1, m2, n1, n2, p1, p2, ?_, hge⟩
    clear * - m7 m8
    omega
  obtain ⟨w1, w2, w3, w4, w5⟩ := prev_writes mem2 (s.heap_listp + 344 + total L1 + s1) s1
    (s1 + sz + s2) hf1 (by clear * - num; omega) (by clear * - num; omega)
    (by clear * - num; omega) (by clear * - num; omega) (by clear * - num; omega)
    (by clear * - num; omega)
  rw [hprev] at w1 w2 w4 w5
  have hs1 : GET_SIZE mem2 (s.heap_listp + 344 + total L1 - 4) = s1 := GET_SIZE_tag k5 m1
  have hnb2 : NEXT_BLKP mem2 (s.heap_listp + 344 + total L1 + s1) =
      s.heap_listp + 344 + total L1 + s1 + sz :=
    NEXT_BLKP_eval q3 (by clear * - num; omega) (by clear * - num; omega)
      (by clear * - num; omega)
  have hft2 : FTRP mem2 (s.heap_listp + 344 + total L1 + s1 + sz) =
      s.heap_listp + 344 + total L1 + s1 + sz + s2 - 8 :=
    FTRP_eval r3 (by clear * - num; omega) (by clear * - num; omega) (by clear * - num; omega)
  have hs2 : GET_SIZE mem2 (s.heap_listp + 344 + total L1 + s1 + sz + s2 - 8) = s2 :=
    GET_SIZE_tag r4 p1
  have hw1 : w32 (s1 + s2) = s1 + s2 := by unfold w32; clear * - num; omega
  have hw : w32 (sz + (s1 + s2)) = s1 + sz + s2 := by unfold w32; clear * - num; omega
  refine ⟨t, ls3, ?_, hinv, c1, c2, c3, ?_⟩
  · unfold coalesce
    simp only [hpa, hnb, hna, ne_eq, one_ne_zero, not_false_eq_true, not_true_eq_false,
      and_false, and_self, and_true, false_and, if_true, if_false]
    rw [hpb, hrun1, Option.some_bind]
    simp only []
    rw [hnb1, hrun2, Option.some_bind]
    simp only []
    rw [w1, w2, hs1, hnb2, hft2, hs2, hsize, hw1, hw, w3, w4, w5, hrun3]
    rfl
  · intro a ha1 ha2
    have e1 : t.mem a = mem2 a := by
      apply hfr3 a ha1
      intro hr
      apply ha2
      simpa using hr
    rw [e1]
    have e2 : mem2 a = mem1 a := by
      apply hfr2
      intro hT
      rcases hT with hb | ⟨x, z, ⟨hx, _⟩, hx1, hx2⟩
      · exact ha1 hb
      · have hb := hX1.fl.bnd x z hx
        refine ha2 ⟨x, z, ?_, by clear * - hb hx1 hx2; omega, by clear * - hb hx1 hx2; omega⟩
        rw [← hT2] at hx
        have := @freeAround_run _ _ [(s1, false), (sz, false)] _ _ _ hx
        simpa using this
    rw [e2]
    apply hfr1
    intro hT
    rcases hT with hb | ⟨x, z, ⟨hx, _⟩, hx1, hx2⟩
    · exact ha1 hb
    · have hb := h.fl.bnd x z hx
      refine ha2 ⟨x, z, ?_, by clear * - hb hx1 hx2; omega, by clear * - hb hx1 hx2; omega⟩
      rw [hL]
      exact (freeSet_mid _ _ _ _ _ _).2 (Or.inl hx)

theorem prevFree_some {L1 : List (Nat × Bool)} {s1 : Nat} (h : prevFree L1 = some s1) :
    ∃ L, L1 = L ++ [(s1, false)] := by
  rcases List.eq_nil_or_concat L1 with e | ⟨L, c, e⟩
  · subst e; simp [prevFree] at h
  · rw [List.concat_eq_append] at e
    subst e
    obtain ⟨c1, c2⟩ := c
    cases c2
    · simp [prevFree] at h
      subst h
      exact ⟨L, rfl⟩
    · simp [prevFree] at h

theorem nextFree_some {L2 : List (Nat × Bool)} {s2 : Nat} (h : nextFree L2 = some s2) :
    ∃ L, L2 = (s2, false) :: L := by
  cases L2 with
  | nil => simp [nextFree] at h
  | cons c L =>
    obtain ⟨c1, c2⟩ := c
    cases c2
    · simp [nextFree] at h
      subst h
      exact ⟨L, rfl⟩
    · simp [nextFree] at h

theorem prevFree_concat (L : List (Nat × Bool)) (s1 : Nat) :
    prevFree (L ++ [(s1, false)]) = some s1 := by
  simp [prevFree]

theorem nextFree_cons (L : List (Nat × Bool)) (s2 : Nat) :
    nextFree ((s2, false) :: L) = some s2 := by
  simp [nextFree]

/-- Specification of `coalesce`: called on a block that is marked free but not yet in the
free-list index, it merges the block with its free physical neighbours, enters the result
into the index and returns its address; the invariant holds afterwards. -/
theorem coalesce_spec {s : Heap} {L1 L2 : List (Nat × Bool)} {sz : Nat} {ls : Nat → List Nat}
    (h : InvX s (L1 ++ (sz, false) :: L2) ls (freeAround (s.heap_listp + 344) L1 sz L2)) :
    ∃ t ls2, coalesce s (s.heap_listp + 344 + total L1) =
        some (s.heap_listp + 344 + total (coalesceFront L1), t) ∧
      Inv t (coalesceL L1 sz L2) ls2 ∧
      t.mem_brk = s.mem_brk ∧ t.mem_max_addr = s.mem_max_addr ∧
      t.heap_listp = s.heap_listp ∧
      (∀ a, ¬ (s.heap_listp ≤ a ∧ a < s.heap_listp + 336) →
        ¬ FreeRegion (s.heap_listp + 344) (L1 ++ (sz, false) :: L2) a → t.mem a = s.mem a) := by
  rcases hp : prevFree L1 with _ | s1 <;> rcases hn : nextFree L2 with _ | s2
  · obtain ⟨t, ls2, r1, r2, r3⟩ := coalesce_A h hp hn
    refine ⟨t, ls2, ?_, ?_, r3⟩
    · simpa [coalesceFront, hp] using r1
    · simpa [coalesceL, hp, hn] using r2
  · obtain ⟨L, e⟩ := nextFree_some hn
    subst e
    obtain ⟨t, ls2, r1, r2, r3⟩ := coalesce_B h hp
    refine ⟨t, ls2, ?_, ?_, r3⟩
    · simpa [coalesceFront, hp] using r1
    · simpa [coalesceL, hp, hn] using r2
  · obtain ⟨L, e⟩ := prevFree_some hp
    subst e
    have h2 : InvX s (L ++ (s1, false) :: (sz, false) :: L2) ls
        (freeAround (s.heap_listp + 344) (L ++ [(s1, false)]) sz L2) := by
      simpa using h
    obtain ⟨t, ls2, r1, r2, r3, r4, r5, r6⟩ := coalesce_C h2 hn
    have htot : total (L ++ [(s1, false)]) = total L + s1 := by simp [total]
    refine ⟨t, ls2, ?_, ?_, r3, r4, r5, ?_⟩
    · rw [htot, ← Nat.add_assoc]
      simpa [coalesceFront, hp] using r1
    · simpa [coalesceL, hp, hn] using r2
    · intro a ha1 ha2
      exact r6 a ha1 (by simpa using ha2)
  · obtain ⟨L, e⟩ := prevFree_some hp
    subst e
    obtain ⟨L3, e⟩ := nextFree_some hn
    subst e
    have h2 : InvX s (L ++ (s1, false) :: (sz, false) :: (s2, false) :: L3) ls
        (freeAround (s.heap_listp + 344) (L ++ [(s1, false)]) sz ((s2, false) :: L3)) := by
      simpa using h
    obtain ⟨t, ls2, r1, r2, r3, r4, r5, r6⟩ := coalesce_D h2
    have htot : total (L ++ [(s1, false)]) = total L + s1 := by simp [total]
    refine ⟨t, ls2, ?_, ?_, r3, r4, r5, ?_⟩
    · rw [htot, ← Nat.add_assoc]
      simpa [coalesceFront, hp] using r1
    · simpa [coalesceL, hp, hn] using r2
    · intro a ha1 ha2
      exact r6 a ha1 (by simpa using ha2)

/-! ## `place` -/

theorem freeSet_drop_mid (p : Nat) (L1 L2 : List (Nat × Bool)) (c : Nat) (hc : 0 < c)
    (hpos : ∀ x z, (x, z, false) ∈ blocks p L1 → 0 < z) :
    (fun x z => freeSet p (L1 ++ (c, false) :: L2) x z ∧ x ≠ p + total L1) =
      freeAround p L1 c L2 := by
  funext x z
  apply propext
  rw [freeSet_mid]
  constructor
  · rintro ⟨h | ⟨h, _⟩, hne⟩
    · exact h
    · exact absurd h hne
  · intro h
    refine ⟨Or.inl h, ?_⟩
    rcases h with h | h
    · have := blocks_bounds h
      have := hpos x z h
      simp only at *
      omega
    · have := blocks_bounds h
      simp only at this
      omega

theorem freeSet_alloc_mid (p : Nat) (L1 L2 : List (Nat × Bool)) (c : Nat) :
    freeSet p (L1 ++ (c, true) :: L2) = freeAround p L1 c L2 := by
  funext x z
  apply propext
  unfold freeSet freeAround
  rw [blocks_append]
  simp [blocks]

theorem freeAround_alloc_front (p : Nat) (L1 L2 : List (Nat × Bool)) (a c : Nat)
    (hac : a ≤ c) :
    freeAround p (L1 ++ [(a, true)]) (c - a) L2 = freeAround p L1 c L2 := by
  funext x z
  apply propext
  unfold freeAround
  rw [blocks_append, total_append, total_cons, total_nil]
  simp only [Nat.add_zero]
  rw [show p + (total L1 + a) + (c - a) = p + total L1 + c by omega]
  simp [blocks]

theorem FreeRegion_place {p : Nat} {L1 L2 : List (Nat × Bool)} {a c x : Nat} (hac : a ≤ c)
    (h : FreeRegion p ((L1 ++ [(a, true)]) ++ (c - a, false) :: L2) x) :
    FreeRegion p (L1 ++ (c, false) :: L2) x := by
  obtain ⟨y, z, hy, hy1, hy2⟩ := h
  rw [blocks_append, blocks_append, total_append, total_cons, total_nil] at hy
  simp only [blocks, List.mem_append, List.mem_cons, Prod.mk.injEq, and_true,
    List.not_mem_nil, or_false, Bool.true_eq_false, and_false, Nat.add_zero] at hy
  unfold FreeRegion
  rw [blocks_append]
  simp only [blocks, List.mem_append, List.mem_cons, Prod.mk.injEq, and_true]
  rcases hy with (hy | ⟨_, _, hy⟩) | ⟨e1, e2⟩ | hy
  · exact ⟨y, z, Or.inl hy, hy1, hy2⟩
  · exact absurd hy (by simp)
  · exact ⟨p + total L1, c, Or.inr (Or.inl ⟨rfl, rfl⟩), by omega, by omega⟩
  · refine ⟨y, z, Or.inr (Or.inr ?_), hy1, hy2⟩
    rw [show p + total L1 + c = p + (total L1 + a) + (c - a) by omega]
    exact hy

theorem sub32_eq (c a : Nat) (h1 : a ≤ c) (h2 : c < 4294967296) : sub32 c a = c - a := by
  unfold sub32; omega

theorem setTags_out (m : Mem) (p c v x : Nat) (hp : 4 ≤ p) (hc : 8 ≤ c)
    (h1 : x < p - 4 ∨ p ≤ x) (h2 : x < p + c - 8 ∨ p + c - 4 ≤ x) :
    setTags m p c v x = m x := by
  unfold setTags
  rw [PUT_out _ _ _ _ (by omega), PUT_out _ _ _ _ (by omega)]

theorem setTags_hdr (m : Mem) (p c v : Nat) (hp : 4 ≤ p) (hc : 8 ≤ c) (hv : v < 4294967296) :
    GET (setTags m p c v) (p - 4) = v := by
  unfold setTags
  rw [GET_PUT_ne _ _ _ _ (by omega), GET_PUT_eq _ _ _ hv]

theorem setTags_ftr (m : Mem) (p c v : Nat) (hv : v < 4294967296) :
    GET (setTags m p c v) (p + c - 8) = v := by
  unfold setTags
  rw [GET_PUT_eq _ _ _ hv]

theorem GET_setTags_out (m : Mem) (p c v q : Nat) (hp : 4 ≤ p) (hc : 8 ≤ c)
    (h1 : q + 4 ≤ p - 4 ∨ p ≤ q) (h2 : q + 4 ≤ p + c - 8 ∨ p + c - 4 ≤ q) :
    GET (setTags m p c v) q = GET m q :=
  GET_congr fun x hx1 hx2 => setTags_out m p c v x hp hc (by omega) (by omega)

/-- Changing the allocation bit in both tags of one block keeps the heap well formed,
for any index whose blocks lie in the block itself or outside of it. -/
theorem retag_one {s : Heap} {L1 L2 : List (Nat × Bool)} {c : Nat} {al : Bool} (al2 : Bool)
    {ls : Nat → List Nat} {F : Nat → Nat → Prop}
    (h : InvX s (L1 ++ (c, al) :: L2) ls F)
    (hF : ∀ x z, F x z → (x = s.heap_listp + 344 + total L1 ∧ z = c) ∨
      x + z ≤ s.heap_listp + 344 + total L1 ∨ s.heap_listp + 344 + total L1 + c ≤ x) :
    InvX { s with mem := setTags s.mem (s.heap_listp + 344 + total L1) c (tag c al2) }
      (L1 ++ (c, al2) :: L2) ls F := by
  obtain ⟨m1, m2, m3, m4, m5, m6, m7, m8, m9, m10, m11⟩ := h.mid
  have hge := h.hl_ge
  have hfl0 := h.fl
  have hX : InvX s (L1 ++ [(c, al)] ++ L2) ls F := by simpa using h
  generalize hP : s.heap_listp + 344 + total L1 = P at *
  have hPge : s.heap_listp + 344 ≤ P := by omega
  have htl : tag c al2 < 4294967296 := tag_lt _ _ (by omega)
  have hX2 := @InvX_retag _ _ _ [(c, al2)] _ _ _ (setTags s.mem P c (tag c al2)) hX
    (by simp [total])
    (by
      rw [hP]
      refine ⟨m1, m2, ?_, ?_, rfl⟩
      · exact setTags_hdr _ _ _ _ (by omega) (by omega) htl
      · exact setTags_ftr _ _ _ _ htl)
    (by
      rw [hP]
      intro x hx
      simp only [total, List.map_cons, List.map_nil, List.sum_cons, List.sum_nil,
        Nat.add_zero] at hx
      exact setTags_out _ _ _ _ _ (by omega) (by omega) (by omega) (by omega))
    (by
      apply hfl0.frame2
      · intro x h1 h2
        exact setTags_out _ _ _ _ _ (by omega) (by omega) (by omega) (by omega)
      · intro x z y hx h1 h2
        have hb := hfl0.bnd x z hx
        have := hF x z hx
        exact setTags_out _ _ _ _ _ (by omega) (by omega) (by omega) (by omega)
      · intro x z hx
        have hb := hfl0.bnd x z hx
        rcases hF x z hx with ⟨e1, e2⟩ | hd
        · rw [e1, e2, setTags_hdr _ _ _ _ (by omega) (by omega) htl]
          exact tag_size _ _ m1
        · rw [GET_setTags_out _ _ _ _ _ (by omega) (by omega) (by omega) (by omega)]
          exact hfl0.hdr x z hx)
  simpa using hX2

/-- Splitting one block into an allocated block of `a` bytes and a free remainder
keeps the heap well formed, the remainder not yet being in the index. -/
theorem retag_split {s : Heap} {L1 L2 : List (Nat × Bool)} {c a : Nat} {al : Bool}
    {ls : Nat → List Nat}
    (h : InvX s (L1 ++ (c, al) :: L2) ls (freeAround (s.heap_listp + 344) L1 c L2))
    (ha8 : a % 8 = 0) (ha16 : 16 ≤ a) (hac : a ≤ c) (hsp : 16 ≤ c - a) :
    InvX { s with mem := (setTags (setTags s.mem (s.heap_listp + 344 + total L1) a (a + 1))
        (s.heap_listp + 344 + total L1 + a) (c - a) (c - a)) }
      ((L1 ++ [(a, true)]) ++ (c - a, false) :: L2) ls
      (freeAround (s.heap_listp + 344) (L1 ++ [(a, true)]) (c - a) L2) := by
  obtain ⟨m1, m2, m3, m4, m5, m6, m7, m8, m9, m10, m11⟩ := h.mid
  have hge := h.hl_ge
  have hfl0 := h.fl
  have hX : InvX s (L1 ++ [(c, al)] ++ L2) ls (freeAround (s.heap_listp + 344) L1 c L2) := by
    simpa using h
  rw [freeAround_alloc_front _ _ _ _ _ hac]
  have hFb : ∀ x z, freeAround (s.heap_listp + 344) L1 c L2 x z →
      x + 16 ≤ s.heap_listp + 344 + total L1 ∨ s.heap_listp + 344 + total L1 + c ≤ x := by
    intro x z hx
    have h1 := freeAround_bounds hx
    have h2 := hfl0.bnd x z hx
    omega
  generalize hP : s.heap_listp + 344 + total L1 = P at *
  have hPge : s.heap_listp + 344 ≤ P := by omega
  have hout : ∀ x, (x + 4 < P ∨ P + c ≤ x + 4) →
      setTags (setTags s.mem P a (a + 1)) (P + a) (c - a) (c - a) x = s.mem x := by
    intro x hx
    rw [setTags_out _ _ _ _ _ (by omega) (by omega) (by omega) (by omega),
      setTags_out _ _ _ _ _ (by omega) (by omega) (by omega) (by omega)]
  have hX2 := @InvX_retag _ _ _ [(a, true), (c - a, false)] _ _ _
    (setTags (setTags s.mem P a (a + 1)) (P + a) (c - a) (c - a)) hX
    (by simp [total]; omega)
    (by
      rw [hP]
      refine ⟨ha8, ha16, ?_, ?_, by show (c - a) % 8 = 0; omega, hsp, ?_, ?_,
        by show P + a + (c - a) = P + total [(c, al)]; simp [total]; omega⟩
      · show GET _ (P - 4) = tag a true
        rw [GET_setTags_out _ _ _ _ _ (by omega) (by omega) (by omega) (by omega),
          setTags_hdr _ _ _ _ (by omega) (by omega) (by omega), tag_true]
      · show GET _ (P + a - 8) = tag a true
        rw [GET_setTags_out _ _ _ _ _ (by omega) (by omega) (by omega) (by omega),
          setTags_ftr _ _ _ _ (by omega), tag_true]
      · show GET _ (P + a - 4) = tag (c - a) false
        rw [setTags_hdr _ _ _ _ (by omega) (by omega) (by omega), tag_false]
      · show GET _ (P + a + (c - a) - 8) = tag (c - a) false
        rw [setTags_ftr _ _ _ _ (by omega), tag_false])
    (by
      rw [hP]
      intro x hx
      simp only [total, List.map_cons, List.map_nil, List.sum_cons, List.sum_nil,
        Nat.add_zero] at hx
      exact hout x hx)
    (by
      apply hfl0.frame2
      · intro x h1 h2
        exact hout x (by omega)
      · intro x z y hx h1 h2
        have := hFb x z hx
        exact hout y (by omega)
      · intro x z hx
        have := hFb x z hx
        rw [GET_congr (m := s.mem) fun y h1 h2 => hout y (by omega)]
        exact hfl0.hdr x z hx)
  simpa using hX2

theorem place_split_eq (s : Heap) (P a c : Nat) (hP : 8 ≤ P) (hPc : P + c < 4294967296)
    (hsize : GET_SIZE s.mem (HDRP P) = c) (ha8 : a % 8 = 0) (hac : a ≤ c)
    (hsp : 16 ≤ c - a) (hc8 : c % 8 = 0) :
    place s P a = (remove_free_list s P).bind fun s1 =>
      add_free_list { s1 with mem := setTags (setTags s1.mem P a (a + 1)) (P + a) (c - a) (c - a) }
        (P + a) := by
  have hsub : sub32 c a = c - a := sub32_eq c a hac (by omega)
  have h2d : 2 * DSIZE = 16 := rfl
  have hhd : HDRP P = P - 4 := HDRP_eq _ (by omega) (by omega)
  have hhd2 : HDRP (P + a) = P + a - 4 := HDRP_eq _ (by omega) (by omega)
  have hpk1 : PACK a 1 = a + 1 := PACK_alloc a ha8
  have hpk2 : PACK (c - a) 0 = c - a := PACK_free _ (by omega)
  unfold place setTags
  simp only [hsize, hsub, h2d, ge_iff_le, hsp, if_true]
  refine congrArg (Option.bind (remove_free_list s P)) (funext fun s1 => ?_)
  have hftr1 : FTRP (PUT s1.mem (P - 4) (a + 1)) P = P + a - 8 := by
    apply @FTRP_eval _ _ _ true
    · rw [GET_PUT_eq _ _ _ (by omega), tag_true]
    · exact ha8
    · omega
    · omega
  have hnb2 : NEXT_BLKP (PUT (PUT s1.mem (P - 4) (a + 1)) (P + a - 8) (a + 1)) P = P + a := by
    apply @NEXT_BLKP_eval _ _ _ true
    · rw [GET_PUT_ne _ _ _ _ (by omega), GET_PUT_eq _ _ _ (by omega), tag_true]
    · exact ha8
    · omega
    · omega
  have hftr2 : FTRP (PUT (PUT (PUT s1.mem (P - 4) (a + 1)) (P + a - 8) (a + 1))
      (P + a - 4) (c - a)) (P + a) = P + a + (c - a) - 8 := by
    apply @FTRP_eval _ _ _ false
    · rw [GET_PUT_eq _ _ _ (by omega), tag_false]
    · omega
    · omega
    · omega
  rw [hhd, hpk1, hftr1, hnb2, hhd2, hpk2, hftr2]

theorem place_whole_eq (s : Heap) (P a c : Nat) (hP : 8 ≤ P) (hPc : P + c < 4294967296)
    (hsize : GET_SIZE s.mem (HDRP P) = c) (hac : a ≤ c) (hsp : ¬ 16 ≤ c - a) (hc8 : c % 8 = 0) :
    place s P a = remove_free_list { s with mem := setTags s.mem P c (tag c true) } P := by
  have hsub : sub32 c a = c - a := sub32_eq c a hac (by omega)
  have h2d : 2 * DSIZE = 16 := rfl
  have hhd : HDRP P = P - 4 := HDRP_eq _ (by omega) (by omega)
  have hpk1 : PACK c 1 = c + 1 := PACK_alloc c hc8
  have hftr1 : FTRP (PUT s.mem (P - 4) (c + 1)) P = P + c - 8 := by
    apply @FTRP_eval _ _ _ true
    · rw [GET_PUT_eq _ _ _ (by omega), tag_true]
    · exact hc8
    · omega
    · omega
  unfold place setTags
  simp only [hsize, hsub, h2d, ge_iff_le, hsp, if_false]
  rw [hhd, hpk1, hftr1, tag_true]

/-- Function `place` on a free block of the index: the block is split when the
remainder can form a block of its own, and taken whole otherwise. -/
theorem place_spec {s : Heap} {L1 L2 : List (Nat × Bool)} {c a : Nat} {ls : Nat → List Nat}
    (h : Inv s (L1 ++ (c, false) :: L2) ls) (ha8 : a % 8 = 0) (ha16 : 16 ≤ a) (hac : a ≤ c) :
    ∃ t ls2, place s (s.heap_listp + 344 + total L1) a = some t ∧
      Inv t (placeL L1 a c L2) ls2 ∧
      t.mem_brk = s.mem_brk ∧ t.mem_max_addr = s.mem_max_addr ∧
      t.heap_listp = s.heap_listp ∧
      (∀ x, ¬ (s.heap_listp ≤ x ∧ x < s.heap_listp + 336) →
        ¬ FreeRegion (s.heap_listp + 344) (L1 ++ (c, false) :: L2) x → t.mem x = s.mem x) := by
  unfold Inv at h
  obtain ⟨m1, m2, m3, m4, m5, m6, m7, m8, m9, m10, m11⟩ := h.mid
  have hge := h.hl_ge
  obtain ⟨hsize, _, _⟩ := next_eval h
  have num : 8 ≤ s.heap_listp ∧ 16 ≤ c ∧ s.heap_listp + 344 + total L1 + c < 4294967296 := by
    clear * - hge m2 m7 m8
    omega
  clear m2 m3 m4 m5 m6 m7 m8 m9 m10 m11 hge
  have hFpos : ∀ x z, (x, z, false) ∈ blocks (s.heap_listp + 344) L1 → 0 < z := by
    intro x z hx
    have := h.fl.bnd x z ((freeSet_mid _ _ _ _ _ _).2 (Or.inl (Or.inl hx)))
    omega
  have hmid : freeSet (s.heap_listp + 344) (L1 ++ (c, false) :: L2)
      (s.heap_listp + 344 + total L1) c := blocks_mem_mid _ _ _ _ _
  have hreg : ∀ x, ¬ FreeRegion (s.heap_listp + 344) (L1 ++ (c, false) :: L2) x →
      (x + 4 < s.heap_listp + 344 + total L1 ∨ s.heap_listp + 344 + total L1 + c ≤ x + 4) := by
    intro x hx
    by_contra hcon
    exact hx ⟨_, c, hmid, by omega, by omega⟩
  have htouch : ∀ x, ¬ (s.heap_listp ≤ x ∧ x < s.heap_listp + 336) →
      ¬ FreeRegion (s.heap_listp + 344) (L1 ++ (c, false) :: L2) x →
      ¬ Touch s.heap_listp (fun x z => freeSet (s.heap_listp + 344) (L1 ++ (c, false) :: L2) x z ∧
        x ≠ s.heap_listp + 344 + total L1) x := by
    intro x hx1 hx2 hT
    rcases hT with hb | ⟨y, z, ⟨hy, _⟩, hy1, hy2⟩
    · exact hx1 hb
    · have hb := h.fl.bnd y z hy
      exact hx2 ⟨y, z, hy, by omega, by omega⟩
  by_cases hsp : 16 ≤ c - a
  · -- the block is split
    obtain ⟨s1, ls1, hrun1, hX1, b1, b2, b3, _, hfr1⟩ :=
      @remove_block _ _ _ _ (s.heap_listp + 344 + total L1) c h hmid
        (fun x z hx => ⟨false, hx⟩)
    rw [freeSet_drop_mid _ _ _ _ (by omega) hFpos] at hX1
    obtain ⟨mem1, brk1, max1, hl1, gm1, gc1⟩ := s1
    simp only at b1 b2 b3 hfr1
    subst b1 b2 b3
    have hX2 := retag_split hX1 ha8 ha16 hac hsp
    obtain ⟨t, ls2, hrun3, hinv, c1, c2, c3, _, hfr3⟩ := add_block hX2
    simp only at hrun3 c1 c2 c3 hfr3 hinv
    have etot : s.heap_listp + 344 + total (L1 ++ [(a, true)]) =
        s.heap_listp + 344 + total L1 + a := by
      rw [total_append, total_cons, total_nil]; simp only; omega
    rw [etot] at hrun3
    refine ⟨t, ls2, ?_, ?_, c1, c2, c3, ?_⟩
    · rw [place_split_eq s _ a c (by omega) (by omega) hsize ha8 hac hsp m1, hrun1,
        Option.some_bind]
      exact hrun3
    · unfold placeL
      rw [if_pos hsp]
      simpa using hinv
    · intro x hx1 hx2
      have hr := hreg x hx2
      rw [hfr3 x hx1 (fun hr => hx2 (FreeRegion_place hac hr)),
        setTags_out _ _ _ _ _ (by omega) (by omega) (by omega) (by omega),
        setTags_out _ _ _ _ _ (by omega) (by omega) (by omega) (by omega)]
      exact hfr1 x (htouch x hx1 hx2)
  · -- the block is taken whole
    have hX2 := retag_one true h (by
      intro x z hx
      rcases (freeSet_mid _ _ _ _ _ _).1 hx with hx2 | e
      · have h1 := freeAround_bounds hx2
        omega
      · exact Or.inl e)
    obtain ⟨t, ls2, hrun3, hinv, c1, c2, c3, _, hfr3⟩ :=
      @remove_block _ _ _ _ (s.heap_listp + 344 + total L1) c hX2 hmid
        (fun x z hx => by
          rcases (freeSet_mid _ _ _ _ _ _).1 hx with hx2 | ⟨e1, e2⟩
          · rw [← freeSet_alloc_mid] at hx2
            exact ⟨false, hx2⟩
          · rw [e1, e2]
            exact ⟨true, blocks_mem_mid _ _ _ _ _⟩)
    simp only at hrun3 c1 c2 c3 hfr3 hinv
    rw [freeSet_drop_mid _ _ _ _ (by omega) hFpos, ← freeSet_alloc_mid] at hinv
    refine ⟨t, ls2, ?_, ?_, c1, c2, c3, ?_⟩
    · rw [place_whole_eq s _ a c (by omega) (by omega) hsize hac hsp m1]
      exact hrun3
    · unfold placeL
      rw [if_neg hsp]
      unfold Inv
      rw [c3]
      exact hinv
    · intro x hx1 hx2
      have hr := hreg x hx2
      rw [hfr3 x (htouch x hx1 hx2)]
      exact setTags_out _ _ _ _ _ (by omega) (by omega) (by omega) (by omega)

/-! ## `first_fit` -/

/-- The loop of `first_fit` walks the chain in address order and stops at the first free
block that is large enough, or at the epilogue. -/
theorem first_fit_loop_spec (m : Mem) (a : Nat) :
    ∀ (L : List (Nat × Bool)) (p q fuel : Nat), Chain m p L q → GET m (q - 4) = 1 →
      4 ≤ p → q < 4294967296 → L.length < fuel →
      first_fit_loop fuel m a p = some (firstFit p L a) := by
  intro L
  induction L with
  | nil =>
    intro p q fuel hc he hp hq hf
    have e : p = q := hc
    subst e
    obtain ⟨f, rfl⟩ : ∃ f, fuel = f + 1 := ⟨fuel - 1, by simp at hf; omega⟩
    have hs : GET_SIZE m (HDRP p) = 0 := by
      rw [HDRP_eq p hp hq, GET_SIZE_eq, he]
    simp [first_fit_loop, firstFit, hs]
  | cons b L ih =>
    intro p q fuel hc he hp hq hf
    obtain ⟨f, rfl⟩ : ∃ f, fuel = f + 1 := ⟨fuel - 1, by simp at hf; omega⟩
    have hend := Chain_end hc
    rw [total_cons] at hend
    obtain ⟨h1, h2, h3, h4, h5⟩ := hc
    have hhd : HDRP p = p - 4 := HDRP_eq p hp (by omega)
    have hs : GET_SIZE m (HDRP p) = b.1 := by rw [hhd]; exact GET_SIZE_tag h3 h1
    have hal : GET_ALLOC m (HDRP p) = if b.2 then 1 else 0 := by
      rw [hhd]; exact GET_ALLOC_tag h3 h1
    have hnx : NEXT_BLKP m p = p + b.1 := NEXT_BLKP_eval h3 h1 hp (by omega)
    have hrec := ih (p + b.1) q f h5 he (by omega) hq (by simp at hf; omega)
    have hpos : b.1 > 0 := by omega
    unfold first_fit_loop firstFit
    rw [hs, hal, hnx, hrec]
    simp only [hpos, if_true]
    cases b.2
    · by_cases hab : a ≤ b.1 <;> simp [hab]
    · simp

theorem first_fit_spec {s : Heap} {L : List (Nat × Bool)} {ls : Nat → List Nat}
    {F : Nat → Nat → Prop} (h : InvX s L ls F) (a : Nat) :
    first_fit s a = some (firstFit (s.heap_listp + 344) L a) := by
  have hge := h.hl_ge
  have hend := Chain_end h.chain
  have hlen := chain_length_le h.chain
  have hb := h.brk_le
  have hm := h.max_lt
  have num : 8 ≤ s.heap_listp ∧ s.heap_listp + 344 < 4294967296 ∧ s.mem_brk < 4294967296 ∧
      L.length < 4294967295 := by
    clear * - hge hend hlen hb hm
    omega
  clear hend hlen hb hm hge
  have hhd : HDRP s.heap_listp = s.heap_listp - 4 := HDRP_eq _ (by omega) (by omega)
  have ht : GET s.mem (s.heap_listp - 4) = tag 344 true := h.pro_hdr
  have hs : GET_SIZE s.mem (HDRP s.heap_listp) = 344 := by
    rw [hhd]; exact GET_SIZE_tag ht (by omega)
  have hal : GET_ALLOC s.mem (HDRP s.heap_listp) = 1 := by
    rw [hhd, GET_ALLOC_tag ht (by omega)]; rfl
  have hnx : NEXT_BLKP s.mem s.heap_listp = s.heap_listp + 344 :=
    NEXT_BLKP_eval ht (by omega) (by omega) (by omega)
  have hrec := first_fit_loop_spec s.mem a L (s.heap_listp + 344) s.mem_brk 4294967295
    h.chain h.epi (by omega) (by omega) (by omega)
  unfold first_fit
  have hF : FUEL = 4294967295 + 1 := rfl
  rw [hF]
  unfold first_fit_loop
  rw [hs, hal, hnx, hrec]
  simp

theorem firstFit_none (p : Nat) (a : Nat) :
    ∀ (L : List (Nat × Bool)), (∀ b, b ∈ L → ¬ (b.2 = false ∧ a ≤ b.1)) → firstFit p L a = 0 := by
  intro L
  induction L generalizing p with
  | nil => intro _; rfl
  | cons b L ih =>
    intro h
    unfold firstFit
    rw [if_neg (h b (by simp))]
    exact ih _ (fun c hc => h c (by simp [hc]))

theorem firstFit_eq (a c : Nat) (L2 : List (Nat × Bool)) (hac : a ≤ c) :
    ∀ (L1 : List (Nat × Bool)) (p : Nat), (∀ b, b ∈ L1 → ¬ (b.2 = false ∧ a ≤ b.1)) →
      firstFit p (L1 ++ (c, false) :: L2) a = p + total L1 := by
  intro L1
  induction L1 with
  | nil =>
    intro p _
    simp [firstFit, hac, total]
  | cons b L ih =>
    intro p h
    rw [List.cons_append]
    unfold firstFit
    rw [if_neg (h b (by simp)), ih _ (fun c hc => h c (by simp [hc])), total_cons]
    omega

/-- A chain either has no free block of at least `a` bytes, or splits at the first such
block. -/
theorem firstFit_cases (a : Nat) :
    ∀ (L : List (Nat × Bool)), (∀ b, b ∈ L → ¬ (b.2 = false ∧ a ≤ b.1)) ∨
      ∃ L1 c L2, L = L1 ++ (c, false) :: L2 ∧ a ≤ c ∧
        ∀ b, b ∈ L1 → ¬ (b.2 = false ∧ a ≤ b.1) := by
  intro L
  induction L with
  | nil => left; simp
  | cons b L ih =>
    by_cases hb : b.2 = false ∧ a ≤ b.1
    · right
      refine ⟨[], b.1, L, ?_, hb.2, by simp⟩
      obtain ⟨b1, b2⟩ := b
      simp only at hb
      simp [hb.1]
    · rcases ih with h | ⟨L1, c, L2, e, hc, h⟩
      · left
        intro x hx
        rcases List.mem_cons.1 hx with rfl | hx
        · exact hb
        · exact h x hx
      · right
        refine ⟨b :: L1, c, L2, by rw [e]; rfl, hc, ?_⟩
        intro x hx
        rcases List.mem_cons.1 hx with rfl | hx
        · exact hb
        · exact h x hx

/-! ## `extend_heap` -/

theorem toInt32_neg1 : toInt32 4294967295 = -1 := by decide

theorem toInt32_ne_neg1 (x : Nat) (h : x % 8 = 0) : ¬ (toInt32 x = -1) := by
  have h2 : x % 4294967296 % 8 = x % 8 := Nat.mod_mod_of_dvd x (by norm_num)
  unfold toInt32
  split_ifs
  · exact not_false
  · omega

theorem extend_heap_fail (s : Heap) (words size : Nat)
    (hsz : (if words % 2 ≠ 0 then w32 ((words + 1) * WSIZE) else w32 (words * WSIZE)) = size)
    (hf : toInt32 size < 0 ∨ s.mem_brk + size > s.mem_max_addr) :
    extend_heap s words = some (0, s) := by
  unfold extend_heap mem_sbrk
  simp only [hsz, hf, if_true, toInt32_neg1]

theorem extend_heap_eq (s : Heap) (words size : Nat)
    (hsz : (if words % 2 ≠ 0 then w32 ((words + 1) * WSIZE) else w32 (words * WSIZE)) = size)
    (hok : ¬ (toInt32 size < 0 ∨ s.mem_brk + size > s.mem_max_addr))
    (hb8 : s.mem_brk % 8 = 0) (hb : 8 ≤ s.mem_brk) (hmax : s.mem_max_addr < 4294967296)
    (hs8 : size % 8 = 0) (hs16 : 16 ≤ size) :
    extend_heap s words =
      coalesce { s with mem := PUT (setTags s.mem s.mem_brk size size) (s.mem_brk + size - 4) 1,
                        mem_brk := s.mem_brk + size } s.mem_brk := by
  have hlt : s.mem_brk + size < 4294967296 := by omega
  have hhd : HDRP s.mem_brk = s.mem_brk - 4 := HDRP_eq _ (by omega) (by omega)
  have hhd2 : HDRP (s.mem_brk + size) = s.mem_brk + size - 4 := HDRP_eq _ (by omega) (by omega)
  have hpk : PACK size 0 = size := PACK_free _ hs8
  have hpk2 : PACK 0 1 = 1 := by decide
  have hftr : FTRP (PUT s.mem (s.mem_brk - 4) size) s.mem_brk = s.mem_brk + size - 8 := by
    apply @FTRP_eval _ _ _ false
    · rw [GET_PUT_eq _ _ _ (by omega), tag_false]
    · exact hs8
    · omega
    · omega
  have hnb : NEXT_BLKP (PUT (PUT s.mem (s.mem_brk - 4) size) (s.mem_brk + size - 8) size)
      s.mem_brk = s.mem_brk + size := by
    apply @NEXT_BLKP_eval _ _ _ false
    · rw [GET_PUT_ne _ _ _ _ (by omega), GET_PUT_eq _ _ _ (by omega), tag_false]
    · exact hs8
    · omega
    · omega
  unfold extend_heap mem_sbrk setTags
  simp only [hsz, hok, if_false, toInt32_ne_neg1 _ hb8]
  rw [hhd, hpk, hftr, hnb, hhd2, hpk2]

theorem freeAround_nil (p : Nat) (L : List (Nat × Bool)) (T : Nat) :
    freeAround p L T [] = freeSet p L := by
  funext x z
  apply propext
  simp [freeAround, freeSet, blocks]

/-- Appending a fresh free block at the break and moving the epilogue keeps the heap well
formed; the new block is not yet in the index. -/
theorem InvX_extend {s : Heap} {L : List (Nat × Bool)} {ls : Nat → List Nat}
    {F : Nat → Nat → Prop} (h : InvX s L ls F)
    (hsub : ∀ x z, F x z → ∃ al, (x, z, al) ∈ blocks (s.heap_listp + 344) L)
    (size : Nat) (hs8 : size % 8 = 0) (hs16 : 16 ≤ size)
    (hfit : s.mem_brk + size ≤ s.mem_max_addr) :
    InvX { s with mem := PUT (setTags s.mem s.mem_brk size size) (s.mem_brk + size - 4) 1,
                  mem_brk := s.mem_brk + size } (L ++ [(size, false)]) ls F := by
  have hend := Chain_end h.chain
  have hge := h.hl_ge
  have hmax := h.max_lt
  have num : 8 ≤ s.heap_listp ∧ s.heap_listp + 344 ≤ s.mem_brk ∧
      s.mem_brk + size < 4294967296 := by
    clear * - hend hge hmax hfit
    omega
  clear hend hge hmax
  have hout : ∀ x, x + 4 < s.mem_brk →
      PUT (setTags s.mem s.mem_brk size size) (s.mem_brk + size - 4) 1 x = s.mem x := by
    intro x hx
    rw [PUT_out _ _ _ _ (by omega),
      setTags_out _ _ _ _ _ (by omega) (by omega) (by omega) (by omega)]
  have hfl0 := h.fl
  refine ⟨h.hl8, h.hl_ge, hfit, h.max_lt, h.span, ?_, ?_, ?_, ?_, ?_, h.gcount_eq, h.gmin⟩
  · show GET (PUT _ _ _) (s.heap_listp - 4) = 345
    rw [← h.pro_hdr]
    exact GET_congr fun x h1 h2 => hout x (by omega)
  · show GET (PUT _ _ _) (s.heap_listp + 336) = 345
    rw [← h.pro_ftr]
    exact GET_congr fun x h1 h2 => hout x (by omega)
  · show GET (PUT _ _ _) (s.mem_brk + size - 4) = 1
    rw [GET_PUT_eq _ _ _ (by omega)]
  · show Chain (PUT _ _ _) (s.heap_listp + 344) (L ++ [(size, false)]) (s.mem_brk + size)
    rw [Chain_append]
    have hend := Chain_end h.chain
    rw [← hend]
    refine ⟨Chain_frame_range h.chain fun x h1 h2 => hout x (by omega), hs8, hs16, ?_, ?_, rfl⟩
    · show GET (PUT _ _ _) (s.mem_brk - 4) = tag size false
      rw [GET_PUT_ne _ _ _ _ (by omega), setTags_hdr _ _ _ _ (by omega) (by omega) (by omega),
        tag_false]
    · show GET (PUT _ _ _) (s.mem_brk + size - 8) = tag size false
      rw [GET_PUT_ne _ _ _ _ (by omega), setTags_ftr _ _ _ _ (by omega), tag_false]
  · show FLInv (PUT _ _ _) s.heap_listp ls F
    have hFb : ∀ x z, F x z → x + z ≤ s.mem_brk ∧ 16 ≤ z ∧ s.heap_listp + 344 ≤ x := by
      intro x z hx
      obtain ⟨al, hb⟩ := hsub x z hx
      have h1 := blocks_bounds hb
      have h2 := hfl0.bnd x z hx
      have hend := Chain_end h.chain
      simp only at h1
      clear * - h1 h2 hend
      omega
    apply hfl0.frame2
    · intro x h1 h2
      exact hout x (by omega)
    · intro x z y hx h1 h2
      have := hFb x z hx
      exact hout y (by omega)
    · intro x z hx
      have := hFb x z hx
      rw [GET_congr (m := s.mem) fun y h1 h2 => hout y (by omega)]
      exact hfl0.hdr x z hx

theorem coalesceFront_total_le (L : List (Nat × Bool)) :
    total (coalesceFront L) + (prevFree L).getD 0 = total L := by
  rcases hp : prevFree L with _ | s1
  · simp [coalesceFront, hp]
  · obtain ⟨L0, e⟩ := prevFree_some hp
    subst e
    simp [coalesceFront, hp, total_append, total_cons, total_nil]

/-- Function `extend_heap` when the heap-extension primitive succeeds. -/
theorem extend_heap_spec {s : Heap} {L : List (Nat × Bool)} {ls : Nat → List Nat}
    (h : Inv s L ls) (words size : Nat)
    (hsz : (if words % 2 ≠ 0 then w32 ((words + 1) * WSIZE) else w32 (words * WSIZE)) = size)
    (hs8 : size % 8 = 0) (hs16 : 16 ≤ size)
    (hok : ¬ (toInt32 size < 0 ∨ s.mem_brk + size > s.mem_max_addr)) :
    ∃ t ls2, extend_heap s words =
        some (s.heap_listp + 344 + total (coalesceFront L), t) ∧
      Inv t (coalesceL L size []) ls2 ∧
      t.mem_brk = s.mem_brk + size ∧ t.mem_max_addr = s.mem_max_addr ∧
      t.heap_listp = s.heap_listp ∧
      (∀ x, ¬ (s.heap_listp ≤ x ∧ x < s.heap_listp + 336) →
        ¬ FreeRegion (s.heap_listp + 344) L x → x + 4 < s.mem_brk → t.mem x = s.mem x) := by
  unfold Inv at h
  have hend := Chain_end h.chain
  have hge := h.hl_ge
  have hmax := h.max_lt
  have ht8 := total_mod8 h.chain
  have hl8 := h.hl8
  have hfit : s.mem_brk + size ≤ s.mem_max_addr := by
    clear * - hok
    omega
  have num : 8 ≤ s.mem_brk ∧ s.mem_brk % 8 = 0 ∧ s.mem_brk + size < 4294967296 ∧
      8 ≤ s.heap_listp := by
    clear * - hend hge hmax ht8 hl8 hfit
    omega
  have hX := InvX_extend h (fun x z hx => ⟨false, hx⟩) size hs8 hs16 hfit
  rw [← freeAround_nil _ _ size] at hX
  obtain ⟨t, ls2, hrun, hinv, c1, c2, c3, hfr⟩ := coalesce_spec hX
  simp only at hrun c1 c2 c3 hfr
  rw [← hend] at hrun
  refine ⟨t, ls2, ?_, hinv, c1, c2, c3, ?_⟩
  · rw [extend_heap_eq s words size hsz hok num.2.1 num.1 hmax hs8 hs16]
    exact hrun
  · intro x hx1 hx2 hx3
    rw [hfr x hx1]
    · rw [PUT_out _ _ _ _ (by omega),
        setTags_out _ _ _ _ _ (by omega) (by omega) (by omega) (by omega)]
    · rintro ⟨y, z, hy, hy1, hy2⟩
      rw [blocks_append] at hy
      simp only [blocks, List.mem_append, List.mem_cons, Prod.mk.injEq, and_true,
        List.not_mem_nil, or_false] at hy
      rcases hy with hy | ⟨e1, e2⟩
      · exact hx2 ⟨y, z, hy, hy1, hy2⟩
      · clear * - e1 hy1 hx3 hend
        omega

/-! ## `mm_free` -/

theorem mm_free_eq (s : Heap) (P c : Nat) (hP : 8 ≤ P) (hPc : P + c < 4294967296)
    (hsize : GET_SIZE s.mem (HDRP P) = c) (hc8 : c % 8 = 0) :
    mm_free s P = (coalesce { s with mem := setTags s.mem P c c } P).map fun r => r.2 := by
  have hhd : HDRP P = P - 4 := HDRP_eq _ (by omega) (by omega)
  have hpk : PACK c 0 = c := PACK_free _ hc8
  have hftr : FTRP (PUT s.mem (P - 4) c) P = P + c - 8 := by
    apply @FTRP_eval _ _ _ false
    · rw [GET_PUT_eq _ _ _ (by omega), tag_false]
    · exact hc8
    · omega
    · omega
  unfold mm_free setTags
  simp only [hsize]
  rw [hhd, hpk, hftr]

/-- Function `mm_free` on an allocated block: the block is marked free and merged with
its free neighbours. -/
theorem mm_free_spec {s : Heap} {L1 L2 : List (Nat × Bool)} {c : Nat} {ls : Nat → List Nat}
    (h : Inv s (L1 ++ (c, true) :: L2) ls) :
    ∃ t ls2, mm_free s (s.heap_listp + 344 + total L1) = some t ∧
      Inv t (coalesceL L1 c L2) ls2 ∧
      t.mem_brk = s.mem_brk ∧ t.mem_max_addr = s.mem_max_addr ∧
      t.heap_listp = s.heap_listp ∧
      (∀ x, ¬ (s.heap_listp ≤ x ∧ x < s.heap_listp + 336) →
        ¬ FreeRegion (s.heap_listp + 344) (L1 ++ (c, false) :: L2) x → t.mem x = s.mem x) := by
  unfold Inv at h
  obtain ⟨m1, m2, m3, m4, m5, m6, m7, m8, m9, m10, m11⟩ := h.mid
  have hge := h.hl_ge
  obtain ⟨hsize, _, _⟩ := next_eval h
  have num : 8 ≤ s.heap_listp ∧ 16 ≤ c ∧ s.heap_listp + 344 + total L1 + c < 4294967296 := by
    clear * - hge m2 m7 m8
    omega
  clear m2 m3 m4 m5 m6 m7 m8 m9 m10 m11 hge
  have hX := retag_one false h (by
    intro x z hx
    rw [freeSet_alloc_mid] at hx
    have h1 := freeAround_bounds hx
    omega)
  rw [freeSet_alloc_mid, tag_false] at hX
  obtain ⟨t, ls2, hrun, hinv, c1, c2, c3, hfr⟩ := coalesce_spec hX
  simp only at hrun c1 c2 c3 hfr
  refine ⟨t, ls2, ?_, hinv, c1, c2, c3, ?_⟩
  · rw [mm_free_eq s _ c (by omega) (by omega) hsize m1, hrun]
    rfl
  · intro x hx1 hx2
    rw [hfr x hx1 hx2]
    have hmid : (s.heap_listp + 344 + total L1, c, false) ∈
        blocks (s.heap_listp + 344) (L1 ++ (c, false) :: L2) := blocks_mem_mid _ _ _ _ _
    have hr : x + 4 < s.heap_listp + 344 + total L1 ∨
        s.heap_listp + 344 + total L1 + c ≤ x + 4 := by
      by_contra hcon
      exact hx2 ⟨_, c, hmid, by omega, by omega⟩
    exact setTags_out _ _ _ _ _ (by omega) (by omega) (by omega) (by omega)

/-! ## List-level facts about the chains produced by the operations -/

theorem coalesceL_nil (L : List (Nat × Bool)) (E : Nat) :
    coalesceL L E [] = coalesceFront L ++ [((prevFree L).getD 0 + E, false)] := by
  simp [coalesceL, coalesceFront, nextFree]

theorem prevFree_none_last {L1 : List (Nat × Bool)} (hp : prevFree L1 = none) :
    ∀ x ∈ L1.getLast?, x.2 = true := by
  intro x hx
  rw [Option.mem_def] at hx
  unfold prevFree at hp
  rw [hx] at hp
  obtain ⟨x1, x2⟩ := x
  cases x2
  · simp at hp
  · rfl

theorem nextFree_none_head {L2 : List (Nat × Bool)} (hn : nextFree L2 = none) :
    ∀ x ∈ L2.head?, x.2 = true := by
  intro x hx
  rw [Option.mem_def] at hx
  unfold nextFree at hn
  rw [hx] at hn
  obtain ⟨x1, x2⟩ := x
  cases x2
  · simp at hn
  · rfl

theorem NoAdjFree_parts {L1 L2 : List (Nat × Bool)} {b : Nat × Bool}
    (h : NoAdjFree (L1 ++ b :: L2)) :
    NoAdjFree L1 ∧ NoAdjFree L2 ∧
      (b.2 = false → (∀ x ∈ L1.getLast?, x.2 = true) ∧ (∀ y ∈ L2.head?, y.2 = true)) := by
  unfold NoAdjFree at *
  rw [List.chain'_append, List.chain'_cons'] at h
  obtain ⟨h1, ⟨h2, h3⟩, h4⟩ := h
  refine ⟨h1, h3, fun hb => ⟨?_, ?_⟩⟩
  · intro x hx
    have := h4 x hx b (by simp)
    cases hx2 : x.2
    · exact absurd ⟨hx2, hb⟩ this
    · rfl
  · intro y hy
    have := h2 y hy
    cases hy2 : y.2
    · exact absurd ⟨hb, hy2⟩ this
    · rfl

theorem NoAdjFree_join {L1 L2 : List (Nat × Bool)} {b : Nat × Bool}
    (h1 : NoAdjFree L1) (h2 : NoAdjFree L2)
    (h3 : b.2 = false → (∀ x ∈ L1.getLast?, x.2 = true) ∧ (∀ y ∈ L2.head?, y.2 = true)) :
    NoAdjFree (L1 ++ b :: L2) := by
  unfold NoAdjFree at *
  rw [List.chain'_append, List.chain'_cons']
  refine ⟨h1, ⟨?_, h2⟩, ?_⟩
  · intro y hy ⟨hb, hy2⟩
    have := (h3 hb).2 y hy
    rw [hy2] at this
    exact Bool.false_ne_true this
  · intro x hx y hy ⟨hx2, hy2⟩
    simp only [List.head?_cons, Option.mem_def, Option.some.injEq] at hy
    subst hy
    have := (h3 hy2).1 x hx
    rw [hx2] at this
    exact Bool.false_ne_true this

/-- The shape of a coalesced chain: a run of free blocks around the middle block has been
replaced by one block of their total size. -/
theorem coalesceL_run (L1 : List (Nat × Bool)) (sz : Nat) (L2 : List (Nat × Bool)) :
    ∃ run Lb, (∀ b, b ∈ run → b.2 = false) ∧ run ≠ [] ∧
      coalesceL L1 sz L2 = coalesceFront L1 ++ (total run, false) :: Lb ∧
      L1 ++ (sz, false) :: L2 = coalesceFront L1 ++ run ++ Lb ∧
      total run = (prevFree L1).getD 0 + sz + (nextFree L2).getD 0 ∧
      (NoAdjFree L1 → NoAdjFree (coalesceFront L1) ∧
        ∀ x ∈ (coalesceFront L1).getLast?, x.2 = true) ∧
      (NoAdjFree L2 → NoAdjFree Lb ∧ ∀ y ∈ Lb.head?, y.2 = true) := by
  rcases hp : prevFree L1 with _ | s1 <;> rcases hn : nextFree L2 with _ | s2
  · refine ⟨[(sz, false)], L2, by simp, by simp, ?_, ?_, by simp [total], ?_, ?_⟩
    · simp [coalesceL, coalesceFront, hp, hn, total]
    · simp [coalesceFront, hp]
    · intro h
      simp only [coalesceFront, hp, Option.isSome_none, Bool.false_eq_true, if_false]
      exact ⟨h, prevFree_none_last hp⟩
    · intro h
      exact ⟨h, nextFree_none_head hn⟩
  · obtain ⟨K, e⟩ := nextFree_some hn
    subst e
    refine ⟨[(sz, false), (s2, false)], K, by simp, by simp, ?_, ?_, by simp [total], ?_, ?_⟩
    · simp [coalesceL, coalesceFront, hp, hn, total]
    · simp [coalesceFront, hp]
    · intro h
      simp only [coalesceFront, hp, Option.isSome_none, Bool.false_eq_true, if_false]
      exact ⟨h, prevFree_none_last hp⟩
    · intro h
      have := @NoAdjFree_parts [] _ _ h
      exact ⟨this.2.1, (this.2.2 rfl).2⟩
  · obtain ⟨K, e⟩ := prevFree_some hp
    subst e
    refine ⟨[(s1, false), (sz, false)], L2, by simp, by simp, ?_, ?_, by simp [total], ?_, ?_⟩
    · simp [coalesceL, coalesceFront, hp, hn, total]
    · simp [coalesceFront, hp]
    · intro h
      simp only [coalesceFront, hp, Option.isSome_some, if_true, List.dropLast_concat]
      have := @NoAdjFree_parts _ [] _ h
      exact ⟨this.1, (this.2.2 rfl).1⟩
    · intro h
      exact ⟨h, nextFree_none_head hn⟩
  · obtain ⟨K, e⟩ := prevFree_some hp
    subst e
    obtain ⟨K2, e⟩ := nextFree_some hn
    subst e
    refine ⟨[(s1, false), (sz, false), (s2, false)], K2, by simp, by simp, ?_, ?_,
      by simp [total]; omega, ?_, ?_⟩
    · simp [coalesceL, coalesceFront, hp, hn, total]; omega
    · simp [coalesceFront, hp]
    · intro h
      simp only [coalesceFront, hp, Option.isSome_some, if_true, List.dropLast_concat]
      have := @NoAdjFree_parts _ [] _ h
      exact ⟨this.1, (this.2.2 rfl).1⟩
    · intro h
      have := @NoAdjFree_parts [] _ _ h
      exact ⟨this.2.1, (this.2.2 rfl).2⟩

theorem blocks_free_run {run : List (Nat × Bool)} (hfree : ∀ b, b ∈ run → b.2 = false)
    (q x z : Nat) : (x, z, true) ∉ blocks q run := by
  induction run generalizing q with
  | nil => simp [blocks]
  | cons b run ih =>
    simp only [blocks, List.mem_cons, Prod.mk.injEq, not_or]
    refine ⟨?_, ih (fun c hc => hfree c (by simp [hc])) _⟩
    rintro ⟨_, _, h⟩
    rw [hfree b (by simp)] at h
    exact Bool.noConfusion h

theorem blocks_merge_alloc {p : Nat} {La run Lb : List (Nat × Bool)}
    (hfree : ∀ b, b ∈ run → b.2 = false) (x z : Nat) :
    (x, z, true) ∈ blocks p (La ++ (total run, false) :: Lb) ↔
      (x, z, true) ∈ blocks p (La ++ run ++ Lb) := by
  rw [blocks_append, blocks_append, blocks_append, total_append]
  have h1 := blocks_free_run hfree (p + total La) x z
  simp only [blocks, List.mem_append, List.mem_cons, Prod.mk.injEq, Bool.true_eq_false,
    and_false, false_or, h1, or_false, Nat.add_assoc]

theorem freeBytes_free_run {run : List (Nat × Bool)} (hfree : ∀ b, b ∈ run → b.2 = false) :
    freeBytes run = total run := by
  induction run with
  | nil => rfl
  | cons b run ih =>
    rw [freeBytes_cons, total_cons, ih (fun c hc => hfree c (by simp [hc])),
      hfree b (by simp)]
    simp

/-- Allocated blocks are not affected by coalescing. -/
theorem blocks_coalesceL_alloc (p : Nat) (L1 : List (Nat × Bool)) (sz : Nat)
    (L2 : List (Nat × Bool)) (x z : Nat) :
    (x, z, true) ∈ blocks p (coalesceL L1 sz L2) ↔
      (x, z, true) ∈ blocks p (L1 ++ (sz, false) :: L2) := by
  obtain ⟨run, Lb, hfree, _, e1, e2, _⟩ := coalesceL_run L1 sz L2
  rw [e1, e2]
  exact blocks_merge_alloc hfree x z

theorem freeBytes_coalesceL (L1 : List (Nat × Bool)) (sz : Nat) (L2 : List (Nat × Bool)) :
    freeBytes (coalesceL L1 sz L2) = freeBytes L1 + sz + freeBytes L2 := by
  obtain ⟨run, Lb, hfree, _, e1, e2, _⟩ := coalesceL_run L1 sz L2
  have h1 : freeBytes (L1 ++ (sz, false) :: L2) = freeBytes L1 + sz + freeBytes L2 := by
    rw [freeBytes_append, freeBytes_cons]; simp; omega
  rw [← h1, e1, e2, freeBytes_append, freeBytes_cons, freeBytes_append, freeBytes_append,
    freeBytes_free_run hfree]
  simp; omega

theorem NoAdjFree_coalesceL {L1 L2 : List (Nat × Bool)} (sz : Nat)
    (h1 : NoAdjFree L1) (h2 : NoAdjFree L2) : NoAdjFree (coalesceL L1 sz L2) := by
  obtain ⟨run, Lb, _, _, e1, _, _, f1, f2⟩ := coalesceL_run L1 sz L2
  rw [e1]
  exact NoAdjFree_join (f1 h1).1 (f2 h2).1 (fun _ => ⟨(f1 h1).2, (f2 h2).2⟩)

theorem FreeRegion_coalesceL {p : Nat} {L1 L2 : List (Nat × Bool)} {sz x : Nat}
    (h : FreeRegion p (coalesceL L1 sz L2) x) : FreeRegion p (L1 ++ (sz, false) :: L2) x := by
  obtain ⟨run, Lb, hfree, _, e1, e2, _⟩ := coalesceL_run L1 sz L2
  rw [e1] at h
  rw [e2]
  exact FreeRegion_merge hfree x h

theorem NoAdjFree_placeL {L1 L2 : List (Nat × Bool)} (a c : Nat)
    (h : NoAdjFree (L1 ++ (c, false) :: L2)) : NoAdjFree (placeL L1 a c L2) := by
  obtain ⟨h1, h2, h3⟩ := NoAdjFree_parts h
  unfold placeL
  split_ifs
  · apply NoAdjFree_join h1 _ (fun hb => Bool.noConfusion hb)
    exact @NoAdjFree_join [] _ _ List.chain'_nil h2 (fun _ => ⟨by simp, (h3 rfl).2⟩)
  · exact NoAdjFree_join h1 h2 (fun hb => Bool.noConfusion hb)

/-- The allocated blocks after `place`: those before, and the placed block. -/
theorem blocks_placeL_alloc (p : Nat) (L1 : List (Nat × Bool)) (a c : Nat)
    (L2 : List (Nat × Bool)) (hac : a ≤ c) (x z : Nat) :
    (x, z, true) ∈ blocks p (placeL L1 a c L2) ↔
      ((x, z, true) ∈ blocks p (L1 ++ (c, false) :: L2) ∨
        (x = p + total L1 ∧ z = if 16 ≤ c - a then a else c)) := by
  unfold placeL
  split_ifs with hsp
  · rw [blocks_append, blocks_append]
    simp only [blocks, List.mem_append, List.mem_cons, Prod.mk.injEq, Bool.true_eq_false,
      and_false, false_or, and_true]
    rw [show p + total L1 + a + (c - a) = p + total L1 + c by omega]
    constructor
    · rintro (h | h | h)
      · exact Or.inl (Or.inl h)
      · exact Or.inr h
      · exact Or.inl (Or.inr h)
    · rintro ((h | h) | h)
      · exact Or.inl h
      · exact Or.inr (Or.inr h)
      · exact Or.inr (Or.inl h)
  · rw [blocks_append, blocks_append]
    simp only [blocks, List.mem_append, List.mem_cons, Prod.mk.injEq, Bool.true_eq_false,
      and_false, false_or, and_true]
    constructor
    · rintro (h | h | h)
      · exact Or.inl (Or.inl h)
      · exact Or.inr h
      · exact Or.inl (Or.inr h)
    · rintro ((h | h) | h)
      · exact Or.inl h
      · exact Or.inr (Or.inr h)
      · exact Or.inr (Or.inl h)

theorem freeBytes_placeL (L1 : List (Nat × Bool)) (a c : Nat) (L2 : List (Nat × Bool))
    (hac : a ≤ c) :
    freeBytes (placeL L1 a c L2) + (if 16 ≤ c - a then a else c) =
      freeBytes (L1 ++ (c, false) :: L2) := by
  unfold placeL
  split_ifs with hsp
  · simp only [freeBytes_append, freeBytes_cons]
    simp; omega
  · simp only [freeBytes_append, freeBytes_cons]
    simp; omega

/-- Allocated blocks of a chain with an allocated block in the middle. -/
theorem blocks_mid_alloc (p : Nat) (L1 : List (Nat × Bool)) (c : Nat) (L2 : List (Nat × Bool))
    (x z : Nat) :
    (x, z, true) ∈ blocks p (L1 ++ (c, true) :: L2) ↔
      ((x, z, true) ∈ blocks p (L1 ++ (c, false) :: L2) ∨ (x = p + total L1 ∧ z = c)) := by
  rw [blocks_append, blocks_append]
  simp only [blocks, List.mem_append, List.mem_cons, Prod.mk.injEq, Bool.true_eq_false,
    and_false, false_or, and_true]
  constructor
  · rintro (h | h | h)
    · exact Or.inl (Or.inl h)
    · exact Or.inr h
    · exact Or.inl (Or.inr h)
  · rintro ((h | h) | h)
    · exact Or.inl h
    · exact Or.inr (Or.inr h)
    · exact Or.inr (Or.inl h)

/-! ## `mm_malloc` -/

theorem malloc_asize_eq (n : Nat) (hn : n ≤ 4294967280) :
    malloc_asize n = if n ≤ 8 then 16 else 8 * ((n + 15) / 8) := by
  unfold malloc_asize DSIZE w32
  split_ifs <;> omega

theorem malloc_asize_facts (n : Nat) (hn0 : 0 < n) (hn : n ≤ 4294967280) :
    malloc_asize n % 8 = 0 ∧ 16 ≤ malloc_asize n ∧ n + 8 ≤ malloc_asize n ∧
      malloc_asize n < 4294967296 := by
  rw [malloc_asize_eq n hn]
  split_ifs <;> omega

theorem MAX_facts (a : Nat) (h8 : a % 8 = 0) (h16 : 16 ≤ a) :
    MAX a CHUNKSIZE % 8 = 0 ∧ 16 ≤ MAX a CHUNKSIZE ∧ a ≤ MAX a CHUNKSIZE ∧
      4096 ≤ MAX a CHUNKSIZE ∧ (MAX a CHUNKSIZE = a ∨ MAX a CHUNKSIZE = 4096) := by
  unfold MAX CHUNKSIZE
  split_ifs <;> omega

theorem extsize_eq (E : Nat) (h8 : E % 8 = 0) (hlt : E < 4294967296) :
    (if (E / WSIZE) % 2 ≠ 0 then w32 ((E / WSIZE + 1) * WSIZE) else w32 (E / WSIZE * WSIZE)) = E := by
  unfold WSIZE w32
  split_ifs <;> omega

/-- Function `mm_malloc` when a free block fits: the first such block in address order is
used, and the heap is not extended. -/
theorem mm_malloc_fit {s : Heap} {L1 L2 : List (Nat × Bool)} {c n : Nat} {ls : Nat → List Nat}
    (h : Inv s (L1 ++ (c, false) :: L2) ls) (hn0 : 0 < n) (hn : n ≤ 4294967280)
    (hac : malloc_asize n ≤ c)
    (hno : ∀ b, b ∈ L1 → ¬ (b.2 = false ∧ malloc_asize n ≤ b.1)) :
    ∃ t ls2, mm_malloc s n = some (s.heap_listp + 344 + total L1, t) ∧
      Inv t (placeL L1 (malloc_asize n) c L2) ls2 ∧
      t.mem_brk = s.mem_brk ∧ t.mem_max_addr = s.mem_max_addr ∧
      t.heap_listp = s.heap_listp ∧
      (∀ x, ¬ (s.heap_listp ≤ x ∧ x < s.heap_listp + 336) →
        ¬ FreeRegion (s.heap_listp + 344) (L1 ++ (c, false) :: L2) x → t.mem x = s.mem x) := by
  obtain ⟨a8, a16, _⟩ := malloc_asize_facts n hn0 hn
  obtain ⟨t, ls2, hrun, rest⟩ := place_spec h a8 a16 hac
  refine ⟨t, ls2, ?_, rest⟩
  have hff := first_fit_spec h (malloc_asize n)
  rw [firstFit_eq _ _ _ hac _ _ hno] at hff
  have hne : s.heap_listp + 344 + total L1 ≠ 0 := by omega
  unfold mm_malloc
  rw [if_neg (by omega)]
  simp only []
  rw [hff, Option.some_bind, if_pos hne, hrun]
  rfl

/-- Function `mm_malloc` when no free block fits and the heap cannot grow: the call
returns `NULL` and the state is unchanged. -/
theorem mm_malloc_fail {s : Heap} {L : List (Nat × Bool)} {n : Nat} {ls : Nat → List Nat}
    (h : Inv s L ls) (hn0 : 0 < n) (hn : n ≤ 4294967280)
    (hno : ∀ b, b ∈ L → ¬ (b.2 = false ∧ malloc_asize n ≤ b.1))
    (hf : toInt32 (MAX (malloc_asize n) CHUNKSIZE) < 0 ∨
      s.mem_brk + MAX (malloc_asize n) CHUNKSIZE > s.mem_max_addr) :
    mm_malloc s n = some (0, s) := by
  obtain ⟨a8, a16, _, alt⟩ := malloc_asize_facts n hn0 hn
  obtain ⟨E8, E16, hE, _, hE2⟩ := MAX_facts _ a8 a16
  have hff := first_fit_spec h (malloc_asize n)
  rw [firstFit_none _ _ _ hno] at hff
  have hext := extend_heap_fail s (MAX (malloc_asize n) CHUNKSIZE / WSIZE) _
    (extsize_eq _ E8 (by omega)) hf
  unfold mm_malloc
  rw [if_neg (by omega)]
  simp only []
  rw [hff, Option.some_bind, if_neg (by simp), hext]
  rfl

/-- Function `mm_malloc` when no free block fits and the heap grows: the new space is
merged with a free block at the end of the heap and the request is placed there. -/
theorem mm_malloc_ext {s : Heap} {L : List (Nat × Bool)} {n : Nat} {ls : Nat → List Nat}
    (h : Inv s L ls) (hn0 : 0 < n) (hn : n ≤ 4294967280)
    (hno : ∀ b, b ∈ L → ¬ (b.2 = false ∧ malloc_asize n ≤ b.1))
    (hok : ¬ (toInt32 (MAX (malloc_asize n) CHUNKSIZE) < 0 ∨
      s.mem_brk + MAX (malloc_asize n) CHUNKSIZE > s.mem_max_addr)) :
    ∃ t ls2, mm_malloc s n = some (s.heap_listp + 344 + total (coalesceFront L), t) ∧
      Inv t (placeL (coalesceFront L) (malloc_asize n)
        ((prevFree L).getD 0 + MAX (malloc_asize n) CHUNKSIZE) []) ls2 ∧
      t.mem_brk = s.mem_brk + MAX (malloc_asize n) CHUNKSIZE ∧
      t.mem_max_addr = s.mem_max_addr ∧ t.heap_listp = s.heap_listp ∧
      (∀ x, ¬ (s.heap_listp ≤ x ∧ x < s.heap_listp + 336) →
        ¬ FreeRegion (s.heap_listp + 344) L x → x + 4 < s.mem_brk → t.mem x = s.mem x) := by
  obtain ⟨a8, a16, _, alt⟩ := malloc_asize_facts n hn0 hn
  obtain ⟨E8, E16, hE, _, hE2⟩ := MAX_facts _ a8 a16
  have hff := first_fit_spec h (malloc_asize n)
  rw [firstFit_none _ _ _ hno] at hff
  have hend := Chain_end h.chain
  have hge := h.hl_ge
  generalize hEdef : MAX (malloc_asize n) CHUNKSIZE = E at *
  generalize hadef : malloc_asize n = a at *
  obtain ⟨t1, ls1, hrun1, hinv1, b1, b2, b3, hfr1⟩ :=
    extend_heap_spec h (E / WSIZE) E (extsize_eq _ E8 (by omega)) E8 E16 hok
  rw [coalesceL_nil] at hinv1
  obtain ⟨mem1, brk1, max1, hl1, gm1, gc1⟩ := t1
  simp only at b1 b2 b3 hfr1
  subst b1 b2 b3
  obtain ⟨t, ls2, hrun2, hinv2, c1, c2, c3, hfr2⟩ :=
    place_spec (a := a) hinv1 a8 a16 (by omega)
  simp only at hrun2 c1 c2 c3 hfr2
  have hne : s.heap_listp + 344 + total (coalesceFront L) ≠ 0 := by omega
  refine ⟨t, ls2, ?_, hinv2, c1, c2, c3, ?_⟩
  · unfold mm_malloc
    rw [if_neg (by omega)]
    simp only []
    rw [hadef, hEdef, hff, Option.some_bind, if_neg (by simp), hrun1, Option.some_bind]
    simp only []
    rw [if_neg hne, hrun2]
    rfl
  · intro x hx1 hx2 hx3
    rw [hfr2 x hx1, hfr1 x hx1 hx2 hx3]
    intro hr
    rw [← coalesceL_nil] at hr
    obtain ⟨y, z, hy, hy1, hy2⟩ := FreeRegion_coalesceL hr
    rw [blocks_append] at hy
    simp only [blocks, List.mem_append, List.mem_cons, Prod.mk.injEq, and_true,
      List.not_mem_nil, or_false] at hy
    rcases hy with hy | ⟨e1, e2⟩
    · exact hx2 ⟨y, z, hy, hy1, hy2⟩
    · clear * - e1 hy1 hx3 hend
      omega

/-! ## `mm_init` -/

theorem PUT_PUT_same (m : Mem) (p v w : Nat) : PUT (PUT m p v) p w = PUT m p w := by
  funext a
  unfold PUT
  split_ifs <;> rfl

theorem foldl_PUT_other (ws : List (Nat × Nat)) (p : Nat)
    (h : ∀ w, w ∈ ws → w.1 + 4 ≤ p ∨ p + 4 ≤ w.1) (m : Mem) :
    GET (ws.foldl (fun m w => PUT m w.1 w.2) m) p = GET m p := by
  induction ws generalizing m with
  | nil => rfl
  | cons w ws ih =>
    have hw := h w (List.mem_cons_self _ _)
    rw [List.foldl_cons, ih (fun x hx => h x (List.mem_cons_of_mem _ hx)),
      GET_PUT_ne _ _ _ _ (by omega)]

/-- A word stored by a sequence of stores to pairwise disjoint words is read back. -/
theorem foldl_PUT_get (ws : List (Nat × Nat))
    (hdis : ws.Pairwise (fun a b => a.1 + 4 ≤ b.1 ∨ b.1 + 4 ≤ a.1)) (m : Mem) (p v : Nat)
    (hmem : (p, v) ∈ ws) (hv : v < 4294967296) :
    GET (ws.foldl (fun m w => PUT m w.1 w.2) m) p = v := by
  induction ws generalizing m with
  | nil => simp at hmem
  | cons w ws ih =>
    rw [List.pairwise_cons] at hdis
    rw [List.foldl_cons]
    rcases List.mem_cons.1 hmem with e | hm
    · subst e
      rw [foldl_PUT_other ws p (fun x hx => by
        have := hdis.1 x hx
        simp only at this
        omega), GET_PUT_eq _ _ _ hv]
    · exact ih hdis.2 _ hm

theorem mm_init_writes_shift (base : Nat) (h : base + 700 ≤ 4294967296) :
    mm_init_writes base = (mm_init_writes 0).map (fun w => (base + w.1, w.2)) := by
  unfold mm_init_writes
  simp only [List.map_cons, List.map_append, List.map_map, List.map_nil, List.cons_append,
    List.cons.injEq, Prod.mk.injEq, Nat.add_zero, true_and, and_true]
  have e1 : padd base WSIZE = base + padd 0 WSIZE := by
    rw [padd_eq _ _ (by unfold WSIZE; omega), padd_eq _ _ (by unfold WSIZE; omega)]; omega
  have e2 : padd base (86 * WSIZE) = base + padd 0 (86 * WSIZE) := by
    rw [padd_eq _ _ (by unfold WSIZE; omega), padd_eq _ _ (by unfold WSIZE; omega)]; omega
  have e3 : padd base (87 * DSIZE) = base + padd 0 (87 * DSIZE) := by
    rw [padd_eq _ _ (by unfold DSIZE; omega), padd_eq _ _ (by unfold DSIZE; omega)]; omega
  have hmap : List.map (fun i => (padd base (i * WSIZE), 0)) (List.range' 2 84) =
      List.map ((fun w : Nat × Nat => (base + w.1, w.2)) ∘ fun i => (padd 0 (i * WSIZE), 0))
        (List.range' 2 84) := by
    apply List.map_congr_left
    intro i hi
    rw [List.mem_range'_1] at hi
    simp only [Function.comp]
    rw [padd_eq _ _ (by unfold WSIZE; omega), padd_eq _ _ (by unfold WSIZE; omega)]
    simp
  rw [e1, e2, e3, hmap]

theorem mm_init_writes_disjoint :
    (mm_init_writes 0).Pairwise (fun a b => a.1 + 4 ≤ b.1 ∨ b.1 + 4 ≤ a.1) := by
  decide!

theorem mm_init_writes_mem :
    (∀ i, i < 84 → (8 + 4 * i, 0) ∈ mm_init_writes 0) ∧ (4, 345) ∈ mm_init_writes 0 ∧
      (344, 345) ∈ mm_init_writes 0 := by
  decide!

/-- The words `mm_init` has written when it calls `extend_heap`: empty buckets and the
prologue tags. -/
theorem mm_init_mem (m0 : Mem) (base : Nat) (h : base + 700 ≤ 4294967296) :
    (∀ i, i < 84 →
      GET ((mm_init_writes base).foldl (fun m w => PUT m w.1 w.2) m0) (base + 8 + 4 * i) = 0) ∧
    GET ((mm_init_writes base).foldl (fun m w => PUT m w.1 w.2) m0) (base + 4) = 345 ∧
    GET ((mm_init_writes base).foldl (fun m w => PUT m w.1 w.2) m0) (base + 344) = 345 := by
  rw [mm_init_writes_shift base h]
  have hdis : ((mm_init_writes 0).map (fun w => (base + w.1, w.2))).Pairwise
      (fun a b => a.1 + 4 ≤ b.1 ∨ b.1 + 4 ≤ a.1) := by
    apply List.Pairwise.map _ _ mm_init_writes_disjoint
    intro a b hab
    simp only
    omega
  obtain ⟨h1, h2, h3⟩ := mm_init_writes_mem
  refine ⟨fun i hi => ?_, ?_, ?_⟩
  · apply foldl_PUT_get _ hdis _ _ _ _ (by omega)
    rw [List.mem_map]
    exact ⟨_, h1 i hi, by simp only [Prod.mk.injEq, and_true]; omega⟩
  · apply foldl_PUT_get _ hdis _ _ _ _ (by omega)
    rw [List.mem_map]
    exact ⟨_, h2, rfl⟩
  · apply foldl_PUT_get _ hdis _ _ _ _ (by omega)
    rw [List.mem_map]
    exact ⟨_, h3, rfl⟩

/-- The word in front of the break is overwritten by `extend_heap` before it is read. -/
theorem extend_heap_epi (s : Heap) (v words size : Nat)
    (hsz : (if words % 2 ≠ 0 then w32 ((words + 1) * WSIZE) else w32 (words * WSIZE)) = size)
    (hok : ¬ (toInt32 size < 0 ∨ s.mem_brk + size > s.mem_max_addr))
    (hb8 : s.mem_brk % 8 = 0) (hb : 8 ≤ s.mem_brk) (hmax : s.mem_max_addr < 4294967296)
    (hs8 : size % 8 = 0) (hs16 : 16 ≤ size) :
    extend_heap s words =
      extend_heap { s with mem := PUT s.mem (s.mem_brk - 4) v } words := by
  rw [extend_heap_eq s words size hsz hok hb8 hb hmax hs8 hs16,
    extend_heap_eq { s with mem := PUT s.mem (s.mem_brk - 4) v } words size hsz hok hb8 hb hmax
      hs8 hs16]
  simp only []
  unfold setTags
  rw [PUT_PUT_same]

theorem mm_init_eq (s0 : Heap) (h8 : s0.mem_brk % 8 = 0)
    (hfit : s0.mem_brk + 352 ≤ s0.mem_max_addr) (hmax : s0.mem_max_addr < 4294967296) :
    mm_init s0 =
      (extend_heap { mem := (mm_init_writes s0.mem_brk).foldl (fun m w => PUT m w.1 w.2) s0.mem,
                     mem_brk := s0.mem_brk + 352, mem_max_addr := s0.mem_max_addr,
                     heap_listp := s0.mem_brk + 8, gminlist := 100, gcount := 0 }
        (CHUNKSIZE / WSIZE)).map fun r => if r.1 = 0 then (-1, r.2) else (0, r.2) := by
  have hW : 88 * WSIZE = 352 := rfl
  have hnf : ¬ (toInt32 352 < 0 ∨ s0.mem_brk + 352 > s0.mem_max_addr) := by
    have : toInt32 352 = 352 := by decide
    rw [this]
    omega
  have hne : ¬ (s0.mem_brk = 4294967295) := by omega
  have hp : padd s0.mem_brk DSIZE = s0.mem_brk + 8 := padd_eq _ _ (by unfold DSIZE; omega)
  unfold mm_init mem_sbrk
  simp only [hW, hnf, if_false, hne, hp]

theorem idxCount_empty : idxCount (fun _ => []) = 0 :=
  (idxCount_zero _).2 (fun _ _ => rfl)

/-- The state in which `mm_init` calls `extend_heap`, with the word in front of the break
set to an epilogue header, is a well-formed heap without blocks. -/
theorem mm_init_pre (m : Mem) (base max : Nat) (h8 : base % 8 = 0)
    (hfit : base + 352 ≤ max) (hmax : max < 4294967296) (hspan : max < base + 2147483648)
    (hb : ∀ i, i < 84 → GET m (base + 8 + 4 * i) = 0)
    (hh : GET m (base + 4) = 345) (hf : GET m (base + 344) = 345) :
    Inv { mem := PUT m (base + 352 - 4) 1, mem_brk := base + 352, mem_max_addr := max,
          heap_listp := base + 8, gminlist := 100, gcount := 0 } [] (fun _ => []) := by
  unfold Inv
  refine ⟨?_, ?_, hfit, hmax, ?_, ?_, ?_, ?_, ?_, ?_, ?_, ?_⟩
  · show (base + 8) % 8 = 0
    omega
  · show 8 ≤ base + 8
    omega
  · show max < base + 8 + 2147483640
    omega
  · show GET (PUT m (base + 352 - 4) 1) (base + 8 - 4) = 345
    rw [GET_PUT_ne _ _ _ _ (by omega), ← hh, show base + 8 - 4 = base + 4 by omega]
  · show GET (PUT m (base + 352 - 4) 1) (base + 8 + 336) = 345
    rw [GET_PUT_ne _ _ _ _ (by omega), ← hf, show base + 8 + 336 = base + 344 by omega]
  · show GET (PUT m (base + 352 - 4) 1) (base + 352 - 4) = 1
    rw [GET_PUT_eq _ _ _ (by omega)]
  · show base + 8 + 344 = base + 352
    omega
  · show FLInv (PUT m (base + 352 - 4) 1) (base + 8) (fun _ => []) (freeSet (base + 8 + 344) [])
    refine ⟨?_, ?_, ?_, ?_, ?_, ?_, ?_⟩
    · intro i hi
      refine ⟨0, ?_, rfl⟩
      rw [GET_PUT_ne _ _ _ _ (by omega)]
      exact hb i hi
    · intro i _ x hx
      simp at hx
    · intro x sz hx
      simp [freeSet, blocks] at hx
    · intro i _
      exact List.nodup_nil
    · intro x sz hx
      simp [freeSet, blocks] at hx
    · intro x sz hx
      simp [freeSet, blocks] at hx
    · intro x sz y sz2 hx
      simp [freeSet, blocks] at hx
  · show (0 : Int) = ((idxCount (fun _ => []) : Nat) : Int)
    rw [idxCount_empty]
    rfl
  · exact Or.inl ⟨rfl, fun _ _ => rfl⟩

/-- Function `mm_init`: when the region has room for the 352 bytes of the index and for
the first chunk, the call succeeds and leaves a heap of one free block of 4096 bytes. -/
theorem mm_init_ok (s0 : Heap) (h8 : s0.mem_brk % 8 = 0)
    (hfit : s0.mem_brk + 4448 ≤ s0.mem_max_addr) (hmax : s0.mem_max_addr < 4294967296)
    (hspan : s0.mem_max_addr < s0.mem_brk + 2147483648) :
    ∃ s ls, mm_init s0 = some (0, s) ∧ Inv s [(4096, false)] ls ∧
      s.heap_listp = s0.mem_brk + 8 ∧ s.mem_brk = s0.mem_brk + 4448 ∧
      s.mem_max_addr = s0.mem_max_addr := by
  obtain ⟨hb, hh, hf⟩ := mm_init_mem s0.mem s0.mem_brk (by omega)
  have hpre := mm_init_pre _ s0.mem_brk s0.mem_max_addr h8 (by omega) hmax hspan hb hh hf
  have hsz : (if (CHUNKSIZE / WSIZE) % 2 ≠ 0 then w32 ((CHUNKSIZE / WSIZE + 1) * WSIZE)
      else w32 (CHUNKSIZE / WSIZE * WSIZE)) = 4096 := by decide
  have h4 : toInt32 4096 = 4096 := by decide
  have hok : ¬ (toInt32 4096 < 0 ∨ s0.mem_brk + 352 + 4096 > s0.mem_max_addr) := by
    rw [h4]
    omega
  obtain ⟨t, ls, hrun, hinv, b1, b2, b3, _⟩ :=
    extend_heap_spec hpre (CHUNKSIZE / WSIZE) 4096 hsz (by omega) (by omega) hok
  simp only at hrun b1 b2 b3
  have hepi := extend_heap_epi
    { mem := (mm_init_writes s0.mem_brk).foldl (fun m w => PUT m w.1 w.2) s0.mem,
      mem_brk := s0.mem_brk + 352, mem_max_addr := s0.mem_max_addr,
      heap_listp := s0.mem_brk + 8, gminlist := 100, gcount := 0 } 1 (CHUNKSIZE / WSIZE) 4096
    hsz hok (by show (s0.mem_brk + 352) % 8 = 0; omega) (by show 8 ≤ s0.mem_brk + 352; omega)
    hmax (by omega) (by omega)
  simp only at hepi
  have hL : coalesceL [] 4096 [] = [(4096, false)] := by
    simp [coalesceL, prevFree, nextFree]
  rw [hL] at hinv
  refine ⟨t, ls, ?_, hinv, b3, by omega, b2⟩
  rw [mm_init_eq s0 h8 (by omega) hmax, hepi, hrun]
  simp [coalesceFront, prevFree, total]

/-- A successful `mm_init` leaves a heap of one free block of 4096 bytes. -/
theorem mm_init_spec (s0 s : Heap) (h8 : s0.mem_brk % 8 = 0)
    (hmax : s0.mem_max_addr < 4294967296)
    (hspan : s0.mem_max_addr < s0.mem_brk + 2147483648) (hrun : mm_init s0 = some (0, s)) :
    ∃ ls, Inv s [(4096, false)] ls ∧ s.heap_listp = s0.mem_brk + 8 ∧
      s.mem_brk = s0.mem_brk + 4448 ∧ s.mem_max_addr = s0.mem_max_addr := by
  by_cases hfit : s0.mem_brk + 4448 ≤ s0.mem_max_addr
  · obtain ⟨t, ls, hrun2, rest⟩ := mm_init_ok s0 h8 hfit hmax hspan
    rw [hrun2] at hrun
    simp only [Option.some.injEq, Prod.mk.injEq, true_and] at hrun
    subst hrun
    exact ⟨ls, rest⟩
  · exfalso
    by_cases hfit1 : s0.mem_brk + 352 ≤ s0.mem_max_addr
    · have hsz : (if (CHUNKSIZE / WSIZE) % 2 ≠ 0 then w32 ((CHUNKSIZE / WSIZE + 1) * WSIZE)
          else w32 (CHUNKSIZE / WSIZE * WSIZE)) = 4096 := by decide
      have hfail := extend_heap_fail
        { mem := (mm_init_writes s0.mem_brk).foldl (fun m w => PUT m w.1 w.2) s0.mem,
          mem_brk := s0.mem_brk + 352, mem_max_addr := s0.mem_max_addr,
          heap_listp := s0.mem_brk + 8, gminlist := 100, gcount := 0 } (CHUNKSIZE / WSIZE) 4096
        hsz (Or.inr (by show s0.mem_brk + 352 + 4096 > s0.mem_max_addr; omega))
      rw [mm_init_eq s0 h8 hfit1 hmax, hfail] at hrun
      simp at hrun
    · have hW : 88 * WSIZE = 352 := rfl
      have hf : toInt32 352 < 0 ∨ s0.mem_brk + 352 > s0.mem_max_addr := Or.inr (by omega)
      unfold mm_init mem_sbrk at hrun
      simp only [hW, hf, if_true] at hrun
      simp at hrun

/-! ## Blocks of a well-formed heap -/

/-- The tags of a block of the chain, as the block macros read them. -/
theorem block_tags {s : Heap} {L1 L2 : List (Nat × Bool)} {c : Nat} {al : Bool}
    {ls : Nat → List Nat} {F : Nat → Nat → Prop} (h : InvX s (L1 ++ (c, al) :: L2) ls F) :
    GET_SIZE s.mem (HDRP (s.heap_listp + 344 + total L1)) = c ∧
    GET_ALLOC s.mem (HDRP (s.heap_listp + 344 + total L1)) = (if al then 1 else 0) ∧
    GET_SIZE s.mem (FTRP s.mem (s.heap_listp + 344 + total L1)) = c ∧
    GET_ALLOC s.mem (FTRP s.mem (s.heap_listp + 344 + total L1)) = (if al then 1 else 0) ∧
    c % 8 = 0 ∧ 16 ≤ c ∧ (s.heap_listp + 344 + total L1) % 8 = 0 := by
  obtain ⟨m1, m2, m3, m4, m5, m6, m7, m8, m9, m10, m11⟩ := h.mid
  have hge := h.hl_ge
  have hl8 := h.hl8
  have num : 8 ≤ s.heap_listp + 344 + total L1 ∧
      s.heap_listp + 344 + total L1 + c < 4294967296 ∧
      (s.heap_listp + 344 + total L1) % 8 = 0 := by
    clear * - hge hl8 m3 m7 m8
    omega
  have hhd : HDRP (s.heap_listp + 344 + total L1) = s.heap_listp + 344 + total L1 - 4 :=
    HDRP_eq _ (by omega) (by omega)
  have hft : FTRP s.mem (s.heap_listp + 344 + total L1) =
      s.heap_listp + 344 + total L1 + c - 8 := FTRP_eval m5 m1 (by omega) (by omega)
  rw [hhd, hft]
  exact ⟨GET_SIZE_tag m5 m1, GET_ALLOC_tag m5 m1, GET_SIZE_tag m6 m1, GET_ALLOC_tag m6 m1,
    m1, m2, num.2.2⟩

/-- A free block of the chain is in exactly one list of the index, that of its size,
and exactly once. -/
theorem free_in_index {s : Heap} {L : List (Nat × Bool)} {ls : Nat → List Nat}
    (h : Inv s L ls) {x z : Nat} (hx : (x, z, false) ∈ blocks (s.heap_listp + 344) L) :
    (ls (bucketIdx z)).count x = 1 ∧ ∀ j, j < 84 → j ≠ bucketIdx z → x ∉ ls j := by
  have hm := h.fl.F_mem x z hx
  refine ⟨List.count_eq_one_of_mem (h.fl.nodup _ (bucketIdx_lt z)) hm, ?_⟩
  intro j hj hne hxj
  exact hne (h.fl.bucket_unique hj (bucketIdx_lt z) hxj hm)

/-- An allocated block of the chain is in no list of the index. -/
theorem alloc_not_in_index {s : Heap} {L : List (Nat × Bool)} {ls : Nat → List Nat}
    (h : Inv s L ls) {x z : Nat} (hx : (x, z, true) ∈ blocks (s.heap_listp + 344) L) :
    ∀ j, j < 84 → x ∉ ls j := by
  intro j hj hxj
  obtain ⟨sz, hF, _⟩ := h.fl.mem_F j hj x hxj
  have h1 := Chain_size h.chain hF
  have h2 := Chain_size h.chain hx
  rcases blocks_disjoint h.chain hF hx with e | e | e
  · simp at e
  · simp only at e h1; omega
  · simp only at e h2; omega

/-- The bytes of an allocated block are outside the regions the allocator writes when
it works on free blocks. -/
theorem alloc_region {s : Heap} {L : List (Nat × Bool)} {ls : Nat → List Nat}
    {F : Nat → Nat → Prop} (h : InvX s L ls F) {x z a : Nat}
    (hx : (x, z, true) ∈ blocks (s.heap_listp + 344) L) (h1 : x - 4 ≤ a) (h2 : a + 4 < x + z) :
    ¬ (s.heap_listp ≤ a ∧ a < s.heap_listp + 336) ∧
      ¬ FreeRegion (s.heap_listp + 344) L a ∧ a + 4 < s.mem_brk := by
  have hb := blocks_bounds hx
  have hend := Chain_end h.chain
  simp only at hb
  refine ⟨by omega, ?_, by omega⟩
  rintro ⟨y, w, hy, hy1, hy2⟩
  have s1 := Chain_size h.chain hy
  have s2 := Chain_size h.chain hx
  have hby := blocks_bounds hy
  rcases blocks_disjoint h.chain hy hx with e | e | e
  · simp at e
  · simp only at e s1 s2 hby; omega
  · simp only at e s1 s2 hby; omega

/-- Bytes stored into the payload of an allocated block leave the heap well formed. -/
theorem InvX_payload {s : Heap} {L : List (Nat × Bool)} {ls : Nat → List Nat} {m2 : Mem}
    (h : Inv s L ls) {p c : Nat} (hp : (p, c, true) ∈ blocks (s.heap_listp + 344) L)
    (hm : ∀ a, ¬ (p ≤ a ∧ a + 8 < p + c) → m2 a = s.mem a) :
    Inv { s with mem := m2 } L ls := by
  unfold Inv at *
  have hc := h.chain
  have hend := Chain_end hc
  have hb := blocks_bounds hp
  have hs := Chain_size hc hp
  have hge := h.hl_ge
  simp only at hb hs
  have hfl0 := h.fl
  have hdisj : ∀ b, b ∈ blocks (s.heap_listp + 344) L →
      b = (p, c, true) ∨ b.1 + b.2.1 ≤ p ∨ p + c ≤ b.1 := fun b hb => blocks_disjoint hc hb hp
  have hsize : ∀ b, b ∈ blocks (s.heap_listp + 344) L → 16 ≤ b.2.1 :=
    fun b hb => (Chain_size hc hb).2
  refine ⟨h.hl8, h.hl_ge, h.brk_le, h.max_lt, h.span, ?_, ?_, ?_, ?_, ?_, h.gcount_eq, h.gmin⟩
  · show GET m2 (s.heap_listp - 4) = 345
    rw [← h.pro_hdr]
    exact GET_congr fun a h1 h2 => hm a (by omega)
  · show GET m2 (s.heap_listp + 336) = 345
    rw [← h.pro_ftr]
    exact GET_congr fun a h1 h2 => hm a (by omega)
  · show GET m2 (s.mem_brk - 4) = 1
    rw [← h.epi]
    exact GET_congr fun a h1 h2 => hm a (by omega)
  · show Chain m2 (s.heap_listp + 344) L s.mem_brk
    apply Chain_frame hc
    rintro a ⟨b, hbm, hab⟩
    have h1 := hdisj b hbm
    have h2 := hsize b hbm
    have h3 := blocks_bounds hbm
    apply hm
    rcases h1 with e | e
    · subst e
      simp only at hab
      omega
    · omega
  · show FLInv m2 s.heap_listp ls (freeSet (s.heap_listp + 344) L)
    have hF : ∀ x z, freeSet (s.heap_listp + 344) L x z →
        16 ≤ z ∧ s.heap_listp + 344 ≤ x ∧ (x + z ≤ p ∨ p + c ≤ x) := by
      intro x z hx
      have h1 := hdisj _ hx
      have h2 := hsize _ hx
      have h3 := blocks_bounds hx
      simp only [Prod.mk.injEq, Bool.false_eq_true, and_false, false_or] at h1
      simp only at h2 h3
      exact ⟨h2, h3.1, h1⟩
    apply hfl0.frame2
    · intro a h1 h2
      exact hm a (by omega)
    · intro x z a hx h1 h2
      have := hF x z hx
      exact hm a (by omega)
    · intro x z hx
      have := hF x z hx
      rw [GET_congr (m := s.mem) fun a h1 h2 => hm a (by omega)]
      exact hfl0.hdr x z hx

/-! ## Counting the free blocks -/

theorem blocks_addr_nodup {m : Mem} {p q : Nat} {L : List (Nat × Bool)} (h : Chain m p L q) :
    ((blocks p L).map (fun b => b.1)).Nodup := by
  induction L generalizing p with
  | nil => simp [blocks]
  | cons b L ih =>
    obtain ⟨_, h2, _, _, h5⟩ := h
    simp only [blocks, List.map_cons, List.nodup_cons]
    refine ⟨?_, ih h5⟩
    intro hmem
    rw [List.mem_map] at hmem
    obtain ⟨c, hc, e⟩ := hmem
    have := blocks_bounds hc
    omega

theorem blocks_filter_length (p : Nat) (L : List (Nat × Bool)) :
    ((blocks p L).filter (fun b => !b.2.2)).length = (L.filter (fun b => !b.2)).length := by
  induction L generalizing p with
  | nil => rfl
  | cons b L ih =>
    simp only [blocks, List.filter_cons]
    cases b.2 <;> simp [ih]

/-- The number of blocks held in the index is the number of free blocks of the chain. -/
theorem idxCount_free {s : Heap} {L : List (Nat × Bool)} {ls : Nat → List Nat}
    (h : Inv s L ls) : idxCount ls = (L.filter (fun b => !b.2)).length := by
  have hfl := h.fl
  have h1 : ((List.range 84).flatMap ls).Nodup := by
    rw [List.nodup_flatMap]
    refine ⟨fun i hi => hfl.nodup i (List.mem_range.1 hi), ?_⟩
    apply List.Nodup.pairwise_of_forall_ne (List.nodup_range 84)
    intro i hi j hj hne x hxi hxj
    exact hne (hfl.bucket_unique (List.mem_range.1 hi) (List.mem_range.1 hj) hxi hxj)
  have h2 : (((blocks (s.heap_listp + 344) L).filter (fun b => !b.2.2)).map
      (fun b => b.1)).Nodup :=
    (blocks_addr_nodup h.chain).sublist (List.Sublist.map _ (List.filter_sublist _))
  have hperm := (List.perm_ext_iff_of_nodup h1 h2).2 (by
    intro x
    rw [List.mem_flatMap, List.mem_map]
    constructor
    · rintro ⟨i, hi, hx⟩
      obtain ⟨z, hF, _⟩ := hfl.mem_F i (List.mem_range.1 hi) x hx
      exact ⟨(x, z, false), List.mem_filter.2 ⟨hF, rfl⟩, rfl⟩
    · rintro ⟨⟨y, z, al⟩, hb, e⟩
      rw [List.mem_filter] at hb
      simp only at e
      subst e
      have hal : al = false := by simpa using hb.2
      subst hal
      exact ⟨bucketIdx z, List.mem_range.2 (bucketIdx_lt z), hfl.F_mem y z hb.1⟩)
  have hlen := hperm.length_eq
  rw [List.length_flatMap, List.length_map, blocks_filter_length] at hlen
  rw [← hlen]
  rfl

/-! ## `mm_realloc` -/

theorem realloc_asize_facts (n : Nat) :
    realloc_asize n % 8 = 0 ∧ 16 ≤ realloc_asize n ∧ realloc_asize n < 4294967296 := by
  unfold realloc_asize MAX
  rw [ALIGN_eq]
  unfold w32 DSIZE
  split_ifs <;> omega

theorem realloc_asize_eq (n : Nat) (hn : n ≤ 4294967280) :
    realloc_asize n = max ((n + 7) / 8 * 8 + 8) 16 := by
  unfold realloc_asize MAX
  rw [ALIGN_eq]
  unfold w32 DSIZE
  split_ifs <;> omega

theorem mm_realloc_zero (s : Heap) (p : Nat) :
    mm_realloc s p 0 = (mm_free s p).map fun s1 => (0, s1) := by
  unfold mm_realloc
  simp only [if_true]

/-- The paths of `mm_realloc` that return the pointer without touching the heap. -/
theorem mm_realloc_keep (s : Heap) (p n old : Nat) (hn : n ≠ 0) (hp : p ≠ 0)
    (hold : GET_SIZE s.mem (HDRP p) = old) (holt : old < 4294967296)
    (h : realloc_asize n = old ∨ (realloc_asize n ≤ old ∧ old - realloc_asize n ≤ 16)) :
    mm_realloc s p n = some (p, s) := by
  have h2d : 2 * DSIZE = 16 := rfl
  unfold mm_realloc
  simp only [hn, hp, if_false, hold, h2d]
  by_cases he : realloc_asize n = old
  · rw [if_pos he]
  · rcases h with h | ⟨h1, h2⟩
    · exact absurd h he
    · rw [if_neg he, if_pos h1, sub32_eq _ _ h1 holt, if_pos h2]

/-- The shrinking path of `mm_realloc`, as one retagging followed by `coalesce`. -/
theorem mm_realloc_shrink_eq (s : Heap) (p n old : Nat) (hn : n ≠ 0) (hp : 8 ≤ p)
    (hpo : p + old < 4294967296) (hold : GET_SIZE s.mem (HDRP p) = old) (ho8 : old % 8 = 0)
    (hlt : realloc_asize n < old) (hgt : 16 < old - realloc_asize n) :
    mm_realloc s p n =
      (coalesce { s with mem := (setTags (setTags s.mem p (realloc_asize n)
          (realloc_asize n + 1)) (p + realloc_asize n) (old - realloc_asize n)
          (old - realloc_asize n)) } (p + realloc_asize n)).map fun r => (p, r.2) := by
  obtain ⟨a8, a16, _⟩ := realloc_asize_facts n
  generalize hadef : realloc_asize n = a at *
  have h2d : 2 * DSIZE = 16 := rfl
  have hp0 : p ≠ 0 := by omega
  have hne : ¬ (a = old) := by omega
  have hle : a ≤ old := by omega
  have hng : ¬ (old - a ≤ 16) := by omega
  have hhd : HDRP p = p - 4 := HDRP_eq _ (by omega) (by omega)
  have hhd2 : HDRP (p + a) = p + a - 4 := HDRP_eq _ (by omega) (by omega)
  have hpk1 : PACK a 1 = a + 1 := PACK_alloc a a8
  have hpk2 : PACK (old - a) 1 = old - a + 1 := PACK_alloc _ (by omega)
  have hftr1 : FTRP (PUT s.mem (p - 4) (a + 1)) p = p + a - 8 := by
    apply @FTRP_eval _ _ _ true
    · rw [GET_PUT_eq _ _ _ (by omega), tag_true]
    · exact a8
    · omega
    · omega
  have hnb2 : NEXT_BLKP (PUT (PUT s.mem (p - 4) (a + 1)) (p + a - 8) (a + 1)) p = p + a := by
    apply @NEXT_BLKP_eval _ _ _ true
    · rw [GET_PUT_ne _ _ _ _ (by omega), GET_PUT_eq _ _ _ (by omega), tag_true]
    · exact a8
    · omega
    · omega
  have hnb3 : NEXT_BLKP (PUT (PUT (PUT s.mem (p - 4) (a + 1)) (p + a - 8) (a + 1))
      (p + a - 4) (old - a + 1)) p = p + a := by
    apply @NEXT_BLKP_eval _ _ _ true
    · rw [GET_PUT_ne _ _ _ _ (by omega), GET_PUT_ne _ _ _ _ (by omega),
        GET_PUT_eq _ _ _ (by omega), tag_true]
    · exact a8
    · omega
    · omega
  have hsz : GET_SIZE (PUT (PUT (PUT s.mem (p - 4) (a + 1)) (p + a - 8) (a + 1))
      (p + a - 4) (old - a + 1)) (HDRP (p + a)) = old - a := by
    rw [hhd2]
    apply @GET_SIZE_tag _ _ _ true
    · rw [GET_PUT_eq _ _ _ (by omega), tag_true]
    · omega
  unfold mm_realloc
  simp only [hadef, hn, hp0, if_false, hold, h2d, hne, hle, if_true,
    sub32_eq _ _ hle (by omega), hng]
  rw [hhd, hpk1, hftr1, hnb2, hhd2, hpk2, hnb3]
  rw [mm_free_eq { s with mem := (PUT (PUT (PUT s.mem (p - 4) (a + 1)) (p + a - 8) (a + 1))
      (p + a - 4) (old - a + 1)) } (p + a) (old - a) (by omega) (by omega) hsz (by omega)]
  simp only [Option.map_map]
  unfold setTags
  rw [PUT_PUT_same]
  rfl

/-- The growing path of `mm_realloc`: allocate, copy, free. -/
theorem mm_realloc_grow_eq (s : Heap) (p n old : Nat) (hn : n ≠ 0) (hp : p ≠ 0)
    (hold : GET_SIZE s.mem (HDRP p) = old) (hgt : old < realloc_asize n) :
    mm_realloc s p n =
      (mm_malloc s n).bind fun r =>
        if r.1 = 0 then some (0, r.2)
        else (mm_free { r.2 with mem := memcpy r.2.mem r.1 p (if n < old then n else old) }
                p).map fun s2 => (r.1, s2) := by
  have hne : ¬ (realloc_asize n = old) := by omega
  have hle : ¬ (realloc_asize n ≤ old) := by omega
  unfold mm_realloc
  simp only [hn, hp, if_false, hold, hne, hle]

/-- Function `mm_realloc` on its shrinking path: the block keeps its address with the
adjusted size, and the cut-off tail becomes a free block, merged with a free successor. -/
theorem mm_realloc_shrink {s : Heap} {L1 L2 : List (Nat × Bool)} {old n : Nat}
    {ls : Nat → List Nat} (h : Inv s (L1 ++ (old, true) :: L2) ls) (hn : n ≠ 0)
    (hlt : realloc_asize n < old) (hgt : 16 < old - realloc_asize n) :
    ∃ t ls2, mm_realloc s (s.heap_listp + 344 + total L1) n =
        some (s.heap_listp + 344 + total L1, t) ∧
      Inv t (coalesceL (L1 ++ [(realloc_asize n, true)]) (old - realloc_asize n) L2) ls2 ∧
      t.mem_brk = s.mem_brk ∧ t.mem_max_addr = s.mem_max_addr ∧
      t.heap_listp = s.heap_listp := by
  unfold Inv at h
  obtain ⟨a8, a16, _⟩ := realloc_asize_facts n
  obtain ⟨hsize, _, _, _, o8, o16, _⟩ := block_tags h
  obtain ⟨m1, m2, m3, m4, m5, m6, m7, m8, m9, m10, m11⟩ := h.mid
  have hge := h.hl_ge
  have num : 8 ≤ s.heap_listp ∧ s.heap_listp + 344 + total L1 + old < 4294967296 := by
    clear * - hge m7 m8
    omega
  clear m2 m3 m4 m5 m6 m7 m8 m9 m10 m11 hge
  have hX : InvX s (L1 ++ (old, true) :: L2) ls (freeAround (s.heap_listp + 344) L1 old L2) := by
    rw [← freeSet_alloc_mid]
    exact h
  have hX2 := retag_split hX a8 a16 (by omega) (by omega)
  obtain ⟨t, ls2, hrun, hinv, c1, c2, c3, _⟩ := coalesce_spec hX2
  simp only at hrun c1 c2 c3
  have etot : s.heap_listp + 344 + total (L1 ++ [(realloc_asize n, true)]) =
      s.heap_listp + 344 + total L1 + realloc_asize n := by
    rw [total_append, total_cons, total_nil]; simp only; omega
  rw [etot] at hrun
  refine ⟨t, ls2, ?_, hinv, c1, c2, c3⟩
  rw [mm_realloc_shrink_eq s _ n old hn (by omega) (by omega) hsize o8 hlt hgt, hrun]
  rfl

/-! ## Allocated blocks across the operations -/

/-- The block found at the address of the middle block of a chain is the middle block. -/
theorem blocks_mid_unique {m : Mem} {p q : Nat} {L1 L2 : List (Nat × Bool)} {c : Nat}
    {al al2 al3 : Bool} (h : Chain m p (L1 ++ (c, al) :: L2) q) {z : Nat}
    (hx : (p + total L1, z, al2) ∈ blocks p (L1 ++ (c, al3) :: L2)) : z = c ∧ al2 = al3 := by
  rw [Chain_append] at h
  obtain ⟨h1, _, h2, _, _, h3⟩ := h
  rw [blocks_append] at hx
  simp only [blocks, List.mem_append, List.mem_cons, Prod.mk.injEq, true_and] at hx
  rcases hx with hx | hx | hx
  · have hb := blocks_bounds hx
    have hs := Chain_size h1 hx
    simp only at hb hs
    omega
  · exact hx
  · have hb := blocks_bounds hx
    simp only at hb h2
    omega

/-- Allocated blocks after a block in the middle of the chain has been freed. -/
theorem alloc_after_free {m : Mem} {p q : Nat} {L1 L2 : List (Nat × Bool)} {c : Nat}
    (h : Chain m p (L1 ++ (c, true) :: L2) q) (x z : Nat) :
    (x, z, true) ∈ blocks p (coalesceL L1 c L2) ↔
      ((x, z, true) ∈ blocks p (L1 ++ (c, true) :: L2) ∧ x ≠ p + total L1) := by
  rw [blocks_coalesceL_alloc, blocks_mid_alloc]
  constructor
  · intro hx
    refine ⟨Or.inl hx, ?_⟩
    intro e
    subst e
    have := (blocks_mid_unique h hx).2
    exact Bool.noConfusion this
  · rintro ⟨hx | ⟨e, _⟩, hne⟩
    · exact hx
    · exact absurd e hne

/-- The address at which `extend_heap` leaves its block is not that of an allocated
block. -/
theorem coalesceFront_addr {m : Mem} {p q : Nat} {L : List (Nat × Bool)} (h : Chain m p L q)
    {x z : Nat} (hx : (x, z, true) ∈ blocks p L) : x ≠ p + total (coalesceFront L) := by
  rcases hp : prevFree L with _ | s1
  · have hb := blocks_bounds hx
    have hs := Chain_size h hx
    simp only [coalesceFront, hp, Option.isSome_none, Bool.false_eq_true, if_false]
    simp only at hb hs
    omega
  · obtain ⟨L0, e⟩ := prevFree_some hp
    subst e
    simp only [coalesceFront, hp, Option.isSome_some, if_true, List.dropLast_concat]
    intro e
    subst e
    have := (@blocks_mid_unique _ _ _ _ _ _ _ _ false h _ hx).2
    exact Bool.noConfusion this

theorem alloc_after_extend (p : Nat) (L : List (Nat × Bool)) (E x z : Nat) :
    (x, z, true) ∈ blocks p (coalesceL L E []) ↔ (x, z, true) ∈ blocks p L := by
  rw [blocks_coalesceL_alloc, blocks_append]
  simp [blocks]

/-- What `place` leaves behind, in terms of the chain it was applied to. -/
theorem placeL_post {t : Heap} {K1 K2 : List (Nat × Bool)} {a c : Nat} {ls : Nat → List Nat}
    (h : Inv t (placeL K1 a c K2) ls) (hac : a ≤ c)
    (hnaf : NoAdjFree (K1 ++ (c, false) :: K2)) :
    NoAdjFree (placeL K1 a c K2) ∧ (t.heap_listp + 344 + total K1) % 8 = 0 ∧
      a ≤ (if 16 ≤ c - a then a else c) ∧
      (∀ x z, (x, z, true) ∈ blocks (t.heap_listp + 344) (placeL K1 a c K2) ↔
        ((x, z, true) ∈ blocks (t.heap_listp + 344) (K1 ++ (c, false) :: K2) ∨
          (x = t.heap_listp + 344 + total K1 ∧ z = if 16 ≤ c - a then a else c))) ∧
      freeBytes (placeL K1 a c K2) + (if 16 ≤ c - a then a else c) =
        freeBytes (K1 ++ (c, false) :: K2) := by
  refine ⟨NoAdjFree_placeL a c hnaf, ?_, ?_, blocks_placeL_alloc _ _ _ _ _ hac,
    freeBytes_placeL _ _ _ _ hac⟩
  · unfold placeL at h
    unfold Inv at h
    split_ifs at h
    · exact (block_tags h).2.2.2.2.2.2
    · exact (block_tags h).2.2.2.2.2.2
  · split_ifs <;> omega

/-! ## The public operations on a state satisfying the invariant -/

/-- What a successful `mm_malloc` does to a state satisfying the invariant. -/
theorem malloc_post {s t : Heap} {live : List Nat} {L : List (Nat × Bool)}
    {ls : Nat → List Nat} {n p : Nat} (hG : GInv s live L ls) (hn0 : 0 < n)
    (hn : n ≤ 4294967280) (hrun : mm_malloc s n = some (p, t)) :
    (p = 0 ∧ t = s) ∨
    (p ≠ 0 ∧ ∃ L2 ls2 sz, GInv t (p :: live) L2 ls2 ∧
      t.heap_listp = s.heap_listp ∧ t.mem_max_addr = s.mem_max_addr ∧
      s.mem_brk ≤ t.mem_brk ∧ p % 8 = 0 ∧ n + 8 ≤ sz ∧
      (∀ x z, (x, z, true) ∈ blocks (s.heap_listp + 344) L2 ↔
        ((x, z, true) ∈ blocks (s.heap_listp + 344) L ∨ (x = p ∧ z = sz))) ∧
      (∀ x z a, (x, z, true) ∈ blocks (s.heap_listp + 344) L → x - 4 ≤ a → a + 4 < x + z →
        t.mem a = s.mem a) ∧
      freeBytes L2 + sz = freeBytes L + (t.mem_brk - s.mem_brk)) := by
  have hI := hG.inv
  have hge := hI.hl_ge
  obtain ⟨_, _, han, _⟩ := malloc_asize_facts n hn0 hn
  rcases firstFit_cases (malloc_asize n) L with hno | ⟨L1, c, L2, e, hac, hno⟩
  · by_cases hok : toInt32 (MAX (malloc_asize n) CHUNKSIZE) < 0 ∨
        s.mem_brk + MAX (malloc_asize n) CHUNKSIZE > s.mem_max_addr
    · left
      rw [mm_malloc_fail hI hn0 hn hno hok] at hrun
      simp only [Option.some.injEq, Prod.mk.injEq] at hrun
      exact ⟨hrun.1.symm, hrun.2.symm⟩
    · right
      obtain ⟨t2, ls2, hrun2, hinv, b1, b2, b3, hfr⟩ := mm_malloc_ext hI hn0 hn hno hok
      rw [hrun2] at hrun
      simp only [Option.some.injEq, Prod.mk.injEq] at hrun
      obtain ⟨e1, e2⟩ := hrun
      subst e2
      have hEa := (MAX_facts _ (malloc_asize_facts n hn0 hn).1
        (malloc_asize_facts n hn0 hn).2.1).2.2.1
      have hK : NoAdjFree (coalesceFront L ++
          ((prevFree L).getD 0 + MAX (malloc_asize n) CHUNKSIZE, false) :: []) := by
        rw [← coalesceL_nil]
        exact NoAdjFree_coalesceL _ hG.naf List.chain'_nil
      obtain ⟨q1, q2, q3, q4, q5⟩ := placeL_post hinv (by clear * - hEa; omega) hK
      rw [b3] at q2 q4
      have hiff : ∀ x z, (x, z, true) ∈ blocks (s.heap_listp + 344)
          (coalesceFront L ++ ((prevFree L).getD 0 + MAX (malloc_asize n) CHUNKSIZE, false) ::
            []) ↔ (x, z, true) ∈ blocks (s.heap_listp + 344) L := by
        intro x z
        rw [← coalesceL_nil]
        exact alloc_after_extend _ _ _ _ _
      have hp0 : p ≠ 0 := by clear * - e1 hge; omega
      have hbrk : s.mem_brk ≤ t2.mem_brk := by clear * - b1; omega
      refine ⟨hp0, _, ls2,
        (if 16 ≤ (prevFree L).getD 0 + MAX (malloc_asize n) CHUNKSIZE - malloc_asize n
          then malloc_asize n else (prevFree L).getD 0 + MAX (malloc_asize n) CHUNKSIZE),
        ⟨hinv, q1, ?_, ?_⟩, b3, b2, hbrk, ?_, ?_, ?_, ?_, ?_⟩
      · intro x
        rw [b3, List.mem_cons, hG.live_iff]
        constructor
        · rintro (hx | ⟨z, hz⟩)
          · exact ⟨_, (q4 _ _).2 (Or.inr ⟨hx.trans e1.symm, rfl⟩)⟩
          · exact ⟨z, (q4 _ _).2 (Or.inl ((hiff _ _).2 hz))⟩
        · rintro ⟨z, hz⟩
          rcases (q4 _ _).1 hz with h1 | ⟨h1, _⟩
          · exact Or.inr ⟨z, (hiff _ _).1 h1⟩
          · exact Or.inl (h1.trans e1)
      · rw [List.nodup_cons]
        refine ⟨?_, hG.nodup⟩
        intro hp
        obtain ⟨z, hz⟩ := (hG.live_iff p).1 hp
        exact coalesceFront_addr hI.chain hz e1.symm
      · rw [← e1]; exact q2
      · exact Nat.le_trans han q3
      · intro x z
        rw [q4, hiff, e1]
      · intro x z a hx h1 h2
        obtain ⟨r1, r2, r3⟩ := alloc_region hI hx h1 h2
        exact hfr a r1 r2 r3
      · rw [q5, ← coalesceL_nil, freeBytes_coalesceL, b1]
        simp only [freeBytes_nil]
        clear * -
        omega
  · right
    subst e
    obtain ⟨t2, ls2, hrun2, hinv, b1, b2, b3, hfr⟩ := mm_malloc_fit hI hn0 hn hac hno
    rw [hrun2] at hrun
    simp only [Option.some.injEq, Prod.mk.injEq] at hrun
    obtain ⟨e1, e2⟩ := hrun
    subst e2
    obtain ⟨q1, q2, q3, q4, q5⟩ := placeL_post hinv hac hG.naf
    rw [b3] at q2 q4
    have hp0 : p ≠ 0 := by clear * - e1 hge; omega
    have hbrk : s.mem_brk ≤ t2.mem_brk := by clear * - b1; omega
    refine ⟨hp0, _, ls2, (if 16 ≤ c - malloc_asize n then malloc_asize n else c),
      ⟨hinv, q1, ?_, ?_⟩, b3, b2, hbrk, ?_, ?_, ?_, ?_, ?_⟩
    · intro x
      rw [b3, List.mem_cons, hG.live_iff]
      constructor
      · rintro (hx | ⟨z, hz⟩)
        · exact ⟨_, (q4 _ _).2 (Or.inr ⟨hx.trans e1.symm, rfl⟩)⟩
        · exact ⟨z, (q4 _ _).2 (Or.inl hz)⟩
      · rintro ⟨z, hz⟩
        rcases (q4 _ _).1 hz with h1 | ⟨h1, _⟩
        · exact Or.inr ⟨z, h1⟩
        · exact Or.inl (h1.trans e1)
    · rw [List.nodup_cons]
      refine ⟨?_, hG.nodup⟩
      intro hp
      obtain ⟨z, hz⟩ := (hG.live_iff p).1 hp
      rw [← e1] at hz
      have := (@blocks_mid_unique _ _ _ _ _ _ _ _ false hI.chain _ hz).2
      exact Bool.noConfusion this
    · rw [← e1]; exact q2
    · exact Nat.le_trans han q3
    · intro x z
      rw [q4, e1]
    · intro x z a hx h1 h2
      obtain ⟨r1, r2, _⟩ := alloc_region hI hx h1 h2
      exact hfr a r1 r2
    · rw [q5, b1]
      clear * -
      omega

theorem FreeRegion_mid {p0 : Nat} {L1 L2 : List (Nat × Bool)} {c a : Nat}
    (h : FreeRegion p0 (L1 ++ (c, false) :: L2) a) :
    FreeRegion p0 (L1 ++ (c, true) :: L2) a ∨
      (p0 + total L1 - 4 ≤ a ∧ a + 4 < p0 + total L1 + c) := by
  obtain ⟨y, z, hy, hy1, hy2⟩ := h
  rw [blocks_append] at hy
  simp only [blocks, List.mem_append, List.mem_cons, Prod.mk.injEq, and_true] at hy
  rcases hy with hy | ⟨e1, e2⟩ | hy
  · left
    refine ⟨y, z, ?_, hy1, hy2⟩
    rw [blocks_append]
    simp [hy]
  · right
    subst e1 e2
    exact ⟨hy1, hy2⟩
  · left
    refine ⟨y, z, ?_, hy1, hy2⟩
    rw [blocks_append]
    simp [blocks, hy]

/-- The block a live pointer points to. -/
theorem live_block {s : Heap} {live : List Nat} {L : List (Nat × Bool)} {ls : Nat → List Nat}
    {p : Nat} (hG : GInv s live L ls) (hp : p ∈ live) :
    ∃ L1 c L2, L = L1 ++ (c, true) :: L2 ∧ p = s.heap_listp + 344 + total L1 := by
  obtain ⟨z, hz⟩ := (hG.live_iff p).1 hp
  obtain ⟨L1, L2, e, hpe⟩ := blocks_split hz
  exact ⟨L1, z, L2, e, hpe⟩

/-- What `mm_free` does to a state satisfying the invariant. -/
theorem free_post {s : Heap} {live : List Nat} {L : List (Nat × Bool)} {ls : Nat → List Nat}
    {p : Nat} (hG : GInv s live L ls) (hp : p ∈ live) :
    ∃ t L1 c L2 ls2, L = L1 ++ (c, true) :: L2 ∧ p = s.heap_listp + 344 + total L1 ∧
      mm_free s p = some t ∧ GInv t (live.erase p) (coalesceL L1 c L2) ls2 ∧
      t.heap_listp = s.heap_listp ∧ t.mem_brk = s.mem_brk ∧
      t.mem_max_addr = s.mem_max_addr ∧
      (∀ x z a, (x, z, true) ∈ blocks (s.heap_listp + 344) L → x ≠ p → x - 4 ≤ a →
        a + 4 < x + z → t.mem a = s.mem a) ∧
      freeBytes (coalesceL L1 c L2) = freeBytes L + c := by
  obtain ⟨L1, c, L2, e, hpe⟩ := live_block hG hp
  subst e
  have hI := hG.inv
  obtain ⟨t, ls2, hrun, hinv, b1, b2, b3, hfr⟩ := mm_free_spec hI
  obtain ⟨n1, n2, _⟩ := NoAdjFree_parts hG.naf
  refine ⟨t, L1, c, L2, ls2, rfl, hpe, by rw [hpe]; exact hrun,
    ⟨hinv, NoAdjFree_coalesceL c n1 n2, ?_, hG.nodup.erase p⟩, b3, b1, b2, ?_, ?_⟩
  · intro x
    rw [hG.nodup.mem_erase_iff, hG.live_iff, b3]
    constructor
    · rintro ⟨hne, z, hz⟩
      exact ⟨z, (alloc_after_free hI.chain x z).2 ⟨hz, by rw [← hpe]; exact hne⟩⟩
    · rintro ⟨z, hz⟩
      obtain ⟨h1, h2⟩ := (alloc_after_free hI.chain x z).1 hz
      exact ⟨by rw [hpe]; exact h2, z, h1⟩
  · intro x z a hx hne h1 h2
    obtain ⟨r1, r2, _⟩ := alloc_region hI hx h1 h2
    apply hfr a r1
    intro hr
    rcases FreeRegion_mid hr with hr2 | hr2
    · exact r2 hr2
    · have hmid : (s.heap_listp + 344 + total L1, c, true) ∈
          blocks (s.heap_listp + 344) (L1 ++ (c, true) :: L2) := blocks_mem_mid _ _ _ _ _
      have hs := Chain_size hI.chain hx
      rcases blocks_disjoint hI.chain hx hmid with e | e | e
      · simp only [Prod.mk.injEq] at e
        exact hne (e.1.trans hpe.symm)
      · simp only at e hs; omega
      · simp only at e hs; omega
  · rw [freeBytes_coalesceL, freeBytes_append, freeBytes_cons]
    simp
    omega

/-- A byte the client stores into the payload of a live block keeps the invariant. -/
theorem store_post {s : Heap} {live : List Nat} {L : List (Nat × Bool)} {ls : Nat → List Nat}
    {p a : Nat} (v : Nat) (hG : GInv s live L ls) (hp : p ∈ live) (h1 : p ≤ a)
    (h2 : a + 8 < p + GET_SIZE s.mem (HDRP p)) :
    GInv { s with mem := poke s.mem a v } live L ls := by
  obtain ⟨L1, c, L2, e, hpe⟩ := live_block hG hp
  subst e
  have hI := hG.inv
  have hsz := (block_tags hI).1
  rw [← hpe] at hsz
  rw [hsz] at h2
  have hmid : (p, c, true) ∈ blocks (s.heap_listp + 344) (L1 ++ (c, true) :: L2) := by
    rw [hpe]; exact blocks_mem_mid _ _ _ _ _
  refine ⟨InvX_payload hI hmid ?_, hG.naf, hG.live_iff, hG.nodup⟩
  intro b hb
  unfold poke
  rw [if_neg]
  intro e
  subst e
  exact hb ⟨h1, h2⟩

/-- The pointers to allocated blocks after `mm_realloc` has shrunk a block in place. -/
theorem alloc_after_shrink (p0 : Nat) (L1 L2 : List (Nat × Bool)) (a old : Nat)
    (ha : a ≤ old) (x : Nat) :
    (∃ z, (x, z, true) ∈ blocks p0 (coalesceL (L1 ++ [(a, true)]) (old - a) L2)) ↔
      ∃ z, (x, z, true) ∈ blocks p0 (L1 ++ (old, true) :: L2) := by
  have e : p0 + (total L1 + a) + (old - a) = p0 + total L1 + old := by omega
  constructor
  · rintro ⟨z, hz⟩
    rw [blocks_coalesceL_alloc, blocks_append, blocks_append, total_append, total_cons,
      total_nil] at hz
    simp only [blocks, List.mem_append, List.mem_cons, Prod.mk.injEq, and_true,
      List.not_mem_nil, or_false, Bool.true_eq_false, and_false, false_or, Nat.add_zero,
      e] at hz
    rw [blocks_append]
    simp only [blocks, List.mem_append, List.mem_cons, Prod.mk.injEq, and_true]
    rcases hz with (hz | hz) | hz
    · exact ⟨z, Or.inl hz⟩
    · exact ⟨old, Or.inr (Or.inl ⟨hz.1, rfl⟩)⟩
    · exact ⟨z, Or.inr (Or.inr hz)⟩
  · rintro ⟨z, hz⟩
    rw [blocks_append] at hz
    simp only [blocks, List.mem_append, List.mem_cons, Prod.mk.injEq, and_true] at hz
    have key : ∀ w, ((x, w, true) ∈ blocks p0 L1 ∨ (x = p0 + total L1 ∧ w = a)) ∨
        (x, w, true) ∈ blocks (p0 + total L1 + old) L2 →
        (x, w, true) ∈ blocks p0 (coalesceL (L1 ++ [(a, true)]) (old - a) L2) := by
      intro w hw
      rw [blocks_coalesceL_alloc, blocks_append, blocks_append, total_append, total_cons,
        total_nil]
      simp only [blocks, List.mem_append, List.mem_cons, Prod.mk.injEq, and_true,
        List.not_mem_nil, or_false, Bool.true_eq_false, and_false, false_or, Nat.add_zero, e]
      exact hw
    rcases hz with hz | hz | hz
    · exact ⟨z, key z (Or.inl (Or.inl hz))⟩
    · exact ⟨a, key a (Or.inl (Or.inr ⟨hz.1, rfl⟩))⟩
    · exact ⟨z, key z (Or.inr hz)⟩

theorem keep_live {live : List Nat} {p : Nat} (hnd : live.Nodup) (hp : p ∈ live) :
    (∀ x, x ∈ p :: live.erase p ↔ x ∈ live) ∧ (p :: live.erase p).Nodup := by
  constructor
  · intro x
    rw [List.mem_cons, hnd.mem_erase_iff]
    constructor
    · rintro (e | ⟨_, h⟩)
      · rw [e]; exact hp
      · exact h
    · intro h
      by_cases e : x = p
      · exact Or.inl e
      · exact Or.inr ⟨e, h⟩
  · rw [List.nodup_cons]
    refine ⟨?_, hnd.erase p⟩
    rw [hnd.mem_erase_iff]
    exact fun h => h.1 rfl

theorem memcpy_out (m : Mem) (dst src cnt a : Nat) (h : ¬ (dst ≤ a ∧ a < dst + cnt)) :
    memcpy m dst src cnt a = m a := by
  unfold memcpy
  rw [if_neg h]

/-- What `mm_realloc` does to a state satisfying the invariant: the invariant holds
again for the updated list of live pointers, and the returned pointer is aligned. -/
theorem realloc_post {s t : Heap} {live : List Nat} {L : List (Nat × Bool)}
    {ls : Nat → List Nat} {p n q : Nat} (hG : GInv s live L ls) (hp : p ∈ live)
    (hn : n ≤ 4294967280) (hrun : mm_realloc s p n = some (q, t)) :
    ∃ L2 ls2, GInv t (if n = 0 then live.erase p else if q = 0 then live
        else q :: live.erase p) L2 ls2 ∧ q % 8 = 0 := by
  by_cases hn0 : n = 0
  · subst hn0
    rw [mm_realloc_zero] at hrun
    obtain ⟨t2, L1, c, L2, ls2, _, _, hfree, hG2, _⟩ := free_post hG hp
    rw [hfree] at hrun
    simp only [Option.map_some', Option.some.injEq, Prod.mk.injEq] at hrun
    obtain ⟨e1, e2⟩ := hrun
    subst e1 e2
    rw [if_pos rfl]
    exact ⟨_, ls2, hG2, rfl⟩
  · rw [if_neg hn0]
    obtain ⟨L1, old, L2, e, hpe⟩ := live_block hG hp
    subst e
    have hI := hG.inv
    obtain ⟨hsize, _, _, _, o8, o16, hp8⟩ := block_tags hI
    rw [← hpe] at hsize hp8
    have hge := hI.hl_ge
    have hmid := hI.mid
    have num : p ≠ 0 ∧ old < 4294967296 := by
      clear * - hge hpe hmid
      omega
    clear hmid
    obtain ⟨hp0, holt⟩ := num
    by_cases hkeep : realloc_asize n = old ∨
        (realloc_asize n ≤ old ∧ old - realloc_asize n ≤ 16)
    · rw [mm_realloc_keep s p n old hn0 hp0 hsize holt hkeep] at hrun
      simp only [Option.some.injEq, Prod.mk.injEq] at hrun
      obtain ⟨e1, e2⟩ := hrun
      subst e1 e2
      rw [if_neg hp0]
      obtain ⟨k1, k2⟩ := keep_live hG.nodup hp
      exact ⟨_, ls, ⟨hI, hG.naf, fun x => by rw [k1 x]; exact hG.live_iff x, k2⟩, hp8⟩
    · by_cases hlt : realloc_asize n < old
      · have hgt : 16 < old - realloc_asize n := by
          clear * - hkeep hlt
          omega
        obtain ⟨t2, ls2, hrun2, hinv, b1, b2, b3⟩ := mm_realloc_shrink hI hn0 hlt hgt
        rw [← hpe, hrun] at hrun2
        simp only [Option.some.injEq, Prod.mk.injEq] at hrun2
        obtain ⟨e1, e2⟩ := hrun2
        subst e1 e2
        rw [if_neg hp0]
        obtain ⟨k1, k2⟩ := keep_live hG.nodup hp
        obtain ⟨n1, n2, _⟩ := NoAdjFree_parts hG.naf
        refine ⟨_, ls2, ⟨hinv, ?_, ?_, k2⟩, hp8⟩
        · apply NoAdjFree_coalesceL _ _ n2
          exact NoAdjFree_join n1 List.chain'_nil (fun hb => Bool.noConfusion hb)
        · intro x
          rw [k1 x, hG.live_iff, b3]
          exact (alloc_after_shrink _ L1 L2 _ old (Nat.le_of_lt hlt) x).symm
      · have hgt : old < realloc_asize n := by
          clear * - hkeep hlt
          omega
        rw [mm_realloc_grow_eq s p n old hn0 hp0 hsize hgt] at hrun
        rcases hm : mm_malloc s n with _ | ⟨q1, t1⟩
        · rw [hm] at hrun
          simp at hrun
        · rw [hm, Option.some_bind] at hrun
          rcases malloc_post hG (Nat.pos_of_ne_zero hn0) hn hm with
            ⟨e1, e2⟩ | ⟨hq1, K, ls2, sz, hG1, c3, c2, c1, hq8, hsz, hiff, hfr, _⟩
          · subst e1 e2
            simp only [if_true, Option.some.injEq, Prod.mk.injEq] at hrun
            obtain ⟨e1, e2⟩ := hrun
            subst e1 e2
            rw [if_pos rfl]
            exact ⟨_, ls, hG, rfl⟩
          · simp only [hq1, if_false] at hrun
            have hblk : (q1, sz, true) ∈ blocks (t1.heap_listp + 344) K := by
              rw [c3]
              exact (hiff _ _).2 (Or.inr ⟨rfl, rfl⟩)
            have hcnt : (if n < old then n else old) + 8 ≤ sz := by
              clear * - hsz
              split_ifs <;> omega
            have hG1b : GInv { t1 with mem := memcpy t1.mem q1 p (if n < old then n else old) }
                (q1 :: live) K ls2 := by
              refine ⟨InvX_payload hG1.inv hblk ?_, hG1.naf, hG1.live_iff, hG1.nodup⟩
              intro a ha
              apply memcpy_out
              intro hc
              apply ha
              clear * - hc hcnt
              omega
            obtain ⟨t2, M1, c, M2, ls3, _, _, hfree, hG2, _⟩ :=
              free_post hG1b (List.mem_cons_of_mem _ hp)
            rw [hfree] at hrun
            simp only [Option.map_some', Option.some.injEq, Prod.mk.injEq] at hrun
            obtain ⟨e1, e2⟩ := hrun
            subst e1 e2
            rw [if_neg hq1]
            have hne : q1 ≠ p := by
              intro e
              have := (List.nodup_cons.1 hG1.nodup).1
              rw [e] at this
              exact this hp
            have hl : (q1 :: live).erase p = q1 :: live.erase p :=
              List.erase_cons_tail (by simpa using hne)
            rw [hl] at hG2
            exact ⟨_, ls3, hG2, hq8⟩

/-- The invariant holds in every reachable state. -/
theorem reach_inv {s : Heap} {live : List Nat} (h : Reachable s live) :
    ∃ L ls, GInv s live L ls := by
  induction h with
  | init s0 s h8 hmax hspan hrun =>
    obtain ⟨ls, hinv, _⟩ := mm_init_spec s0 s h8 hmax hspan hrun
    refine ⟨_, ls, hinv, List.chain'_singleton _, ?_, List.nodup_nil⟩
    intro p
    simp [blocks]
  | malloc s s2 live n p _ hn hrun ih =>
    obtain ⟨L, ls, hG⟩ := ih
    by_cases hn0 : n = 0
    · subst hn0
      unfold mm_malloc at hrun
      rw [if_pos rfl] at hrun
      simp only [Option.some.injEq, Prod.mk.injEq] at hrun
      obtain ⟨e1, e2⟩ := hrun
      subst e1 e2
      rw [if_pos rfl]
      exact ⟨L, ls, hG⟩
    · rcases malloc_post hG (Nat.pos_of_ne_zero hn0) hn hrun with
        ⟨e1, e2⟩ | ⟨hp, K, ls2, sz, hG1, _⟩
      · subst e1 e2
        rw [if_pos rfl]
        exact ⟨L, ls, hG⟩
      · rw [if_neg hp]
        exact ⟨K, ls2, hG1⟩
  | free s s2 live p _ hp hrun ih =>
    obtain ⟨L, ls, hG⟩ := ih
    obtain ⟨t, L1, c, L2, ls2, _, _, hfree, hG2, _⟩ := free_post hG hp
    rw [hfree] at hrun
    simp only [Option.some.injEq] at hrun
    subst hrun
    exact ⟨_, ls2, hG2⟩
  | realloc s s2 live p n q _ hp hn hrun ih =>
    obtain ⟨L, ls, hG⟩ := ih
    obtain ⟨K, ls2, hG2, _⟩ := realloc_post hG hp hn hrun
    exact ⟨K, ls2, hG2⟩
  | store s live p a v _ hp h1 h2 ih =>
    obtain ⟨L, ls, hG⟩ := ih
    exact ⟨L, ls, store_post v hG hp h1 h2⟩

/-! ## The chain of a state is unique -/

theorem tag_inj {s1 s2 : Nat} {a1 a2 : Bool} (h1 : s1 % 8 = 0) (h2 : s2 % 8 = 0)
    (h : tag s1 a1 = tag s2 a2) : s1 = s2 ∧ a1 = a2 := by
  have e1 := tag_size s1 a1 h1
  have e2 := tag_size s2 a2 h2
  rw [h, e2] at e1
  subst e1
  refine ⟨rfl, ?_⟩
  unfold tag at h
  cases a1 <;> cases a2 <;> simp at h <;> rfl

/-- The memory between two addresses can be read as a chain of blocks in one way only. -/
theorem Chain_unique {m : Mem} {q : Nat} :
    ∀ {L K : List (Nat × Bool)} {p : Nat}, Chain m p L q → Chain m p K q → L = K := by
  intro L
  induction L with
  | nil =>
    intro K p h1 h2
    cases K with
    | nil => rfl
    | cons b K =>
      have e : p = q := h1
      have h3 := Chain_end h2
      obtain ⟨_, h4, _⟩ := h2
      rw [total_cons] at h3
      omega
  | cons a L ih =>
    intro K p h1 h2
    cases K with
    | nil =>
      have e : p = q := h2
      have h3 := Chain_end h1
      obtain ⟨_, h4, _⟩ := h1
      rw [total_cons] at h3
      omega
    | cons b K =>
      obtain ⟨a1, a2, a3, a4, a5⟩ := h1
      obtain ⟨b1, b2, b3, b4, b5⟩ := h2
      rw [a3] at b3
      obtain ⟨e1, e2⟩ := tag_inj a1 b1 b3
      have e : a = b := Prod.ext e1 e2
      subst e
      rw [ih a5 b5]

/-- The chain of a reachable state: any reading of the heap as a chain of blocks is the
one of the invariant. -/
theorem reach_chain {s : Heap} {live : List Nat} (h : Reachable s live)
    {L : List (Nat × Bool)} (hL : Chain s.mem (s.heap_listp + 344) L s.mem_brk) :
    ∃ ls, GInv s live L ls := by
  obtain ⟨K, ls, hG⟩ := reach_inv h
  have e := Chain_unique hG.inv.chain hL
  subst e
  exact ⟨ls, hG⟩

theorem getD_snd {o : Option (Nat × Heap)} {p : Nat} {t : Heap} (h : o = some (p, t))
    (d : Nat × Heap) : (o.getD d).2 = t := by
  rw [h]; rfl

theorem getD_heap {o : Option Heap} {t : Heap} (h : o = some t) (d : Heap) : o.getD d = t := by
  rw [h]; rfl

/-! ## The walk over the heap of a well-formed state -/

theorem heapWalk_spec (m : Mem) :
    ∀ (L : List (Nat × Bool)) (p q fuel : Nat), Chain m p L q → GET m (q - 4) = 1 →
      4 ≤ p → q < 4294967296 → L.length < fuel →
      heapWalk fuel m p = some ((blocks p L).map fun b => b.1) := by
  intro L
  induction L with
  | nil =>
    intro p q fuel hc he hp hq hf
    have e : p = q := hc
    subst e
    obtain ⟨f, rfl⟩ : ∃ f, fuel = f + 1 := ⟨fuel - 1, by simp at hf; omega⟩
    have hs : GET_SIZE m (HDRP p) = 0 := by
      rw [HDRP_eq p hp hq, GET_SIZE_eq, he]
    simp [heapWalk, blocks, hs]
  | cons b L ih =>
    intro p q fuel hc he hp hq hf
    obtain ⟨f, rfl⟩ : ∃ f, fuel = f + 1 := ⟨fuel - 1, by simp at hf; omega⟩
    have hend := Chain_end hc
    rw [total_cons] at hend
    obtain ⟨h1, h2, h3, h4, h5⟩ := hc
    have hhd : HDRP p = p - 4 := HDRP_eq p hp (by omega)
    have hs : GET_SIZE m (HDRP p) = b.1 := by rw [hhd]; exact GET_SIZE_tag h3 h1
    have hnx : NEXT_BLKP m p = p + b.1 := NEXT_BLKP_eval h3 h1 hp (by omega)
    have hrec := ih (p + b.1) q f h5 he (by omega) hq (by simp at hf; omega)
    have hpos : b.1 > 0 := by omega
    unfold heapWalk
    rw [hs, hnx, hrec]
    simp [hpos, blocks]

/-- The walk over the heap of a well-formed state visits the prologue and then the
blocks of the chain, in address order. -/
theorem heapBlocks_spec {s : Heap} {L : List (Nat × Bool)} {ls : Nat → List Nat}
    {F : Nat → Nat → Prop} (h : InvX s L ls F) :
    heapBlocks s = some (s.heap_listp :: (blocks (s.heap_listp + 344) L).map fun b => b.1) := by
  have hge := h.hl_ge
  have hend := Chain_end h.chain
  have hlen := chain_length_le h.chain
  have hb := h.brk_le
  have hm := h.max_lt
  have num : 8 ≤ s.heap_listp ∧ s.heap_listp + 344 < 4294967296 ∧ s.mem_brk < 4294967296 ∧
      L.length < 4294967295 := by
    clear * - hge hend hlen hb hm
    omega
  clear hend hlen hb hm hge
  have hhd : HDRP s.heap_listp = s.heap_listp - 4 := HDRP_eq _ (by omega) (by omega)
  have ht : GET s.mem (s.heap_listp - 4) = tag 344 true := h.pro_hdr
  have hs : GET_SIZE s.mem (HDRP s.heap_listp) = 344 := by
    rw [hhd]; exact GET_SIZE_tag ht (by omega)
  have hnx : NEXT_BLKP s.mem s.heap_listp = s.heap_listp + 344 :=
    NEXT_BLKP_eval ht (by omega) (by omega) (by omega)
  have hrec := heapWalk_spec s.mem L (s.heap_listp + 344) s.mem_brk 4294967295
    h.chain h.epi (by omega) (by omega) (by omega)
  unfold heapBlocks
  have hF : FUEL = 4294967295 + 1 := rfl
  rw [hF]
  unfold heapWalk
  rw [hs, hnx, hrec]
  simp

/-- The tags of a block of the chain, as the block macros read them. -/
theorem block_read {s : Heap} {L : List (Nat × Bool)} {ls : Nat → List Nat}
    {F : Nat → Nat → Prop} (h : InvX s L ls F) {x z : Nat} {al : Bool}
    (hx : (x, z, al) ∈ blocks (s.heap_listp + 344) L) :
    GET_SIZE s.mem (HDRP x) = z ∧ GET_ALLOC s.mem (HDRP x) = (if al then 1 else 0) ∧
    GET_SIZE s.mem (FTRP s.mem x) = z ∧ GET_ALLOC s.mem (FTRP s.mem x) = (if al then 1 else 0) ∧
    z % 8 = 0 ∧ 16 ≤ z ∧ x % 8 = 0 := by
  obtain ⟨L1, L2, e, hxe⟩ := blocks_split hx
  subst e
  rw [hxe]
  exact block_tags h

/-- The tags of the prologue block. -/
theorem prologue_read {s : Heap} {L : List (Nat × Bool)} {ls : Nat → List Nat}
    {F : Nat → Nat → Prop} (h : InvX s L ls F) :
    GET_SIZE s.mem (HDRP s.heap_listp) = 344 ∧ GET_ALLOC s.mem (HDRP s.heap_listp) = 1 ∧
    GET_SIZE s.mem (FTRP s.mem s.heap_listp) = 344 ∧
    GET_ALLOC s.mem (FTRP s.mem s.heap_listp) = 1 := by
  have hge := h.hl_ge
  have hend := Chain_end h.chain
  have hb := h.brk_le
  have hm := h.max_lt
  have num : 8 ≤ s.heap_listp ∧ s.heap_listp + 344 < 4294967296 := by
    clear * - hge hend hb hm
    omega
  clear hend hb hm hge
  have hhd : HDRP s.heap_listp = s.heap_listp - 4 := HDRP_eq _ (by omega) (by omega)
  have ht : GET s.mem (s.heap_listp - 4) = tag 344 true := h.pro_hdr
  have hf : GET s.mem (s.heap_listp + 344 - 8) = tag 344 true := h.pro_ftr
  have hft : FTRP s.mem s.heap_listp = s.heap_listp + 344 - 8 :=
    FTRP_eval ht (by omega) (by omega) (by omega)
  rw [hft, hhd]
  refine ⟨GET_SIZE_tag ht (by omega), ?_, GET_SIZE_tag hf (by omega), ?_⟩
  · rw [GET_ALLOC_tag ht (by omega)]; rfl
  · rw [GET_ALLOC_tag hf (by omega)]; rfl

/-- Every block of a well-formed heap has agreeing boundary tags. -/
theorem tags_agree {s : Heap} {L : List (Nat × Bool)} {ls : Nat → List Nat}
    {F : Nat → Nat → Prop} (h : InvX s L ls F) :
    ∀ bp, bp ∈ s.heap_listp :: (blocks (s.heap_listp + 344) L).map (fun b => b.1) →
      TagsAgree s.mem bp := by
  intro bp hbp
  rw [List.mem_cons] at hbp
  rcases hbp with e | hbp
  · subst e
    obtain ⟨h1, h2, h3, h4⟩ := prologue_read h
    unfold TagsAgree
    rw [h1, h2, h3, h4]
    exact ⟨rfl, rfl, by decide, by decide⟩
  · rw [List.mem_map] at hbp
    obtain ⟨⟨x, z, al⟩, hb, e⟩ := hbp
    simp only at e
    subst e
    obtain ⟨h1, h2, h3, h4, h5, h6, _⟩ := block_read h hb
    unfold TagsAgree
    rw [h1, h2, h3, h4]
    exact ⟨rfl, rfl, h5, h6⟩

/-- Blocks adjacent in the walk are not both free when the chain has no two adjacent
free blocks. -/
theorem walk_no_adjacent_free (m : Mem) (q : Nat) :
    ∀ (L : List (Nat × Bool)) (p : Nat), Chain m p L q → NoAdjFree L → 4 ≤ p →
      q < 4294967296 →
      List.Chain' (fun x y => ¬ (IsFree m x ∧ IsFree m y)) ((blocks p L).map fun b => b.1) := by
  intro L
  induction L with
  | nil => intro p _ _ _ _; simp [blocks]
  | cons b L ih =>
    intro p hc hn hp hq
    have hend := Chain_end hc
    rw [total_cons] at hend
    obtain ⟨h1, h2, h3, h4, h5⟩ := hc
    have hrec := ih (p + b.1) h5 (List.Chain'.tail hn) (by omega) hq
    simp only [blocks, List.map_cons]
    rw [List.chain'_cons']
    refine ⟨?_, hrec⟩
    intro y hy
    cases L with
    | nil => simp [blocks] at hy
    | cons c L =>
      simp only [blocks, List.map_cons, List.head?_cons, Option.mem_def,
        Option.some.injEq] at hy
      subst hy
      have hend2 := Chain_end h5
      rw [total_cons] at hend2
      obtain ⟨g1, g2, g3, _, _⟩ := h5
      have hbc : ¬ (b.2 = false ∧ c.2 = false) := (List.chain'_cons.1 hn).1
      have a1 : GET_ALLOC m (HDRP p) = if b.2 then 1 else 0 := by
        rw [HDRP_eq p hp (by omega)]; exact GET_ALLOC_tag h3 h1
      have a2 : GET_ALLOC m (HDRP (p + b.1)) = if c.2 then 1 else 0 := by
        rw [HDRP_eq _ (by omega) (by omega)]
        exact GET_ALLOC_tag (by rw [show p + b.1 - 4 = p + b.1 - 4 from rfl]; exact g3) g1
      unfold IsFree
      rw [a1, a2]
      intro hh
      apply hbc
      cases hb : b.2 <;> cases hcc : c.2 <;> simp [hb, hcc] at hh ⊢

/-- The number of blocks the walk finds marked free is the number of free blocks of the
chain. -/
theorem walk_free_count (m : Mem) (q : Nat) :
    ∀ (L : List (Nat × Bool)) (p : Nat), Chain m p L q → 4 ≤ p → q < 4294967296 →
      (((blocks p L).map fun b => b.1).filter fun bp => decide (IsFree m bp)).length =
        (L.filter fun b => !b.2).length := by
  intro L
  induction L with
  | nil => intro p _ _ _; simp [blocks]
  | cons b L ih =>
    intro p hc hp hq
    have hend := Chain_end hc
    rw [total_cons] at hend
    obtain ⟨h1, h2, h3, h4, h5⟩ := hc
    have hrec := ih (p + b.1) h5 (by omega) hq
    have a1 : GET_ALLOC m (HDRP p) = if b.2 then 1 else 0 := by
      rw [HDRP_eq p hp (by omega)]; exact GET_ALLOC_tag h3 h1
    have a2 : IsFree m p ↔ b.2 = false := by
      unfold IsFree
      rw [a1]
      cases b.2 <;> simp
    simp only [blocks, List.map_cons, List.filter_cons, a2]
    cases hb : b.2 <;> simp [hrec]

/-- A block the walk finds marked free is a free block of the chain. -/
theorem walk_mem_free {s : Heap} {L : List (Nat × Bool)} {ls : Nat → List Nat}
    {F : Nat → Nat → Prop} (h : InvX s L ls F) {bp : Nat}
    (hbp : bp ∈ s.heap_listp :: (blocks (s.heap_listp + 344) L).map (fun b => b.1))
    (hf : IsFree s.mem bp) :
    (bp, GET_SIZE s.mem (HDRP bp), false) ∈ blocks (s.heap_listp + 344) L := by
  unfold IsFree at hf
  rw [List.mem_cons] at hbp
  rcases hbp with e | hbp
  · subst e
    rw [(prologue_read h).2.1] at hf
    exact absurd hf (by decide)
  · rw [List.mem_map] at hbp
    obtain ⟨⟨x, z, al⟩, hb, e⟩ := hbp
    simp only at e
    subst e
    obtain ⟨h1, h2, _⟩ := block_read h hb
    rw [h1]
    cases al
    · exact hb
    · rw [h2] at hf
      exact absurd hf (by decide)

/-- The prologue is followed by a chain without adjacent free blocks. -/
theorem heap_no_adjacent_free {s : Heap} {L : List (Nat × Bool)} {ls : Nat → List Nat}
    {F : Nat → Nat → Prop} (h : InvX s L ls F) (hn : NoAdjFree L) :
    List.Chain' (fun x y => ¬ (IsFree s.mem x ∧ IsFree s.mem y))
      (s.heap_listp :: (blocks (s.heap_listp + 344) L).map fun b => b.1) := by
  have hge := h.hl_ge
  have hb := h.brk_le
  have hm := h.max_lt
  rw [List.chain'_cons']
  refine ⟨?_, walk_no_adjacent_free s.mem s.mem_brk L _ h.chain hn (by omega) (by omega)⟩
  intro y _ hh
  have := hh.1
  unfold IsFree at this
  rw [(prologue_read h).2.1] at this
  exact absurd this (by decide)

/-- The number of blocks the walk over the heap finds marked free. -/
theorem heap_free_count {s : Heap} {L : List (Nat × Bool)} {ls : Nat → List Nat}
    {F : Nat → Nat → Prop} (h : InvX s L ls F) :
    ((s.heap_listp :: (blocks (s.heap_listp + 344) L).map fun b => b.1).filter
      fun bp => decide (IsFree s.mem bp)).length = (L.filter fun b => !b.2).length := by
  have hge := h.hl_ge
  have hb := h.brk_le
  have hm := h.max_lt
  have hp : ¬ IsFree s.mem s.heap_listp := by
    unfold IsFree
    rw [(prologue_read h).2.1]
    decide
  rw [List.filter_cons, if_neg (by simpa using hp)]
  exact walk_free_count s.mem s.mem_brk L _ h.chain (by omega) (by omega)

/-- The lowest nonempty bucket, read from the bucket heads. -/
theorem gmin_heads {s : Heap} {L : List (Nat × Bool)} {ls : Nat → List Nat}
    {F : Nat → Nat → Prop} (h : InvX s L ls F) :
    (s.gminlist = 100 ↔ s.gcount = 0) ∧
    (s.gcount ≠ 0 → ∃ k : Nat, k < 84 ∧ s.gminlist = (k : Int) ∧
      GET s.mem (s.heap_listp + 4 * k) ≠ 0 ∧
      ∀ j, j < k → GET s.mem (s.heap_listp + 4 * j) = 0) := by
  have hgc := h.gcount_eq
  have hfl : FLInv s.mem s.heap_listp ls F := h.fl
  rcases h.gmin with ⟨hg, hall⟩ | ⟨k, hk, hg, hkne, hlow⟩
  · have hz := (idxCount_zero ls).2 hall
    rw [hz] at hgc
    refine ⟨⟨fun _ => hgc, fun _ => hg⟩, fun hne => absurd hgc hne⟩
  · have hnz : idxCount ls ≠ 0 := fun hz => hkne ((idxCount_zero ls).1 hz k hk)
    have hgc0 : s.gcount ≠ 0 := by rw [hgc]; exact_mod_cast hnz
    have hg100 : s.gminlist ≠ 100 := by rw [hg]; omega
    refine ⟨⟨fun e => absurd e hg100, fun e => absurd e hgc0⟩, fun _ => ⟨k, hk, hg, ?_, ?_⟩⟩
    · obtain ⟨t, hd⟩ := hfl.lists k hk
      intro e
      exact hkne ((dllseg_head_zero hd).1 e)
    · intro j hj
      obtain ⟨t, hd⟩ := hfl.lists j (by omega)
      exact (dllseg_head_zero hd).2 (hlow j hj)

/-! ## Running the public operations on a state of known shape -/

theorem shape_init (s0 : Heap) (h8 : s0.mem_brk % 8 = 0)
    (hfit : s0.mem_brk + 4448 ≤ s0.mem_max_addr) (hmax : s0.mem_max_addr < 4294967296)
    (hspan : s0.mem_max_addr < s0.mem_brk + 2147483648) :
    mm_init s0 = some (0, ((mm_init s0).getD (0, s0)).2) ∧
      Shape ((mm_init s0).getD (0, s0)).2 (s0.mem_brk + 8) (s0.mem_brk + 4448)
        s0.mem_max_addr [(4096, false)] := by
  obtain ⟨s, ls, hrun, hinv, b1, b2, b3⟩ := mm_init_ok s0 h8 hfit hmax hspan
  rw [hrun]
  exact ⟨rfl, b1, b2, b3, ls, hinv⟩

theorem shape_malloc_fit {s : Heap} {hl brk mx : Nat} {L K : List (Nat × Bool)}
    (L1 : List (Nat × Bool)) (c : Nat) (L2 : List (Nat × Bool)) {n p : Nat}
    (h : Shape s hl brk mx L) (hL : L = L1 ++ (c, false) :: L2)
    (hn0 : 0 < n) (hn : n ≤ 4294967280) (hac : malloc_asize n ≤ c)
    (hno : ∀ b, b ∈ L1 → ¬ (b.2 = false ∧ malloc_asize n ≤ b.1))
    (hK : K = placeL L1 (malloc_asize n) c L2) (hp : p = hl + 344 + total L1) :
    mm_malloc s n = some (p, ((mm_malloc s n).getD (0, s)).2) ∧
      Shape ((mm_malloc s n).getD (0, s)).2 hl brk mx K := by
  obtain ⟨e1, e2, e3, ls, hinv⟩ := h
  subst hL hK hp e1 e2 e3
  obtain ⟨t, ls2, hrun, hinv2, b1, b2, b3, _⟩ := mm_malloc_fit hinv hn0 hn hac hno
  rw [hrun]
  exact ⟨rfl, b3, b1, b2, ls2, hinv2⟩

theorem shape_malloc_ext {s : Heap} {hl brk mx : Nat} {L K : List (Nat × Bool)} {n p brk2 : Nat}
    (h : Shape s hl brk mx L) (hn0 : 0 < n) (hn : n ≤ 4294967280)
    (hno : ∀ b, b ∈ L → ¬ (b.2 = false ∧ malloc_asize n ≤ b.1))
    (hok : ¬ (toInt32 (MAX (malloc_asize n) CHUNKSIZE) < 0 ∨
      brk + MAX (malloc_asize n) CHUNKSIZE > mx))
    (hK : K = placeL (coalesceFront L) (malloc_asize n)
      ((prevFree L).getD 0 + MAX (malloc_asize n) CHUNKSIZE) [])
    (hp : p = hl + 344 + total (coalesceFront L))
    (hb : brk2 = brk + MAX (malloc_asize n) CHUNKSIZE) :
    mm_malloc s n = some (p, ((mm_malloc s n).getD (0, s)).2) ∧
      Shape ((mm_malloc s n).getD (0, s)).2 hl brk2 mx K := by
  obtain ⟨e1, e2, e3, ls, hinv⟩ := h
  subst hK hp hb e1 e2 e3
  obtain ⟨t, ls2, hrun, hinv2, b1, b2, b3, _⟩ := mm_malloc_ext hinv hn0 hn hno hok
  rw [hrun]
  exact ⟨rfl, b3, b1, b2, ls2, hinv2⟩

theorem shape_malloc_fail {s : Heap} {hl brk mx : Nat} {L : List (Nat × Bool)} {n : Nat}
    (h : Shape s hl brk mx L) (hn0 : 0 < n) (hn : n ≤ 4294967280)
    (hno : ∀ b, b ∈ L → ¬ (b.2 = false ∧ malloc_asize n ≤ b.1))
    (hf : toInt32 (MAX (malloc_asize n) CHUNKSIZE) < 0 ∨
      brk + MAX (malloc_asize n) CHUNKSIZE > mx) :
    mm_malloc s n = some (0, s) := by
  obtain ⟨e1, e2, e3, ls, hinv⟩ := h
  subst e1 e2 e3
  exact mm_malloc_fail hinv hn0 hn hno hf

theorem shape_free {s : Heap} {hl brk mx : Nat} {L K : List (Nat × Bool)}
    (L1 : List (Nat × Bool)) (c : Nat) (L2 : List (Nat × Bool)) {p : Nat}
    (h : Shape s hl brk mx L) (hL : L = L1 ++ (c, true) :: L2)
    (hK : K = coalesceL L1 c L2) (hp : p = hl + 344 + total L1) :
    mm_free s p = some ((mm_free s p).getD s) ∧ Shape ((mm_free s p).getD s) hl brk mx K := by
  obtain ⟨e1, e2, e3, ls, hinv⟩ := h
  subst hL hK hp e1 e2 e3
  obtain ⟨t, ls2, hrun, hinv2, b1, b2, b3, _⟩ := mm_free_spec hinv
  rw [hrun]
  exact ⟨rfl, b3, b1, b2, ls2, hinv2⟩

/-! ## The example run `a = malloc(100); b = malloc(200); free(a)` -/

theorem st0_run : mm_init heap0 = some (0, st0) ∧
    Shape st0 65544 69984 21037056 [(4096, false)] :=
  shape_init heap0 (by decide) (by decide) (by decide) (by decide)

theorem st1_run : mm_malloc st0 100 = some (65888, st1) ∧
    Shape st1 65544 69984 21037056 [(112, true), (3984, false)] :=
  shape_malloc_fit [] 4096 [] st0_run.2 rfl (by decide) (by decide) (by decide) (by decide)
    (by decide) (by decide)

theorem st2_run : mm_malloc st1 200 = some (66000, st2) ∧
    Shape st2 65544 69984 21037056 [(112, true), (208, true), (3776, false)] :=
  shape_malloc_fit [(112, true)] 3984 [] st1_run.2 rfl (by decide) (by decide) (by decide)
    (by decide) (by decide) (by decide)

theorem st3_run : mm_free st2 65888 = some st3 ∧
    Shape st3 65544 69984 21037056 [(112, false), (208, true), (3776, false)] :=
  shape_free [] 112 [(208, true), (3776, false)] st2_run.2 rfl (by decide) (by decide)

theorem st0_reach : Reachable st0 [] :=
  Reachable.init heap0 st0 (by decide) (by decide) (by decide) st0_run.1

theorem st1_reach : Reachable st1 [65888] :=
  Reachable.malloc st0 st1 [] 100 65888 st0_reach (by decide) st1_run.1

theorem st2_reach : Reachable st2 [66000, 65888] :=
  Reachable.malloc st1 st2 [65888] 200 66000 st1_reach (by decide) st2_run.1

theorem st3_reach : Reachable st3 [66000] :=
  Reachable.free st2 st3 [66000, 65888] 65888 st2_reach (by decide) st3_run.1

/-! ## Request sizes outside the range in which the adjusted size is exact -/

theorem malloc_asize_all (n : Nat) :
    malloc_asize n % 8 = 0 ∧ malloc_asize n < 4294967296 := by
  unfold malloc_asize DSIZE w32
  split_ifs <;> omega

theorem MAX_chunk (a : Nat) (h8 : a % 8 = 0) :
    MAX a CHUNKSIZE % 8 = 0 ∧ 16 ≤ MAX a CHUNKSIZE ∧ a ≤ MAX a CHUNKSIZE ∧
      4096 ≤ MAX a CHUNKSIZE := by
  unfold MAX CHUNKSIZE
  split_ifs <;> omega

/-- Function `place` returns on every free block of the index that is large enough, also
for an adjusted size below the minimum block size, and leaves the break alone. -/
theorem place_total {s : Heap} {L1 L2 : List (Nat × Bool)} {c a : Nat} {ls : Nat → List Nat}
    (h : Inv s (L1 ++ (c, false) :: L2) ls) (ha8 : a % 8 = 0) (hac : a ≤ c) :
    ∃ t, place s (s.heap_listp + 344 + total L1) a = some t ∧ t.mem_brk = s.mem_brk := by
  by_cases ha16 : 16 ≤ a
  · obtain ⟨t, _, hrun, _, b1, _⟩ := place_spec h ha8 ha16 hac
    exact ⟨t, hrun, b1⟩
  unfold Inv at h
  obtain ⟨m1, m2, m3, m4, m5, m6, m7, m8, m9, m10, m11⟩ := h.mid
  have hge := h.hl_ge
  obtain ⟨hsize, _, _⟩ := next_eval h
  have num : 8 ≤ s.heap_listp ∧ 16 ≤ c ∧ s.heap_listp + 344 + total L1 + c < 4294967296 := by
    clear * - hge m2 m7 m8
    omega
  clear m2 m3 m4 m5 m6 m7 m8 m9 m10 m11 hge
  have hmid : freeSet (s.heap_listp + 344) (L1 ++ (c, false) :: L2)
      (s.heap_listp + 344 + total L1) c := blocks_mem_mid _ _ _ _ _
  have hfl : FLInv s.mem s.heap_listp ls (freeSet (s.heap_listp + 344)
      (L1 ++ (c, false) :: L2)) := h.fl
  have hFpos : ∀ x z, (x, z, false) ∈ blocks (s.heap_listp + 344) L1 → 0 < z := by
    intro x z hx
    have := hfl.bnd x z ((freeSet_mid _ _ _ _ _ _).2 (Or.inl (Or.inl hx)))
    omega
  by_cases hsp : 16 ≤ c - a
  · obtain ⟨s1, hrun1, b1, b2, b3, _, hfr1, hfl1, _⟩ :=
      remove_spec s (s.heap_listp + 344 + total L1) c ls _ hfl hmid h.pro_ftr
    obtain ⟨mem1, brk1, max1, hl1, gm1, gc1⟩ := s1
    simp only at b1 b2 b3 hfr1 hfl1
    subst b1 b2 b3
    have hb := hfl.bnd _ _ hmid
    have hF1 : ∀ x sx, (freeSet (s.heap_listp + 344) (L1 ++ (c, false) :: L2) x sx ∧
        x ≠ s.heap_listp + 344 + total L1) →
        16 ≤ sx ∧ s.heap_listp + 344 ≤ x ∧
          (x + sx ≤ s.heap_listp + 344 + total L1 ∨ s.heap_listp + 344 + total L1 + c ≤ x) := by
      intro x sx hx
      have h1 := hfl.bnd x sx hx.1
      have h2 := hfl.disj x sx _ c hx.1 hmid
      have h3 := hx.2
      omega
    generalize hP : s.heap_listp + 344 + total L1 = P at *
    have hfl2 : FLInv (setTags (setTags mem1 P a (a + 1)) (P + a) (c - a) (c - a))
        s.heap_listp (Function.update ls (bucketIdx c) ((ls (bucketIdx c)).erase P))
        (fun x z => freeSet (s.heap_listp + 344) (L1 ++ (c, false) :: L2) x z ∧ x ≠ P) := by
      apply FLInv.frame hfl1
      intro x hx
      have hx2 : x < P - 8 ∨ P + c - 4 ≤ x := by
        rcases hx with hx | ⟨y, sy, hy, h1, h2⟩
        · omega
        · have := hF1 y sy hy
          omega
      unfold setTags
      rw [PUT_out _ _ _ _ (by omega), PUT_out _ _ _ _ (by omega), PUT_out _ _ _ _ (by omega),
        PUT_out _ _ _ _ (by omega)]
    obtain ⟨t, l, hrun2, c1, _⟩ := add_spec
      { mem := setTags (setTags mem1 P a (a + 1)) (P + a) (c - a) (c - a),
        mem_brk := s.mem_brk, mem_max_addr := s.mem_max_addr, heap_listp := s.heap_listp,
        gminlist := gm1, gcount := gc1 } (P + a) (c - a) _ _ hfl2
      (by
        show GET (setTags (setTags mem1 P a (a + 1)) (P + a) (c - a) (c - a)) (P + a - 4) /
          8 * 8 = c - a
        rw [setTags_hdr _ _ _ _ (by omega) (by omega) (by omega)]
        omega)
      (by
        show 16 ≤ c - a ∧ c - a < 2147483648 ∧ s.heap_listp + 344 ≤ P + a ∧
          P + a + (c - a) < 4294967296
        omega)
      (by
        intro x sx hx
        have := hF1 x sx hx
        omega)
    refine ⟨t, ?_, c1⟩
    rw [place_split_eq s P a c (by omega) (by omega) hsize ha8 hac hsp m1, hrun1,
      Option.some_bind]
    exact hrun2
  · have hX2 := retag_one true h (by
      intro x z hx
      rcases (freeSet_mid _ _ _ _ _ _).1 hx with hx2 | e
      · have h1 := freeAround_bounds hx2
        omega
      · exact Or.inl e)
    obtain ⟨t, ls2, hrun3, hinv, c1, c2, c3, _, hfr3⟩ :=
      @remove_block _ _ _ _ (s.heap_listp + 344 + total L1) c hX2 hmid
        (fun x z hx => by
          rcases (freeSet_mid _ _ _ _ _ _).1 hx with hx2 | ⟨e1, e2⟩
          · rw [← freeSet_alloc_mid] at hx2
            exact ⟨false, hx2⟩
          · rw [e1, e2]
            exact ⟨true, blocks_mem_mid _ _ _ _ _⟩)
    refine ⟨t, ?_, c1⟩
    rw [place_whole_eq s _ a c (by omega) (by omega) hsize hac hsp m1]
    exact hrun3

/-- Function `mm_malloc` when a free block fits, for every request size: the first such
block in address order is returned, and the heap is not extended. -/
theorem mm_malloc_fit_all {s : Heap} {L1 L2 : List (Nat × Bool)} {c n : Nat}
    {ls : Nat → List Nat} (h : Inv s (L1 ++ (c, false) :: L2) ls) (hn0 : 0 < n)
    (hac : malloc_asize n ≤ c)
    (hno : ∀ b, b ∈ L1 → ¬ (b.2 = false ∧ malloc_asize n ≤ b.1)) :
    first_fit s (malloc_asize n) = some (s.heap_listp + 344 + total L1) ∧
    ∃ t, mm_malloc s n = some (s.heap_listp + 344 + total L1, t) ∧ t.mem_brk = s.mem_brk := by
  obtain ⟨a8, _⟩ := malloc_asize_all n
  obtain ⟨t, hrun, hb⟩ := place_total h a8 hac
  have hff := first_fit_spec h (malloc_asize n)
  rw [firstFit_eq _ _ _ hac _ _ hno] at hff
  refine ⟨hff, t, ?_, hb⟩
  have hge := h.hl_ge
  have hne : s.heap_listp + 344 + total L1 ≠ 0 := by omega
  unfold mm_malloc
  rw [if_neg (by omega)]
  simp only []
  rw [hff, Option.some_bind, if_pos hne, hrun]
  rfl

/-- Function `mm_malloc` when no free block fits and the heap cannot grow, for every
request size: the call returns `NULL` and the state is unchanged. -/
theorem mm_malloc_fail_all {s : Heap} {L : List (Nat × Bool)} {n : Nat} {ls : Nat → List Nat}
    (h : Inv s L ls) (hn0 : 0 < n)
    (hno : ∀ b, b ∈ L → ¬ (b.2 = false ∧ malloc_asize n ≤ b.1))
    (hf : toInt32 (MAX (malloc_asize n) CHUNKSIZE) < 0 ∨
      s.mem_brk + MAX (malloc_asize n) CHUNKSIZE > s.mem_max_addr) :
    first_fit s (malloc_asize n) = some 0 ∧ mm_malloc s n = some (0, s) := by
  obtain ⟨a8, alt⟩ := malloc_asize_all n
  obtain ⟨E8, E16, hE, _⟩ := MAX_chunk _ a8
  have hE2 : MAX (malloc_asize n) CHUNKSIZE < 4294967296 := by
    unfold MAX CHUNKSIZE
    split_ifs <;> omega
  have hff := first_fit_spec h (malloc_asize n)
  rw [firstFit_none _ _ _ hno] at hff
  have hext := extend_heap_fail s (MAX (malloc_asize n) CHUNKSIZE / WSIZE) _
    (extsize_eq _ E8 hE2) hf
  refine ⟨hff, ?_⟩
  unfold mm_malloc
  rw [if_neg (by omega)]
  simp only []
  rw [hff, Option.some_bind, if_neg (by simp), hext]
  rfl

/-- Every pointer `mm_malloc` returns in a well-formed state is a multiple of 8, for
every request size. -/
theorem malloc_aligned {s t : Heap} {L : List (Nat × Bool)} {ls : Nat → List Nat} {n p : Nat}
    (h : Inv s L ls) (hrun : mm_malloc s n = some (p, t)) : p % 8 = 0 := by
  by_cases hn0 : n = 0
  · subst hn0
    unfold mm_malloc at hrun
    rw [if_pos rfl] at hrun
    simp only [Option.some.injEq, Prod.mk.injEq] at hrun
    rw [← hrun.1]
  obtain ⟨a8, alt⟩ := malloc_asize_all n
  obtain ⟨E8, E16, hE, _⟩ := MAX_chunk _ a8
  have hE2 : MAX (malloc_asize n) CHUNKSIZE < 4294967296 := by
    unfold MAX CHUNKSIZE
    split_ifs <;> omega
  have hff := first_fit_spec h (malloc_asize n)
  rcases firstFit_cases (malloc_asize n) L with hno | ⟨L1, c, L2, e, hac, hno⟩
  · by_cases hf : toInt32 (MAX (malloc_asize n) CHUNKSIZE) < 0 ∨
        s.mem_brk + MAX (malloc_asize n) CHUNKSIZE > s.mem_max_addr
    · rw [(mm_malloc_fail_all h (Nat.pos_of_ne_zero hn0) hno hf).2] at hrun
      simp only [Option.some.injEq, Prod.mk.injEq] at hrun
      rw [← hrun.1]
    · rw [firstFit_none _ _ _ hno] at hff
      obtain ⟨t1, ls1, hrun1, hinv1, b1, b2, b3, _⟩ :=
        extend_heap_spec h (MAX (malloc_asize n) CHUNKSIZE / WSIZE) _
          (extsize_eq _ E8 hE2) E8 E16 hf
      rw [coalesceL_nil] at hinv1
      have hal := (block_tags hinv1).2.2.2.2.2.2
      rw [b3] at hal
      have hge := h.hl_ge
      have hne : s.heap_listp + 344 + total (coalesceFront L) ≠ 0 := by omega
      unfold mm_malloc at hrun
      rw [if_neg hn0] at hrun
      simp only [] at hrun
      rw [hff, Option.some_bind, if_neg (by simp), hrun1, Option.some_bind] at hrun
      simp only [hne, if_false] at hrun
      rcases hpl : place t1 (s.heap_listp + 344 + total (coalesceFront L)) (malloc_asize n)
        with _ | t2
      · rw [hpl] at hrun
        simp at hrun
      · rw [hpl] at hrun
        simp only [Option.map_some', Option.some.injEq, Prod.mk.injEq] at hrun
        rw [← hrun.1]
        exact hal
  · subst e
    obtain ⟨_, t2, hrun2, _⟩ := mm_malloc_fit_all h (Nat.pos_of_ne_zero hn0) hac hno
    rw [hrun2] at hrun
    simp only [Option.some.injEq, Prod.mk.injEq] at hrun
    rw [← hrun.1]
    exact (block_tags h).2.2.2.2.2.2

/-- Function `mm_malloc` returns on every request of the contract in a well-formed
state. -/
theorem malloc_total {s : Heap} {L : List (Nat × Bool)} {ls : Nat → List Nat} {n : Nat}
    (h : Inv s L ls) (hn : n ≤ 4294967280) : ∃ p t, mm_malloc s n = some (p, t) := by
  by_cases hn0 : n = 0
  · subst hn0
    exact ⟨0, s, by unfold mm_malloc; rw [if_pos rfl]⟩
  have hpos := Nat.pos_of_ne_zero hn0
  rcases firstFit_cases (malloc_asize n) L with hno | ⟨L1, c, L2, e, hac, hno⟩
  · by_cases hf : toInt32 (MAX (malloc_asize n) CHUNKSIZE) < 0 ∨
        s.mem_brk + MAX (malloc_asize n) CHUNKSIZE > s.mem_max_addr
    · exact ⟨0, s, mm_malloc_fail h hpos hn hno hf⟩
    · obtain ⟨t, _, hrun, _⟩ := mm_malloc_ext h hpos hn hno hf
      exact ⟨_, t, hrun⟩
  · subst e
    obtain ⟨_, t, hrun, _⟩ := mm_malloc_fit_all h hpos hac hno
    exact ⟨_, t, hrun⟩

/-- Every pointer `mm_realloc` returns for a live block is a multiple of 8, for every
request size. -/
theorem realloc_aligned {s t : Heap} {live : List Nat} {L : List (Nat × Bool)}
    {ls : Nat → List Nat} {p n q : Nat} (hG : GInv s live L ls) (hp : p ∈ live)
    (hrun : mm_realloc s p n = some (q, t)) : q % 8 = 0 := by
  by_cases hn0 : n = 0
  · subst hn0
    rw [mm_realloc_zero] at hrun
    rcases hf : mm_free s p with _ | t2
    · rw [hf] at hrun
      simp at hrun
    · rw [hf] at hrun
      simp only [Option.map_some', Option.some.injEq, Prod.mk.injEq] at hrun
      rw [← hrun.1]
  · obtain ⟨L1, old, L2, e, hpe⟩ := live_block hG hp
    subst e
    have hI := hG.inv
    obtain ⟨hsize, _, _, _, o8, o16, hp8⟩ := block_tags hI
    rw [← hpe] at hsize hp8
    have hge := hI.hl_ge
    have hmid := hI.mid
    have num : p ≠ 0 ∧ old < 4294967296 ∧ 8 ≤ p ∧ p + old < 4294967296 := by
      clear * - hge hpe hmid
      omega
    clear hmid
    obtain ⟨hp0, holt, hp8b, hpo⟩ := num
    by_cases hkeep : realloc_asize n = old ∨
        (realloc_asize n ≤ old ∧ old - realloc_asize n ≤ 16)
    · rw [mm_realloc_keep s p n old hn0 hp0 hsize holt hkeep] at hrun
      simp only [Option.some.injEq, Prod.mk.injEq] at hrun
      rw [← hrun.1]
      exact hp8
    · by_cases hlt : realloc_asize n < old
      · have hgt : 16 < old - realloc_asize n := by
          clear * - hkeep hlt
          omega
        rw [mm_realloc_shrink_eq s p n old hn0 hp8b hpo hsize o8 hlt hgt] at hrun
        rcases hc : coalesce { s with mem := (setTags (setTags s.mem p (realloc_asize n)
            (realloc_asize n + 1)) (p + realloc_asize n) (old - realloc_asize n)
            (old - realloc_asize n)) } (p + realloc_asize n) with _ | r
        · rw [hc] at hrun
          simp at hrun
        · rw [hc] at hrun
          simp only [Option.map_some', Option.some.injEq, Prod.mk.injEq] at hrun
          rw [← hrun.1]
          exact hp8
      · have hgt : old < realloc_asize n := by
          clear * - hkeep hlt
          omega
        rw [mm_realloc_grow_eq s p n old hn0 hp0 hsize hgt] at hrun
        rcases hm : mm_malloc s n with _ | ⟨q1, t1⟩
        · rw [hm] at hrun
          simp at hrun
        · rw [hm, Option.some_bind] at hrun
          have hq1 := malloc_aligned hI hm
          by_cases hz : q1 = 0
          · subst hz
            simp only [if_true, Option.some.injEq, Prod.mk.injEq] at hrun
            rw [← hrun.1]
          · simp only [hz, if_false] at hrun
            rcases hf : mm_free { t1 with mem := memcpy t1.mem q1 p (if n < old then n else old) }
                p with _ | t2
            · rw [hf] at hrun
              simp at hrun
            · rw [hf] at hrun
              simp only [Option.map_some', Option.some.injEq, Prod.mk.injEq] at hrun
              rw [← hrun.1]
              exact hq1

/-! ## The walk over the heap and the chain of the invariant -/

theorem mem_blocks_of_mem {b : Nat × Bool} :
    ∀ {L : List (Nat × Bool)} (p : Nat), b ∈ L → ∃ x, (x, b.1, b.2) ∈ blocks p L := by
  intro L
  induction L with
  | nil => intro p h; simp at h
  | cons c L ih =>
    intro p h
    rw [List.mem_cons] at h
    rcases h with e | h
    · subst e
      exact ⟨p, by simp [blocks]⟩
    · obtain ⟨x, hx⟩ := ih (p + c.1) h
      exact ⟨x, by simp [blocks, hx]⟩

theorem mem_of_mem_blocks {x z : Nat} {al : Bool} :
    ∀ {L : List (Nat × Bool)} {p : Nat}, (x, z, al) ∈ blocks p L → (z, al) ∈ L := by
  intro L
  induction L with
  | nil => intro p h; simp [blocks] at h
  | cons c L ih =>
    intro p h
    simp only [blocks, List.mem_cons, Prod.mk.injEq] at h
    rcases h with ⟨_, e2, e3⟩ | h
    · exact List.mem_cons.2 (Or.inl (Prod.ext e2 e3))
    · exact List.mem_cons_of_mem _ (ih h)

/-- A block of the chain is visited by the walk. -/
theorem block_in_walk {s : Heap} {L : List (Nat × Bool)} {x z : Nat} {al : Bool}
    (hx : (x, z, al) ∈ blocks (s.heap_listp + 344) L) :
    x ∈ s.heap_listp :: (blocks (s.heap_listp + 344) L).map (fun b => b.1) :=
  List.mem_cons_of_mem _ (List.mem_map.2 ⟨_, hx, rfl⟩)

/-- A block the walk finds marked allocated is the prologue or an allocated block of the
chain. -/
theorem walk_mem_alloc {s : Heap} {L : List (Nat × Bool)} {ls : Nat → List Nat}
    {F : Nat → Nat → Prop} (h : InvX s L ls F) {bp : Nat}
    (hbp : bp ∈ s.heap_listp :: (blocks (s.heap_listp + 344) L).map (fun b => b.1))
    (hf : ¬ IsFree s.mem bp) :
    (bp = s.heap_listp ∧ GET_SIZE s.mem (HDRP bp) = 344) ∨
      (bp, GET_SIZE s.mem (HDRP bp), true) ∈ blocks (s.heap_listp + 344) L := by
  unfold IsFree at hf
  rw [List.mem_cons] at hbp
  rcases hbp with e | hbp
  · subst e
    exact Or.inl ⟨rfl, (prologue_read h).1⟩
  · right
    rw [List.mem_map] at hbp
    obtain ⟨⟨x, z, al⟩, hb, e⟩ := hbp
    simp only at e
    subst e
    obtain ⟨h1, h2, _⟩ := block_read h hb
    rw [h1]
    cases al
    · rw [h2] at hf
      exact absurd rfl hf
    · exact hb

/-- No block of the walk is free and large enough exactly when no block of the chain is. -/
theorem walk_nofit_iff {s : Heap} {L : List (Nat × Bool)} {ls : Nat → List Nat}
    {F : Nat → Nat → Prop} (h : InvX s L ls F) (a : Nat) :
    (∀ x, x ∈ s.heap_listp :: (blocks (s.heap_listp + 344) L).map (fun b => b.1) →
      ¬ (IsFree s.mem x ∧ a ≤ GET_SIZE s.mem (HDRP x))) ↔
    (∀ b, b ∈ L → ¬ (b.2 = false ∧ a ≤ b.1)) := by
  constructor
  · intro hw b hb hc
    obtain ⟨x, hx⟩ := mem_blocks_of_mem (s.heap_listp + 344) hb
    obtain ⟨h1, h2, _⟩ := block_read h hx
    apply hw x (block_in_walk hx)
    unfold IsFree
    rw [h1, h2, hc.1]
    exact ⟨rfl, hc.2⟩
  · intro hc x hx hw
    have hb := walk_mem_free h hx hw.1
    exact hc _ (mem_of_mem_blocks hb) ⟨rfl, hw.2⟩

/-- The break of a well-formed state is a multiple of 8 below `2^32`. -/
theorem brk_aligned {s : Heap} {L : List (Nat × Bool)} {ls : Nat → List Nat}
    {F : Nat → Nat → Prop} (h : InvX s L ls F) :
    s.mem_brk % 8 = 0 ∧ s.mem_brk < 4294967296 := by
  have h1 := Chain_end h.chain
  have h2 := total_mod8 h.chain
  have h3 := h.hl8
  have h4 := h.brk_le
  have h5 := h.max_lt
  omega

/-- The failure value of the heap-extension primitive is returned exactly in the two
cases the primitive checks. -/
theorem sbrk_fail {s : Heap} {L : List (Nat × Bool)} {ls : Nat → List Nat}
    {F : Nat → Nat → Prop} (h : InvX s L ls F) (incr : Nat)
    (hf : (mem_sbrk s incr).1 = 4294967295) :
    toInt32 incr < 0 ∨ s.mem_brk + incr > s.mem_max_addr := by
  by_contra hc
  unfold mem_sbrk at hf
  rw [if_neg hc] at hf
  have := brk_aligned h
  simp only at hf
  omega

/-- The walk over a state of known shape. -/
theorem shape_walk {s : Heap} {hl brk mx : Nat} {L : List (Nat × Bool)}
    (h : Shape s hl brk mx L) :
    heapBlocks s = some (hl :: (blocks (hl + 344) L).map fun b => b.1) := by
  obtain ⟨e1, _, _, ls, hinv⟩ := h
  subst e1
  exact heapBlocks_spec hinv

/-- The tags of a block of a state of known shape. -/
theorem shape_read {s : Heap} {hl brk mx : Nat} {L : List (Nat × Bool)}
    (h : Shape s hl brk mx L) {x z : Nat} {al : Bool} (hx : (x, z, al) ∈ blocks (hl + 344) L) :
    GET_SIZE s.mem (HDRP x) = z ∧ (IsFree s.mem x ↔ al = false) := by
  obtain ⟨e1, _, _, ls, hinv⟩ := h
  subst e1
  obtain ⟨h1, h2, _⟩ := block_read hinv hx
  refine ⟨h1, ?_⟩
  unfold IsFree
  rw [h2]
  cases al <;> simp

/-- In a state of known shape, no block of the walk is free and large enough when no
block of the chain is. -/
theorem shape_nofit {s : Heap} {hl brk mx : Nat} {L : List (Nat × Bool)}
    (h : Shape s hl brk mx L) (a : Nat) (hno : ∀ b, b ∈ L → ¬ (b.2 = false ∧ a ≤ b.1)) :
    ∀ bs, heapBlocks s = some bs → ∀ x, x ∈ bs →
      ¬ (IsFree s.mem x ∧ a ≤ GET_SIZE s.mem (HDRP x)) := by
  intro bs hbs
  obtain ⟨e1, _, _, ls, hinv⟩ := h
  subst e1
  rw [heapBlocks_spec hinv] at hbs
  simp only [Option.some.injEq] at hbs
  subst hbs
  exact (walk_nofit_iff hinv a).2 hno

/-! ## Further example runs -/

theorem shape_sbrk_fail {s : Heap} {hl brk mx : Nat} {L : List (Nat × Bool)}
    (h : Shape s hl brk mx L) (incr : Nat) (hf : brk + incr > mx) :
    (mem_sbrk s incr).1 = 4294967295 := by
  obtain ⟨_, e2, e3, _⟩ := h
  subst e2 e3
  unfold mem_sbrk
  rw [if_pos (Or.inr hf)]

theorem st4_run : mm_malloc st3 50 = some (65888, st4) ∧
    Shape st4 65544 69984 21037056 [(64, true), (48, false), (208, true), (3776, false)] :=
  shape_malloc_fit [] 112 [(208, true), (3776, false)] st3_run.2 rfl (by decide) (by decide)
    (by decide) (by decide) (by decide) (by decide)

theorem sm0_run : mm_init heapSmall = some (0, sm0) ∧
    Shape sm0 65544 69984 69984 [(4096, false)] :=
  shape_init heapSmall (by decide) (by decide) (by decide) (by decide)

theorem sm1_run : mm_malloc sm0 100 = some (65888, sm1) ∧
    Shape sm1 65544 69984 69984 [(112, true), (3984, false)] :=
  shape_malloc_fit [] 4096 [] sm0_run.2 rfl (by decide) (by decide) (by decide) (by decide)
    (by decide) (by decide)

theorem sm1_reach : Reachable sm1 [65888] :=
  Reachable.malloc sm0 sm1 [] 100 65888
    (Reachable.init heapSmall sm0 (by decide) (by decide) (by decide) sm0_run.1)
    (by decide) sm1_run.1

theorem bf1_run : mm_malloc st0 3000 = some (65888, bf1) ∧
    Shape bf1 65544 69984 21037056 [(3008, true), (1088, false)] :=
  shape_malloc_fit [] 4096 [] st0_run.2 rfl (by decide) (by decide) (by decide) (by decide)
    (by decide) (by decide)

theorem bf2_run : mm_malloc bf1 8 = some (68896, bf2) ∧
    Shape bf2 65544 69984 21037056 [(3008, true), (16, true), (1072, false)] :=
  shape_malloc_fit [(3008, true)] 1088 [] bf1_run.2 rfl (by decide) (by decide) (by decide)
    (by decide) (by decide) (by decide)

theorem bf3_run : mm_free bf2 65888 = some bf3 ∧
    Shape bf3 65544 69984 21037056 [(3008, false), (16, true), (1072, false)] :=
  shape_free [] 3008 [(16, true), (1072, false)] bf2_run.2 rfl (by decide) (by decide)

theorem bf3_reach : Reachable bf3 [68896] :=
  Reachable.free bf2 bf3 [68896, 65888] 65888
    (Reachable.malloc bf1 bf2 [65888] 8 68896
      (Reachable.malloc st0 bf1 [] 3000 65888 st0_reach (by decide) bf1_run.1)
      (by decide) bf2_run.1)
    (by decide) bf3_run.1

theorem sh1_run : mm_malloc st0 24 = some (65888, sh1) ∧
    Shape sh1 65544 69984 21037056 [(32, true), (4064, false)] :=
  shape_malloc_fit [] 4096 [] st0_run.2 rfl (by decide) (by decide) (by decide) (by decide)
    (by decide) (by decide)

theorem sh1_reach : Reachable sh1 [65888] :=
  Reachable.malloc st0 sh1 [] 24 65888 st0_reach (by decide) sh1_run.1

theorem rt1_run : mm_malloc st0 5000 = some (65888, rt1) ∧
    Shape rt1 65544 74992 21037056 [(5008, true), (4096, false)] :=
  shape_malloc_ext st0_run.2 (by decide) (by decide) (by decide) (by decide) (by decide)
    (by decide) (by decide)

theorem rt2_run : mm_free rt1 65888 = some rt2 ∧
    Shape rt2 65544 74992 21037056 [(9104, false)] :=
  shape_free [] 5008 [(4096, false)] rt1_run.2 rfl (by decide) (by decide)

theorem sp1_run : mm_malloc st0 4072 = some (65888, sp1) ∧
    Shape sp1 65544 69984 21037056 [(4080, true), (16, false)] :=
  shape_malloc_fit [] 4096 [] st0_run.2 rfl (by decide) (by decide) (by decide) (by decide)
    (by decide) (by decide)

/-! ## Free bytes, and the growing path of `mm_realloc` -/

theorem walk_free_bytes (m : Mem) (q : Nat) :
    ∀ (L : List (Nat × Bool)) (p : Nat), Chain m p L q → 4 ≤ p → q < 4294967296 →
      ((((blocks p L).map fun b => b.1).filter fun bp => decide (IsFree m bp)).map
        fun bp => GET_SIZE m (HDRP bp)).sum = freeBytes L := by
  intro L
  induction L with
  | nil => intro p _ _ _; simp [blocks, freeBytes]
  | cons b L ih =>
    intro p hc hp hq
    have hend := Chain_end hc
    rw [total_cons] at hend
    obtain ⟨h1, h2, h3, h4, h5⟩ := hc
    have hrec := ih (p + b.1) h5 (by omega) hq
    have a1 : GET_ALLOC m (HDRP p) = if b.2 then 1 else 0 := by
      rw [HDRP_eq p hp (by omega)]; exact GET_ALLOC_tag h3 h1
    have a3 : GET_SIZE m (HDRP p) = b.1 := by
      rw [HDRP_eq p hp (by omega)]; exact GET_SIZE_tag h3 h1
    have a2 : IsFree m p ↔ b.2 = false := by
      unfold IsFree
      rw [a1]
      cases b.2 <;> simp
    rw [freeBytes_cons]
    simp only [blocks, List.map_cons, List.filter_cons, a2]
    cases hb : b.2 <;> simp [hrec, a3]

/-- The free bytes the walk over the heap counts are those of the chain. -/
theorem heap_free_bytes {s : Heap} {L : List (Nat × Bool)} {ls : Nat → List Nat}
    {F : Nat → Nat → Prop} (h : InvX s L ls F) : heapFreeBytes s = some (freeBytes L) := by
  have hge := h.hl_ge
  have hb := h.brk_le
  have hm := h.max_lt
  have hp : ¬ IsFree s.mem s.heap_listp := by
    unfold IsFree
    rw [(prologue_read h).2.1]
    decide
  unfold heapFreeBytes
  rw [heapBlocks_spec h, Option.map_some', List.filter_cons, if_neg (by simpa using hp),
    walk_free_bytes s.mem s.mem_brk L _ h.chain (by omega) (by omega)]

theorem shape_free_bytes {s : Heap} {hl brk mx : Nat} {L : List (Nat × Bool)}
    (h : Shape s hl brk mx L) : heapFreeBytes s = some (freeBytes L) := by
  obtain ⟨_, _, _, ls, hinv⟩ := h
  exact heap_free_bytes hinv

/-- The merged block of `coalesceL`: it starts where the free predecessor started, or at
the block itself, and spans the block and its free neighbours. -/
theorem coalesceL_block (p : Nat) (L1 : List (Nat × Bool)) (sz : Nat) (L2 : List (Nat × Bool)) :
    (p + total (coalesceFront L1), (prevFree L1).getD 0 + sz + (nextFree L2).getD 0, false) ∈
      blocks p (coalesceL L1 sz L2) ∧
    total (coalesceFront L1) + (prevFree L1).getD 0 = total L1 := by
  constructor
  · have e : coalesceL L1 sz L2 = coalesceFront L1 ++
        ((prevFree L1).getD 0 + sz + (nextFree L2).getD 0, false) ::
          (if (nextFree L2).isSome then L2.tail else L2) := rfl
    rw [e]
    exact blocks_mem_mid _ _ _ _ _
  · rcases hpf : prevFree L1 with _ | s1
    · simp [coalesceFront, hpf]
    · obtain ⟨K, e⟩ := prevFree_some hpf
      subst e
      simp [coalesceFront, hpf, total_append, total_cons, total_nil]

theorem realloc_asize_contract (n : Nat) (hn : n < 4294967296) (h : 16 < realloc_asize n) :
    n ≤ 4294967280 := by
  unfold realloc_asize MAX at h
  rw [ALIGN_eq] at h
  unfold w32 DSIZE at h
  split_ifs at h <;> omega

/-- Function `mm_realloc` on its growing path, in a state satisfying the invariant: the
call returns; on `NULL` the state is unchanged; otherwise the new block is another block,
it holds the old payload, and the old block lies inside a free block. -/
theorem realloc_grow_post {s : Heap} {live : List Nat} {L : List (Nat × Bool)}
    {ls : Nat → List Nat} {p n : Nat} (hG : GInv s live L ls) (hp : p ∈ live)
    (hn : n ≤ 4294967280) (hgt : GET_SIZE s.mem (HDRP p) < realloc_asize n) :
    ∃ q t, mm_realloc s p n = some (q, t) ∧ (q = 0 → t = s) ∧
      (q ≠ 0 → q ≠ p ∧
        (∀ i, i < GET_SIZE s.mem (HDRP p) - 8 → t.mem (q + i) = s.mem (p + i)) ∧
        ∃ K ls2, Inv t K ls2 ∧ ∃ x z, (x, z, false) ∈ blocks (t.heap_listp + 344) K ∧
          x ≤ p ∧ p + GET_SIZE s.mem (HDRP p) ≤ x + z) := by
  obtain ⟨L1, old, L2, e, hpe⟩ := live_block hG hp
  subst e
  have hI := hG.inv
  obtain ⟨hsize, _, _, _, o8, o16, hp8⟩ := block_tags hI
  rw [← hpe] at hsize hp8
  rw [hsize] at hgt ⊢
  have hge := hI.hl_ge
  have hn0 : n ≠ 0 := by
    intro e
    subst e
    have : realloc_asize 0 = 16 := by decide
    omega
  have hp0 : p ≠ 0 := by omega
  have hmem : (p, old, true) ∈ blocks (s.heap_listp + 344) (L1 ++ (old, true) :: L2) := by
    rw [hpe]
    exact blocks_mem_mid _ _ _ _ _
  have hnold : old ≤ n + 7 := by
    rw [realloc_asize_eq n hn] at hgt
    clear * - hgt o8 o16
    omega
  rw [mm_realloc_grow_eq s p n old hn0 hp0 hsize hgt]
  obtain ⟨q1, t1, hm⟩ := malloc_total hI hn
  rw [hm, Option.some_bind]
  rcases malloc_post hG (Nat.pos_of_ne_zero hn0) hn hm with
    ⟨e1, e2⟩ | ⟨hq1, K, ls2, sz, hG1, c3, c2, c1, hq8, hsz, hiff, hfr, _⟩
  · subst e1 e2
    exact ⟨0, t1, by simp, fun _ => rfl, fun h => absurd rfl h⟩
  · simp only [hq1, if_false]
    have hblk : (q1, sz, true) ∈ blocks (t1.heap_listp + 344) K := by
      rw [c3]
      exact (hiff _ _).2 (Or.inr ⟨rfl, rfl⟩)
    have hpK : (p, old, true) ∈ blocks (t1.heap_listp + 344) K := by
      rw [c3]
      exact (hiff _ _).2 (Or.inl hmem)
    have hcnt : (if n < old then n else old) + 8 ≤ sz := by
      clear * - hsz
      split_ifs <;> omega
    have hG1b : GInv { t1 with mem := memcpy t1.mem q1 p (if n < old then n else old) }
        (q1 :: live) K ls2 := by
      refine ⟨InvX_payload hG1.inv hblk ?_, hG1.naf, hG1.live_iff, hG1.nodup⟩
      intro a ha
      apply memcpy_out
      intro hc
      apply ha
      clear * - hc hcnt
      omega
    obtain ⟨t2, M1, c, M2, ls3, hK, hpe2, hfree, hG2, d1, _, _, hfr2, _⟩ :=
      free_post hG1b (List.mem_cons_of_mem _ hp)
    simp only at hpe2 d1 hfr2
    rw [hfree]
    have hne : q1 ≠ p := by
      intro e
      have := (List.nodup_cons.1 hG1.nodup).1
      rw [e] at this
      exact this hp
    refine ⟨q1, t2, rfl, fun h => absurd h hq1, fun _ => ⟨hne, ?_, ?_⟩⟩
    · intro i hi
      have e1 := hfr2 q1 sz (q1 + i) hblk hne (by omega) (by omega)
      rw [e1]
      show memcpy t1.mem q1 p (if n < old then n else old) (q1 + i) = s.mem (p + i)
      have hin : q1 ≤ q1 + i ∧ q1 + i < q1 + (if n < old then n else old) := by
        clear * - hi hnold
        split_ifs <;> omega
      unfold memcpy
      rw [if_pos hin, show q1 + i - q1 = i by omega]
      exact hfr p old (p + i) hmem (by omega) (by omega)
    · have hco : old = c := by
        have hpK2 := hpK
        rw [hK, hpe2] at hpK2
        rw [hK] at hG1
        exact (blocks_mid_unique hG1.inv.chain hpK2).1
      subst hco
      obtain ⟨hb1, hb2⟩ := coalesceL_block (t2.heap_listp + 344) M1 old M2
      refine ⟨_, ls3, hG2.inv, _, _, hb1, ?_, ?_⟩
      · rw [hpe2, d1]
        omega
      · rw [hpe2, d1]
        omega

/-! ## `mm_realloc` returns, and the block behind a block -/

/-- Function `mm_realloc` returns on every request of the contract for a live block. -/
theorem realloc_total {s : Heap} {live : List Nat} {L : List (Nat × Bool)}
    {ls : Nat → List Nat} {p n : Nat} (hG : GInv s live L ls) (hp : p ∈ live)
    (hn : n ≤ 4294967280) : ∃ q t, mm_realloc s p n = some (q, t) := by
  by_cases hn0 : n = 0
  · subst hn0
    obtain ⟨t2, _, _, _, _, _, _, hfree, _⟩ := free_post hG hp
    exact ⟨0, t2, by rw [mm_realloc_zero, hfree]; rfl⟩
  obtain ⟨L1, old, L2, e, hpe⟩ := live_block hG hp
  subst e
  have hI := hG.inv
  obtain ⟨hsize, _, _, _, o8, o16, hp8⟩ := block_tags hI
  rw [← hpe] at hsize hp8
  have hge := hI.hl_ge
  have hmid := hI.mid
  have num : p ≠ 0 ∧ old < 4294967296 := by
    clear * - hge hpe hmid
    omega
  clear hmid
  obtain ⟨hp0, holt⟩ := num
  by_cases hkeep : realloc_asize n = old ∨
      (realloc_asize n ≤ old ∧ old - realloc_asize n ≤ 16)
  · exact ⟨p, s, mm_realloc_keep s p n old hn0 hp0 hsize holt hkeep⟩
  · by_cases hlt : realloc_asize n < old
    · have hgt : 16 < old - realloc_asize n := by
        clear * - hkeep hlt
        omega
      obtain ⟨t2, ls2, hrun2, _⟩ := mm_realloc_shrink hI hn0 hlt hgt
      rw [← hpe] at hrun2
      exact ⟨p, t2, hrun2⟩
    · have hgt : old < realloc_asize n := by
        clear * - hkeep hlt
        omega
      rw [← hsize] at hgt
      obtain ⟨q, t, hrun, _⟩ := realloc_grow_post hG hp hn hgt
      exact ⟨q, t, hrun⟩

theorem prevFree_alloc_last (L : List (Nat × Bool)) (a : Nat) :
    prevFree (L ++ [(a, true)]) = none := by
  simp [prevFree]

/-- The size the block behind a block adds to a merge: its size when it is a free
block, and nothing when it is allocated or is the epilogue. -/
theorem next_block_read {s : Heap} {L1 L2 : List (Nat × Bool)} {c : Nat} {al : Bool}
    {ls : Nat → List Nat} {F : Nat → Nat → Prop} (h : InvX s (L1 ++ (c, al) :: L2) ls F) :
    (nextFree L2).getD 0 =
      if IsFree s.mem (s.heap_listp + 344 + total L1 + c) then
        GET_SIZE s.mem (HDRP (s.heap_listp + 344 + total L1 + c)) else 0 := by
  cases L2 with
  | nil =>
    obtain ⟨m1, m2, m3, m4, m5, m6, m7, m8, m9, m10, m11⟩ := h.mid
    have hge := h.hl_ge
    have hepi : GET s.mem (s.mem_brk - 4) = tag 0 true := h.epi
    have e : s.heap_listp + 344 + total L1 + c = s.mem_brk := by
      simp only [total_nil] at m7
      omega
    rw [e]
    have hal : GET_ALLOC s.mem (HDRP s.mem_brk) = 1 := by
      rw [HDRP_eq _ (by omega) (by omega), GET_ALLOC_tag hepi (by decide)]
      rfl
    have hf : ¬ IsFree s.mem s.mem_brk := by
      unfold IsFree
      rw [hal]
      decide
    rw [if_neg hf]
    rfl
  | cons b L2 =>
    obtain ⟨z, al2⟩ := b
    have h2 : InvX s ((L1 ++ [(c, al)]) ++ (z, al2) :: L2) ls F := by
      simpa using h
    obtain ⟨r1, r2, _⟩ := block_tags h2
    have e : s.heap_listp + 344 + total (L1 ++ [(c, al)]) = s.heap_listp + 344 + total L1 + c := by
      rw [total_append, total_cons, total_nil]
      simp only
      omega
    rw [e] at r1 r2
    cases al2
    · have hf : IsFree s.mem (s.heap_listp + 344 + total L1 + c) := by
        unfold IsFree
        rw [r2]
        rfl
      rw [if_pos hf, r1]
      rfl
    · have hf : ¬ IsFree s.mem (s.heap_listp + 344 + total L1 + c) := by
        unfold IsFree
        rw [r2]
        decide
      rw [if_neg hf]
      rfl

/-- Function `mm_realloc` on a live block whose size exceeds the adjusted size of the
request: with a remainder of at most 16 bytes the call returns the pointer and the state
as it was; with a larger remainder the block is cut down to the adjusted size and the
remainder becomes a free block, merged with a free successor. -/
theorem realloc_shrink_post (s : Heap) (live : List Nat) (h : Reachable s live) (ptr : Nat)
    (hp : ptr ∈ live) (n : Nat) (hn0 : 0 < n)
    (hlt : max ((n + 7) / 8 * 8 + 8) 16 < GET_SIZE s.mem (HDRP ptr)) :
    realloc_asize n = max ((n + 7) / 8 * 8 + 8) 16 ∧
    (GET_SIZE s.mem (HDRP ptr) - realloc_asize n ≤ 16 → mm_realloc s ptr n = some (ptr, s)) ∧
    (16 < GET_SIZE s.mem (HDRP ptr) - realloc_asize n →
      ∃ t bt, mm_realloc s ptr n = some (ptr, t) ∧ heapBlocks t = some bt ∧
        ptr ∈ bt ∧ GET_ALLOC t.mem (HDRP ptr) = 1 ∧
        GET_SIZE t.mem (HDRP ptr) = realloc_asize n ∧
        GET_ALLOC t.mem (FTRP t.mem ptr) = 1 ∧
        GET_SIZE t.mem (FTRP t.mem ptr) = realloc_asize n ∧
        ptr + realloc_asize n ∈ bt ∧ IsFree t.mem (ptr + realloc_asize n) ∧
        GET_SIZE t.mem (HDRP (ptr + realloc_asize n)) =
          GET_SIZE s.mem (HDRP ptr) - realloc_asize n +
            (if IsFree s.mem (ptr + GET_SIZE s.mem (HDRP ptr)) then
              GET_SIZE s.mem (HDRP (ptr + GET_SIZE s.mem (HDRP ptr))) else 0)) := by
  obtain ⟨L, ls, hG⟩ := reach_inv h
  obtain ⟨L1, old, L2, e, hpe⟩ := live_block hG hp
  subst e
  have hI := hG.inv
  obtain ⟨hsize, _, _, _, o8, o16, hp8⟩ := block_tags hI
  rw [← hpe] at hsize hp8
  rw [hsize] at hlt ⊢
  have hge := hI.hl_ge
  have hmid := hI.mid
  have num : ptr ≠ 0 ∧ old < 4294967296 := by
    clear * - hge hpe hmid
    omega
  clear hmid
  obtain ⟨hp0, holt⟩ := num
  have hn : n ≤ 4294967280 := by
    clear * - hlt holt
    omega
  have ha := realloc_asize_eq n hn
  rw [← ha] at hlt
  have hnz : n ≠ 0 := by omega
  refine ⟨ha, ?_, ?_⟩
  · intro hrem
    exact mm_realloc_keep s ptr n old hnz hp0 hsize holt (Or.inr ⟨Nat.le_of_lt hlt, hrem⟩)
  · intro hrem
    obtain ⟨t, ls2, hrun, hinv, _, _, c3⟩ := mm_realloc_shrink hI hnz hlt hrem
    rw [← hpe] at hrun
    have hnx := next_block_read hI
    rw [← hpe] at hnx
    have hL : coalesceL (L1 ++ [(realloc_asize n, true)]) (old - realloc_asize n) L2 =
        L1 ++ (realloc_asize n, true) ::
          (old - realloc_asize n + (nextFree L2).getD 0, false) ::
            (if (nextFree L2).isSome then L2.tail else L2) := by
      simp [coalesceL, prevFree_alloc_last]
    rw [hL] at hinv
    have hb1 : (ptr, realloc_asize n, true) ∈ blocks (t.heap_listp + 344)
        (L1 ++ (realloc_asize n, true) ::
          (old - realloc_asize n + (nextFree L2).getD 0, false) ::
            (if (nextFree L2).isSome then L2.tail else L2)) := by
      rw [hpe, c3]
      exact blocks_mem_mid _ _ _ _ _
    have hb2 : (ptr + realloc_asize n, old - realloc_asize n + (nextFree L2).getD 0, false) ∈
        blocks (t.heap_listp + 344)
        (L1 ++ (realloc_asize n, true) ::
          (old - realloc_asize n + (nextFree L2).getD 0, false) ::
            (if (nextFree L2).isSome then L2.tail else L2)) := by
      rw [hpe, c3, blocks_append]
      simp [blocks]
    obtain ⟨q1, q2, q3, q4, _⟩ := block_read hinv hb1
    obtain ⟨r1, r2, _⟩ := block_read hinv hb2
    refine ⟨t, _, hrun, heapBlocks_spec hinv, block_in_walk hb1, by rw [q2]; rfl, q1,
      by rw [q4]; rfl, q3, block_in_walk hb2, by unfold IsFree; rw [r2]; rfl, ?_⟩
    rw [r1, hnx]

/-! ## The reads `coalesce` makes, in terms of the chain -/

/-- The predecessor of a block of the chain, as `coalesce` reads it. -/
theorem prev_block_read {s : Heap} {L1 L2 : List (Nat × Bool)} {b : Nat × Bool}
    {ls : Nat → List Nat} {F : Nat → Nat → Prop} (h : InvX s (L1 ++ b :: L2) ls F) :
    (prev_alloc s.mem (s.heap_listp + 344 + total L1) = 0 ↔ (prevFree L1).isSome = true) ∧
    (prevFree L1).getD 0 =
      (if prev_alloc s.mem (s.heap_listp + 344 + total L1) = 0 then
        GET_SIZE s.mem (HDRP (PREV_BLKP s.mem (s.heap_listp + 344 + total L1))) else 0) ∧
    (prev_alloc s.mem (s.heap_listp + 344 + total L1) = 0 →
      PREV_BLKP s.mem (s.heap_listp + 344 + total L1) =
        s.heap_listp + 344 + total (coalesceFront L1) ∧ 16 ≤ (prevFree L1).getD 0) := by
  rcases List.eq_nil_or_concat L1 with e | ⟨L, c, e⟩
  · subst e
    obtain ⟨hpv, hpa⟩ := prev_eval h
    have hpa2 : prev_alloc s.mem (s.heap_listp + 344 + total []) = lastAlloc [] := hpa
    have e1 : lastAlloc [] = 1 := rfl
    have e2 : prevFree [] = none := rfl
    rw [hpa2, e1, e2]
    simp
  · rw [List.concat_eq_append] at e
    subst e
    obtain ⟨hpv, hpa⟩ := prev_eval h
    have hpa2 : prev_alloc s.mem (s.heap_listp + 344 + total (L ++ [c])) =
        lastAlloc (L ++ [c]) := hpa
    rw [hpa2]
    obtain ⟨s1, al1⟩ := c
    cases al1
    · have e1 : lastAlloc (L ++ [(s1, false)]) = 0 := lastAlloc_free L s1
      have e2 : prevFree (L ++ [(s1, false)]) = some s1 := prevFree_concat L s1
      have h2 : InvX s (L ++ (s1, false) :: (b :: L2)) ls F := by simpa using h
      obtain ⟨r1, _, _, _, _, r6, _⟩ := block_tags h2
      have e3 : total (L ++ [(s1, false)]) = total L + s1 := by
        rw [total_append, total_cons, total_nil]
        simp
      have e4 : lastSize (L ++ [(s1, false)]) = s1 := lastSize_concat L (s1, false)
      have e5 : coalesceFront (L ++ [(s1, false)]) = L := by
        simp [coalesceFront, e2]
      have e6 : PREV_BLKP s.mem (s.heap_listp + 344 + total (L ++ [(s1, false)])) =
          s.heap_listp + 344 + total L := by
        rw [hpv, e4, e3]
        omega
      rw [e1, e2, e6, r1, e5]
      simp
      exact r6
    · have e1 : lastAlloc (L ++ [(s1, true)]) = 1 := by simp [lastAlloc]
      have e2 : prevFree (L ++ [(s1, true)]) = none := prevFree_alloc_last L s1
      rw [e1, e2]
      simp

/-- The successor of a block of the chain, as `coalesce` reads it. -/
theorem next_block_read2 {s : Heap} {L1 L2 : List (Nat × Bool)} {c : Nat} {al : Bool}
    {ls : Nat → List Nat} {F : Nat → Nat → Prop} (h : InvX s (L1 ++ (c, al) :: L2) ls F) :
    NEXT_BLKP s.mem (s.heap_listp + 344 + total L1) = s.heap_listp + 344 + total L1 + c ∧
    (next_alloc s.mem (s.heap_listp + 344 + total L1) = 0 ↔ (nextFree L2).isSome = true) ∧
    (nextFree L2).getD 0 =
      (if next_alloc s.mem (s.heap_listp + 344 + total L1) = 0 then
        GET_SIZE s.mem (HDRP (NEXT_BLKP s.mem (s.heap_listp + 344 + total L1))) else 0) ∧
    (next_alloc s.mem (s.heap_listp + 344 + total L1) = 0 → 16 ≤ (nextFree L2).getD 0) := by
  obtain ⟨_, hnx, hna⟩ := next_eval h
  have hna2 : next_alloc s.mem (s.heap_listp + 344 + total L1) = headAlloc L2 := hna
  have hrd := next_block_read h
  unfold IsFree at hrd
  rw [← hnx] at hrd
  have hrd2 : (nextFree L2).getD 0 =
      if next_alloc s.mem (s.heap_listp + 344 + total L1) = 0 then
        GET_SIZE s.mem (HDRP (NEXT_BLKP s.mem (s.heap_listp + 344 + total L1))) else 0 := hrd
  refine ⟨hnx, ?_, hrd2, ?_⟩
  · rw [hna2]
    cases L2 with
    | nil => simp [headAlloc, nextFree]
    | cons b L2 =>
      obtain ⟨z, al2⟩ := b
      cases al2 <;> simp [headAlloc, nextFree]
  · rw [hna2]
    cases L2 with
    | nil => simp [headAlloc]
    | cons b L2 =>
      obtain ⟨z, al2⟩ := b
      cases al2
      · intro _
        have h2 : InvX s ((L1 ++ [(c, al)]) ++ (z, false) :: L2) ls F := by simpa using h
        have r6 := (block_tags h2).2.2.2.2.2.1
        simpa [nextFree] using r6
      · simp [headAlloc]

/-- A state in which a block of the chain is marked free but missing from the index,
in the form the specification of `coalesce` takes it. -/
theorem InvExcept_mid {s : Heap} {L : List (Nat × Bool)} {ls : Nat → List Nat} {bp sz : Nat}
    (h : InvExcept s L ls bp) (hbp : (bp, sz, false) ∈ blocks (s.heap_listp + 344) L) :
    ∃ L1 L2, L = L1 ++ (sz, false) :: L2 ∧ bp = s.heap_listp + 344 + total L1 ∧
      InvX s (L1 ++ (sz, false) :: L2) ls (freeAround (s.heap_listp + 344) L1 sz L2) := by
  obtain ⟨L1, L2, e, hpe⟩ := blocks_split hbp
  subst e
  refine ⟨L1, L2, rfl, hpe, ?_⟩
  unfold InvExcept at h
  have hsz := Chain_size h.chain hbp
  simp only at hsz
  have hpos : ∀ x z, (x, z, false) ∈ blocks (s.heap_listp + 344) L1 → 0 < z := by
    intro x z hx
    have hx2 : (x, z, false) ∈ blocks (s.heap_listp + 344) (L1 ++ (sz, false) :: L2) := by
      rw [blocks_append]
      exact List.mem_append_left _ hx
    have := Chain_size h.chain hx2
    simp only at this
    omega
  rw [← freeSet_drop_mid _ _ _ _ (by omega) hpos, ← hpe]
  exact h

/-- The state `mm_free` hands to `coalesce`: the block is marked free and the index
still holds the other free blocks only. -/
theorem InvExcept_of_free {s : Heap} {L1 L2 : List (Nat × Bool)} {c : Nat}
    {ls : Nat → List Nat} (h : Inv s (L1 ++ (c, true) :: L2) ls) :
    InvExcept { s with mem := setTags s.mem (s.heap_listp + 344 + total L1) c c }
      (L1 ++ (c, false) :: L2) ls (s.heap_listp + 344 + total L1) := by
  unfold Inv at h
  have hsz := (h.mid).2.1
  have hpos : ∀ x z, (x, z, false) ∈ blocks (s.heap_listp + 344) L1 → 0 < z := by
    intro x z hx
    have hx2 : (x, z, false) ∈ blocks (s.heap_listp + 344) (L1 ++ (c, true) :: L2) := by
      rw [blocks_append]
      exact List.mem_append_left _ hx
    have := Chain_size h.chain hx2
    simp only at this
    omega
  have hX := retag_one false h (by
    intro x z hx
    rw [freeSet_alloc_mid] at hx
    have h1 := freeAround_bounds hx
    omega)
  rw [freeSet_alloc_mid, tag_false, ← freeSet_drop_mid _ _ _ _ (by omega) hpos] at hX
  exact hX

theorem fr2_inv : ∃ ls,
    InvExcept fr2 [(112, false), (208, true), (3776, false)] ls 65888 := by
  obtain ⟨e1, _, _, ls, hinv⟩ := st2_run.2
  have hinv2 : Inv st2 ([] ++ (112, true) :: [(208, true), (3776, false)]) ls := hinv
  have h := InvExcept_of_free hinv2
  have e : st2.heap_listp + 344 + total [] = 65888 := by
    rw [e1]
    rfl
  rw [e] at h
  exact ⟨ls, h⟩

theorem fr2_hl : fr2.heap_listp = 65544 := by
  unfold fr2
  simp only []
  exact st2_run.2.1

/-! ## Where `add_free_list` links a block into a nonempty bucket -/

theorem nodup_single {l : List Nat} {a : Nat} (hnd : l.Nodup) (hall : ∀ x, x ∈ l → x = a)
    (hmem : a ∈ l) : l = [a] := by
  cases l with
  | nil => simp at hmem
  | cons y ys =>
    have hy : y = a := hall y (List.mem_cons_self _ _)
    subst hy
    cases ys with
    | nil => rfl
    | cons z zs =>
      exfalso
      have hz : z = y := hall z (by simp)
      subst hz
      simp at hnd

/-- The list of a bucket that holds one free block of the chain. -/
theorem bucket_single {s : Heap} {L : List (Nat × Bool)} {ls : Nat → List Nat} {hd z : Nat}
    (h : Inv s L ls) (hz : (hd, z, false) ∈ blocks (s.heap_listp + 344) L)
    (hone : ∀ b, b ∈ blocks (s.heap_listp + 344) L → b.2.2 = false →
      bucketIdx b.2.1 = bucketIdx z → b.1 = hd) :
    ls (bucketIdx z) = [hd] := by
  have hfl : FLInv s.mem s.heap_listp ls (freeSet (s.heap_listp + 344) L) := h.fl
  apply nodup_single (hfl.nodup _ (bucketIdx_lt z))
  · intro x hx
    obtain ⟨z2, hz2, hb⟩ := hfl.mem_F _ (bucketIdx_lt z) x hx
    exact hone (x, z2, false) hz2 rfl hb
  · exact hfl.F_mem hd z hz

/-- Function `add_free_list` on a bucket whose first block is not smaller than the new
block: the walk stops at once with `temp_prev` still the head, and the new block is
linked in behind the head, which stays the head of the list. -/
theorem add_after_head (s : Heap) (bp sz : Nat) (ls : Nat → List Nat) (F : Nat → Nat → Prop)
    (hfl : FLInv s.mem s.heap_listp ls F)
    (hsz : GET s.mem (bp - 4) / 8 * 8 = sz)
    (hb : 16 ≤ sz ∧ sz < 2147483648 ∧ s.heap_listp + 344 ≤ bp ∧ bp + sz < 4294967296)
    (hnew : ∀ x sx, F x sx → x + sx ≤ bp ∨ bp + sz ≤ x)
    (hd : Nat) (rest : List Nat) (hls : ls (bucketIdx sz) = hd :: rest)
    (hge : ¬ GET_SIZE s.mem (HDRP hd) < sz) :
    ∃ s2, add_free_list s bp = some s2 ∧
      GET s2.mem (s.heap_listp + 4 * bucketIdx sz) = hd ∧
      GET s2.mem (hd + 4) = bp ∧ GET s2.mem bp = hd ∧
      GET s2.mem (bp + 4) = GET s.mem (hd + 4) := by
  have hi := bucketIdx_lt sz
  obtain ⟨e, hdl⟩ := hfl.lists _ hi
  rw [hls] at hdl
  obtain ⟨hhead, hd0, _, hrest⟩ := hdl
  have hFb : ∀ x, x ∈ ls (bucketIdx sz) →
      s.heap_listp + 344 ≤ x ∧ x + 16 < 4294967296 ∧ (x + 16 ≤ bp ∨ bp + 16 ≤ x) := by
    intro x hx
    obtain ⟨sx, h1, _⟩ := hfl.mem_F _ hi x hx
    have h2 := hfl.bnd x sx h1
    have h3 := hnew x sx h1
    omega
  have hdm : hd ∈ ls (bucketIdx sz) := by rw [hls]; exact List.mem_cons_self _ _
  have hdb := hFb hd hdm
  have hne : GET s.mem (s.heap_listp + 4 * bucketIdx sz) ≠ 0 := by rw [hhead]; exact hd0
  have hw : add_walk FUEL s.mem sz hd hd = some hd := by
    have hF : FUEL = 4294967295 + 1 := rfl
    rw [hF]
    unfold add_walk
    rw [if_neg (fun hc => hge hc.2)]
  obtain ⟨s2, hrun, _, _, _, _, _, _, g1, g2, g3, g4, _⟩ := add_mem s bp sz hd
    (by omega) (by omega) hsz (by omega)
    (fun _ => by rw [hhead]; exact hw)
    (fun _ => by omega)
    (fun _ hnx => by
      cases rest with
      | nil =>
        obtain ⟨e1, _⟩ := hrest
        exact absurd e1 hnx
      | cons y ys =>
        obtain ⟨e1, _, _, _⟩ := hrest
        have hym : y ∈ ls (bucketIdx sz) := by rw [hls]; simp
        have hyb := hFb y hym
        obtain ⟨sy, hy1, _⟩ := hfl.mem_F _ hi y hym
        obtain ⟨sh, hh1, _⟩ := hfl.mem_F _ hi hd hdm
        have hdj := hfl.disj y sy hd sh hy1 hh1
        have hby := hfl.bnd y sy hy1
        have hbh := hfl.bnd hd sh hh1
        have hnd := hfl.nodup _ hi
        rw [hls] at hnd
        have hyne : y ≠ hd := by
          intro e
          subst e
          simp at hnd
        rw [e1]
        omega)
  refine ⟨s2, hrun, ?_, g4 hne, ?_, ?_⟩
  · rw [g1, if_neg hne, hhead]
  · rw [g2, if_neg hne]
  · rw [g3, if_neg hne]

/-- Function `mm_free` on a block between allocated neighbours whose bucket has a head
that is not smaller: the freed block becomes the second node of the list. -/
theorem free_after_head {s : Heap} {L1 L2 : List (Nat × Bool)} {c : Nat} {ls : Nat → List Nat}
    (h : Inv s (L1 ++ (c, true) :: L2) ls) (hp : prevFree L1 = none)
    (hn : nextFree L2 = none) (hd : Nat) (rest : List Nat)
    (hls : ls (bucketIdx c) = hd :: rest) (hge : c ≤ GET_SIZE s.mem (HDRP hd)) :
    ∃ t, mm_free s (s.heap_listp + 344 + total L1) = some t ∧
      GET t.mem (s.heap_listp + 4 * bucketIdx c) = hd ∧
      GET t.mem (hd + 4) = s.heap_listp + 344 + total L1 ∧
      GET t.mem (s.heap_listp + 344 + total L1) = hd ∧
      GET t.mem (s.heap_listp + 344 + total L1 + 4) = rest.headD 0 := by
  unfold Inv at h
  obtain ⟨m1, m2, m3, m4, m5, m6, m7, m8, m9, m10, m11⟩ := h.mid
  have hge0 := h.hl_ge
  obtain ⟨hsize, _, _⟩ := next_eval h
  have num : 8 ≤ s.heap_listp ∧ 16 ≤ c ∧
      s.heap_listp + 344 + total L1 + c < 4294967296 ∧ c < 2147483648 := by
    clear * - hge0 m2 m7 m8 m9
    omega
  clear m2 m3 m4 m5 m6 m7 m8 m9 m10 m11 hge0
  have hX := retag_one false h (by
    intro x z hx
    rw [freeSet_alloc_mid] at hx
    have h1 := freeAround_bounds hx
    omega)
  rw [freeSet_alloc_mid, tag_false] at hX
  obtain ⟨_, hpa⟩ := prev_eval hX
  obtain ⟨_, _, hna⟩ := next_eval hX
  rw [prevFree_none_alloc hp] at hpa
  rw [nextFree_none_alloc hn] at hna
  have hflX := hX.fl
  have hdm : hd ∈ ls (bucketIdx c) := by rw [hls]; exact List.mem_cons_self _ _
  obtain ⟨z, hz1, _⟩ := hflX.mem_F _ (bucketIdx_lt c) hd hdm
  have hz2 : freeSet (s.heap_listp + 344) (L1 ++ (c, true) :: L2) hd z := by
    rw [freeSet_alloc_mid]
    exact hz1
  have hzb := h.fl.bnd hd z hz2
  have hs1 : GET_SIZE s.mem (HDRP hd) = z := by
    rw [HDRP_eq hd (by omega) (by omega), GET_SIZE_eq]
    exact h.fl.hdr hd z hz2
  have hs2 : GET_SIZE (setTags s.mem (s.heap_listp + 344 + total L1) c c) (HDRP hd) = z := by
    rw [HDRP_eq hd (by omega) (by omega), GET_SIZE_eq]
    exact hflX.hdr hd z hz1
  obtain ⟨m1b, m2b, m3b, m4b, m5b, _⟩ := hX.mid
  have hszX : GET (setTags s.mem (s.heap_listp + 344 + total L1) c c)
      (s.heap_listp + 344 + total L1 - 4) / 8 * 8 = c := by
    have : GET (setTags s.mem (s.heap_listp + 344 + total L1) c c)
        (s.heap_listp + 344 + total L1 - 4) = tag c false := m5b
    rw [this, tag_false]
    omega
  have hnext : GET (setTags s.mem (s.heap_listp + 344 + total L1) c c) (hd + 4) =
      rest.headD 0 := by
    obtain ⟨e, hdl⟩ := hflX.lists _ (bucketIdx_lt c)
    rw [hls] at hdl
    obtain ⟨_, _, _, hrest⟩ := hdl
    cases rest with
    | nil => exact hrest.1
    | cons y ys => exact hrest.1
  obtain ⟨s2, hrun, g1, g2, g3, g4⟩ := add_after_head
    { s with mem := setTags s.mem (s.heap_listp + 344 + total L1) c c }
    (s.heap_listp + 344 + total L1) c ls _ hflX hszX (by
      show 16 ≤ c ∧ c < 2147483648 ∧ s.heap_listp + 344 ≤ s.heap_listp + 344 + total L1 ∧
        s.heap_listp + 344 + total L1 + c < 4294967296
      omega)
    (by
      intro x sx hx
      have := freeAround_bounds hx
      omega)
    hd rest hls (by
      show ¬ GET_SIZE (setTags s.mem (s.heap_listp + 344 + total L1) c c) (HDRP hd) < c
      rw [hs2]
      rw [hs1] at hge
      omega)
  refine ⟨s2, ?_, g1, g2, g3, by rw [g4]; exact hnext⟩
  rw [mm_free_eq s _ c (by omega) (by omega) hsize m1]
  unfold coalesce
  simp only [hpa, hna, ne_eq, one_ne_zero, not_false_eq_true, and_self, if_true, hrun,
    Option.map_some']

/-! ## The example run with two free blocks in one bucket -/

theorem so1_run : mm_malloc st1 8 = some (66000, so1) ∧
    Shape so1 65544 69984 21037056 [(112, true), (16, true), (3968, false)] :=
  shape_malloc_fit [(112, true)] 3984 [] st1_run.2 rfl (by decide) (by decide) (by decide)
    (by decide) (by decide) (by decide)

theorem so2_run : mm_malloc so1 96 = some (66016, so2) ∧
    Shape so2 65544 69984 21037056 [(112, true), (16, true), (104, true), (3864, false)] :=
  shape_malloc_fit [(112, true), (16, true)] 3968 [] so1_run.2 rfl (by decide) (by decide)
    (by decide) (by decide) (by decide) (by decide)

theorem so3_run : mm_malloc so2 8 = some (66120, so3) ∧
    Shape so3 65544 69984 21037056
      [(112, true), (16, true), (104, true), (16, true), (3848, false)] :=
  shape_malloc_fit [(112, true), (16, true), (104, true)] 3864 [] so2_run.2 rfl (by decide)
    (by decide) (by decide) (by decide) (by decide) (by decide)

theorem so4_run : mm_free so3 65888 = some so4 ∧
    Shape so4 65544 69984 21037056
      [(112, false), (16, true), (104, true), (16, true), (3848, false)] :=
  shape_free [] 112 [(16, true), (104, true), (16, true), (3848, false)] so3_run.2 rfl
    (by decide) (by decide)

theorem so5_run : mm_free so4 66016 = some so5 ∧
    Shape so5 65544 69984 21037056
      [(112, false), (16, true), (104, false), (16, true), (3848, false)] :=
  shape_free [(112, false), (16, true)] 104 [(16, true), (3848, false)] so4_run.2 rfl
    (by decide) (by decide)

theorem so5_reach : Reachable so5 [66120, 66000] :=
  Reachable.free so4 so5 [66120, 66016, 66000] 66016
    (Reachable.free so3 so4 [66120, 66016, 66000, 65888] 65888
      (Reachable.malloc so2 so3 [66016, 66000, 65888] 8 66120
        (Reachable.malloc so1 so2 [66000, 65888] 96 66016
          (Reachable.malloc st1 so1 [65888] 8 66000 st1_reach (by decide) so1_run.1)
          (by decide) so2_run.1)
        (by decide) so3_run.1)
      (by decide) so4_run.1)
    (by decide) so5_run.1

/-- The links of bucket 2 in the run: before `mm_free(c)` the list is the block of 112
bytes at 65888 alone; afterwards that block is still the head, and the block of 104 bytes
at 66016 is linked in behind it as the last node. -/
theorem so5_links :
    (GET so4.mem 65552 = 65888 ∧ GET so4.mem (65888 + 4) = 0) ∧
    GET so5.mem 65552 = 65888 ∧ GET so5.mem (65888 + 4) = 66016 ∧
    GET so5.mem 66016 = 65888 ∧ GET so5.mem (66016 + 4) = 0 := by
  obtain ⟨e1, _, _, ls, hinv⟩ := so4_run.2
  have hz : (65888, 112, false) ∈ blocks (so4.heap_listp + 344)
      [(112, false), (16, true), (104, true), (16, true), (3848, false)] := by
    rw [e1]
    decide
  have hls := bucket_single hinv hz (by
    rw [e1]
    decide)
  have hsz := (shape_read so4_run.2
    (show (65888, 112, false) ∈ blocks (65544 + 344)
      [(112, false), (16, true), (104, true), (16, true), (3848, false)] by decide)).1
  have hinv2 : Inv so4 ([(112, false), (16, true)] ++ (104, true) ::
      [(16, true), (3848, false)]) ls := hinv
  have hb : bucketIdx 104 = bucketIdx 112 := by decide
  obtain ⟨t, hrun, g1, g2, g3, g4⟩ := free_after_head hinv2 (by decide) (by decide) 65888 []
    (by rw [hb]; exact hls) (by rw [hsz]; decide)
  have ea : so4.heap_listp + 344 + total [(112, false), (16, true)] = 66016 := by
    rw [e1]
    rfl
  have eb : so4.heap_listp + 4 * bucketIdx 104 = 65552 := by
    rw [e1]
    rfl
  rw [ea] at hrun g2 g3 g4
  rw [eb] at g1
  rw [so5_run.1] at hrun
  simp only [Option.some.injEq] at hrun
  rw [hrun]
  refine ⟨?_, g1, g2, g3, g4⟩
  have hfl : FLInv so4.mem so4.heap_listp ls (freeSet (so4.heap_listp + 344)
      [(112, false), (16, true), (104, true), (16, true), (3848, false)]) := hinv.fl
  obtain ⟨e, hdl⟩ := hfl.lists 2 (by decide)
  have hls2 : ls 2 = [65888] := hls
  have ec : so4.heap_listp + 4 * 2 = 65552 := by
    rw [e1]
  rw [hls2, ec] at hdl
  obtain ⟨d1, _, _, d4⟩ := hdl
  exact ⟨d1, d4.1⟩

/-! ## Allocating `k` blocks and freeing them in reverse order -/

theorem prevFree_all_alloc {A : List (Nat × Bool)} (hA : ∀ b, b ∈ A → b.2 = true) :
    prevFree A = none := by
  rcases List.eq_nil_or_concat A with e | ⟨L, c, e⟩
  · subst e
    rfl
  · rw [List.concat_eq_append] at e
    subst e
    obtain ⟨z, al⟩ := c
    have : al = true := hA (z, al) (by simp)
    subst this
    exact prevFree_alloc_last L z

theorem blocks_addr_concat (p : Nat) (A : List (Nat × Bool)) (b : Nat × Bool) :
    ((blocks p (A ++ [b])).map fun x => x.1).reverse =
      (p + total A) :: ((blocks p A).map fun x => x.1).reverse := by
  rw [blocks_append]
  simp [blocks]

/-- The shape of the heap while blocks are only allocated at its end: allocated blocks
`A` followed by at most one free block. -/
theorem tail_cases {F : List (Nat × Bool)} (hF : F = [] ∨ ∃ f, F = [(f, false)]) :
    ∀ (A : List (Nat × Bool)), (∀ b, b ∈ A → b.2 = true) →
      coalesceFront (A ++ F) = A ∧ (prevFree (A ++ F)).getD 0 = total F := by
  intro A hA
  rcases hF with e | ⟨f, e⟩
  · subst e
    rw [List.append_nil]
    have := prevFree_all_alloc hA
    simp [coalesceFront, this, total]
  · subst e
    have := prevFree_concat A f
    simp [coalesceFront, this, total]

/-- After `k` successful calls `mm_malloc(16)` from a state with no allocated block, the
chain is the `k` allocated blocks, in the order of allocation, followed by at most one
free block. -/
theorem mallocN_shape (s : Heap) (ls0 : Nat → List Nat) (f0 : Nat)
    (h0 : Inv s [(f0, false)] ls0) :
    ∀ (k : Nat) (ps : List Nat) (t : Heap), mallocN k s = some (ps, t) →
      ∃ A F ls, Inv t (A ++ F) ls ∧ (∀ b, b ∈ A → b.2 = true) ∧
        (F = [] ∨ ∃ f, F = [(f, false)]) ∧
        ps = ((blocks (s.heap_listp + 344) A).map fun x => x.1).reverse ∧
        t.heap_listp = s.heap_listp ∧ s.mem_brk ≤ t.mem_brk ∧ ps.length = k := by
  intro k
  induction k with
  | zero =>
    intro ps t hrun
    simp only [mallocN, Option.some.injEq, Prod.mk.injEq] at hrun
    obtain ⟨e1, e2⟩ := hrun
    subst e1 e2
    exact ⟨[], [(f0, false)], ls0, h0, by simp, Or.inr ⟨f0, rfl⟩, by simp [blocks], rfl,
      Nat.le_refl _, rfl⟩
  | succ k ih =>
    intro ps t hrun
    unfold mallocN at hrun
    rcases hk : mallocN k s with _ | ⟨ps1, t1⟩
    · rw [hk] at hrun
      simp at hrun
    rw [hk, Option.some_bind] at hrun
    simp only at hrun
    rcases hm : mm_malloc t1 16 with _ | ⟨q, t2⟩
    · rw [hm] at hrun
      simp at hrun
    rw [hm, Option.some_bind] at hrun
    simp only at hrun
    by_cases hq : q = 0
    · rw [if_pos hq] at hrun
      simp at hrun
    rw [if_neg hq] at hrun
    simp only [Option.some.injEq, Prod.mk.injEq] at hrun
    obtain ⟨e1, e2⟩ := hrun
    subst e1 e2
    obtain ⟨A, F, ls, hinv, hA, hF, hps, hhl, hbrk, hlen⟩ := ih ps1 t1 hk
    have ha : malloc_asize 16 = 24 := by decide
    have hE : MAX (malloc_asize 16) CHUNKSIZE = 4096 := by decide
    have hnoA : ∀ b, b ∈ A → ¬ (b.2 = false ∧ malloc_asize 16 ≤ b.1) := by
      intro b hb hc
      rw [hA b hb] at hc
      exact Bool.noConfusion hc.1
    by_cases hfit : ∃ f, F = [(f, false)] ∧ 24 ≤ f
    · obtain ⟨f, eF, hf⟩ := hfit
      subst eF
      obtain ⟨t3, ls3, hrun3, hinv3, b1, _, b3, _⟩ :=
        mm_malloc_fit hinv (by decide) (by decide) (by rw [ha]; exact hf) hnoA
      rw [hm] at hrun3
      simp only [Option.some.injEq, Prod.mk.injEq] at hrun3
      obtain ⟨e1, e2⟩ := hrun3
      subst e2
      rw [ha] at hinv3
      by_cases hsp : 16 ≤ f - 24
      · refine ⟨A ++ [(24, true)], [(f - 24, false)], ls3, ?_, ?_, Or.inr ⟨_, rfl⟩, ?_,
          by rw [b3, hhl], by omega, by simp [hlen]⟩
        · unfold placeL at hinv3
          rw [if_pos hsp] at hinv3
          simpa using hinv3
        · intro b hb
          rw [List.mem_append] at hb
          rcases hb with hb | hb
          · exact hA b hb
          · simp at hb
            rw [hb]
        · rw [blocks_addr_concat, e1, hhl, hps]
      · refine ⟨A ++ [(f, true)], [], ls3, ?_, ?_, Or.inl rfl, ?_,
          by rw [b3, hhl], by omega, by simp [hlen]⟩
        · unfold placeL at hinv3
          rw [if_neg hsp] at hinv3
          simpa using hinv3
        · intro b hb
          rw [List.mem_append] at hb
          rcases hb with hb | hb
          · exact hA b hb
          · simp at hb
            rw [hb]
        · rw [blocks_addr_concat, e1, hhl, hps]
    · have hno : ∀ b, b ∈ A ++ F → ¬ (b.2 = false ∧ malloc_asize 16 ≤ b.1) := by
        intro b hb hc
        rw [List.mem_append] at hb
        rcases hb with hb | hb
        · exact hnoA b hb hc
        · rcases hF with e | ⟨f, e⟩
          · subst e
            simp at hb
          · subst e
            simp at hb
            subst hb
            apply hfit
            refine ⟨f, rfl, ?_⟩
            rw [ha] at hc
            exact hc.2
      by_cases hfail : toInt32 (MAX (malloc_asize 16) CHUNKSIZE) < 0 ∨
          t1.mem_brk + MAX (malloc_asize 16) CHUNKSIZE > t1.mem_max_addr
      · exfalso
        rw [mm_malloc_fail hinv (by decide) (by decide) hno hfail] at hm
        simp only [Option.some.injEq, Prod.mk.injEq] at hm
        exact hq hm.1.symm
      · obtain ⟨t3, ls3, hrun3, hinv3, b1, _, b3, _⟩ :=
          mm_malloc_ext hinv (by decide) (by decide) hno hfail
        rw [hm] at hrun3
        simp only [Option.some.injEq, Prod.mk.injEq] at hrun3
        obtain ⟨e1, e2⟩ := hrun3
        subst e2
        obtain ⟨c1, c2⟩ := tail_cases hF A hA
        rw [c1] at e1
        rw [c1, c2, hE, ha] at hinv3
        rw [hE] at b1
        have hsp : 16 ≤ total F + 4096 - 24 := by omega
        refine ⟨A ++ [(24, true)], [(total F + 4096 - 24, false)], ls3, ?_, ?_,
          Or.inr ⟨_, rfl⟩, ?_, by rw [b3, hhl], by omega, by simp [hlen]⟩
        · unfold placeL at hinv3
          rw [if_pos hsp] at hinv3
          simpa using hinv3
        · intro b hb
          rw [List.mem_append] at hb
          rcases hb with hb | hb
          · exact hA b hb
          · simp at hb
            rw [hb]
        · rw [blocks_addr_concat, e1, hhl, hps]

/-- Freeing the allocated blocks at the front of the chain from the last to the first
merges them, and the free block behind them, into one free block. -/
theorem freeAll_shape :
    ∀ (A F : List (Nat × Bool)) (s : Heap) (ls : Nat → List Nat), Inv s (A ++ F) ls →
      (∀ b, b ∈ A → b.2 = true) → (F = [] ∨ ∃ f, F = [(f, false)]) →
      ∃ u ls2, freeAll ((blocks (s.heap_listp + 344) A).map fun x => x.1).reverse s = some u ∧
        Inv u (if A = [] then F else [(total A + total F, false)]) ls2 ∧
        u.heap_listp = s.heap_listp ∧ u.mem_brk = s.mem_brk := by
  intro A
  induction A using List.reverseRecOn with
  | nil =>
    intro F s ls hinv _ _
    exact ⟨s, ls, by simp [blocks, freeAll], by simpa using hinv, rfl, rfl⟩
  | append_singleton A b ih =>
    intro F s ls hinv hA hF
    obtain ⟨z, al⟩ := b
    have hal : al = true := hA (z, al) (by simp)
    subst hal
    have hA2 : ∀ b, b ∈ A → b.2 = true := fun b hb => hA b (by simp [hb])
    have hinv2 : Inv s (A ++ (z, true) :: F) ls := by simpa using hinv
    obtain ⟨t, ls2, hrun, hinv3, b1, _, b3, _⟩ := mm_free_spec hinv2
    have hpf := prevFree_all_alloc hA2
    have hL : coalesceL A z F = A ++ [(z + total F, false)] := by
      rcases hF with e | ⟨f, e⟩
      · subst e
        simp [coalesceL, hpf, nextFree, total]
      · subst e
        simp [coalesceL, hpf, nextFree, total]
    rw [hL] at hinv3
    obtain ⟨u, ls3, hrun2, hinv4, d1, d2⟩ := ih [(z + total F, false)] t ls2 hinv3 hA2
      (Or.inr ⟨_, rfl⟩)
    refine ⟨u, ls3, ?_, ?_, by rw [d1, b3], by rw [d2, b1]⟩
    · rw [blocks_addr_concat]
      unfold freeAll
      rw [hrun, Option.some_bind, ← b3]
      exact hrun2
    · have hne : A ++ [(z, true)] ≠ [] := by simp
      rw [if_neg hne]
      have e : total (A ++ [(z, true)]) + total F = total A + total [(z + total F, false)] := by
        rw [total_append, total_cons, total_cons, total_nil]
        simp only
        omega
      rw [e]
      by_cases hAn : A = []
      · subst hAn
        rw [if_pos rfl] at hinv4
        simpa [total] using hinv4
      · rw [if_neg hAn] at hinv4
        exact hinv4

theorem ca1_run : mm_malloc st0 16 = some (65888, ca1) ∧
    Shape ca1 65544 69984 21037056 [(24, true), (4072, false)] :=
  shape_malloc_fit [] 4096 [] st0_run.2 rfl (by decide) (by decide) (by decide) (by decide)
    (by decide) (by decide)

theorem ca2_run : mm_malloc ca1 16 = some (65912, ca2) ∧
    Shape ca2 65544 69984 21037056 [(24, true), (24, true), (4048, false)] :=
  shape_malloc_fit [(24, true)] 4072 [] ca1_run.2 rfl (by decide) (by decide) (by decide)
    (by decide) (by decide) (by decide)

theorem ca2_mallocN : mallocN 2 st0 = some ([65912, 65888], ca2) := by
  have e0 : mallocN 0 st0 = some ([], st0) := rfl
  have e1 : mallocN 1 st0 = some ([65888], ca1) := by
    unfold mallocN
    rw [e0, Option.some_bind]
    simp only
    rw [ca1_run.1, Option.some_bind]
    rfl
  unfold mallocN
  rw [e1, Option.some_bind]
  simp only
  rw [ca2_run.1, Option.some_bind]
  rfl

/-! # The claims -/

/-- C4: `mm_malloc(0)` returns `NULL` and changes nothing: the memory, `gcount`,
`gminlist` and the break of the heap-extension primitive are those of the state before
the call, for every state. -/
theorem C4_malloc_zero_noop (s : Heap) : mm_malloc s 0 = some (0, s) := by
  unfold mm_malloc
  rw [if_pos rfl]

/-- C7 (code evaluated at the failing input): `mm_realloc` reads the header word of its
pointer argument before any test, which for `NULL` is the word at address `0xFFFFFFFC`;
no heap region, whose end address is a 32-bit address, contains the four bytes of that
word.  The value returned afterwards is that of `mm_malloc`. -/
theorem C7_null_header_read :
    mm_realloc_entry_read 0 = 4294967292 ∧
    (∀ s : Heap, s.mem_brk < 4294967296 → ¬ (mm_realloc_entry_read 0 + 4 ≤ s.mem_brk)) ∧
    (∀ (s : Heap) (n : Nat), n ≠ 0 → mm_realloc s 0 n = mm_malloc s n) := by
  have e : mm_realloc_entry_read 0 = 4294967292 := by decide
  refine ⟨e, ?_, ?_⟩
  · intro s hs
    rw [e]
    omega
  · intro s n hn
    unfold mm_realloc
    simp only [hn, if_false, if_true]

/-- C19 (counterexample): for the request size `2^32 - 1` the 32-bit sum wraps and the
adjusted size is 8, which is below 16 and below the request. -/
theorem C19_counterexample :
    malloc_asize 4294967295 = 8 ∧ ¬ (16 ≤ malloc_asize 4294967295) ∧
      ¬ (4294967295 + 8 ≤ malloc_asize 4294967295) := by
  decide

/-- C19 (amended): for every request size `n` with `0 < n ≤ 2^32 - 16` the adjusted block
size `mm_malloc` computes is 16 when `n ≤ 8` and otherwise `n` rounded up to a multiple
of 8 plus 8, as natural numbers; it is a multiple of 8, at least 16 and at least `n + 8`. -/
theorem C19_adjusted_size (n : Nat) (h0 : 0 < n) (hn : n ≤ 4294967280) :
    malloc_asize n = (if n ≤ 8 then 16 else (n + 7) / 8 * 8 + 8) ∧
      malloc_asize n % 8 = 0 ∧ 16 ≤ malloc_asize n ∧ n + 8 ≤ malloc_asize n := by
  have h := malloc_asize_facts n h0 hn
  refine ⟨?_, h.1, h.2.1, h.2.2.1⟩
  rw [malloc_asize_eq n hn]
  split_ifs <;> omega

theorem C19_adjusted_size_witness :
    (0 < 100 ∧ 100 ≤ 4294967280) ∧
    (malloc_asize 100 = (if 100 ≤ 8 then 16 else (100 + 7) / 8 * 8 + 8) ∧
      malloc_asize 100 % 8 = 0 ∧ 16 ≤ malloc_asize 100 ∧ 100 + 8 ≤ malloc_asize 100) :=
  ⟨by decide, C19_adjusted_size 100 (by decide) (by decide)⟩

/-- C20 (code evaluated at the failing input): for the span at address 65536 the last
store of `mm_init` before it extends the heap is the epilogue header `PACK(0, 1)`, and it
goes to byte offset `87 * DSIZE = 696`, beyond the 352 bytes of the span, not to the word
at offset 348 behind the prologue footer. -/
theorem C20_epilogue_store_outside_span :
    (mm_init_writes 65536).getLast? = some (65536 + 696, PACK 0 1) ∧
      ¬ (65536 + 696 + 4 ≤ 65536 + 88 * WSIZE) ∧
      (65536 + 348, PACK 0 1) ∉ mm_init_writes 65536 := by
  decide

/-- C12: boundary-tag consistency is an invariant of the allocator.  In every state
reachable from a successful `mm_init` through contract-respecting calls of `mm_malloc`,
`mm_free` and `mm_realloc`, the walk over the heap from the prologue reaches the epilogue,
and every block it visits has a header and a footer that encode the same size and the
same allocation bit, the size being a multiple of 8 and at least 16. -/
theorem C12_boundary_tags_invariant (s : Heap) (live : List Nat) (h : Reachable s live) :
    ∃ bs, heapBlocks s = some bs ∧ ∀ bp, bp ∈ bs → TagsAgree s.mem bp := by
  obtain ⟨L, ls, hG⟩ := reach_inv h
  exact ⟨_, heapBlocks_spec hG.inv, tags_agree hG.inv⟩

theorem C12_boundary_tags_invariant_witness :
    Reachable st3 [66000] ∧
      ∃ bs, heapBlocks st3 = some bs ∧ ∀ bp, bp ∈ bs → TagsAgree st3.mem bp :=
  ⟨st3_reach, C12_boundary_tags_invariant st3 [66000] st3_reach⟩

/-- C13: no-adjacent-free is an invariant of the allocator.  In every state reachable
from a successful `mm_init` through contract-respecting calls of `mm_malloc` (with its
heap-extension path), `mm_free` and `mm_realloc`, no two blocks that follow one another
in the walk over the heap are both marked free. -/
theorem C13_no_adjacent_free_invariant (s : Heap) (live : List Nat)
    (h : Reachable s live) :
    ∃ bs, heapBlocks s = some bs ∧
      List.Chain' (fun x y => ¬ (IsFree s.mem x ∧ IsFree s.mem y)) bs := by
  obtain ⟨L, ls, hG⟩ := reach_inv h
  exact ⟨_, heapBlocks_spec hG.inv, heap_no_adjacent_free hG.inv hG.naf⟩

theorem C13_no_adjacent_free_invariant_witness :
    Reachable st3 [66000] ∧
      ∃ bs, heapBlocks st3 = some bs ∧
        List.Chain' (fun x y => ¬ (IsFree st3.mem x ∧ IsFree st3.mem y)) bs :=
  ⟨st3_reach, C13_no_adjacent_free_invariant st3 [66000] st3_reach⟩

/-- C14: in every state reachable from a successful `mm_init` through contract-respecting
calls, `gcount` is the number of blocks of the heap that are marked free, `gminlist` is
the sentinel 100 exactly when `gcount = 0`, and otherwise `gminlist` is the smallest
bucket index (0..83) whose head pointer is non-zero. -/
theorem C14_gcount_gminlist_invariant (s : Heap) (live : List Nat)
    (h : Reachable s live) :
    ∃ bs, heapBlocks s = some bs ∧
      s.gcount = ((bs.filter fun bp => decide (IsFree s.mem bp)).length : Int) ∧
      (s.gminlist = 100 ↔ s.gcount = 0) ∧
      (s.gcount ≠ 0 → ∃ k : Nat, k < 84 ∧ s.gminlist = (k : Int) ∧
        GET s.mem (s.heap_listp + 4 * k) ≠ 0 ∧
        ∀ j, j < k → GET s.mem (s.heap_listp + 4 * j) = 0) := by
  obtain ⟨L, ls, hG⟩ := reach_inv h
  refine ⟨_, heapBlocks_spec hG.inv, ?_, gmin_heads hG.inv⟩
  rw [heap_free_count hG.inv, ← idxCount_free hG.inv]
  exact hG.inv.gcount_eq

theorem C14_gcount_gminlist_invariant_witness :
    Reachable st3 [66000] ∧
      ∃ bs, heapBlocks st3 = some bs ∧
        st3.gcount = ((bs.filter fun bp => decide (IsFree st3.mem bp)).length : Int) ∧
        (st3.gminlist = 100 ↔ st3.gcount = 0) ∧
        (st3.gcount ≠ 0 → ∃ k : Nat, k < 84 ∧ st3.gminlist = (k : Int) ∧
          GET st3.mem (st3.heap_listp + 4 * k) ≠ 0 ∧
          ∀ j, j < k → GET st3.mem (st3.heap_listp + 4 * j) = 0) :=
  ⟨st3_reach, C14_gcount_gminlist_invariant st3 [66000] st3_reach⟩

/-- C16: in every state reachable from a successful `mm_init` through contract-respecting
calls, the free-list index and the heap describe the same blocks.  Each of the 84 bucket
heads starts a well-formed doubly-linked list (the head has predecessor 0, successor and
predecessor links are mutually inverse, the last successor is 0); every block of the
heap marked free occurs exactly once in the list of bucket `min(size / 50, 83)` and in no
other list; and every list entry is a block of the heap marked free. -/
theorem C16_index_matches_heap (s : Heap) (live : List Nat) (h : Reachable s live) :
    ∃ (bs : List Nat) (ls : Nat → List Nat), heapBlocks s = some bs ∧
      (∀ i, i < 84 → ∃ t, dllseg s.mem (GET s.mem (s.heap_listp + 4 * i)) 0 (ls i) 0 t) ∧
      (∀ bp, bp ∈ bs → IsFree s.mem bp →
        (ls (min (GET_SIZE s.mem (HDRP bp) / 50) 83)).count bp = 1 ∧
        ∀ j, j < 84 → j ≠ min (GET_SIZE s.mem (HDRP bp) / 50) 83 → bp ∉ ls j) ∧
      (∀ i, i < 84 → ∀ x, x ∈ ls i → x ∈ bs ∧ IsFree s.mem x) := by
  obtain ⟨L, ls, hG⟩ := reach_inv h
  have hI := hG.inv
  have hfl : FLInv s.mem s.heap_listp ls (freeSet (s.heap_listp + 344) L) := hI.fl
  refine ⟨_, ls, heapBlocks_spec hI, hfl.lists, ?_, ?_⟩
  · intro bp hbp hf
    exact free_in_index hI (walk_mem_free hI hbp hf)
  · intro i hi x hx
    obtain ⟨z, hz, _⟩ := hfl.mem_F i hi x hx
    have hz2 : (x, z, false) ∈ blocks (s.heap_listp + 344) L := hz
    refine ⟨List.mem_cons_of_mem _ (List.mem_map.2 ⟨_, hz2, rfl⟩), ?_⟩
    unfold IsFree
    rw [(block_read hI hz2).2.1]
    rfl

theorem C16_index_matches_heap_witness :
    Reachable st3 [66000] ∧
      ∃ (bs : List Nat) (ls : Nat → List Nat), heapBlocks st3 = some bs ∧
        (∀ i, i < 84 →
          ∃ t, dllseg st3.mem (GET st3.mem (st3.heap_listp + 4 * i)) 0 (ls i) 0 t) ∧
        (∀ bp, bp ∈ bs → IsFree st3.mem bp →
          (ls (min (GET_SIZE st3.mem (HDRP bp) / 50) 83)).count bp = 1 ∧
          ∀ j, j < 84 → j ≠ min (GET_SIZE st3.mem (HDRP bp) / 50) 83 → bp ∉ ls j) ∧
        (∀ i, i < 84 → ∀ x, x ∈ ls i → x ∈ bs ∧ IsFree st3.mem x) :=
  ⟨st3_reach, C16_index_matches_heap st3 [66000] st3_reach⟩

/-- C8: first fit.  In every reachable state and for every request size `n > 0` with
adjusted size `a`: when a block of the heap is free with size at least `a` and is the
lowest-address such block, the search of `mm_malloc` finds it, `mm_malloc(n)` returns
its payload address, and the break of the heap-extension primitive is unchanged (the
primitive is not called); when no block of the heap is free with size at least `a`, the
search reports no fit (`NULL`). -/
theorem C8_first_fit (s : Heap) (live : List Nat) (h : Reachable s live) (n : Nat)
    (hn0 : 0 < n) :
    ∃ bs, heapBlocks s = some bs ∧
      (∀ bp, bp ∈ bs → IsFree s.mem bp → malloc_asize n ≤ GET_SIZE s.mem (HDRP bp) →
        (∀ x, x ∈ bs → IsFree s.mem x → malloc_asize n ≤ GET_SIZE s.mem (HDRP x) → bp ≤ x) →
        first_fit s (malloc_asize n) = some bp ∧
          ∃ t, mm_malloc s n = some (bp, t) ∧ t.mem_brk = s.mem_brk) ∧
      ((∀ x, x ∈ bs → ¬ (IsFree s.mem x ∧ malloc_asize n ≤ GET_SIZE s.mem (HDRP x))) →
        first_fit s (malloc_asize n) = some 0) := by
  obtain ⟨L, ls, hG⟩ := reach_inv h
  have hI := hG.inv
  refine ⟨_, heapBlocks_spec hI, ?_, ?_⟩
  · intro bp hbp hfree hfit hlow
    have hb := walk_mem_free hI hbp hfree
    obtain ⟨L1, L2, e, hpe⟩ := blocks_split hb
    subst e
    rw [hpe]
    apply mm_malloc_fit_all hI hn0 hfit
    intro b hb1 hc
    obtain ⟨x, hx⟩ := mem_blocks_of_mem (s.heap_listp + 344) hb1
    have hx2 : (x, b.1, b.2) ∈ blocks (s.heap_listp + 344)
        (L1 ++ (GET_SIZE s.mem (HDRP bp), false) :: L2) := by
      rw [blocks_append]
      exact List.mem_append_left _ hx
    obtain ⟨r1, r2, _, _, _, r6, _⟩ := block_read hI hx2
    have hle := hlow x (block_in_walk hx2) (by unfold IsFree; rw [r2, hc.1]; rfl)
      (by rw [r1]; exact hc.2)
    have hbd := (blocks_bounds hx).2
    simp only at hbd
    omega
  · intro hno
    have hno2 := (walk_nofit_iff hI _).1 hno
    have hff := first_fit_spec hI (malloc_asize n)
    rw [firstFit_none _ _ _ hno2] at hff
    exact hff

theorem C8_first_fit_witness :
    Reachable st3 [66000] ∧ 0 < 50 ∧
    (∃ bs, heapBlocks st3 = some bs ∧
      (∀ bp, bp ∈ bs → IsFree st3.mem bp → malloc_asize 50 ≤ GET_SIZE st3.mem (HDRP bp) →
        (∀ x, x ∈ bs → IsFree st3.mem x → malloc_asize 50 ≤ GET_SIZE st3.mem (HDRP x) →
          bp ≤ x) →
        first_fit st3 (malloc_asize 50) = some bp ∧
          ∃ t, mm_malloc st3 50 = some (bp, t) ∧ t.mem_brk = st3.mem_brk) ∧
      ((∀ x, x ∈ bs → ¬ (IsFree st3.mem x ∧ malloc_asize 50 ≤ GET_SIZE st3.mem (HDRP x))) →
        first_fit st3 (malloc_asize 50) = some 0)) ∧
    mm_init heap0 = some (0, st0) ∧ mm_malloc st0 100 = some (65888, st1) ∧
    mm_malloc st1 200 = some (66000, st2) ∧ mm_free st2 65888 = some st3 ∧
    mm_malloc st3 50 = some (65888, st4) :=
  ⟨st3_reach, by decide, C8_first_fit st3 [66000] st3_reach 50 (by decide),
    st0_run.1, st1_run.1, st2_run.1, st3_run.1, st4_run.1⟩

/-- C9 (code evaluated at the failing input): after `mm_init()`, `a = mm_malloc(3000)`,
`b = mm_malloc(8)`, `mm_free(a)` the heap has two free blocks, one of 3008 bytes at 65888
and one of 1072 bytes at 68912.  The request `mm_malloc(1000)` has adjusted size 1008;
both free blocks fit, and the call returns 65888, the block of 3008 bytes, not the
smaller fitting block of 1072 bytes. -/
theorem C9_first_fit_not_best_fit :
    Reachable bf3 [68896] ∧
    heapBlocks bf3 = some [65544, 65888, 68896, 68912] ∧
    (IsFree bf3.mem 65888 ∧ GET_SIZE bf3.mem (HDRP 65888) = 3008) ∧
    (IsFree bf3.mem 68912 ∧ GET_SIZE bf3.mem (HDRP 68912) = 1072) ∧
    malloc_asize 1000 = 1008 ∧
    ∃ t, mm_malloc bf3 1000 = some (65888, t) := by
  have h1 := shape_read bf3_run.2
    (show (65888, 3008, false) ∈ blocks (65544 + 344) [(3008, false), (16, true), (1072, false)]
      by decide)
  have h2 := shape_read bf3_run.2
    (show (68912, 1072, false) ∈ blocks (65544 + 344) [(3008, false), (16, true), (1072, false)]
      by decide)
  have h3 := shape_malloc_fit [] 3008 [(16, true), (1072, false)] bf3_run.2 rfl
    (show 0 < 1000 by decide) (by decide) (by decide) (by decide) rfl
    (show 65888 = 65544 + 344 + total [] by decide)
  exact ⟨bf3_reach, shape_walk bf3_run.2, ⟨h1.2.2 rfl, h1.1⟩, ⟨h2.2.2 rfl, h2.1⟩, by decide,
    _, h3.1⟩

/-- C3: exhaustion is atomic.  In every reachable state and for every request size
`n > 0`: when no block of the heap is free with size at least the adjusted size and the
heap-extension primitive reports failure for the increment `mm_malloc` asks for,
`mm_malloc(n)` returns `NULL` and the state (heap words, `gcount`, `gminlist`, break) is
the one before the call; and `mm_realloc(ptr, n)` for a live block `ptr` smaller than the
adjusted size of `mm_realloc` (its growth path) returns `NULL` with the state unchanged. -/
theorem C3_exhaustion_atomic (s : Heap) (live : List Nat) (h : Reachable s live) (n : Nat)
    (hn0 : 0 < n)
    (hno : ∀ bs, heapBlocks s = some bs → ∀ x, x ∈ bs →
      ¬ (IsFree s.mem x ∧ malloc_asize n ≤ GET_SIZE s.mem (HDRP x)))
    (hsbrk : (mem_sbrk s (MAX (malloc_asize n) CHUNKSIZE)).1 = 4294967295) :
    mm_malloc s n = some (0, s) ∧
      ∀ ptr, ptr ∈ live → GET_SIZE s.mem (HDRP ptr) < realloc_asize n →
        mm_realloc s ptr n = some (0, s) := by
  obtain ⟨L, ls, hG⟩ := reach_inv h
  have hI := hG.inv
  have hnoL := (walk_nofit_iff hI _).1 (hno _ (heapBlocks_spec hI))
  have hm := (mm_malloc_fail_all hI hn0 hnoL (sbrk_fail hI _ hsbrk)).2
  refine ⟨hm, ?_⟩
  intro ptr hp hgt
  obtain ⟨L1, old, L2, e, hpe⟩ := live_block hG hp
  subst e
  have hsize := (block_tags hI).1
  rw [← hpe] at hsize
  have hge := hI.hl_ge
  have hp0 : ptr ≠ 0 := by omega
  rw [hsize] at hgt
  rw [mm_realloc_grow_eq s ptr n old (by omega) hp0 hsize hgt, hm]
  rfl

theorem C3_exhaustion_atomic_witness :
    Reachable sm1 [65888] ∧ 0 < 5000 ∧
    (∀ bs, heapBlocks sm1 = some bs → ∀ x, x ∈ bs →
      ¬ (IsFree sm1.mem x ∧ malloc_asize 5000 ≤ GET_SIZE sm1.mem (HDRP x))) ∧
    (mem_sbrk sm1 (MAX (malloc_asize 5000) CHUNKSIZE)).1 = 4294967295 ∧
    (mm_malloc sm1 5000 = some (0, sm1) ∧
      ∀ ptr, ptr ∈ [65888] → GET_SIZE sm1.mem (HDRP ptr) < realloc_asize 5000 →
        mm_realloc sm1 ptr 5000 = some (0, sm1)) :=
  ⟨sm1_reach, by decide, shape_nofit sm1_run.2 _ (by decide),
    shape_sbrk_fail sm1_run.2 _ (by decide),
    C3_exhaustion_atomic sm1 [65888] sm1_reach 5000 (by decide)
      (shape_nofit sm1_run.2 _ (by decide)) (shape_sbrk_fail sm1_run.2 _ (by decide))⟩

/-- C1: in every reachable state, for every request size `n` with `0 < n ≤ 2^32 - 16`,
`mm_malloc(n)` returns, and when the returned pointer `p` is not `NULL` it is a block of
the resulting heap that is marked allocated and whose size minus 8 is at least `n`;
every block that was allocated before the call (the prologue with the bucket array
among them) is still a block of the heap at the same address, allocated, with the same
size, and its payload range is disjoint from `[p, p + n)`. -/
theorem C1_malloc_returns_fresh_block (s : Heap) (live : List Nat) (h : Reachable s live)
    (n : Nat) (hn0 : 0 < n) (hn : n ≤ 4294967280) :
    ∃ p t, mm_malloc s n = some (p, t) ∧
      (p ≠ 0 → ∃ bs bt, heapBlocks s = some bs ∧ heapBlocks t = some bt ∧
        p ∈ bt ∧ GET_ALLOC t.mem (HDRP p) = 1 ∧ n + 8 ≤ GET_SIZE t.mem (HDRP p) ∧
        ∀ x, x ∈ bs → GET_ALLOC s.mem (HDRP x) = 1 →
          x ∈ bt ∧ GET_ALLOC t.mem (HDRP x) = 1 ∧
          GET_SIZE t.mem (HDRP x) = GET_SIZE s.mem (HDRP x) ∧
          (x + (GET_SIZE s.mem (HDRP x) - 8) ≤ p ∨ p + n ≤ x)) := by
  obtain ⟨L, ls, hG⟩ := reach_inv h
  have hI := hG.inv
  obtain ⟨p, t, hrun⟩ := malloc_total hI hn
  refine ⟨p, t, hrun, fun hp0 => ?_⟩
  rcases malloc_post hG hn0 hn hrun with ⟨e, _⟩ | ⟨_, L2, ls2, sz, hG2, c3, _, _, _, hsz, hiff, _, _⟩
  · exact absurd e hp0
  have hI2 := hG2.inv
  have hpb : (p, sz, true) ∈ blocks (t.heap_listp + 344) L2 := by
    rw [c3]
    exact (hiff _ _).2 (Or.inr ⟨rfl, rfl⟩)
  obtain ⟨p1, p2, _⟩ := block_read hI2 hpb
  have hpge := (blocks_bounds hpb).1
  simp only at hpge
  refine ⟨_, _, heapBlocks_spec hI, heapBlocks_spec hI2, block_in_walk hpb, by rw [p2]; rfl,
    by rw [p1]; exact hsz, ?_⟩
  intro x hx hal
  have hnf : ¬ IsFree s.mem x := by
    unfold IsFree
    rw [hal]
    decide
  rcases walk_mem_alloc hI hx hnf with ⟨e, hz⟩ | hb
  · subst e
    obtain ⟨q1, q2, _⟩ := prologue_read hI2
    rw [c3] at q1 q2
    rw [hz]
    refine ⟨by rw [c3]; exact List.mem_cons_self _ _, q2, q1, ?_⟩
    left
    omega
  · have hb2 : (x, GET_SIZE s.mem (HDRP x), true) ∈ blocks (t.heap_listp + 344) L2 := by
      rw [c3]
      exact (hiff _ _).2 (Or.inl hb)
    obtain ⟨q1, q2, _⟩ := block_read hI2 hb2
    refine ⟨block_in_walk hb2, by rw [q2]; rfl, q1, ?_⟩
    rcases blocks_disjoint hI2.chain hb2 hpb with e | hd | hd
    · exfalso
      simp only [Prod.mk.injEq] at e
      have hxl : x ∈ live := (hG.live_iff x).2 ⟨_, hb⟩
      rw [e.1] at hxl
      exact (List.nodup_cons.1 hG2.nodup).1 hxl
    · left
      simp only at hd
      omega
    · right
      simp only at hd
      omega

theorem C1_malloc_returns_fresh_block_witness :
    Reachable st3 [66000] ∧ 0 < 50 ∧ 50 ≤ 4294967280 ∧
    ∃ p t, mm_malloc st3 50 = some (p, t) ∧
      (p ≠ 0 → ∃ bs bt, heapBlocks st3 = some bs ∧ heapBlocks t = some bt ∧
        p ∈ bt ∧ GET_ALLOC t.mem (HDRP p) = 1 ∧ 50 + 8 ≤ GET_SIZE t.mem (HDRP p) ∧
        ∀ x, x ∈ bs → GET_ALLOC st3.mem (HDRP x) = 1 →
          x ∈ bt ∧ GET_ALLOC t.mem (HDRP x) = 1 ∧
          GET_SIZE t.mem (HDRP x) = GET_SIZE st3.mem (HDRP x) ∧
          (x + (GET_SIZE st3.mem (HDRP x) - 8) ≤ p ∨ p + 50 ≤ x)) :=
  ⟨st3_reach, by decide, by decide,
    C1_malloc_returns_fresh_block st3 [66000] st3_reach 50 (by decide) (by decide)⟩

/-- C2: with the first address returned by the heap-extension primitive a multiple of 8
and later returns contiguous (the primitive as modelled, started at an aligned break),
in every reachable state every pointer returned by `mm_malloc`, and by `mm_realloc` for a
live block, is a multiple of 8 (`NULL` included), whatever the request size; and for the
request sizes of the contract both calls do return. -/
theorem C2_returned_pointers_aligned (s : Heap) (live : List Nat) (h : Reachable s live)
    (n : Nat) :
    (∀ p t, mm_malloc s n = some (p, t) → p % 8 = 0) ∧
    (∀ ptr, ptr ∈ live → ∀ q t, mm_realloc s ptr n = some (q, t) → q % 8 = 0) ∧
    (n ≤ 4294967280 → (∃ p t, mm_malloc s n = some (p, t)) ∧
      ∀ ptr, ptr ∈ live → ∃ q t, mm_realloc s ptr n = some (q, t)) := by
  obtain ⟨L, ls, hG⟩ := reach_inv h
  exact ⟨fun p t hrun => malloc_aligned hG.inv hrun,
    fun ptr hp q t hrun => realloc_aligned hG hp hrun,
    fun hn => ⟨malloc_total hG.inv hn, fun ptr hp => realloc_total hG hp hn⟩⟩

theorem C2_returned_pointers_aligned_witness :
    Reachable st3 [66000] ∧
    (∀ p t, mm_malloc st3 50 = some (p, t) → p % 8 = 0) ∧
    (∀ ptr, ptr ∈ [66000] → ∀ q t, mm_realloc st3 ptr 50 = some (q, t) → q % 8 = 0) ∧
    (50 ≤ 4294967280 → (∃ p t, mm_malloc st3 50 = some (p, t)) ∧
      ∀ ptr, ptr ∈ [66000] → ∃ q t, mm_realloc st3 ptr 50 = some (q, t)) :=
  ⟨st3_reach, C2_returned_pointers_aligned st3 [66000] st3_reach 50⟩

/-- C5 (code evaluated at the failing input): after `mm_init()` and `p = mm_malloc(24)`
the block at `p` has 32 bytes.  For `mm_realloc(p, 8)` the adjusted size is 16 and the
remainder is exactly 16 bytes, the minimum block size, so a free block fits in it; the
call returns `p` with the state unchanged, and the block at `p` keeps its 32 bytes
instead of becoming a block of 16 bytes followed by a free block of 16 bytes.  The
sibling path `place` does split off a remainder of exactly 16 bytes: `mm_malloc(4072)`
right after `mm_init()` (adjusted size 4080 in the free block of 4096 bytes) leaves a free
block of 16 bytes at 69968. -/
theorem C5_remainder_16_not_split :
    Reachable sh1 [65888] ∧ 65888 ∈ [65888] ∧
    GET_SIZE sh1.mem (HDRP 65888) = 32 ∧ max ((8 + 7) / 8 * 8 + 8) 16 = 16 ∧
    realloc_asize 8 = 16 ∧ 16 ≤ 32 - 16 ∧
    mm_realloc sh1 65888 8 = some (65888, sh1) ∧
    GET_SIZE sh1.mem (HDRP 65888) ≠ 16 ∧
    (mm_malloc st0 4072 = some (65888, sp1) ∧
      heapBlocks sp1 = some [65544, 65888, 69968] ∧
      IsFree sp1.mem 69968 ∧ GET_SIZE sp1.mem (HDRP 69968) = 16) := by
  have h1 := (shape_read sh1_run.2
    (show (65888, 32, true) ∈ blocks (65544 + 344) [(32, true), (4064, false)] by decide)).1
  have h2 := shape_read sp1_run.2
    (show (69968, 16, false) ∈ blocks (65544 + 344) [(4080, true), (16, false)] by decide)
  refine ⟨sh1_reach, by decide, h1, by decide, by decide, by decide, ?_, by rw [h1]; decide,
    sp1_run.1, shape_walk sp1_run.2, h2.2.2 rfl, h2.1⟩
  exact mm_realloc_keep sh1 65888 8 32 (by decide) (by decide) h1 (by decide)
    (Or.inr ⟨by decide, by decide⟩)

/-- C6: in every reachable state, for every live block `ptr` and every size `n` (a
32-bit value) whose adjusted size is larger than the size of the block, `mm_realloc(ptr, n)`
returns, and when the returned pointer `q` is not `NULL`: `q` differs from `ptr`; every
byte of the old payload (the first `old size - 8` bytes at `ptr`, as they were before the
call) is found at the same offset from `q` afterwards; and the memory of the old block
lies inside a block of the resulting heap that is marked free. -/
theorem C6_realloc_grow (s : Heap) (live : List Nat) (h : Reachable s live) (ptr : Nat)
    (hp : ptr ∈ live) (n : Nat) (hn : n < 4294967296)
    (hgt : GET_SIZE s.mem (HDRP ptr) < realloc_asize n) :
    ∃ q t, mm_realloc s ptr n = some (q, t) ∧
      (q ≠ 0 → q ≠ ptr ∧
        (∀ i, i < GET_SIZE s.mem (HDRP ptr) - 8 → t.mem (q + i) = s.mem (ptr + i)) ∧
        ∃ bt, heapBlocks t = some bt ∧ ∃ x, x ∈ bt ∧ IsFree t.mem x ∧ x ≤ ptr ∧
          ptr + GET_SIZE s.mem (HDRP ptr) ≤ x + GET_SIZE t.mem (HDRP x)) := by
  obtain ⟨L, ls, hG⟩ := reach_inv h
  have h16 : 16 ≤ GET_SIZE s.mem (HDRP ptr) := by
    obtain ⟨L1, old, L2, e, hpe⟩ := live_block hG hp
    subst e
    obtain ⟨hsize, _, _, _, _, o16, _⟩ := block_tags hG.inv
    rw [← hpe] at hsize
    rw [hsize]
    exact o16
  have hn2 := realloc_asize_contract n hn (by omega)
  obtain ⟨q, t, hrun, _, hpost⟩ := realloc_grow_post hG hp hn2 hgt
  refine ⟨q, t, hrun, fun hq => ?_⟩
  obtain ⟨hne, hbytes, K, ls2, hinv, x, z, hx, hx1, hx2⟩ := hpost hq
  obtain ⟨r1, r2, _⟩ := block_read hinv hx
  exact ⟨hne, hbytes, _, heapBlocks_spec hinv, x, block_in_walk hx,
    by unfold IsFree; rw [r2]; rfl, hx1, by rw [r1]; exact hx2⟩

theorem C6_realloc_grow_witness :
    Reachable st1 [65888] ∧ 65888 ∈ [65888] ∧ 200 < 4294967296 ∧
    GET_SIZE st1.mem (HDRP 65888) < realloc_asize 200 ∧
    ∃ q t, mm_realloc st1 65888 200 = some (q, t) ∧
      (q ≠ 0 → q ≠ 65888 ∧
        (∀ i, i < GET_SIZE st1.mem (HDRP 65888) - 8 → t.mem (q + i) = st1.mem (65888 + i)) ∧
        ∃ bt, heapBlocks t = some bt ∧ ∃ x, x ∈ bt ∧ IsFree t.mem x ∧ x ≤ 65888 ∧
          65888 + GET_SIZE st1.mem (HDRP 65888) ≤ x + GET_SIZE t.mem (HDRP x)) :=
  have h1 : GET_SIZE st1.mem (HDRP 65888) < realloc_asize 200 := by
    rw [(shape_read st1_run.2
      (show (65888, 112, true) ∈ blocks (65544 + 344) [(112, true), (3984, false)]
        by decide)).1]
    decide
  ⟨st1_reach, by decide, by decide, h1,
    C6_realloc_grow st1 [65888] st1_reach 65888 (by decide) 200 (by decide) h1⟩

/-- C10 (counterexample): right after `mm_init()` the heap has 4096 free bytes.  The
call `mm_malloc(5000)` finds no fit and extends the heap by 5008 bytes; after
`mm_free` of the returned pointer the heap has 9104 free bytes, not 4096. -/
theorem C10_counterexample :
    Reachable st0 [] ∧ 0 < 5000 ∧ mm_malloc st0 5000 = some (65888, rt1) ∧ 65888 ≠ 0 ∧
    mm_free rt1 65888 = some rt2 ∧ heapFreeBytes st0 = some 4096 ∧
    heapFreeBytes rt2 = some 9104 ∧ ¬ (9104 = 4096) :=
  ⟨st0_reach, by decide, rt1_run.1, by decide, rt2_run.1, shape_free_bytes st0_run.2,
    shape_free_bytes rt2_run.2, by decide⟩

/-- C10 (amended): in every reachable state, for every `n` with `0 < n ≤ 2^32 - 16` for
which `mm_malloc(n)` returns a non-null pointer `p`, the call `mm_free(p)` made
immediately afterwards returns and leaves the total number of free bytes equal to what
it was before the `mm_malloc` call plus the number of bytes by which that call extended
the heap (none when the request was served from an existing free block). -/
theorem C10_round_trip_free_bytes (s : Heap) (live : List Nat) (h : Reachable s live)
    (n : Nat) (hn0 : 0 < n) (hn : n ≤ 4294967280) (p : Nat) (t : Heap)
    (hrun : mm_malloc s n = some (p, t)) (hp0 : p ≠ 0) :
    ∃ u f, mm_free t p = some u ∧ heapFreeBytes s = some f ∧
      heapFreeBytes u = some (f + (t.mem_brk - s.mem_brk)) ∧
      s.mem_brk ≤ t.mem_brk ∧ u.mem_brk = t.mem_brk ∧
      (first_fit s (malloc_asize n) ≠ some 0 → t.mem_brk = s.mem_brk) := by
  obtain ⟨L, ls, hG⟩ := reach_inv h
  have hI := hG.inv
  rcases malloc_post hG hn0 hn hrun with
    ⟨e, _⟩ | ⟨_, K, ls2, sz, hG1, c3, _, c1, _, _, hiff, _, hfb⟩
  · exact absurd e hp0
  obtain ⟨u, M1, c, M2, ls3, hK, hpe, hfree, hG2, _, d2, _, _, hfb2⟩ :=
    free_post hG1 (List.mem_cons_self p live)
  have hpK : (p, sz, true) ∈ blocks (t.heap_listp + 344) K := by
    rw [c3]
    exact (hiff _ _).2 (Or.inr ⟨rfl, rfl⟩)
  have hco : sz = c := by
    have hpK2 := hpK
    rw [hK, hpe] at hpK2
    rw [hK] at hG1
    exact (blocks_mid_unique hG1.inv.chain hpK2).1
  subst hco
  refine ⟨u, freeBytes L, hfree, heap_free_bytes hI, ?_, c1, d2, ?_⟩
  · rw [heap_free_bytes hG2.inv, hfb2, hfb]
  · intro hff
    rcases firstFit_cases (malloc_asize n) L with hno | ⟨L1, c2, L2, e, hac, hno⟩
    · exfalso
      apply hff
      have := first_fit_spec hI (malloc_asize n)
      rw [firstFit_none _ _ _ hno] at this
      exact this
    · subst e
      obtain ⟨_, t2, hrun2, hb⟩ := mm_malloc_fit_all hI hn0 hac hno
      rw [hrun2] at hrun
      simp only [Option.some.injEq, Prod.mk.injEq] at hrun
      rw [← hrun.2]
      exact hb

theorem C10_round_trip_free_bytes_witness :
    Reachable st0 [] ∧ 0 < 5000 ∧ 5000 ≤ 4294967280 ∧
    mm_malloc st0 5000 = some (65888, rt1) ∧ 65888 ≠ 0 ∧
    ∃ u f, mm_free rt1 65888 = some u ∧ heapFreeBytes st0 = some f ∧
      heapFreeBytes u = some (f + (rt1.mem_brk - st0.mem_brk)) ∧
      st0.mem_brk ≤ rt1.mem_brk ∧ u.mem_brk = rt1.mem_brk ∧
      (first_fit st0 (malloc_asize 5000) ≠ some 0 → rt1.mem_brk = st0.mem_brk) :=
  ⟨st0_reach, by decide, by decide, rt1_run.1, by decide,
    C10_round_trip_free_bytes st0 [] st0_reach 5000 (by decide) (by decide) 65888 rt1
      rt1_run.1 (by decide)⟩

/-- C17: postcondition of `place`.  In a well-formed state, for every block `bp` of the
chain that is free with size `c` (so it is in the free-list index) and every adjusted
size `a`, a multiple of 8 with `16 ≤ a ≤ c`, the call `place(bp, a)` returns a
well-formed state in which `bp` is allocated and in no list of the index.  If
`c - a ≥ 16` the block at `bp` has size `a` and is followed by a free block of size
`c - a` that is in the list of its bucket; if `c - a < 16` the block at `bp` has size
`c`.  No block of the resulting heap is smaller than 16 bytes. -/
theorem C17_place_postcondition (s : Heap) (L : List (Nat × Bool)) (ls : Nat → List Nat)
    (bp c a : Nat) (h : Inv s L ls)
    (hbp : (bp, c, false) ∈ blocks (s.heap_listp + 344) L)
    (ha8 : a % 8 = 0) (ha16 : 16 ≤ a) (hac : a ≤ c) :
    ∃ t K ls2 bt, place s bp a = some t ∧ Inv t K ls2 ∧ IndexLists t ls2 ∧
      heapBlocks t = some bt ∧
      bp ∈ bt ∧ GET_ALLOC t.mem (HDRP bp) = 1 ∧ (∀ j, j < 84 → bp ∉ ls2 j) ∧
      (16 ≤ c - a → GET_SIZE t.mem (HDRP bp) = a ∧ bp + a ∈ bt ∧ IsFree t.mem (bp + a) ∧
        GET_SIZE t.mem (HDRP (bp + a)) = c - a ∧
        (ls2 (min ((c - a) / 50) 83)).count (bp + a) = 1) ∧
      (c - a < 16 → GET_SIZE t.mem (HDRP bp) = c) ∧
      (∀ x, x ∈ bt → 16 ≤ GET_SIZE t.mem (HDRP x)) := by
  obtain ⟨L1, L2, e, hpe⟩ := blocks_split hbp
  subst e
  obtain ⟨t, ls2, hrun, hinv, _, _, b3, _⟩ := place_spec h ha8 ha16 hac
  rw [← hpe] at hrun
  have hfl : FLInv t.mem t.heap_listp ls2
      (freeSet (t.heap_listp + 344) (placeL L1 a c L2)) := hinv.fl
  have hb1 : (bp, (if 16 ≤ c - a then a else c), true) ∈
      blocks (t.heap_listp + 344) (placeL L1 a c L2) := by
    rw [hpe, b3]
    exact (blocks_placeL_alloc _ L1 a c L2 hac _ _).2 (Or.inr ⟨rfl, rfl⟩)
  obtain ⟨q1, q2, _⟩ := block_read hinv hb1
  refine ⟨t, _, ls2, _, hrun, hinv, hfl.lists, heapBlocks_spec hinv, block_in_walk hb1,
    by rw [q2]; rfl, alloc_not_in_index hinv hb1, ?_, ?_, ?_⟩
  · intro hsp
    have hb2 : (bp + a, c - a, false) ∈ blocks (t.heap_listp + 344) (placeL L1 a c L2) := by
      unfold placeL
      rw [if_pos hsp, hpe, b3, blocks_append]
      simp [blocks]
    obtain ⟨r1, r2, _⟩ := block_read hinv hb2
    rw [if_pos hsp] at q1
    exact ⟨q1, block_in_walk hb2, by unfold IsFree; rw [r2]; rfl, r1,
      (free_in_index hinv hb2).1⟩
  · intro hsp
    rw [if_neg (by omega)] at q1
    exact q1
  · intro x hx
    exact (tags_agree hinv x hx).2.2.2

theorem C17_place_postcondition_witness :
    ∃ ls, Inv st0 [(4096, false)] ls ∧
      (65888, 4096, false) ∈ blocks (st0.heap_listp + 344) [(4096, false)] ∧
      112 % 8 = 0 ∧ 16 ≤ 112 ∧ 112 ≤ 4096 ∧
      ∃ t K ls2 bt, place st0 65888 112 = some t ∧ Inv t K ls2 ∧ IndexLists t ls2 ∧
        heapBlocks t = some bt ∧
        65888 ∈ bt ∧ GET_ALLOC t.mem (HDRP 65888) = 1 ∧ (∀ j, j < 84 → 65888 ∉ ls2 j) ∧
        (16 ≤ 4096 - 112 → GET_SIZE t.mem (HDRP 65888) = 112 ∧ 65888 + 112 ∈ bt ∧
          IsFree t.mem (65888 + 112) ∧ GET_SIZE t.mem (HDRP (65888 + 112)) = 4096 - 112 ∧
          (ls2 (min ((4096 - 112) / 50) 83)).count (65888 + 112) = 1) ∧
        (4096 - 112 < 16 → GET_SIZE t.mem (HDRP 65888) = 4096) ∧
        (∀ x, x ∈ bt → 16 ≤ GET_SIZE t.mem (HDRP x)) :=
  have hb : (65888, 4096, false) ∈ blocks (st0.heap_listp + 344) [(4096, false)] := by
    rw [st0_run.2.1]
    decide
  st0_run.2.2.2.2.elim fun ls hinv =>
    ⟨ls, hinv, hb, by decide, by decide, by decide,
      C17_place_postcondition st0 [(4096, false)] ls 65888 4096 112 hinv hb (by decide)
        (by decide) (by decide)⟩

/-- C18: postcondition of `coalesce`.  In a state that is well formed except that the
block `bp`, marked free in header and footer, is not in the free-list index (which holds
the other free blocks), the call `coalesce(bp)` returns a well-formed state and the
address of the predecessor block if the predecessor is free and `bp` otherwise.  The
block at the returned address is marked free in header and footer with size
`size(bp)` plus the sizes of those of the two physical neighbours of `bp` that were free;
it is in the list of its bucket exactly once and in no other list; and a free successor,
and `bp` itself when it was absorbed by its predecessor, are in no list of the index. -/
theorem C18_coalesce_postcondition (s : Heap) (L : List (Nat × Bool)) (ls : Nat → List Nat)
    (bp sz : Nat) (h : InvExcept s L ls bp)
    (hbp : (bp, sz, false) ∈ blocks (s.heap_listp + 344) L) :
    ∃ r t K ls2 bt, coalesce s bp = some (r, t) ∧ Inv t K ls2 ∧ IndexLists t ls2 ∧
      heapBlocks t = some bt ∧
      r = (if prev_alloc s.mem bp = 0 then PREV_BLKP s.mem bp else bp) ∧
      r ∈ bt ∧ GET_ALLOC t.mem (HDRP r) = 0 ∧ GET_ALLOC t.mem (FTRP t.mem r) = 0 ∧
      GET_SIZE t.mem (HDRP r) = mergedSize s.mem bp ∧
      GET_SIZE t.mem (FTRP t.mem r) = mergedSize s.mem bp ∧
      (ls2 (min (mergedSize s.mem bp / 50) 83)).count r = 1 ∧
      (∀ j, j < 84 → j ≠ min (mergedSize s.mem bp / 50) 83 → r ∉ ls2 j) ∧
      (next_alloc s.mem bp = 0 → ∀ j, j < 84 → NEXT_BLKP s.mem bp ∉ ls2 j) ∧
      (prev_alloc s.mem bp = 0 → ∀ j, j < 84 → bp ∉ ls2 j) := by
  obtain ⟨L1, L2, e, hpe, hX⟩ := InvExcept_mid h hbp
  subst e
  obtain ⟨t, ls2, hrun, hinv, _, _, c3, _⟩ := coalesce_spec hX
  obtain ⟨p1, p2, p3⟩ := prev_block_read hX
  obtain ⟨n1, n2, n3, n4⟩ := next_block_read2 hX
  have hsize := (block_tags hX).1
  rw [← hpe] at hrun p1 p2 p3 n1 n2 n3 n4 hsize
  have hfl : FLInv t.mem t.heap_listp ls2
      (freeSet (t.heap_listp + 344) (coalesceL L1 sz L2)) := hinv.fl
  obtain ⟨hb1, hb2⟩ := coalesceL_block (t.heap_listp + 344) L1 sz L2
  rw [c3] at hb1
  have hms : mergedSize s.mem bp = (prevFree L1).getD 0 + sz + (nextFree L2).getD 0 := by
    unfold mergedSize
    rw [hsize, ← p2, ← n3]
    omega
  rw [← hms] at hb1
  have hb1t : (s.heap_listp + 344 + total (coalesceFront L1), mergedSize s.mem bp, false) ∈
      blocks (t.heap_listp + 344) (coalesceL L1 sz L2) := by
    rw [c3]
    exact hb1
  obtain ⟨q1, q2, q3, q4, _⟩ := block_read hinv hb1t
  obtain ⟨i1, i2⟩ := free_in_index hinv hb1t
  have hin : ∀ x, s.heap_listp + 344 + total (coalesceFront L1) < x →
      x < s.heap_listp + 344 + total (coalesceFront L1) + mergedSize s.mem bp →
      ∀ j, j < 84 → x ∉ ls2 j := by
    intro x hx1 hx2 j hj hmem
    obtain ⟨z, hz, _⟩ := hfl.mem_F j hj x hmem
    have hz2 : (x, z, false) ∈ blocks (t.heap_listp + 344) (coalesceL L1 sz L2) := hz
    have hz16 := (Chain_size hinv.chain hz2).2
    simp only at hz16
    rcases blocks_disjoint hinv.chain hz2 hb1t with e | hd | hd
    · simp only [Prod.mk.injEq] at e
      omega
    · simp only at hd
      omega
    · simp only at hd
      omega
  have hsz16 := (block_tags hX).2.2.2.2.2.1
  refine ⟨_, t, _, ls2, _, hrun, hinv, hfl.lists, heapBlocks_spec hinv, ?_,
    block_in_walk hb1t, by rw [q2]; rfl, by rw [q4]; rfl, q1, q3, i1, i2, ?_, ?_⟩
  · by_cases hpa : prev_alloc s.mem bp = 0
    · rw [if_pos hpa, (p3 hpa).1]
    · rw [if_neg hpa]
      have hnone : prevFree L1 = none := by
        rcases hpf : prevFree L1 with _ | s1
        · rfl
        · exfalso
          apply hpa
          rw [p1, hpf]
          rfl
      simp only [coalesceFront, hnone, Option.isSome_none, Bool.false_eq_true, if_false]
      exact hpe.symm
  · intro hna j hj
    rw [n1]
    have := n4 hna
    apply hin _ _ _ j hj
    · omega
    · rw [hms]
      omega
  · intro hpa j hj
    have := (p3 hpa).2
    apply hin _ _ _ j hj
    · omega
    · rw [hms]
      omega

theorem C18_coalesce_postcondition_witness :
    ∃ ls, InvExcept fr2 [(112, false), (208, true), (3776, false)] ls 65888 ∧
      (65888, 112, false) ∈
        blocks (fr2.heap_listp + 344) [(112, false), (208, true), (3776, false)] ∧
      ∃ r t K ls2 bt, coalesce fr2 65888 = some (r, t) ∧ Inv t K ls2 ∧ IndexLists t ls2 ∧
        heapBlocks t = some bt ∧
        r = (if prev_alloc fr2.mem 65888 = 0 then PREV_BLKP fr2.mem 65888 else 65888) ∧
        r ∈ bt ∧ GET_ALLOC t.mem (HDRP r) = 0 ∧ GET_ALLOC t.mem (FTRP t.mem r) = 0 ∧
        GET_SIZE t.mem (HDRP r) = mergedSize fr2.mem 65888 ∧
        GET_SIZE t.mem (FTRP t.mem r) = mergedSize fr2.mem 65888 ∧
        (ls2 (min (mergedSize fr2.mem 65888 / 50) 83)).count r = 1 ∧
        (∀ j, j < 84 → j ≠ min (mergedSize fr2.mem 65888 / 50) 83 → r ∉ ls2 j) ∧
        (next_alloc fr2.mem 65888 = 0 → ∀ j, j < 84 → NEXT_BLKP fr2.mem 65888 ∉ ls2 j) ∧
        (prev_alloc fr2.mem 65888 = 0 → ∀ j, j < 84 → 65888 ∉ ls2 j) :=
  have hb : (65888, 112, false) ∈
      blocks (fr2.heap_listp + 344) [(112, false), (208, true), (3776, false)] := by
    rw [fr2_hl]
    decide
  fr2_inv.elim fun ls hinv =>
    ⟨ls, hinv, hb,
      C18_coalesce_postcondition fr2 [(112, false), (208, true), (3776, false)] ls 65888 112
        hinv hb⟩

/-- C15 (code evaluated at the failing input): after `mm_init()`, `a = mm_malloc(100)`,
`b = mm_malloc(8)`, `c = mm_malloc(96)`, `d = mm_malloc(8)`, `mm_free(a)` the list of
bucket 2 is the block `a = 65888` of 112 bytes alone, a well-formed list in ascending
order.  The call `mm_free(c)` then has `add_free_list` enter the block `c = 66016` of 104
bytes, which belongs to bucket 2 as well.  Afterwards the head of bucket 2 is still `a`
and `c` is its successor and the last node: the list holds the sizes 112, 104 in this
order, so it is not ascending, and `c` has not become the head although the old head is
larger. -/
theorem C15_bucket_list_not_ascending :
    Reachable so5 [66120, 66000] ∧ mm_free so4 66016 = some so5 ∧
    so4.heap_listp = 65544 ∧ so5.heap_listp = 65544 ∧
    min (112 / 50) 83 = 2 ∧ min (104 / 50) 83 = 2 ∧
    (GET so4.mem (65544 + 4 * 2) = 65888 ∧ GET so4.mem (65888 + 4) = 0) ∧
    GET so5.mem (65544 + 4 * 2) = 65888 ∧ GET so5.mem (65888 + 4) = 66016 ∧
    GET so5.mem 66016 = 65888 ∧ GET so5.mem (66016 + 4) = 0 ∧
    GET_SIZE so5.mem (HDRP 65888) = 112 ∧ GET_SIZE so5.mem (HDRP 66016) = 104 ∧
    ¬ (112 ≤ 104) := by
  have h1 := (shape_read so5_run.2
    (show (65888, 112, false) ∈ blocks (65544 + 344)
      [(112, false), (16, true), (104, false), (16, true), (3848, false)] by decide)).1
  have h2 := (shape_read so5_run.2
    (show (66016, 104, false) ∈ blocks (65544 + 344)
      [(112, false), (16, true), (104, false), (16, true), (3848, false)] by decide)).1
  obtain ⟨l0, l1, l2, l3, l4⟩ := so5_links
  exact ⟨so5_reach, so5_run.1, so4_run.2.1, so5_run.2.1, by decide, by decide, l0, l1, l2,
    l3, l4, h1, h2, by decide⟩

/-- C11: full coalescing.  For every `K ≥ 1`, starting from a freshly initialised heap
(a successful `mm_init` on a region with an aligned break), `K` successful calls
`mm_malloc(16)` followed by `mm_free` on the `K` returned pointers in reverse order of
allocation all return and end in a state whose heap is the prologue followed by exactly
one block, which is marked free, ends at the epilogue, and has as its size the number of
bytes obtained through `extend_heap`: the 4096 bytes of `mm_init` plus the bytes by which
the calls of `mm_malloc` moved the break; and `gcount = 1`. -/
theorem C11_full_coalescing (s0 s : Heap) (K : Nat) (ps : List Nat) (t : Heap) (hK : 1 ≤ K)
    (h8 : s0.mem_brk % 8 = 0) (hmax : s0.mem_max_addr < 4294967296)
    (hspan : s0.mem_max_addr < s0.mem_brk + 2147483648)
    (hinit : mm_init s0 = some (0, s)) (hrun : mallocN K s = some (ps, t)) :
    ∃ u, freeAll ps t = some u ∧ ps.length = K ∧
      heapBlocks u = some [u.heap_listp, u.heap_listp + 344] ∧
      IsFree u.mem (u.heap_listp + 344) ∧
      GET_SIZE u.mem (HDRP (u.heap_listp + 344)) = 4096 + (t.mem_brk - s.mem_brk) ∧
      u.heap_listp + 344 + (4096 + (t.mem_brk - s.mem_brk)) = u.mem_brk ∧
      s.mem_brk ≤ t.mem_brk ∧ u.mem_brk = t.mem_brk ∧ u.gcount = 1 := by
  obtain ⟨ls, hinv, i1, i2, _⟩ := mm_init_spec s0 s h8 hmax hspan hinit
  obtain ⟨A, F, ls1, hinv1, hA, hF, hps, hhl, hbrk, hlen⟩ :=
    mallocN_shape s ls 4096 hinv K ps t hrun
  obtain ⟨u, ls2, hfree, hinvu, d1, d2⟩ := freeAll_shape A F t ls1 hinv1 hA hF
  rw [hhl, ← hps] at hfree
  have hAne : A ≠ [] := by
    intro e
    subst e
    simp [blocks] at hps
    subst hps
    simp at hlen
    omega
  rw [if_neg hAne] at hinvu
  have hend1 := Chain_end hinv1.chain
  rw [total_append] at hend1
  have hend2 := Chain_end hinvu.chain
  rw [total_cons, total_nil] at hend2
  simp only at hend2
  have hT : total A + total F = 4096 + (t.mem_brk - s.mem_brk) := by
    clear * - hend1 hhl hbrk i1 i2
    omega
  rw [hT] at hinvu hend2
  have hb : (u.heap_listp + 344, 4096 + (t.mem_brk - s.mem_brk), false) ∈
      blocks (u.heap_listp + 344) [(4096 + (t.mem_brk - s.mem_brk), false)] := by
    simp [blocks]
  obtain ⟨r1, r2, _⟩ := block_read hinvu hb
  refine ⟨u, hfree, hlen, ?_, by unfold IsFree; rw [r2]; rfl, r1, by omega, hbrk, d2, ?_⟩
  · rw [heapBlocks_spec hinvu]
    simp [blocks]
  · rw [hinvu.gcount_eq, idxCount_free hinvu]
    rfl

theorem C11_full_coalescing_witness :
    1 ≤ 2 ∧ heap0.mem_brk % 8 = 0 ∧ heap0.mem_max_addr < 4294967296 ∧
    heap0.mem_max_addr < heap0.mem_brk + 2147483648 ∧
    mm_init heap0 = some (0, st0) ∧ mallocN 2 st0 = some ([65912, 65888], ca2) ∧
    ∃ u, freeAll [65912, 65888] ca2 = some u ∧ [65912, 65888].length = 2 ∧
      heapBlocks u = some [u.heap_listp, u.heap_listp + 344] ∧
      IsFree u.mem (u.heap_listp + 344) ∧
      GET_SIZE u.mem (HDRP (u.heap_listp + 344)) = 4096 + (ca2.mem_brk - st0.mem_brk) ∧
      u.heap_listp + 344 + (4096 + (ca2.mem_brk - st0.mem_brk)) = u.mem_brk ∧
      st0.mem_brk ≤ ca2.mem_brk ∧ u.mem_brk = ca2.mem_brk ∧ u.gcount = 1 :=
  ⟨by decide, by decide, by decide, by decide, st0_run.1, ca2_mallocN,
    C11_full_coalescing heap0 st0 2 [65912, 65888] ca2 (by decide) (by decide) (by decide)
      (by decide) st0_run.1 ca2_mallocN⟩

end MM
